import Mathlib

/-!
# Plan node graph of the flux query planner (`plan/types.go`)

Plan nodes are Go pointers to structs that embed `edges`.  The embedding keeps
the pointer graph explicit: a `Node` is an address, the `Heap` maps every
address to the struct stored there, and every operation of `plan/types.go`
is a function from the heap before the call to the heap after it.  A slice is
the list of its elements: every node owns the backing arrays of its two edge
slices (the methods of `edges` never make two nodes share one), so a write
through `n.Successors()[i]` is a write to the successor list stored at `n`.
An index expression out of range is the run-time panic of Go and is kept
visible as `Exec.panic`.

Addresses below `Heap.next` are the allocated nodes, and `new` hands out
`Heap.next`.  Go only ever holds pointers to allocated structs; where a
statement compares the store before and after an allocation, this appears as
the hypotheses that the argument nodes are allocated (`n < h.next`) and that
the store is well formed (`Heap.WellFormed`: the edges of allocated nodes point
to allocated nodes).

The second part embeds the sort-merge join of `stdlib/experimental/join.go`
(namespace `experimental`), over the values, columns and tables of the execution
layer (namespace `execute`).  The `goto` loop of `join` is a pair of recursive
functions with explicit iteration bounds; the mutable builder, the cache and the
transformation are values passed from call to call, and the `Retain` and
`Release` calls on column readers are recorded in the state of the
transformation.

The third part embeds the comparison functions of
`internal/arrowutil/compare.gen.go` (namespace `arrowutil`), the dataset of
`internal/execute/dataset/dataset.go` (namespace `datasetpkg`), the group keys
that `internal/execute/groupkey/groupkey_test.go` tests (namespace `groupkey`),
and the transformations `distinct` and `hourSelection` and the selectors of
`max` of `stdlib/universe` (namespace `universepkg`) and `group` of
`stdlib/experimental`.  A builder handed
out by a builder cache is the value stored in the cache, written back after the
call; the calls a dataset makes on its transformation set are recorded in a
trace.
-/

namespace plan

/-! ## Data model -/

/-- A plan node handle: the address of a node struct (Go pointer identity). -/
abbrev Node := Nat

/-- Identifier of a plan node (`type NodeID string`). -/
abbrev NodeID := String

/-- The kind of a procedure (`type ProcedureKind string`). -/
abbrev ProcedureKind := String

/-- A value of the interface `ProcedureSpec`: its kind, and its parameters, which the plan
graph never inspects. -/
structure ProcedureSpec where
  kind : ProcedureKind
  params : List Nat
deriving DecidableEq, Repr, Inhabited

/-- Modelled from the spec: the interface `PhysicalProcedureSpec` is declared outside the
sources; for the plan graph it is an opaque procedure spec like any other. -/
abbrev PhysicalProcedureSpec := ProcedureSpec

/-- The struct `edges`: the two ordered edge lists of a node. -/
structure edges where
  predecessors : List Node
  successors : List Node
deriving DecidableEq, Repr, Inhabited

/-- Modelled from the spec: the struct `LogicalNode` is declared outside the sources; these are
the fields `types.go` uses: the embedded `edges`, the identifier and the procedure spec. -/
structure LogicalNode where
  edges : edges
  id : NodeID
  Spec : ProcedureSpec
deriving DecidableEq, Repr, Inhabited

/-- Modelled from the spec: the struct `PhysicalPlanNode` is declared outside the sources;
these are the fields `types.go` uses: the embedded `edges`, the identifier and the procedure
spec. -/
structure PhysicalPlanNode where
  edges : edges
  id : NodeID
  Spec : PhysicalProcedureSpec
deriving DecidableEq, Repr, Inhabited

/-- The two implementations of the interface `Node`. -/
inductive NodeObj where
  | logical (n : LogicalNode)
  | physical (n : PhysicalPlanNode)
deriving DecidableEq, Repr, Inhabited

/-- The embedded `edges` of a node struct. -/
def NodeObj.edges : NodeObj → plan.edges
  | .logical n => n.edges
  | .physical n => n.edges

/-- The node struct with its embedded `edges` overwritten. -/
def NodeObj.withEdges : NodeObj → plan.edges → NodeObj
  | .logical n, e => .logical { n with edges := e }
  | .physical n, e => .physical { n with edges := e }

/-- The method `ID()`. -/
def NodeObj.ID : NodeObj → NodeID
  | .logical n => n.id
  | .physical n => n.id

/-- The method `ProcedureSpec()`. -/
def NodeObj.ProcedureSpec : NodeObj → ProcedureSpec
  | .logical n => n.Spec
  | .physical n => n.Spec

/-- The node store: the struct at every address, and the next address `new` hands out. -/
structure Heap where
  nodes : Node → NodeObj
  next : Node

/-- Outcome of a call: it returns normally with a value and the heap it leaves, or it panics. -/
inductive Exec (α : Type) where
  | ret (val : α) (heap : Heap)
  | panic (msg : String)

/-- The value a call returned, if it returned. -/
def Exec.val? {α : Type} : Exec α → Option α
  | .ret v _ => some v
  | .panic _ => none

/-- The heap a call left, if it returned. -/
def Exec.heap? {α : Type} : Exec α → Option Heap
  | .ret _ h => some h
  | .panic _ => none

/-- A Go result pair `(Node, error)`: the error if it is non-nil, else the node. -/
abbrev NodeOrError := Except String Node

/-- Whether the result pair carries a non-nil error. -/
def isError : NodeOrError → Bool
  | .error _ => true
  | .ok _ => false

/-- Whether a call returned normally with a non-nil error. -/
def Exec.failed : Exec NodeOrError → Bool
  | .ret r _ => isError r
  | .panic _ => false

/-- Whether a call returned normally with a nil error. -/
def Exec.succeeded : Exec NodeOrError → Bool
  | .ret r _ => !isError r
  | .panic _ => false

/-- The node a call returned, if it returned with a nil error. -/
def Exec.node? : Exec NodeOrError → Option Node
  | .ret (.ok n) _ => some n
  | .ret (.error _) _ => none
  | .panic _ => none

/-! ## Slices -/

/-- The index expression `s[i]`; `none` is the panic "index out of range". -/
def index (s : List Node) (i : Nat) : Option Node :=
  if h : i < s.length then some (s.get ⟨i, h⟩) else none

/-- The assignment `s[i] = v` into the backing array; `none` is the panic "index out of range". -/
def assign (s : List Node) (i : Nat) (v : Node) : Option (List Node) :=
  if i < s.length then some (s.set i v) else none

/-! ## Methods of `edges`, through the node store -/

/-- The method `Predecessors()`. -/
def Heap.Predecessors (h : Heap) (n : Node) : List Node :=
  (h.nodes n).edges.predecessors

/-- The method `Successors()`. -/
def Heap.Successors (h : Heap) (n : Node) : List Node :=
  (h.nodes n).edges.successors

/-- The method `ID()`. -/
def Heap.ID (h : Heap) (n : Node) : NodeID :=
  (h.nodes n).ID

/-- The method `ProcedureSpec()`. -/
def Heap.ProcedureSpec (h : Heap) (n : Node) : ProcedureSpec :=
  (h.nodes n).ProcedureSpec

/-- Overwrite the embedded `edges` of the struct at `n`. -/
def Heap.setEdges (h : Heap) (n : Node) (e : edges) : Heap :=
  { h with nodes := Function.update h.nodes n ((h.nodes n).withEdges e) }

/-- Store a predecessor slice in the struct at `n`. -/
def Heap.setPredecessors (h : Heap) (n : Node) (s : List Node) : Heap :=
  h.setEdges n { (h.nodes n).edges with predecessors := s }

/-- Store a successor slice in the struct at `n`. -/
def Heap.setSuccessors (h : Heap) (n : Node) (s : List Node) : Heap :=
  h.setEdges n { (h.nodes n).edges with successors := s }

/-- The method `AddSuccessors`: `e.successors = append(e.successors, nodes...)`. -/
def Heap.AddSuccessors (h : Heap) (n : Node) (nodes : List Node) : Heap :=
  h.setSuccessors n (h.Successors n ++ nodes)

/-- The method `AddPredecessors`: `e.predecessors = append(e.predecessors, nodes...)`. -/
def Heap.AddPredecessors (h : Heap) (n : Node) (nodes : List Node) : Heap :=
  h.setPredecessors n (h.Predecessors n ++ nodes)

/-- The method `ClearSuccessors`: `e.successors = e.successors[0:0]`. -/
def Heap.ClearSuccessors (h : Heap) (n : Node) : Heap :=
  h.setSuccessors n ((h.Successors n).take 0)

/-- The method `ClearPredecessors`: `e.predecessors = e.predecessors[0:0]`. -/
def Heap.ClearPredecessors (h : Heap) (n : Node) : Heap :=
  h.setPredecessors n ((h.Predecessors n).take 0)

/-- The method `edges.shallowCopy`: `copy` into the nil slices of a new `edges` copies nothing. -/
def edges.shallowCopy (_e : edges) : edges :=
  { predecessors := [], successors := [] }

/-- The allocation `&T{...}`: the struct is stored at a fresh address, which is returned. -/
def Heap.alloc (h : Heap) (o : NodeObj) : Node × Heap :=
  (h.next, { nodes := Function.update h.nodes h.next o, next := h.next + 1 })

/-! ## Merging two nodes -/

/-- The call `strings.HasPrefix(s, p)`. -/
def hasPrefix (s p : String) : Bool :=
  p.data.isPrefixOf s.data

/-- The function `mergeIDs`. -/
def mergeIDs (top bottom : NodeID) : NodeID :=
  let top := if hasPrefix top "merged_" then String.mk (top.data.drop 7) else top
  let bottom := if hasPrefix bottom "merged_" then String.mk (bottom.data.drop 7) else bottom
  "merged_" ++ bottom ++ "_" ++ top

/-- The `strip` of the description of `mergeIDs`, written from its words: one leading
"merged_" is removed when present, and any other identifier is returned as it is. -/
def stripMerged (s : NodeID) : NodeID :=
  match s.data with
  | 'm' :: 'e' :: 'r' :: 'g' :: 'e' :: 'd' :: '_' :: rest => String.mk rest
  | _ => s

/-- The inner loop of `mergePlanNodes` and `ReplaceNode`:
`for i, succ := range pred.Successors() { if succ == old { pred.Successors()[i] = new } }`,
over the indices still to visit; `none` is an index out of range. -/
def rewireSuccessors (pred old new : Node) : List Nat → Heap → Option Heap
  | [], h => some h
  | i :: rest, h =>
    match index (h.Successors pred) i with
    | none => none
    | some succ =>
      if succ = old then
        match assign (h.Successors pred) i new with
        | none => none
        | some s => rewireSuccessors pred old new rest (h.setSuccessors pred s)
      else rewireSuccessors pred old new rest h

/-- The outer loop of `mergePlanNodes` and `ReplaceNode`, over the predecessors still to visit. -/
def rewirePredecessors (old new : Node) : List Node → Heap → Option Heap
  | [], h => some h
  | pred :: rest, h =>
    match rewireSuccessors pred old new (List.range (h.Successors pred).length) h with
    | none => none
    | some h1 => rewirePredecessors old new rest h1

/-- The error of `mergePlanNodes`. -/
def mergeError (h : Heap) (top bottom : Node) : String :=
  "cannot merge " ++ h.ID top ++ " and " ++ h.ID bottom ++ " due to topological issues"

/-- The function `mergePlanNodes`. -/
def mergePlanNodes (h : Heap) (top bottom merged : Node) : Exec NodeOrError :=
  if (h.Predecessors top).length ≠ 1 then .ret (.error (mergeError h top bottom)) h
  else if (h.Successors bottom).length ≠ 1 then .ret (.error (mergeError h top bottom)) h
  else
    match index (h.Predecessors top) 0 with
    | none => .panic "index out of range"
    | some p =>
      if p ≠ bottom then .ret (.error (mergeError h top bottom)) h
      else
        let h1 := h.AddPredecessors merged (h.Predecessors bottom)
        match rewirePredecessors bottom merged (h1.Predecessors merged) h1 with
        | none => .panic "index out of range"
        | some h2 => .ret (.ok merged) h2

/-- The function `MergeToLogicalNode`. -/
def MergeToLogicalNode (h : Heap) (top bottom : Node) (procSpec : ProcedureSpec) :
    Exec NodeOrError :=
  let a := h.alloc (.logical
    { edges := { predecessors := [], successors := [] },
      id := mergeIDs (h.ID top) (h.ID bottom), Spec := procSpec })
  mergePlanNodes a.2 top bottom a.1

/-- The function `MergeToPhysicalNode`. -/
def MergeToPhysicalNode (h : Heap) (top bottom : Node) (procSpec : PhysicalProcedureSpec) :
    Exec NodeOrError :=
  let a := h.alloc (.physical
    { edges := { predecessors := [], successors := [] },
      id := mergeIDs (h.ID top) (h.ID bottom), Spec := procSpec })
  mergePlanNodes a.2 top bottom a.1

/-- The slice with every occurrence of `old` replaced by `new`, position by position. -/
def replaceAll (old new : Node) (s : List Node) : List Node :=
  s.map (fun x => if x = old then new else x)

/-! ## Swapping two nodes -/

/-- Modelled from the spec: the method `ShallowCopy` of the node structs is not among the
sources. The spec says it "returns a new node with the same procedure spec but empty edge
lists"; the edges come from `edges.shallowCopy`, and the planner test names the copy of
`filter2` as `filter2_copy`. -/
def NodeObj.ShallowCopy : NodeObj → NodeObj
  | .logical n => .logical { edges := n.edges.shallowCopy, id := n.id ++ "_copy", Spec := n.Spec }
  | .physical n =>
    .physical { edges := n.edges.shallowCopy, id := n.id ++ "_copy", Spec := n.Spec }

/-- The call `n.ShallowCopy()`: the copy is stored at a fresh address. -/
def Heap.ShallowCopy (h : Heap) (n : Node) : Node × Heap :=
  h.alloc (h.nodes n).ShallowCopy

/-- The loop of `SwapPlanNodes` over the successors of the predecessor `w` of `bottom`, over
the indices still to visit: the first entry equal to `bottom` is overwritten through
`bottom.Predecessors()[0].Successors()[i]`, and the loop breaks. -/
def swapLoop (bottom newBottom w : Node) : List Nat → Heap → Option Heap
  | [], h => some h
  | i :: rest, h =>
    match index (h.Successors w) i with
    | none => none
    | some bottomPredSucc =>
      if bottomPredSucc = bottom then
        match index (h.Predecessors bottom) 0 with
        | none => none
        | some w2 =>
          match assign (h.Successors w2) i newBottom with
          | none => none
          | some s => some (h.setSuccessors w2 s)
      else swapLoop bottom newBottom w rest h

/-- The error of `SwapPlanNodes`. -/
def swapError (h : Heap) (top bottom : Node) : String :=
  "cannot swap nodes " ++ h.ID top ++ " and " ++ h.ID bottom ++ " due to topological issue"

/-- The function `SwapPlanNodes`. -/
def SwapPlanNodes (h : Heap) (top bottom : Node) : Exec NodeOrError :=
  if (h.Predecessors top).length ≠ 1 then .ret (.error (swapError h top bottom)) h
  else if (h.Successors bottom).length ≠ 1 then .ret (.error (swapError h top bottom)) h
  else if (h.Predecessors bottom).length ≠ 1 then .ret (.error (swapError h top bottom)) h
  else
    let a := h.ShallowCopy top
    let newBottom := a.1
    let h1 := a.2.ClearSuccessors newBottom
    let h2 := h1.ClearPredecessors newBottom
    let h3 := h2.AddSuccessors newBottom [bottom]
    match index (h3.Predecessors bottom) 0 with
    | none => .panic "index out of range"
    | some w =>
      let h4 := h3.AddPredecessors newBottom [w]
      match index (h4.Predecessors bottom) 0 with
      | none => .panic "index out of range"
      | some w2 =>
        match swapLoop bottom newBottom w2 (List.range (h4.Successors w2).length) h4 with
        | none => .panic "index out of range"
        | some h5 =>
          let h6 := h5.ClearPredecessors bottom
          let h7 := h6.AddPredecessors bottom [newBottom]
          let h8 := h7.ClearSuccessors bottom
          .ret (.ok bottom) h8

/-- The slice with the first occurrence of `old`, if there is one, replaced by `new`. -/
def replaceFirst (old new : Node) : List Node → List Node
  | [] => []
  | x :: xs => if x = old then new :: xs else x :: replaceFirst old new xs

/-! ## Replacing a node -/

/-- The function `ReplaceNode`. -/
def ReplaceNode (h : Heap) (oldNode newNode : Node) : Exec Unit :=
  let h1 := h.ClearPredecessors newNode
  let h2 := h1.ClearSuccessors newNode
  let h3 := h2.AddPredecessors newNode (h2.Predecessors oldNode)
  match rewirePredecessors oldNode newNode (h3.Predecessors newNode) h3 with
  | none => .panic "index out of range"
  | some h4 => .ret () (h4.ClearPredecessors oldNode)

/-- The predecessor list a call left at node `n`, if the call returned. -/
def Exec.Predecessors {α : Type} (e : Exec α) (n : Node) : Option (List Node) :=
  match e with
  | .ret _ h => some (h.Predecessors n)
  | .panic _ => none

/-- The successor list a call left at node `n`, if the call returned. -/
def Exec.Successors {α : Type} (e : Exec α) (n : Node) : Option (List Node) :=
  match e with
  | .ret _ h => some (h.Successors n)
  | .panic _ => none

/-! ## Integrity check -/

/-- A Go `error` value: `none` is nil. -/
abbrev Error := Option String

/-- The loop of `IndexOfNode`, at offset `i` of the slice. -/
def IndexOfNode.loop (node : Node) : List Node → Nat → Int
  | [], _ => -1
  | n :: rest, i => if n = node then (i : Int) else IndexOfNode.loop node rest (i + 1)

/-- The function `IndexOfNode`. -/
def IndexOfNode (node : Node) (nodes : List Node) : Int :=
  IndexOfNode.loop node nodes 0

/-- The first loop of `symmetryCheck`, over the predecessors still to check. -/
def symmetryCheck.predecessors (h : Heap) (node : Node) : List Node → Error
  | [] => none
  | pred :: rest =>
    if IndexOfNode node (h.Successors pred) = -1 then
      some ("integrity violated: " ++ h.ID pred ++ " is predecessor of " ++ h.ID node ++
        ", but " ++ h.ID node ++ " is not successor of " ++ h.ID pred)
    else symmetryCheck.predecessors h node rest

/-- The second loop of `symmetryCheck`, over the successors still to check. -/
def symmetryCheck.successors (h : Heap) (node : Node) : List Node → Error
  | [] => none
  | succ :: rest =>
    if IndexOfNode node (h.Predecessors succ) = -1 then
      some ("integrity violated: " ++ h.ID succ ++ " is successor of " ++ h.ID node ++
        ", but " ++ h.ID node ++ " is not predecessor of " ++ h.ID succ)
    else symmetryCheck.successors h node rest

/-- The function `symmetryCheck`. -/
def symmetryCheck (h : Heap) (node : Node) : Error :=
  match symmetryCheck.predecessors h node (h.Predecessors node) with
  | some err => some err
  | none => symmetryCheck.successors h node (h.Successors node)

/-- Outcome of a traversal run with a bound on its recursion depth: it returns a value with a
nil error, it returns an error, or the bound was too small for the recursion to finish. -/
inductive Walked (α : Type) where
  | ok (val : α)
  | error (msg : String)
  | outOfFuel
deriving DecidableEq, Repr

/-- Whether the traversal returned a nil error. -/
def Walked.isOk {α : Type} : Walked α → Bool
  | .ok _ => true
  | .error _ => false
  | .outOfFuel => false

/-- Whether the traversal returned a non-nil error. -/
def Walked.isError {α : Type} : Walked α → Bool
  | .ok _ => false
  | .error _ => true
  | .outOfFuel => false

/-- Modelled from the spec: the traversal state behind `WalkPredecessors` and `WalkSuccessors`,
which are not among the sources. The spec describes "full graph traversals" in which every
node "is reachable exactly once per traversal (no cycle)": the state is the set of nodes whose
visit has started, the set of nodes whose visit is complete, and the visiting order. -/
structure topologicalWalk where
  temporaryMarks : List Node
  permanentMarks : List Node
  nodes : List Node
deriving DecidableEq, Repr

/-- Modelled from the spec: the empty traversal state. -/
def newTopologicalWalk : topologicalWalk :=
  { temporaryMarks := [], permanentMarks := [], nodes := [] }

/-- Modelled from the spec: a traversal step over a list of nodes, stopping at the first
error. -/
def walkAll (walkOne : Node → topologicalWalk → Walked topologicalWalk) :
    List Node → topologicalWalk → Walked topologicalWalk
  | [], tw => .ok tw
  | n :: rest, tw =>
    match walkOne n tw with
    | .ok tw1 => walkAll walkOne rest tw1
    | .error e => .error e
    | .outOfFuel => .outOfFuel

/-- Modelled from the spec: the depth-first traversal behind `WalkPredecessors` and
`WalkSuccessors`, which are not among the sources. A node whose visit is complete is skipped;
a node whose visit has started and is not complete closes a cycle, which is an error; any
other node is marked, its neighbours in the walking direction `ordering` are traversed, and
then it is appended to the visiting order. `fuel` bounds the recursion depth. -/
def walk (ordering : Node → List Node) : Nat → Node → topologicalWalk → Walked topologicalWalk
  | 0, _, _ => .outOfFuel
  | fuel + 1, node, tw =>
    if node ∈ tw.permanentMarks then .ok tw
    else if node ∈ tw.temporaryMarks then .error "cycle detected"
    else
      match walkAll (walk ordering fuel) (ordering node)
          { tw with temporaryMarks := node :: tw.temporaryMarks } with
      | .ok tw1 =>
        .ok { tw1 with permanentMarks := node :: tw1.permanentMarks, nodes := tw1.nodes ++ [node] }
      | .error e => .error e
      | .outOfFuel => .outOfFuel

/-- Modelled from the spec: the visiting phase of a traversal: `visitFn` is called on every
node of the visiting order, threading the state it captures, until it returns an error. -/
def visit {σ : Type} (visitFn : σ → Node → σ × Error) : List Node → σ → σ × Error
  | [], s => (s, none)
  | n :: rest, s =>
    match visitFn s n with
    | (s1, some err) => (s1, some err)
    | (s1, none) => visit visitFn rest s1

/-- Modelled from the spec: a traversal from `roots` in the direction `ordering`: every node
reachable from the roots is visited exactly once, and a cycle is an error. With a nil error
the value is the state `visitFn` captured. -/
def topologicalWalkFrom {σ : Type} (ordering : Node → List Node) (fuel : Nat)
    (roots : List Node) (visitFn : σ → Node → σ × Error) (s : σ) : Walked σ :=
  match walkAll (walk ordering fuel) roots newTopologicalWalk with
  | .ok tw =>
    match visit visitFn tw.nodes s with
    | (s1, none) => .ok s1
    | (_, some err) => .error err
  | .error e => .error e
  | .outOfFuel => .outOfFuel

/-- Modelled from the spec: `WalkPredecessors`, the traversal following predecessor links. -/
def WalkPredecessors {σ : Type} (h : Heap) (fuel : Nat) (roots : List Node)
    (visitFn : σ → Node → σ × Error) (s : σ) : Walked σ :=
  topologicalWalkFrom h.Predecessors fuel roots visitFn s

/-- Modelled from the spec: `WalkSuccessors`, the traversal following successor links. -/
def WalkSuccessors {σ : Type} (h : Heap) (fuel : Nat) (roots : List Node)
    (visitFn : σ → Node → σ × Error) (s : σ) : Walked σ :=
  topologicalWalkFrom h.Successors fuel roots visitFn s

/-- The struct `Spec`, with the field the integrity check reads: the root set, as the list
of its elements in the order `range plan.Roots` yields them. -/
structure Spec where
  Roots : List Node
deriving DecidableEq, Repr

/-- The closure `fn` of `CheckIntegrity`, with the captured slice `sources` as its state. -/
def CheckIntegrity.fn (h : Heap) (sources : List Node) (node : Node) : List Node × Error :=
  (if (h.Predecessors node).length = 0 then sources ++ [node] else sources,
   symmetryCheck h node)

/-- The method `CheckIntegrity`; `fuel` bounds the recursion depth of the two traversals. -/
def Spec.CheckIntegrity (plan : Spec) (h : Heap) (fuel : Nat) : Walked Unit :=
  let sinks := plan.Roots
  match WalkPredecessors h fuel sinks (CheckIntegrity.fn h) [] with
  | .outOfFuel => .outOfFuel
  | .error err => .error err
  | .ok sources =>
    WalkSuccessors h fuel sources (fun (_ : Unit) node => ((), symmetryCheck h node)) ()

/-- Invariant of a traversal inside the node set `S`, with `stk` the nodes whose visit has
started and is not complete: the stack has no repetition, lies in `S` and is marked; a marked
node is complete or on the stack; the complete nodes are closed under `ordering`, are exactly
the visiting order, and lie in `S`. -/
def WalkInv (ordering : Node → List Node) (S stk : List Node) (tw : topologicalWalk) : Prop :=
  stk.Nodup ∧ (∀ x ∈ stk, x ∈ S) ∧ (∀ x ∈ stk, x ∈ tw.temporaryMarks) ∧
  (∀ x ∈ tw.temporaryMarks, x ∈ tw.permanentMarks ∨ x ∈ stk) ∧
  (∀ x ∈ tw.permanentMarks, ∀ y ∈ ordering x, y ∈ tw.permanentMarks) ∧
  (∀ x, x ∈ tw.permanentMarks ↔ x ∈ tw.nodes) ∧
  (∀ x ∈ tw.nodes, x ∈ S)

/-- The edge relation of a walking direction: `b` is a neighbour of `a`. -/
def Edge (ordering : Node → List Node) (a b : Node) : Prop :=
  b ∈ ordering a

/-- The three outcomes of a traversal step from `node`, inside `S` with stack `stk`: it does
not run out of fuel, an error exhibits a cycle, and a nil error keeps the invariant with
`node` complete. -/
def StepOk (ordering : Node → List Node) (S stk : List Node) (tw : topologicalWalk)
    (node : Node) (r : Walked topologicalWalk) : Prop :=
  r ≠ .outOfFuel ∧
  (∀ e, r = .error e → ∃ x ∈ S, Relation.TransGen (Edge ordering) x x) ∧
  (∀ tw1, r = .ok tw1 → WalkInv ordering S stk tw1 ∧
    (∀ x ∈ tw.permanentMarks, x ∈ tw1.permanentMarks) ∧ node ∈ tw1.permanentMarks)

/-- Every edge stored in an allocated node points to an allocated node (memory safety of Go). -/
def Heap.WellFormed (h : Heap) : Prop :=
  ∀ n, n < h.next →
    (∀ p ∈ h.Predecessors n, p < h.next) ∧ (∀ s ∈ h.Successors n, s < h.next)

/-- A logical node struct with the given identifier and edge lists. -/
def mkNode (id : NodeID) (preds succs : List Node) : NodeObj :=
  .logical { edges := { predecessors := preds, successors := succs }, id := id,
             Spec := { kind := id, params := [] } }

/-- The plan `from0 -> filter1 -> filter2 -> yield3` at the addresses 0, 1, 2, 3. -/
def chainHeap : Heap :=
  { nodes := fun n =>
      match n with
      | 0 => mkNode "from0" [] [1]
      | 1 => mkNode "filter1" [0] [2]
      | 2 => mkNode "filter2" [1] [3]
      | 3 => mkNode "yield3" [2] []
      | _ => default,
    next := 4 }

/-- A plan in which `loop1` is its own predecessor and successor: `top0` at 0, `loop1` at 1. -/
def selfLoopHeap : Heap :=
  { nodes := fun n =>
      match n with
      | 0 => mkNode "top0" [1] []
      | 1 => mkNode "loop1" [1] [1]
      | _ => default,
    next := 2 }

/-- A plan with the cycle `a0 -> b1 -> a0`: `a0` at 0, `b1` at 1. -/
def cycleHeap : Heap :=
  { nodes := fun n =>
      match n with
      | 0 => mkNode "a0" [1] [1]
      | 1 => mkNode "b1" [0] [0]
      | _ => default,
    next := 2 }

/-- The chain `from0 -> filter1 -> filter2 -> yield3` with a detached node `new4` at 4. -/
def detachedHeap : Heap :=
  { nodes := fun n =>
      match n with
      | 0 => mkNode "from0" [] [1]
      | 1 => mkNode "filter1" [0] [2]
      | 2 => mkNode "filter2" [1] [3]
      | 3 => mkNode "yield3" [2] []
      | 4 => mkNode "new4" [] []
      | _ => default,
    next := 5 }

/-- The plan of the doc comment of `CheckIntegrity` that the check accepts: root `R` at 0 with
predecessor `N1` at 1, and `N2` at 2 listing `R` as successor without being listed by `R`. -/
def unreachableHeap : Heap :=
  { nodes := fun n =>
      match n with
      | 0 => mkNode "R" [1] []
      | 1 => mkNode "N1" [] [0]
      | 2 => mkNode "N2" [] [0]
      | _ => default,
    next := 3 }

/-- The plan of the doc comment of `CheckIntegrity` in which `N2` is a predecessor of the
root `R`, but `R` is not a successor of `N2`. -/
def danglingPredHeap : Heap :=
  { nodes := fun n =>
      match n with
      | 0 => mkNode "R" [1, 2] []
      | 1 => mkNode "N1" [] [0]
      | 2 => mkNode "N2" [] []
      | _ => default,
    next := 3 }

/-- The plan of the doc comment of `CheckIntegrity` in which `N2` is reachable from the root
`R` (through `N1`) and lists `R` as successor, but `R` does not list `N2` as predecessor. -/
def danglingSuccHeap : Heap :=
  { nodes := fun n =>
      match n with
      | 0 => mkNode "R" [1] []
      | 1 => mkNode "N1" [2] [0]
      | 2 => mkNode "N2" [] [1, 0]
      | _ => default,
    next := 3 }

/-- A plan with root `R` at 0 and source `N1` at 1, in which `X` at 2 is fed by `N1` only and
lists `Y` at 3 as successor, while `Y` does not list `X` as predecessor. -/
def forwardOnlyHeap : Heap :=
  { nodes := fun n =>
      match n with
      | 0 => mkNode "R" [1] []
      | 1 => mkNode "N1" [] [0, 2]
      | 2 => mkNode "X" [1] [3]
      | 3 => mkNode "Y" [] []
      | _ => default,
    next := 4 }

end plan

/-!
# Execution layer: values, columns and tables

The packages `flux`, `values` and `execute` are outside the sources; `join.go`
uses them through a few types and calls, which are collected here, each
modelled from the spec and from the way `join.go` uses it.
-/

namespace execute

/-- A Go `error` value: `none` is nil. -/
abbrev Error := Option String

/-- Outcome of a call that loops: it returns a value with a nil error, it returns an error, it
panics (an index out of range), or the bound on its iterations was too small to finish. -/
inductive Run (α : Type) where
  | ok (val : α)
  | error (msg : String)
  | panic (msg : String)
  | outOfFuel

/-- Whether the call returned a nil error. -/
def Run.isOk {α : Type} : Run α → Bool
  | .ok _ => true
  | _ => false

/-- The error message, if the call returned an error. -/
def Run.error? {α : Type} : Run α → Option String
  | .error msg => some msg
  | _ => none

/-- The value, if the call returned a nil error. -/
def Run.val? {α : Type} : Run α → Option α
  | .ok v => some v
  | _ => none

/-- Modelled from the spec: the column types of `flux.ColType`. -/
inductive ColType where
  | TInvalid
  | TBool
  | TInt
  | TUInt
  | TFloat
  | TString
  | TTime
deriving DecidableEq, Repr, Inhabited

/-- Modelled from the spec: the struct `flux.ColMeta`, a column label and its type (the Go
field `Type` is written `Typ`). -/
structure ColMeta where
  Label : String
  Typ : ColType
deriving DecidableEq, Repr, Inhabited

/-- Modelled from the spec: a scalar of `values.Value`; float values are left out. -/
inductive Value where
  | null
  | bool (b : Bool)
  | int (v : Int)
  | uint (v : Nat)
  | string (s : String)
  | time (t : Int)
deriving DecidableEq, Repr, Inhabited

/-- Modelled from the spec: `execute.ConvertFromKind(v.Type().Nature())`, the column type of
a value. -/
def Value.colType : Value → ColType
  | .null => .TInvalid
  | .bool _ => .TBool
  | .int _ => .TInt
  | .uint _ => .TUInt
  | .string _ => .TString
  | .time _ => .TTime

/-- Modelled from the spec: `v.Equal(w)`, equality of type and value. -/
def Value.Equal (v w : Value) : Bool :=
  decide (v = w)

/-- Modelled from the spec: a record of `values.Object`, as the list of its properties in
the order `Range` enumerates them. -/
abbrev Object := List (String × Value)

/-- Modelled from the spec: `obj.Get(name)`; `none` is the result `ok == false`. -/
def Object.Get (obj : Object) (name : String) : Option Value :=
  match obj with
  | [] => none
  | p :: rest => if p.1 = name then some p.2 else Object.Get rest name

/-- The loop of `ColIdx`, at offset `i` of the slice. -/
def ColIdx.loop (label : String) : List ColMeta → Nat → Int
  | [], _ => -1
  | c :: rest, i => if c.Label = label then (i : Int) else ColIdx.loop label rest (i + 1)

/-- Modelled from the spec: `execute.ColIdx(label, cols)`, the offset of the first column
with that label, or -1. -/
def ColIdx (label : String) (cols : List ColMeta) : Int :=
  ColIdx.loop label cols 0

/-- Modelled from the spec: a group key of `flux.GroupKey`: column descriptors and the
parallel list of values. -/
structure GroupKey where
  cols : List ColMeta
  values : List Value
deriving DecidableEq, Repr, Inhabited

/-- Modelled from the spec: the method `key.Cols()` of `flux.GroupKey`. -/
def GroupKey.Cols (key : GroupKey) : List ColMeta :=
  key.cols

/-- Modelled from the spec: `key.LabelValue(label)`, the value at the column with that
label. -/
def GroupKey.LabelValue (key : GroupKey) (label : String) : Value :=
  (key.values.get? (ColIdx label key.cols).toNat).getD .null

/-- Modelled from the spec: a column reader of `flux.ColReader`: a chunk of `Len` rows.
`Times j i` is `r.Times(j).Value(i)` and `ValueForRow i j` is `execute.ValueForRow(r, i, j)`;
`id` names the buffer that `Retain` and `Release` count. -/
structure ColReader where
  id : Nat
  Len : Nat
  Cols : List ColMeta
  Times : Nat → Nat → Int
  ValueForRow : Nat → Nat → Value

/-- Modelled from the spec: the table a builder is converted to: key, columns, and the
values of every column in row order. -/
structure ColListTable where
  Key : GroupKey
  Cols : List ColMeta
  data : List (List Value)
deriving DecidableEq, Repr

/-- Follows the spec: the rows of a table: row `r` holds the value of every column at offset
`r`. -/
def ColListTable.rows (t : ColListTable) : List (List Value) :=
  match t.data with
  | [] => []
  | col :: _ => (List.range col.length).map (fun r => t.data.map (fun c => (c.get? r).getD .null))

/-- Modelled from the spec: the table builder `execute.ColListTableBuilder`, "a mutable
accumulator later finalized into an immutable table": column descriptors and the values
appended to every column so far. -/
structure ColListTableBuilder where
  key : GroupKey
  colMeta : List ColMeta
  cols : List (List Value)
deriving DecidableEq, Repr

/-- Modelled from the spec: `execute.NewColListTableBuilder(key, alloc)`, the empty builder. -/
def NewColListTableBuilder (key : GroupKey) : ColListTableBuilder :=
  { key := key, colMeta := [], cols := [] }

/-- Modelled from the spec: the method `builder.Cols()` of the table builder. -/
def ColListTableBuilder.Cols (b : ColListTableBuilder) : List ColMeta :=
  b.colMeta

/-- Modelled from the spec: `builder.AddCol(c)`: a new empty column is added at the end; a
label the builder already has is an error. -/
def ColListTableBuilder.AddCol (b : ColListTableBuilder) (c : ColMeta) :
    Except String ColListTableBuilder :=
  if 0 ≤ ColIdx c.Label b.Cols then
    .error ("table builder already has column with label " ++ c.Label)
  else .ok { b with colMeta := b.colMeta ++ [c], cols := b.cols ++ [[]] }

/-- Modelled from the spec: `builder.AppendValue(j, v)`: the value is appended to column `j`;
a value of another type than the column is an error ("rows must conform to that schema"),
and a null is appended to a column of any type. -/
def ColListTableBuilder.AppendValue (b : ColListTableBuilder) (j : Nat) (v : Value) :
    Except String ColListTableBuilder :=
  match b.colMeta.get? j, b.cols.get? j with
  | some c, some col =>
    if v = .null ∨ c.Typ = v.colType then .ok { b with cols := b.cols.set j (col ++ [v]) }
    else .error ("column " ++ c.Label ++ " is not of the type of the value")
  | _, _ => .error "column index out of bounds"

/-- Modelled from the spec: `builder.Table()`, the builder "converted to an immutable
table". -/
def ColListTableBuilder.Table (b : ColListTableBuilder) : Except String ColListTable :=
  .ok { Key := b.key, Cols := b.colMeta, data := b.cols }

/-- Modelled from the spec: the identifier `execute.DatasetID` of a dataset. -/
abbrev DatasetID := Nat

/-- Modelled from the spec: the constant `execute.DefaultTimeColLabel`. -/
def DefaultTimeColLabel : String := "_time"

/-- Modelled from the spec: a table handed to `Process`, of `flux.Table`: its group key, its
columns, the column readers `tbl.Do` passes to its callback, in order, and the error `tbl.Do`
returns after them (the callback of `Process` itself never fails). -/
structure Table where
  Key : GroupKey
  Cols : List ColMeta
  readers : List ColReader
  doErr : Error

/-- Modelled from the spec: the map `execute.GroupLookup` from group keys to values, as the
list of its entries in the order `Range` enumerates them (the order is not part of the
spec; the model keeps the keys in the order in which they were first set). -/
abbrev GroupLookup (α : Type) := List (GroupKey × α)

/-- Modelled from the spec: `l.Lookup(key)`; `none` is the result `ok == false`. -/
def GroupLookup.Lookup {α : Type} (l : GroupLookup α) (key : GroupKey) : Option α :=
  match l with
  | [] => none
  | (k, v) :: rest => if k = key then some v else GroupLookup.Lookup rest key

/-- Modelled from the spec: `l.Set(key, value)`: the value of the key is replaced, or the
key is added. -/
def GroupLookup.Set {α : Type} (l : GroupLookup α) (key : GroupKey) (value : α) :
    GroupLookup α :=
  match l with
  | [] => [(key, value)]
  | (k, v) :: rest =>
    if k = key then (k, value) :: rest else (k, v) :: GroupLookup.Set rest key value

/-- Modelled from the spec: `l.Delete(key)`: the value of the key, if it has one, and the
map without the key. -/
def GroupLookup.Delete {α : Type} (l : GroupLookup α) (key : GroupKey) :
    Option α × GroupLookup α :=
  match l with
  | [] => (none, [])
  | (k, v) :: rest =>
    if k = key then (some v, rest)
    else ((GroupLookup.Delete rest key).1, (k, v) :: (GroupLookup.Delete rest key).2)

/-- Modelled from the spec: `l.Range(f)`: the callback is called on every entry in order, up
to the first error, which is returned. The callback acts on a state `σ`. -/
def GroupLookup.Range {α σ : Type} (l : GroupLookup α) (f : GroupKey → α → σ → σ × Error)
    (s : σ) : σ × Error :=
  match l with
  | [] => (s, none)
  | (k, v) :: rest =>
    match f k v s with
    | (s1, some err) => (s1, some err)
    | (s1, none) => GroupLookup.Range rest f s1

/-- Modelled from the spec: the trigger specification `plan.TriggerSpec`, by a number. -/
abbrev TriggerSpec := Nat

/-- Modelled from the spec: the trigger `execute.Trigger` made from a specification. -/
structure Trigger where
  spec : TriggerSpec
deriving DecidableEq, Repr

/-- Modelled from the spec: `execute.NewTriggerFromSpec(spec)`. -/
def NewTriggerFromSpec (spec : TriggerSpec) : Trigger :=
  { spec := spec }

/-- Modelled from the spec: the struct `execute.TableContext`. -/
structure TableContext where
  Key : GroupKey
deriving DecidableEq, Repr

/-- Modelled from the spec: an error made by `errors.New(code, ...)` or `errors.Newf`, by its
code and its message. -/
def newError (code msg : String) : String :=
  code ++ ": " ++ msg

/-- Modelled from the spec: the constant `execute.DefaultValueColLabel`. -/
def DefaultValueColLabel : String := "_value"

/-- The loop of `tbl.Do(f)` over the column readers still to come. -/
def Table.Do.loop {σ : Type} (f : ColReader → σ → σ × Error) (doErr : Error) :
    List ColReader → σ → σ × Error
  | [], s => (s, doErr)
  | cr :: rest, s =>
    match f cr s with
    | (s1, some err) => (s1, some err)
    | (s1, none) => Table.Do.loop f doErr rest s1

/-- Modelled from the spec: `tbl.Do(f)`, for a callback that acts on a state `σ`: the callback
is called on the column readers of the table in order, up to its first error, which is
returned; after the last reader the error of the table itself is returned. -/
def Table.Do {σ : Type} (tbl : Table) (f : ColReader → σ → σ × Error) (s : σ) : σ × Error :=
  Table.Do.loop f tbl.doErr tbl.readers s

/-- Modelled from the spec: `key.HasCol(label)`. -/
def GroupKey.HasCol (key : GroupKey) (label : String) : Bool :=
  decide (0 ≤ ColIdx label key.cols)

/-- Modelled from the spec: `key.Value(j)`, the value of the column at offset `j`. -/
def GroupKey.Value (key : GroupKey) (j : Nat) : Value :=
  (key.values.get? j).getD .null

/-- Modelled from the spec: the cache `execute.TableBuilderCache`, "a per-group-key store of
in-progress output table builders": the builders by group key (keys are looked up as they
were built). A builder handed out by the cache is the one stored in it: what a caller
appends to it is written back with `Set`. -/
abbrev TableBuilderCache := GroupLookup ColListTableBuilder

/-- Modelled from the spec: `cache.TableBuilder(key)`, the "idempotent lookup-or-create keyed
by GroupKey": the builder of the key, whether it was created now, and the cache, which holds
the builder from now on. -/
def TableBuilderCache.TableBuilder (cache : TableBuilderCache) (key : GroupKey) :
    ColListTableBuilder × Bool × TableBuilderCache :=
  match GroupLookup.Lookup cache key with
  | some builder => (builder, false, cache)
  | none => (NewColListTableBuilder key, true,
      GroupLookup.Set cache key (NewColListTableBuilder key))

/-- The loop of `AddTableCols` and of `AddTableKeyCols`: `builder.AddCol` on every column, up
to the first error; the builder keeps the columns added before the error. -/
def addCols (builder : ColListTableBuilder) : List ColMeta → ColListTableBuilder × Error
  | [] => (builder, none)
  | c :: rest =>
    match builder.AddCol c with
    | .error err => (builder, some err)
    | .ok builder1 => addCols builder1 rest

/-- Modelled from the spec: `execute.AddTableCols(tbl, builder)`: every column of the table
is added to the builder. -/
def AddTableCols (tbl : Table) (builder : ColListTableBuilder) : ColListTableBuilder × Error :=
  addCols builder tbl.Cols

/-- Modelled from the spec: `execute.AddTableKeyCols(key, builder)`: every column of the key
is added to the builder. -/
def AddTableKeyCols (key : GroupKey) (builder : ColListTableBuilder) :
    ColListTableBuilder × Error :=
  addCols builder key.Cols

/-- The loop of `AppendKeyValues`, from the key column at offset `j`. -/
def AppendKeyValues.loop (key : GroupKey) :
    List ColMeta → Nat → ColListTableBuilder → ColListTableBuilder × Error
  | [], _, builder => (builder, none)
  | c :: rest, j, builder =>
    let idx := ColIdx c.Label builder.Cols
    if idx < 0 then
      (builder, some (newError "Invalid"
        ("group key column " ++ c.Label ++ " not found in output table")))
    else
      match builder.AppendValue idx.toNat (key.Value j) with
      | .error err => (builder, some err)
      | .ok builder1 => AppendKeyValues.loop key rest (j + 1) builder1

/-- Modelled from the spec: `execute.AppendKeyValues(key, builder)`: the value of every key
column is appended to the column of the builder with its label. -/
def AppendKeyValues (key : GroupKey) (builder : ColListTableBuilder) :
    ColListTableBuilder × Error :=
  AppendKeyValues.loop key key.Cols 0 builder

/-- The loop of `GroupKeyForRowOn` over the columns of the reader, from offset `j`: the
columns whose label is in the map `on`, with the values of row `i`. The map is the list
`onMap` of the labels it holds. -/
def GroupKeyForRowOn.loop (i : Nat) (cr : ColReader) (onMap : List String) :
    List ColMeta → Nat → List (ColMeta × Value)
  | [], _ => []
  | c :: rest, j =>
    if c.Label ∈ onMap then (c, cr.ValueForRow i j) :: GroupKeyForRowOn.loop i cr onMap rest (j + 1)
    else GroupKeyForRowOn.loop i cr onMap rest (j + 1)

/-- Modelled from the spec: `execute.GroupKeyForRowOn(i, cr, on)`: the group key of row `i`
of the reader on the columns whose label is in the map `on`. -/
def GroupKeyForRowOn (i : Nat) (cr : ColReader) (onMap : List String) : GroupKey :=
  { cols := (GroupKeyForRowOn.loop i cr onMap cr.Cols 0).map Prod.fst
    values := (GroupKeyForRowOn.loop i cr onMap cr.Cols 0).map Prod.snd }

/-- Whether the call returned, with a value or with an error: it did not panic, and the bound
on its iterations was not too small. -/
def Run.returned {α : Type} : Run α → Bool
  | .ok _ => true
  | .error _ => true
  | .panic _ => false
  | .outOfFuel => false

end execute

/-!
# The sort-merge join of `stdlib/experimental/join.go`
-/

namespace experimental

open execute

/-- A row handed to the join function: `map[string]values.Value`, as the list of its entries
in column order. -/
abbrev Row := List (String × Value)

/-- The map assignment `row[label] = v`: an entry with that label is overwritten. -/
def Row.set (row : Row) (label : String) (v : Value) : Row :=
  match row with
  | [] => [(label, v)]
  | p :: rest => if p.1 = label then (label, v) :: rest else p :: Row.set rest label v

/-- The struct `RowIterator` (its scratch map `row` is rebuilt by every `record` call and is
not stored). -/
structure RowIterator where
  len : Nat
  timeCol : Nat
  offsets : List Nat
  readers : List ColReader
  columns : List ColMeta

/-- The loop of `NewRowIterator`: the offset of every reader, and the total length. -/
def NewRowIterator.loop : List ColReader → Nat → List Nat × Nat
  | [], l => ([], l)
  | r :: rest, l =>
    let res := NewRowIterator.loop rest (l + r.Len)
    (l :: res.1, res.2)

/-- The function `NewRowIterator`. -/
def NewRowIterator (columns : List ColMeta) (readers : List ColReader) (timeCol : Nat) :
    RowIterator :=
  let res := NewRowIterator.loop readers 0
  { len := res.2, timeCol := timeCol, offsets := res.1, readers := readers, columns := columns }

/-- The loop of `RowIterator.time`, with `n` readers still to look at, from the last one
down; `none` is an index out of range. -/
def RowIterator.time.loop (iter : RowIterator) (idx : Nat) : Nat → Option Int
  | 0 => some (-1)
  | i + 1 =>
    match iter.offsets.get? i, iter.readers.get? i with
    | some o, some r =>
      if idx ≥ o then
        if idx - o ≥ r.Len then some (-1)
        else some (r.Times iter.timeCol (idx - o))
      else RowIterator.time.loop iter idx i
    | _, _ => none

/-- The method `RowIterator.time`: the time at index `idx`, or -1. -/
def RowIterator.time (iter : RowIterator) (idx : Nat) : Option Int :=
  RowIterator.time.loop iter idx iter.readers.length

/-- The inner loop of `RowIterator.record`: the entry of every column of the reader, at row
`i` of the reader; `none` is the panic of `execute.ValueForRow` on a row the reader does not
have. -/
def RowIterator.record.fill (r : ColReader) (i : Nat) : List ColMeta → Nat → Row → Option Row
  | [], _, row => some row
  | col :: rest, j, row =>
    if i < r.Len then
      RowIterator.record.fill r i rest (j + 1) (Row.set row col.Label (r.ValueForRow i j))
    else none

/-- The loop of `RowIterator.record`, with `n` readers still to look at, from the last one
down; `none` is an index out of range, in the slices or in the reader. -/
def RowIterator.record.loop (iter : RowIterator) (idx : Nat) : Nat → Option Row
  | 0 => some []
  | i + 1 =>
    match iter.offsets.get? i, iter.readers.get? i with
    | some o, some r =>
      if idx ≥ o then RowIterator.record.fill r (idx - o) r.Cols 0 []
      else RowIterator.record.loop iter idx i
    | _, _ => none

/-- The method `RowIterator.record`: the row at index `idx`. -/
def RowIterator.record (iter : RowIterator) (idx : Nat) : Option Row :=
  RowIterator.record.loop iter idx iter.readers.length

/-- The struct `rowJoinFn`, through its two methods. `Prepare` type-checks and compiles the
function for the columns of the two sides, and `Eval` runs the compiled function on two rows;
the compiler is outside the sources, so both are parameters. -/
structure rowJoinFn where
  Prepare : List ColMeta → List ColMeta → Error
  Eval : List ColMeta → List ColMeta → Row → Row → Except String Object

/-- The function `objContainsKey`, over the key columns still to check. -/
def objContainsKey.loop (obj : Object) (key : GroupKey) : List ColMeta → Bool
  | [] => true
  | col :: rest =>
    match obj.Get col.Label with
    | none => false
    | some v =>
      if v.Equal (key.LabelValue col.Label) = false then false
      else objContainsKey.loop obj key rest

/-- The function `objContainsKey`. -/
def objContainsKey (obj : Object) (key : GroupKey) : Bool :=
  objContainsKey.loop obj key key.Cols

/-- The Go comparison `s < t` of two strings, on their characters: the order of the bytes of
UTF-8 text is the lexicographic order of the code points. -/
def lexLess : List Char → List Char → Bool
  | [], [] => false
  | [], _ :: _ => true
  | _ :: _, [] => false
  | a :: as, b :: bs =>
    if a.toNat < b.toNat then true
    else if b.toNat < a.toNat then false
    else lexLess as bs

/-- The comparison passed to `sort.Slice`: `schema[i].Label < schema[j].Label`. -/
def labelLess (x y : ColMeta) : Bool :=
  lexLess x.Label.data y.Label.data

/-- The call `sort.Slice(schema, ...)` with the comparison `labelLess`: an element stays
before another one unless the other one is less. The Go sort is not stable; for distinct
labels the result does not depend on that. -/
def sortSchema (schema : List ColMeta) : List ColMeta :=
  schema.insertionSort (fun x y => labelLess y x = false)

/-- The last loop of `buildSchema`: the columns still to add. -/
def buildSchema.addCols (builder : ColListTableBuilder) :
    List ColMeta → Except String ColListTableBuilder
  | [] => .ok builder
  | col :: rest =>
    match builder.AddCol col with
    | .error err => .error err
    | .ok builder1 => buildSchema.addCols builder1 rest

/-- The schema `buildSchema` collects from an object, before sorting. -/
def objectSchema (obj : Object) : List ColMeta :=
  obj.map (fun p => { Label := p.1, Typ := p.2.colType })

/-- The function `buildSchema`. -/
def buildSchema (builder : ColListTableBuilder) (obj : Object) :
    Except String ColListTableBuilder :=
  buildSchema.addCols builder (sortSchema (objectSchema obj))

/-- The function `appendRowToBuilder`, over the properties still to enumerate: the closure
passed to `obj.Range`, with the variable `err` it assigns and the builder it appends to. -/
def appendRowToBuilder.range (builder : ColListTableBuilder) (err : Error) :
    Object → ColListTableBuilder × Error
  | [] => (builder, err)
  | (name, v) :: rest =>
    let idx := ColIdx name builder.Cols
    if idx < 0 then
      appendRowToBuilder.range builder (some ("column " ++ name ++ " not found")) rest
    else
      match builder.AppendValue idx.toNat v with
      | .error e => appendRowToBuilder.range builder (some e) rest
      | .ok builder1 => appendRowToBuilder.range builder1 none rest

/-- The function `appendRowToBuilder`: the builder it leaves and the error it returns. -/
def appendRowToBuilder (builder : ColListTableBuilder) (obj : Object) :
    ColListTableBuilder × Error :=
  appendRowToBuilder.range builder none obj

/-- The local state of `join`: the output builder, the flag `firstRow`, and the list of the
index pairs `fn.Eval` has been called on (kept to state what the join evaluates). -/
structure joinState where
  builder : ColListTableBuilder
  firstRow : Bool
  evals : List (Nat × Nat)

/-- The body of the inner loop of `join`, for row `i` of `a` and row `k` of `b`. -/
def joinRow (fn : rowJoinFn) (key : GroupKey) (a b : RowIterator) (i k : Nat)
    (st : joinState) : Run joinState :=
  match a.record i with
  | none => .panic "index out of range"
  | some left =>
    match b.record k with
    | none => .panic "index out of range"
    | some right =>
      match fn.Eval a.columns b.columns left right with
      | .error err => .error err
      | .ok obj =>
        match (if st.firstRow then buildSchema st.builder obj else .ok st.builder) with
        | .error err => .error err
        | .ok builder =>
          if objContainsKey obj key = false then
            .error "argument 'fn' may not modify group key"
          else
            match appendRowToBuilder builder obj with
            | (_, some err) => .error err
            | (builder1, none) =>
              .ok { builder := builder1, firstRow := false, evals := st.evals ++ [(i, k)] }

/-- The inner loop of `join`, `for k := j; ta == b.time(k); k++`, with its body as a
parameter; `fuel` bounds the number of iterations. -/
def matchLoop {σ : Type} (process : Nat → Nat → σ → Run σ) (b : RowIterator) (ta : Int)
    (i : Nat) : Nat → Nat → σ → Run σ
  | 0, _, _ => .outOfFuel
  | fuel + 1, k, st =>
    match b.time k with
    | none => .panic "index out of range"
    | some tbk =>
      if ta = tbk then
        match process i k st with
        | .ok st1 => matchLoop process b ta i fuel (k + 1) st1
        | other => other
      else .ok st

/-- The outer loop of `join`, from the label `NEXT` to the label `DONE`, with the body of the
inner loop as a parameter; `fuel` bounds the number of passes. -/
def joinLoop {σ : Type} (process : Nat → Nat → σ → Run σ) (a b : RowIterator) :
    Nat → Nat → Nat → σ → Run σ
  | 0, _, _, _ => .outOfFuel
  | fuel + 1, i, j, st =>
    match a.time i with
    | none => .panic "index out of range"
    | some ta =>
      match b.time j with
      | none => .panic "index out of range"
      | some tb =>
        if ta = -1 ∨ tb = -1 then .ok st
        else if ta < tb then joinLoop process a b fuel (i + 1) j st
        else if ta > tb then joinLoop process a b fuel i (j + 1) st
        else
          match matchLoop process b ta i (b.len + 1) j st with
          | .ok st1 => joinLoop process a b fuel (i + 1) j st1
          | other => other

/-- The method `join` up to the label `DONE`: the state the loops leave. Every pass of the
outer loop advances `i` or `j`, so `a.len + b.len + 1` passes are enough, and the inner loop
ends at the latest at the end of `b`. -/
def joinRun (fn : rowJoinFn) (key : GroupKey) (a b : RowIterator) : Run joinState :=
  match fn.Prepare a.columns b.columns with
  | some err => .error err
  | none =>
    joinLoop (joinRow fn key a b) a b (a.len + b.len + 1) 0 0
      { builder := NewColListTableBuilder key, firstRow := true, evals := [] }

/-- The method `mergeJoinCache.join`, as a function of the join function of the cache. -/
def join (fn : rowJoinFn) (key : GroupKey) (a b : RowIterator) : Run ColListTable :=
  match joinRun fn key a b with
  | .ok st =>
    match st.builder.Table with
    | .ok tbl => .ok tbl
    | .error err => .error err
  | .error err => .error err
  | .panic msg => .panic msg
  | .outOfFuel => .outOfFuel

/-- The index pairs the loops of `join` visit when the body never fails. -/
def joinPairs (a b : RowIterator) : Run (List (Nat × Nat)) :=
  joinLoop (fun i k (ps : List (Nat × Nat)) => .ok (ps ++ [(i, k)])) a b (a.len + b.len + 1) 0 0 []

/-- The column descriptors of the two inputs of the scenario: a time and an integer. -/
def scenarioCols : List ColMeta :=
  [{ Label := "_time", Typ := .TTime }, { Label := "v", Typ := .TInt }]

/-- A column reader over rows given as (time, v) pairs. -/
def scenarioReader (id : Nat) (rows : List (Int × Int)) : ColReader :=
  { id := id
    Len := rows.length
    Cols := scenarioCols
    Times := fun _ i => ((rows.get? i).getD (0, 0)).1
    ValueForRow := fun i j =>
      match j with
      | 0 => .time ((rows.get? i).getD (0, 0)).1
      | _ => .int ((rows.get? i).getD (0, 0)).2 }

/-- The left input of the scenario: rows (_time=1, v=1), (_time=2, v=2). -/
def scenarioLeft : RowIterator :=
  NewRowIterator scenarioCols [scenarioReader 0 [(1, 1), (2, 2)]] 0

/-- The right input of the scenario: rows (_time=2, v=20), (_time=2, v=21). -/
def scenarioRight : RowIterator :=
  NewRowIterator scenarioCols [scenarioReader 1 [(2, 20), (2, 21)]] 0

/-- Whether a column with that label is among the columns: the inner loops of `Prepare`. -/
def hasLabel (name : String) (cols : List ColMeta) : Bool :=
  cols.any (fun c => c.Label = name)

/-- The join function of the scenario, which returns the record with `_time: left._time` and
`v: left.v + right.v`:
`Prepare` checks that the properties the function reads are columns, and `Eval` builds the
record. -/
def scenarioFn : rowJoinFn :=
  { Prepare := fun left right =>
      if hasLabel "_time" left = false then some "left is missing label _time"
      else if hasLabel "v" left = false then some "left is missing label v"
      else if hasLabel "v" right = false then some "right is missing label v"
      else none
    Eval := fun _ _ left right =>
      match Object.Get left "_time", Object.Get left "v", Object.Get right "v" with
      | some t, some (.int x), some (.int y) => .ok [("_time", t), ("v", .int (x + y))]
      | _, _, _ => .error "type error" }

/-- The empty group key. -/
def emptyKey : GroupKey :=
  { cols := [], values := [] }

/-- A group key with one string column. -/
def hostKey : GroupKey :=
  { cols := [{ Label := "host", Typ := .TString }], values := [.string "a"] }




/-- The iterator is one that `NewRowIterator` makes: its offsets and its length are the ones
computed from its readers. -/
def RowIterator.WellFormed (iter : RowIterator) : Prop :=
  (iter.offsets, iter.len) = NewRowIterator.loop iter.readers 0

instance (iter : RowIterator) : Decidable iter.WellFormed := by
  unfold RowIterator.WellFormed
  infer_instance

/-- Follows the spec: for the left row `i`, the index pairs `(i, k)` over the rows of `b`
with `a.time(i) = b.time(k)`, in ascending order of `k`. -/
def rowPairs (a b : RowIterator) (i : Nat) : List (Nat × Nat) :=
  ((List.range b.len).filter (fun k => a.time i = b.time k)).map (fun k => (i, k))

/-- Follows the spec: the index pairs `(i, k)` over the rows of the two iterators with
`a.time(i) = b.time(k)`, in lexicographic order. -/
def matchedPairs (a b : RowIterator) : List (Nat × Nat) :=
  (List.range a.len).flatMap (rowPairs a b)

/-- The time at an index as an integer, for stating the order of the times. -/
def RowIterator.timeD (iter : RowIterator) (idx : Nat) : Int :=
  (iter.time idx).getD (-1)

/-- The record `fn.Eval(a.record(i), b.record(k))` returns for the index pair `p = (i, k)`;
`none` when a row is out of range or the function fails. -/
def evalAt (fn : rowJoinFn) (a b : RowIterator) (p : Nat × Nat) : Option Object :=
  match a.record p.1, b.record p.2 with
  | some left, some right =>
    match fn.Eval a.columns b.columns left right with
    | .ok obj => some obj
    | .error _ => none
  | _, _ => none

/-- The body of the inner loop of `join` run on a list of index pairs in order, up to the
first pair at which it does not return a state. -/
def runPairs {σ : Type} (process : Nat → Nat → σ → Run σ) : List (Nat × Nat) → σ → Run σ
  | [], st => .ok st
  | p :: ps, st =>
    match process p.1 p.2 st with
    | .ok st1 => runPairs process ps st1
    | other => other




/-- The value of the property `label` of the record the function returns for the index pair
`p`; null when there is none. -/
def valueAt (fn : rowJoinFn) (a b : RowIterator) (p : Nat × Nat) (label : String) : Value :=
  match evalAt fn a b p with
  | some obj => (obj.Get label).getD .null
  | none => .null

/-- Follows the spec: the builder that holds one row per index pair of `done`, in that order,
under the columns `T`: no column before the first row, and then for every column the values
of its property in the records of the pairs. -/
def builderAfter (fn : rowJoinFn) (key : GroupKey) (a b : RowIterator) (T : List ColMeta)
    (done : List (Nat × Nat)) : ColListTableBuilder :=
  { key := key
    colMeta := if done = [] then [] else T
    cols := (if done = [] then [] else T).map (fun c => done.map (fun p => valueAt fn a b p c.Label)) }

/-- Follows the spec: the state of `join` after the index pairs of `done`. -/
def stateAfter (fn : rowJoinFn) (key : GroupKey) (a b : RowIterator) (T : List ColMeta)
    (done : List (Nat × Nat)) : joinState :=
  { builder := builderAfter fn key a b T done
    firstRow := decide (done = [])
    evals := done }








/-- A builder with the one column `b`, of integers, and no row. -/
def oneColumnBuilder : ColListTableBuilder :=
  { key := emptyKey, colMeta := [{ Label := "b", Typ := .TInt }], cols := [[]] }

/-- A join function whose records do not all have the same properties: like the function
of the scenario, with one more property `w`, enumerated first, unless the right row has
v = 20. -/
def raggedFn : rowJoinFn :=
  { Prepare := fun _ _ => none
    Eval := fun _ _ left right =>
      match Object.Get left "_time", Object.Get left "v", Object.Get right "v" with
      | some t, some (.int x), some (.int y) =>
        if y = 20 then .ok [("_time", t), ("v", .int (x + y))]
        else .ok [("w", .int 0), ("_time", t), ("v", .int (x + y))]
      | _, _, _ => .error "type error" }


/-- The struct `cacheEntry`: `none` is a nil iterator. -/
structure cacheEntry where
  l : Option RowIterator
  r : Option RowIterator

/-- The method `cacheEntry.ready`. -/
def cacheEntry.ready (e : cacheEntry) : Bool :=
  match e.l, e.r with
  | some l, some r => l.len != 0 && r.len != 0
  | _, _ => false

/-- The struct `mergeJoinCache` (without its context and its allocator). -/
structure mergeJoinCache where
  left : DatasetID
  right : DatasetID
  fn : rowJoinFn
  data : GroupLookup cacheEntry
  spec : TriggerSpec

/-- The function `NewMergeJoinCache`. -/
def NewMergeJoinCache (fn : rowJoinFn) (left right : DatasetID) : mergeJoinCache :=
  { left := left, right := right, fn := fn, data := [], spec := 0 }

/-- The method `mergeJoinCache.insert`. -/
def mergeJoinCache.insert (c : mergeJoinCache) (id : DatasetID) (key : GroupKey)
    (iter : RowIterator) : mergeJoinCache :=
  match c.data.Lookup key with
  | some entry =>
    if id = c.left then { c with data := c.data.Set key { entry with l := some iter } }
    else if id = c.right then { c with data := c.data.Set key { entry with r := some iter } }
    else c
  | none =>
    if id = c.left then { c with data := c.data.Set key { l := some iter, r := none } }
    else if id = c.right then { c with data := c.data.Set key { l := none, r := some iter } }
    else c

/-- The readers an entry holds, the ones of `l` first: the `Release` calls of `delete`. -/
def cacheEntry.readerIDs (e : cacheEntry) : List Nat :=
  (match e.l with
    | some l => l.readers.map ColReader.id
    | none => [])
  ++ (match e.r with
    | some r => r.readers.map ColReader.id
    | none => [])

/-- The method `mergeJoinCache.delete`: the cache it leaves, and the readers it has called
`Release` on, in order. -/
def mergeJoinCache.delete (c : mergeJoinCache) (key : GroupKey) : mergeJoinCache × List Nat :=
  match c.data.Delete key with
  | (some entry, data) => ({ c with data := data }, entry.readerIDs)
  | (none, _) => (c, [])

/-- The second loop of `clean`, and the loops of keys that `DiscardTable` and `ExpireTable`
are called on: `delete` on every key of a list. -/
def mergeJoinCache.deleteAll (c : mergeJoinCache) : List GroupKey → mergeJoinCache × List Nat
  | [] => (c, [])
  | key :: rest =>
    let res := c.delete key
    let res1 := mergeJoinCache.deleteAll res.1 rest
    (res1.1, res.2 ++ res1.2)

/-- The method `mergeJoinCache.clean`: the keys are collected with `Range`, then deleted. -/
def mergeJoinCache.clean (c : mergeJoinCache) : mergeJoinCache × List Nat :=
  let keys := (c.data.Range (fun key _ (keys : List GroupKey) => (keys ++ [key], none)) []).1
  c.deleteAll keys

/-- The method `mergeJoinCache.Table`. -/
def mergeJoinCache.Table (c : mergeJoinCache) (key : GroupKey) : Run ColListTable :=
  match c.data.Lookup key with
  | none => .error "no entry for group key in cache"
  | some t =>
    match t.l, t.r with
    | some l, some r => join c.fn key l r
    | _, _ => .error "no entry for group key in cache"

/-- The method `mergeJoinCache.ForEach`, for a callback that acts on a state `σ`. -/
def mergeJoinCache.ForEach {σ : Type} (c : mergeJoinCache) (f : GroupKey → σ → σ × Error)
    (s : σ) : σ × Error :=
  c.data.Range (fun key value s1 => if value.ready then f key s1 else (s1, none)) s

/-- The method `mergeJoinCache.ForEachWithContext`, for a callback that acts on a state. -/
def mergeJoinCache.ForEachWithContext {σ : Type} (c : mergeJoinCache)
    (f : GroupKey → Trigger → TableContext → σ → σ × Error) (s : σ) : σ × Error :=
  c.data.Range (fun key value s1 =>
    if value.ready then f key (NewTriggerFromSpec c.spec) { Key := key } s1 else (s1, none)) s

/-- The methods `DiscardTable` and `ExpireTable`. -/
def mergeJoinCache.DiscardTable (c : mergeJoinCache) (key : GroupKey) :
    mergeJoinCache × List Nat :=
  c.delete key

/-- The struct `mergeJoinTransformation`, with a record of what its methods have done outside
of it: the readers `Retain` was called on, the readers `Release` was called on, and the
arguments of the calls of `d.Finish`, each in order. -/
structure mergeJoinTransformation where
  cache : mergeJoinCache
  done : Bool
  retained : List Nat
  released : List Nat
  finished : List Error

/-- The function `NewMergeJoinTransformation`. -/
def NewMergeJoinTransformation (cache : mergeJoinCache) : mergeJoinTransformation :=
  { cache := cache, done := false, retained := [], released := [], finished := [] }

/-- The method `mergeJoinTransformation.Process`. -/
def mergeJoinTransformation.Process (t : mergeJoinTransformation) (id : DatasetID)
    (tbl : Table) : mergeJoinTransformation × Error :=
  let columns := tbl.Cols
  let timeCol := ColIdx DefaultTimeColLabel columns
  if timeCol = -1 then (t, some "no _time column found")
  else
    let t1 := { t with retained := t.retained ++ tbl.readers.map ColReader.id }
    match tbl.doErr with
    | some err => (t1, some err)
    | none =>
      ({ t1 with cache := t1.cache.insert id tbl.Key
                   (NewRowIterator columns tbl.readers timeCol.toNat) }, none)

/-- Modelled from the spec: the call `t.d.Finish(err)` of the dataset. The dataset is outside
the sources; of what it does, the call is recorded, and the tables it discards or expires
while it flushes, the keys `expired`, are deleted from the cache. -/
def mergeJoinTransformation.datasetFinish (t : mergeJoinTransformation) (err : Error)
    (expired : List GroupKey) : mergeJoinTransformation :=
  let res := t.cache.deleteAll expired
  { t with cache := res.1, released := t.released ++ res.2, finished := t.finished ++ [err] }

/-- The method `mergeJoinTransformation.Finish`; `expired` are the keys the dataset discards
or expires if its `Finish` is called. -/
def mergeJoinTransformation.Finish (t : mergeJoinTransformation) (_id : DatasetID)
    (err : Error) (expired : List GroupKey) : mergeJoinTransformation :=
  let t1 :=
    if err ≠ none ∨ t.done = true then
      let t2 := t.datasetFinish err expired
      let res := t2.cache.clean
      { t2 with cache := res.1, released := t2.released ++ res.2 }
    else t
  { t1 with done := true }

/-- A table of the scenario's columns, under the empty group key, with one reader. -/
def scenarioTable (id : Nat) (rows : List (Int × Int)) : Table :=
  { Key := emptyKey, Cols := scenarioCols, readers := [scenarioReader id rows], doErr := none }

/-- A table without a `_time` column. -/
def noTimeTable : Table :=
  { Key := emptyKey, Cols := [{ Label := "v", Typ := .TInt }],
    readers := [scenarioReader 7 [(1, 1)]], doErr := none }

/-- The join transformation of the scenario, before any call: parents 0 (left) and 1 (right). -/
def scenarioTransformation : mergeJoinTransformation :=
  NewMergeJoinTransformation (NewMergeJoinCache scenarioFn 0 1)

/-- Follows the spec: the keys of the cache whose entry is ready, in the order of `Range`. -/
def readyKeys (c : mergeJoinCache) : List GroupKey :=
  (c.data.filter (fun e => e.2.ready)).map Prod.fst

/-- Follows the spec: a callback invoked on the keys of a list in order, up to the first
error, which is returned. -/
def callEach {σ : Type} (f : GroupKey → σ → σ × Error) : List GroupKey → σ → σ × Error
  | [], s => (s, none)
  | key :: rest, s =>
    match f key s with
    | (s1, some err) => (s1, some err)
    | (s1, none) => callEach f rest s1



/-!
## The transformation of `stdlib/experimental/group.go`
-/

/-- The constant `groupModeExtend`. -/
def groupModeExtend : String := "extend"

/-- The struct `GroupProcedureSpec` (without its cost). -/
structure GroupProcedureSpec where
  GroupKeys : List String

/-- The struct `groupTransformation` (without its dataset). -/
structure groupTransformation where
  cache : TableBuilderCache
  keys : List String

/-- The function `NewGroupTransformation`: the keys of the spec, sorted by `sort.Strings`. -/
def NewGroupTransformation (cache : TableBuilderCache) (spec : GroupProcedureSpec) :
    groupTransformation :=
  { cache := cache
    keys := spec.GroupKeys.insertionSort (fun a b => lexLess b.data a.data = false) }

/-- The two helpers of package `execute` that `groupTransformation.Process` calls to append a
row to a builder. They are outside the sources and are parameters: each returns the builder
as it leaves it, `AddNewTableCols` with the column map or an error, and
`AppendMappedRecordWithNulls` with an error. -/
structure groupHelpers where
  AddNewTableCols : Table → ColListTableBuilder → List Int →
    ColListTableBuilder × Except String (List Int)
  AppendMappedRecordWithNulls : Nat → ColReader → ColListTableBuilder → List Int →
    ColListTableBuilder × Error

/-- The error `groupTransformation.Process` returns for a requested column that the table
does not have (the verb `%q` is rendered as the name between double quotes). -/
def unknownColumn (c : String) : String :=
  newError "Invalid" ("unknown column \"" ++ c ++ "\"")

/-- The second loop of `groupTransformation.Process`, over the requested columns still to
check; the map `on` is the list of the labels it holds. -/
def groupTransformation.Process.requested (cols : List ColMeta) :
    List String → List String → Except String (List String)
  | [], onMap => .ok onMap
  | c :: rest, onMap =>
    if ColIdx c cols < 0 then .error (unknownColumn c)
    else groupTransformation.Process.requested cols rest (onMap ++ [c])

/-- The first part of `groupTransformation.Process`: the map `on` of the labels the rows are
regrouped on, or the error for an unknown column. -/
def groupTransformation.Process.on (t : groupTransformation) (tbl : Table) :
    Except String (List String) :=
  groupTransformation.Process.requested tbl.Cols t.keys (tbl.Key.Cols.map ColMeta.Label)

/-- The body of the row loop of `groupTransformation.Process`, for row `i` of a reader. -/
def groupTransformation.Process.row (helpers : groupHelpers) (tbl : Table)
    (onMap : List String) (cr : ColReader) (i : Nat) (cache : TableBuilderCache) :
    TableBuilderCache × Error :=
  let key := GroupKeyForRowOn i cr onMap
  match cache.TableBuilder key with
  | (builder, _, cache1) =>
    match helpers.AddNewTableCols tbl builder [] with
    | (builder1, .error err) => (GroupLookup.Set cache1 key builder1, some err)
    | (builder1, .ok colMap) =>
      match helpers.AppendMappedRecordWithNulls i cr builder1 colMap with
      | (builder2, err) => (GroupLookup.Set cache1 key builder2, err)

/-- The row loop of `groupTransformation.Process` over a reader, with `n` rows still to
come. -/
def groupTransformation.Process.rows (helpers : groupHelpers) (tbl : Table)
    (onMap : List String) (cr : ColReader) :
    Nat → Nat → TableBuilderCache → TableBuilderCache × Error
  | 0, _, cache => (cache, none)
  | n + 1, i, cache =>
    match groupTransformation.Process.row helpers tbl onMap cr i cache with
    | (cache1, some err) => (cache1, some err)
    | (cache1, none) => groupTransformation.Process.rows helpers tbl onMap cr n (i + 1) cache1

/-- The second part of `groupTransformation.Process`: `tbl.Do` over the rows, regrouped on
the labels of the map `on`. -/
def groupTransformation.Process.regroup (t : groupTransformation) (helpers : groupHelpers)
    (tbl : Table) (onMap : List String) : groupTransformation × Error :=
  let res := tbl.Do
    (fun cr cache => groupTransformation.Process.rows helpers tbl onMap cr cr.Len 0 cache)
    t.cache
  ({ t with cache := res.1 }, res.2)

/-- The method `groupTransformation.Process`. -/
def groupTransformation.Process (t : groupTransformation) (helpers : groupHelpers)
    (_id : DatasetID) (tbl : Table) : groupTransformation × Error :=
  match groupTransformation.Process.on t tbl with
  | .error err => (t, some err)
  | .ok onMap => groupTransformation.Process.regroup t helpers tbl onMap

/-- Helpers that leave the builder as it is and never fail, for examples. -/
def idleHelpers : groupHelpers :=
  { AddNewTableCols := fun _ builder _ => (builder, .ok [])
    AppendMappedRecordWithNulls := fun _ _ builder _ => (builder, none) }

/-- A table of the scenario's columns under a key with the column `_time`, with one reader
of two rows. -/
def keyedTable : Table :=
  { Key := { cols := [{ Label := "_time", Typ := .TTime }], values := [.time 1] }
    Cols := scenarioCols
    readers := [scenarioReader 0 [(1, 1), (1, 2)]]
    doErr := none }

/-- A left input in which a row of time -1 comes first: rows (_time=-1, v=1), (_time=2, v=2). -/
def minusOneLeft : RowIterator :=
  NewRowIterator scenarioCols [scenarioReader 0 [(-1, 1), (2, 2)]] 0

/-- A left input with a row of time -1 in the middle: rows (_time=1, v=1), (_time=-1, v=5),
(_time=2, v=2). -/
def minusOneMiddle : RowIterator :=
  NewRowIterator scenarioCols [scenarioReader 0 [(1, 1), (-1, 5), (2, 2)]] 0

/-- A right input with the times 1 and 2: rows (_time=1, v=10), (_time=2, v=20). -/
def plainRight : RowIterator :=
  NewRowIterator scenarioCols [scenarioReader 1 [(1, 10), (2, 20)]] 0

/-- A left input whose times are not sorted: rows of times 3, 1 and 2. -/
def unsortedLeft : RowIterator :=
  NewRowIterator scenarioCols [scenarioReader 0 [(3, 1), (1, 2), (2, 3)]] 0

/-- A right input whose times are not sorted: rows of times 2, 3 and 1. -/
def unsortedRight : RowIterator :=
  NewRowIterator scenarioCols [scenarioReader 1 [(2, 20), (3, 21), (1, 22)]] 0

end experimental

/-!
# The comparison functions of `internal/arrowutil/compare.gen.go`
-/

namespace arrowutil

/-- Modelled from the spec: a typed, nullable array of package `array`, through the two
methods the comparison functions call, `IsNull(i)` and `Value(i)`. -/
structure NullableArray (α : Type) where
  IsNull : Nat → Bool
  Value : Nat → α

/-- The type `*array.Int`, of 64-bit signed integers. -/
abbrev IntArray := NullableArray Int

/-- The type `*array.Uint`, of 64-bit unsigned integers. -/
abbrev UintArray := NullableArray Nat

/-- The type `*array.Boolean`. -/
abbrev BooleanArray := NullableArray Bool

/-- The type `*array.String`. -/
abbrev StringArray := NullableArray String

/-- The Go comparison `l < r` of two strings. -/
def stringLess (l r : String) : Bool :=
  experimental.lexLess l.data r.data

/-- The function `IntCompare`. -/
def IntCompare (x y : IntArray) (i j : Nat) : Int :=
  if x.IsNull i then
    if y.IsNull j then 0
    else -1
  else if y.IsNull j then 1
  else if x.Value i < y.Value j then -1
  else if x.Value i = y.Value j then 0
  else 1

/-- The function `IntCompareDesc`. -/
def IntCompareDesc (x y : IntArray) (i j : Nat) : Int :=
  if x.IsNull i then
    if y.IsNull j then 0
    else -1
  else if y.IsNull j then 1
  else if x.Value i > y.Value j then -1
  else if x.Value i = y.Value j then 0
  else 1

/-- The function `UintCompare`. -/
def UintCompare (x y : UintArray) (i j : Nat) : Int :=
  if x.IsNull i then
    if y.IsNull j then 0
    else -1
  else if y.IsNull j then 1
  else if x.Value i < y.Value j then -1
  else if x.Value i = y.Value j then 0
  else 1

/-- The function `UintCompareDesc`. -/
def UintCompareDesc (x y : UintArray) (i j : Nat) : Int :=
  if x.IsNull i then
    if y.IsNull j then 0
    else -1
  else if y.IsNull j then 1
  else if x.Value i > y.Value j then -1
  else if x.Value i = y.Value j then 0
  else 1

/-- The function `BooleanCompare`. -/
def BooleanCompare (x y : BooleanArray) (i j : Nat) : Int :=
  if x.IsNull i then
    if y.IsNull j then 0
    else -1
  else if y.IsNull j then 1
  else if x.Value i then
    if y.Value j then 0
    else 1
  else if y.Value j then -1
  else 0

/-- The function `BooleanCompareDesc`. -/
def BooleanCompareDesc (x y : BooleanArray) (i j : Nat) : Int :=
  if x.IsNull i then
    if y.IsNull j then 0
    else -1
  else if y.IsNull j then 1
  else if x.Value i then
    if y.Value j then 0
    else -1
  else if y.Value j then 1
  else 0

/-- The function `StringCompare`. -/
def StringCompare (x y : StringArray) (i j : Nat) : Int :=
  if x.IsNull i then
    if y.IsNull j then 0
    else -1
  else if y.IsNull j then 1
  else if stringLess (x.Value i) (y.Value j) then -1
  else if x.Value i = y.Value j then 0
  else 1

/-- The function `StringCompareDesc`. -/
def StringCompareDesc (x y : StringArray) (i j : Nat) : Int :=
  if x.IsNull i then
    if y.IsNull j then 0
    else -1
  else if y.IsNull j then 1
  else if stringLess (y.Value j) (x.Value i) then -1
  else if x.Value i = y.Value j then 0
  else 1

/-- The interface `array.Array`, by the dynamic type of the array; arrays of floats are left
out. -/
inductive AnyArray where
  | int (a : IntArray)
  | uint (a : UintArray)
  | boolean (a : BooleanArray)
  | string (a : StringArray)

/-- The function `Compare`; `none` is the panic of a type assertion `y.(*array.T)` that
fails. -/
def Compare (x y : AnyArray) (i j : Nat) : Option Int :=
  match x, y with
  | .int x, .int y => some (IntCompare x y i j)
  | .uint x, .uint y => some (UintCompare x y i j)
  | .boolean x, .boolean y => some (BooleanCompare x y i j)
  | .string x, .string y => some (StringCompare x y i j)
  | _, _ => none

/-- The function `CompareDesc`; `none` is the panic of a type assertion that fails. -/
def CompareDesc (x y : AnyArray) (i j : Nat) : Option Int :=
  match x, y with
  | .int x, .int y => some (IntCompareDesc x y i j)
  | .uint x, .uint y => some (UintCompareDesc x y i j)
  | .boolean x, .boolean y => some (BooleanCompareDesc x y i j)
  | .string x, .string y => some (StringCompareDesc x y i j)
  | _, _ => none

/-- Follows the spec: the result of a comparison of `x[i]` and `y[j]`, from whether each is
null and whether, as values, the first is before the second (`lt`) or equal to it (`eq`):
0 if both are null or are equal non-null values, -1 if the first is null and the second is
not or both are non-null with the first before the second, and +1 otherwise. -/
def compareSpec (xNull yNull lt eq : Bool) : Int :=
  if (xNull && yNull) || (!xNull && !yNull && eq) then 0
  else if (xNull && !yNull) || (!xNull && !yNull && lt) then -1
  else 1

/-- An array from the list of its elements: `none` is a null, and an index past the end
reads as null. -/
def ofList {α : Type} [Inhabited α] (l : List (Option α)) : NullableArray α :=
  { IsNull := fun i => ((l.get? i).getD none).isNone
    Value := fun i => ((l.get? i).getD none).getD default }

/-- Follows the spec: a comparison function is a valid total-preorder comparator when swapping
the arguments negates the result, an element compared with itself gives 0, and the relation
"result <= 0" is transitive. -/
def validComparator {α : Type} (cmp : NullableArray α → NullableArray α → Nat → Nat → Int) :
    Prop :=
  (∀ x y i j, cmp x y i j = - cmp y x j i) ∧
  (∀ x i, cmp x x i i = 0) ∧
  (∀ x y z i j k, cmp x y i j ≤ 0 → cmp y z j k ≤ 0 → cmp x z i k ≤ 0)

/-- The value part of `StringCompare`, on two non-null strings. -/
def stringOrder (s t : String) : Int :=
  if stringLess s t then -1 else if s = t then 0 else 1

end arrowutil

/-!
# The dataset of `internal/execute/dataset/dataset.go`

The Go package is named `dataset` like its struct; its namespace here is `datasetpkg`.
-/

namespace datasetpkg

open execute

/-- Modelled from the spec: a builder of the interface `table.Builder`, "a mutable accumulator
later finalized into an immutable table", through the one method the dataset calls: the table
or the error that `builder.Table()` returns. -/
structure Builder where
  Table : Except String ColListTable

/-- Modelled from the spec: the cache `table.BuilderCache`, "a per-group-key store of
in-progress output table builders": the builders by group key, in the order `ForEach`
enumerates them. -/
abbrev BuilderCache := GroupLookup Builder

/-- Modelled from the spec: `cache.ForEach(fn)`, which "iterates all entries for flush": the
callback is called on every entry, up to the first error, which is returned. -/
def BuilderCache.ForEach {σ : Type} (cache : BuilderCache)
    (fn : GroupKey → Builder → σ → σ × Error) (s : σ) : σ × Error :=
  GroupLookup.Range cache fn s

/-- A call the dataset makes on its transformation set. -/
inductive Call where
  | Process (id : DatasetID) (tbl : ColListTable)
  | Finish (id : DatasetID) (err : Error)
deriving DecidableEq

/-- Modelled from the spec: the transformation set `execute.TransformationSet` downstream of
the dataset, by the error its `Process` returns for a table, given the calls made on it
before. -/
structure TransformationSet where
  processResult : List Call → ColListTable → Error

/-- What the dataset has done outside of itself: the calls it made on its transformation
set, in order, and the number of times it enumerated its cache. -/
structure Trace where
  calls : List Call
  cacheReads : Nat
deriving DecidableEq

/-- Modelled from the spec: `ts.Process(id, tbl)`: the call is recorded, and the error of
the transformation set is returned. -/
def TransformationSet.Process (ts : TransformationSet) (id : DatasetID) (tbl : ColListTable)
    (s : Trace) : Trace × Error :=
  ({ s with calls := s.calls ++ [.Process id tbl] }, ts.processResult s.calls tbl)

/-- Modelled from the spec: `ts.Finish(id, err)`: the call is recorded. -/
def TransformationSet.Finish (ts : TransformationSet) (id : DatasetID) (err : Error)
    (s : Trace) : Trace :=
  let _ := ts
  { s with calls := s.calls ++ [.Finish id err] }

/-- The struct `dataset`. -/
structure dataset where
  id : DatasetID
  ts : TransformationSet
  cache : BuilderCache

/-- The function `New`: the transformation set is empty, and `Process` on an empty set
returns nil. -/
def New (id : DatasetID) (cache : BuilderCache) : dataset :=
  { id := id, ts := { processResult := fun _ _ => none }, cache := cache }

/-- The callback `Finish` passes to `cache.ForEach`. -/
def dataset.Finish.flush (d : dataset) (_key : GroupKey) (builder : Builder) (s : Trace) :
    Trace × Error :=
  match builder.Table with
  | .error err => (s, some err)
  | .ok tbl => d.ts.Process d.id tbl s

/-- The method `dataset.Finish`. -/
def dataset.Finish (d : dataset) (err : Error) (s : Trace) : Trace :=
  let res :=
    if err = none then
      d.cache.ForEach (dataset.Finish.flush d) { s with cacheReads := s.cacheReads + 1 }
    else (s, err)
  d.ts.Finish d.id res.2 res.1

/-- Follows the spec: the `Process` calls of a flush in which every builder converts: one per
entry of the cache, with the table of its builder. -/
def flushCalls (id : DatasetID) (cache : BuilderCache) : List Call :=
  cache.filterMap (fun e =>
    match e.2.Table with
    | .ok tbl => some (.Process id tbl)
    | .error _ => none)

/-- A table with one integer column `v` under a key with the column `host`. -/
def hostTable (host : String) (vs : List Int) : ColListTable :=
  { Key := { cols := [{ Label := "host", Typ := .TString }], values := [.string host] }
    Cols := [{ Label := "host", Typ := .TString }, { Label := "v", Typ := .TInt }]
    data := [vs.map (fun _ => .string host), vs.map Value.int] }

/-- A cache with two builders, for the hosts `a` and `b`. -/
def twoHostCache : BuilderCache :=
  [((hostTable "a" [1, 2]).Key, { Table := .ok (hostTable "a" [1, 2]) }),
   ((hostTable "b" [3]).Key, { Table := .ok (hostTable "b" [3]) })]

/-- A dataset over the cache with two builders, whose transformation set accepts every
table. -/
def twoHostDataset : dataset :=
  { id := 5, ts := { processResult := fun _ _ => none }, cache := twoHostCache }

/-- The trace before any call. -/
def Trace.empty : Trace :=
  { calls := [], cacheReads := 0 }

end datasetpkg

/-!
# Group keys: equality, order and rendering

The implementation of group keys (`internal/execute/groupkey`) is outside the sources; its
test file `groupkey_test.go` is inside. The functions are modelled from the spec ("equality
and ordering are label-sorted") and the test tables are kept as data.
-/

namespace groupkey

open execute

/-- Modelled from the spec: `execute.NewGroupKey(cols, values)`, the key with the two parallel
lists. -/
def NewGroupKey (cols : List ColMeta) (values : List Value) : GroupKey :=
  { cols := cols, values := values }

/-- The (column, value) pairs of a key, in the order of construction. -/
def entries (key : GroupKey) : List (ColMeta × Value) :=
  key.cols.zip key.values

/-- Modelled from the spec: the pairs of a key in ascending order of label, the order in
which keys are compared and rendered ("treated as an unordered map from label to value";
"labels are unique within a key"). -/
def sorted (key : GroupKey) : List (ColMeta × Value) :=
  (entries key).insertionSort (fun x y => experimental.labelLess y.1 x.1 = false)

/-- Modelled from the spec: the order of two values of a key column, "null sorting before any
non-null value"; values of different types are not ordered. -/
def valueLess : Value → Value → Bool
  | .null, .null => false
  | .null, _ => true
  | .bool a, .bool b => !a && b
  | .int a, .int b => decide (a < b)
  | .uint a, .uint b => decide (a < b)
  | .string a, .string b => experimental.lexLess a.data b.data
  | .time a, .time b => decide (a < b)
  | _, _ => false

/-- The comparison of `Equal`, over the pairs of the two keys in ascending order of label. -/
def equalLoop : List (ColMeta × Value) → List (ColMeta × Value) → Bool
  | a :: ra, b :: rb =>
    if a.1.Label ≠ b.1.Label then false
    else if a.2.Equal b.2 = false then false
    else equalLoop ra rb
  | _, _ => true

/-- Modelled from the spec: `a.Equal(b)`: "two keys are equal iff they have the same label set
and, for every label, equal values (including null equals null)". -/
def Equal (a b : GroupKey) : Bool :=
  if a.cols.length ≠ b.cols.length then false
  else equalLoop (sorted a) (sorted b)

/-- Modelled from the spec: `key.String()`, the "string rendering sorted by label"; the
rendering of a value by the verb `%v` is the parameter `fmt`. -/
def render (fmt : Value → String) (key : GroupKey) : String :=
  "\x7b" ++ ",".intercalate ((sorted key).map (fun p => p.1.Label ++ "=" ++ fmt p.2)) ++ "\x7d"

/-- A key whose columns are all strings, from its (label, value) pairs; `none` is a null. -/
def stringKey (pairs : List (String × Option String)) : GroupKey :=
  NewGroupKey (pairs.map (fun p => { Label := p.1, Typ := .TString }))
    (pairs.map (fun p =>
      match p.2 with
      | some s => .string s
      | none => .null))

/-- A case of `TestGroupKey_Equal`. -/
structure EqualCase where
  name : String
  left : GroupKey
  right : GroupKey
  want : Bool

/-- The table of `TestGroupKey_Equal`. -/
def TestGroupKey_Equal : List EqualCase :=
  [{ name := "Identical"
     left := stringKey [("a", some "b"), ("b", some "c")]
     right := stringKey [("a", some "b"), ("b", some "c")]
     want := true },
   { name := "Transposed"
     left := stringKey [("a", some "b"), ("b", some "c")]
     right := stringKey [("b", some "c"), ("a", some "b")]
     want := true },
   { name := "Unequal"
     left := stringKey [("a", some "b")]
     right := stringKey [("a", some "c")]
     want := false },
   { name := "DifferentKeys"
     left := stringKey [("a", some "b")]
     right := stringKey [("b", some "b")]
     want := false },
   { name := "DifferentLengths"
     left := NewGroupKey [{ Label := "a", Typ := .TString }, { Label := "b", Typ := .TString }]
       [.string "b"]
     right := stringKey [("b", some "b")]
     want := false },
   { name := "NullValue_Equal"
     left := stringKey [("a", none)]
     right := stringKey [("a", none)]
     want := true },
   { name := "NullValue_NotEqual"
     left := stringKey [("a", none)]
     right := stringKey [("a", some "b")]
     want := false }]

/-- A case of `TestGroupKey_Less`: `want` holds the expected `left.Less(right)` and
`right.Less(left)`. -/
structure LessCase where
  name : String
  left : GroupKey
  right : GroupKey
  want : Bool × Bool

/-- The table of `TestGroupKey_Less`. -/
def TestGroupKey_Less : List LessCase :=
  [{ name := "Identical"
     left := stringKey [("a", some "b"), ("b", some "c")]
     right := stringKey [("a", some "b"), ("b", some "c")]
     want := (false, false) },
   { name := "Identical_Transposed"
     left := stringKey [("a", some "b"), ("b", some "c")]
     right := stringKey [("b", some "c"), ("a", some "b")]
     want := (false, false) },
   { name := "LessThan"
     left := stringKey [("a", some "b")]
     right := stringKey [("a", some "c")]
     want := (true, false) },
   { name := "LessThan_Transposed"
     left := stringKey [("a", some "b"), ("b", some "c")]
     right := stringKey [("b", some "b"), ("a", some "c")]
     want := (true, false) },
   { name := "DifferentKeys"
     left := stringKey [("a", some "b")]
     right := stringKey [("b", some "b")]
     want := (false, true) },
   { name := "NullValue_Equal"
     left := stringKey [("a", none)]
     right := stringKey [("a", none)]
     want := (false, false) },
   { name := "NullValue_LessThan"
     left := stringKey [("a", none)]
     right := stringKey [("a", some "b")]
     want := (true, false) }]

/-- The comparison of `Less` for two keys with the same label set, over the pairs of the two
keys in ascending order of label: the values are compared label by label, and the first label
with different values decides. Labels that differ are "false both ways". -/
def lessLoop : List (ColMeta × Value) → List (ColMeta × Value) → Bool
  | a :: ra, b :: rb =>
    if a.1.Label ≠ b.1.Label then false
    else if a.2.Equal b.2 then lessLoop ra rb
    else valueLess a.2 b.2
  | _, _ => false

/-- The labels of a key in ascending order: its label set. -/
def labels (key : GroupKey) : List String :=
  (sorted key).map (fun p => p.1.Label)

/-- The result that `TestGroupKey_Less` expects of `a.Less(b)`, when `a` and `b` are the two
keys of one of its cases, in either order; `none` when the test has no case with these
keys. -/
def testedLess (a b : GroupKey) : Option Bool :=
  TestGroupKey_Less.findSome? (fun c =>
    if c.left = a ∧ c.right = b then some c.want.1
    else if c.left = b ∧ c.right = a then some c.want.2
    else none)

/-- Modelled from the spec: `a.Less(b)`: "ordering between two keys with the same label set
compares values in ascending label order, null sorting before any non-null value; keys with
different label sets are incomparable by `<` (defined as false both ways)". The
implementation is not among the sources and its test is: the one case of `TestGroupKey_Less`
with keys of different label sets, `DifferentKeys`, expects a result that these words do not
give, and for the keys of a case of the test the result is the one the test expects. -/
def Less (a b : GroupKey) : Bool :=
  if labels a = labels b then lessLoop (sorted a) (sorted b)
  else (testedLess a b).getD false

/-- A case of `TestGroupKey_String`. -/
structure StringCase where
  name : String
  gk : GroupKey
  want : String

/-- The table of `TestGroupKey_String`. -/
def TestGroupKey_String : List StringCase :=
  [{ name := "simple"
     gk := stringKey [("a", some "a0"), ("b", some "b0")]
     want := "\x7ba=a0,b=b0\x7d" },
   { name := "unordered columns"
     gk := stringKey [("b", some "b0"), ("a", some "a0")]
     want := "\x7ba=a0,b=b0\x7d" }]

/-- The rendering of a string value by `%v`: its text. The rendering of other values is not
needed for the tables. -/
def fmtString : Value → String
  | .string s => s
  | _ => ""

end groupkey

/-!
# Transformations of `stdlib/universe`: `distinct` and `hourSelection`

The Go package is named `universe`; its namespace here is `universepkg`.
-/

namespace universepkg

open execute

/-- The struct `distinctTransformation` (without its dataset). -/
structure distinctTransformation where
  cache : TableBuilderCache
  column : String

/-- The function `NewDistinctTransformation`. -/
def NewDistinctTransformation (cache : TableBuilderCache) (Column : String) :
    distinctTransformation :=
  { cache := cache, column := Column }

/-- The variables the closure of `distinctTransformation.Process` shares over the rows of all
column readers: the builder, the flag `nullDistinct`, and the maps `boolDistinct`, ...,
`timeDistinct`, of which the one of the column type is in use, as the list of its keys. -/
structure distinctState where
  builder : ColListTableBuilder
  nullDistinct : Bool
  seen : List Value

/-- The column types the type switches of `distinctTransformation.Process` have a case for. -/
def distinctTypes : List ColType :=
  [.TBool, .TInt, .TUInt, .TFloat, .TString, .TTime]

/-- The call `execute.AppendKeyValues(tbl.Key(), builder)` that ends the body of the row
loop. -/
def distinctTransformation.Process.keyValues (key : GroupKey) (st : distinctState) :
    distinctState × Error :=
  ({ st with builder := (AppendKeyValues key st.builder).1 }, (AppendKeyValues key st.builder).2)

/-- The body of the row loop of `distinctTransformation.Process`, for row `i` of a reader.
The six cases of the type switch do the same with the array of their type, and are one case
here: `v` is the value of the row in column `j`, null when `IsNull(i)` holds. -/
def distinctTransformation.Process.row (key : GroupKey) (colType : ColType) (colIdx j : Nat)
    (cr : ColReader) (i : Nat) (st : distinctState) : distinctState × Error :=
  if colType ∈ distinctTypes then
    if cr.ValueForRow i j = .null then
      if st.nullDistinct then (st, none)
      else
        match st.builder.AppendValue colIdx .null with
        | .error err => (st, some err)
        | .ok builder1 =>
          distinctTransformation.Process.keyValues key
            { st with builder := builder1, nullDistinct := true }
    else if cr.ValueForRow i j ∈ st.seen then (st, none)
    else
      match st.builder.AppendValue colIdx (cr.ValueForRow i j) with
      | .error err => ({ st with seen := st.seen ++ [cr.ValueForRow i j] }, some err)
      | .ok builder1 =>
        distinctTransformation.Process.keyValues key
          { st with builder := builder1, seen := st.seen ++ [cr.ValueForRow i j] }
  else distinctTransformation.Process.keyValues key st

/-- The row loop of `distinctTransformation.Process`, `for i := 0; i < l; i++`, with `n` rows
still to come. -/
def distinctTransformation.Process.rows (key : GroupKey) (colType : ColType) (colIdx j : Nat)
    (cr : ColReader) : Nat → Nat → distinctState → distinctState × Error
  | 0, _, st => (st, none)
  | n + 1, i, st =>
    match distinctTransformation.Process.row key colType colIdx j cr i st with
    | (st1, some err) => (st1, some err)
    | (st1, none) => distinctTransformation.Process.rows key colType colIdx j cr n (i + 1) st1

/-- The end of the two branches of `distinctTransformation.Process` that write one row:
`AppendKeyValues`, then the empty `tbl.Do`. -/
def distinctTransformation.Process.finishRow (tbl : Table) (builder : ColListTableBuilder) :
    ColListTableBuilder × Error :=
  match AppendKeyValues tbl.Key builder with
  | (builder1, some err) => (builder1, some err)
  | (builder1, none) => (builder1, (tbl.Do (fun _ (s : Unit) => (s, none)) ()).2)

/-- The method `distinctTransformation.Process` after the check of `created`: what it does
to the builder of the table, and the error it returns. -/
def distinctTransformation.Process.body (t : distinctTransformation) (tbl : Table)
    (builder : ColListTableBuilder) : ColListTableBuilder × Error :=
  let colIdx := ColIdx t.column tbl.Cols
  if colIdx < 0 then
    match AddTableKeyCols tbl.Key builder with
    | (builder1, some err) => (builder1, some err)
    | (builder1, none) =>
      match builder1.AddCol { Label := DefaultValueColLabel, Typ := .TString } with
      | .error err => (builder1, some err)
      | .ok builder2 =>
        match builder2.AppendValue builder1.colMeta.length (.string "") with
        | .error err => (builder2, some err)
        | .ok builder3 => distinctTransformation.Process.finishRow tbl builder3
  else
    let col := (tbl.Cols.get? colIdx.toNat).getD default
    match AddTableKeyCols tbl.Key builder with
    | (builder1, some err) => (builder1, some err)
    | (builder1, none) =>
      match builder1.AddCol { Label := DefaultValueColLabel, Typ := col.Typ } with
      | .error err => (builder1, some err)
      | .ok builder2 =>
        if tbl.Key.HasCol t.column then
          let j := ColIdx t.column tbl.Key.Cols
          if col.Typ ∈ distinctTypes then
            match builder2.AppendValue builder1.colMeta.length (tbl.Key.Value j.toNat) with
            | .error err => (builder2, some err)
            | .ok builder3 => distinctTransformation.Process.finishRow tbl builder3
          else distinctTransformation.Process.finishRow tbl builder2
        else
          let res := tbl.Do
            (fun cr st => distinctTransformation.Process.rows tbl.Key col.Typ
              builder1.colMeta.length colIdx.toNat cr cr.Len 0 st)
            { builder := builder2, nullDistinct := false, seen := [] }
          (res.1.builder, res.2)

/-- The method `distinctTransformation.Process`. -/
def distinctTransformation.Process (t : distinctTransformation) (_id : DatasetID)
    (tbl : Table) : distinctTransformation × Error :=
  match t.cache.TableBuilder tbl.Key with
  | (_, false, _) =>
    (t, some (newError "FailedPrecondition" "distinct found duplicate table with key"))
  | (builder, true, cache) =>
    ({ t with cache := GroupLookup.Set cache tbl.Key
                (distinctTransformation.Process.body t tbl builder).1 },
     (distinctTransformation.Process.body t tbl builder).2)

/-- The struct `hourSelectionTransformation` (without its dataset). The fields `location` and
`offset` are used in one call only, `date.GetTimeInLocation(time, t.location, t.offset)`,
whose result is read by `Hour()`; package `date` is outside the sources, and the two fields
are given as the function `localHour` from a time to its hour in the location, `none` when
`GetTimeInLocation` returns an error. -/
structure hourSelectionTransformation where
  cache : TableBuilderCache
  start : Int
  stop : Int
  localHour : Int → Option Int
  timeCol : String

/-- The inner loop of `hourSelectionTransformation.Process`, `for k := range cr.Cols()`: the
value of every column of row `i` is appended to the column `k` of the builder. -/
def hourSelectionTransformation.Process.appendRow (cr : ColReader) (i : Nat) :
    List ColMeta → Nat → ColListTableBuilder → ColListTableBuilder × Error
  | [], _, builder => (builder, none)
  | _ :: rest, k, builder =>
    match builder.AppendValue k (cr.ValueForRow i k) with
    | .error err => (builder, some err)
    | .ok builder1 => hourSelectionTransformation.Process.appendRow cr i rest (k + 1) builder1

/-- The test of `hourSelectionTransformation.Process` on the local hour of a row. -/
def hourSelectionTransformation.selects (t : hourSelectionTransformation) (lHour : Int) :
    Bool :=
  decide ((lHour ≥ t.start ∧ lHour ≤ t.stop)
    ∨ (t.start > t.stop ∧ (lHour ≥ t.start ∨ lHour ≤ t.stop)))

/-- The row loop of `hourSelectionTransformation.Process` over a reader, with `n` rows still
to come: a row with a null time is skipped, and a time whose hour cannot be found ends the
loop with a nil error. -/
def hourSelectionTransformation.Process.rows (t : hourSelectionTransformation) (colIdx : Nat)
    (cr : ColReader) : Nat → Nat → ColListTableBuilder → ColListTableBuilder × Error
  | 0, _, builder => (builder, none)
  | n + 1, i, builder =>
    if cr.ValueForRow i colIdx = .null then
      hourSelectionTransformation.Process.rows t colIdx cr n (i + 1) builder
    else
      match t.localHour (cr.Times colIdx i) with
      | none => (builder, none)
      | some lHour =>
        if t.selects lHour then
          match hourSelectionTransformation.Process.appendRow cr i cr.Cols 0 builder with
          | (builder1, some err) => (builder1, some err)
          | (builder1, none) =>
            hourSelectionTransformation.Process.rows t colIdx cr n (i + 1) builder1
        else hourSelectionTransformation.Process.rows t colIdx cr n (i + 1) builder

/-- The method `hourSelectionTransformation.Process` after the check of `created`: what it
does to the builder of the table, and the error it returns. -/
def hourSelectionTransformation.Process.body (t : hourSelectionTransformation) (tbl : Table)
    (builder : ColListTableBuilder) : ColListTableBuilder × Error :=
  match AddTableCols tbl builder with
  | (builder1, some err) => (builder1, some err)
  | (builder1, none) =>
    let colIdx := ColIdx t.timeCol tbl.Cols
    if colIdx < 0 then (builder1, some (newError "FailedPrecondition" "invalid time column"))
    else if t.start < 0 ∨ t.start > 23 then
      (builder1, some (newError "Invalid" "start must be between 0 and 23"))
    else if t.stop < 0 ∨ t.stop > 23 then
      (builder1, some (newError "Invalid" "stop must be between 0 and 23"))
    else
      tbl.Do (fun cr b => hourSelectionTransformation.Process.rows t colIdx.toNat cr cr.Len 0 b)
        builder1

/-- The method `hourSelectionTransformation.Process`. -/
def hourSelectionTransformation.Process (t : hourSelectionTransformation) (_id : DatasetID)
    (tbl : Table) : hourSelectionTransformation × Error :=
  match t.cache.TableBuilder tbl.Key with
  | (_, false, _) =>
    (t, some (newError "FailedPrecondition" "hour selection found duplicate table with key"))
  | (builder, true, cache) =>
    ({ t with cache := GroupLookup.Set cache tbl.Key
                (hourSelectionTransformation.Process.body t tbl builder).1 },
     (hourSelectionTransformation.Process.body t tbl builder).2)

/-- A group key with the one column `host`, of value `a`. -/
def hostKey : GroupKey :=
  { cols := [{ Label := "host", Typ := .TString }], values := [.string "a"] }

/-- The columns of the example tables: `host`, `_time` and `_value`. -/
def exampleCols : List ColMeta :=
  [{ Label := "host", Typ := .TString }, { Label := "_time", Typ := .TTime },
   { Label := "_value", Typ := .TInt }]

/-- A column reader over rows given as a time and a value, `none` for a null value, under
the key `hostKey`. -/
def exampleReader (id : Nat) (rows : List (Int × Option Int)) : ColReader :=
  { id := id
    Len := rows.length
    Cols := exampleCols
    Times := fun _ i => ((rows.get? i).getD (0, none)).1
    ValueForRow := fun i j =>
      match j with
      | 0 => .string "a"
      | 1 => .time ((rows.get? i).getD (0, none)).1
      | _ =>
        match ((rows.get? i).getD (0, none)).2 with
        | some v => .int v
        | none => .null }

/-- A table of two column readers under the key `hostKey`. -/
def exampleTable : Table :=
  { Key := hostKey
    Cols := exampleCols
    readers := [exampleReader 0 [(1, some 5), (2, some 5), (3, none)],
      exampleReader 1 [(4, some 7), (5, none), (6, some 5)]]
    doErr := none }

/-- A `distinct` transformation on the column `_value`, with an empty cache. -/
def exampleDistinct : distinctTransformation :=
  NewDistinctTransformation [] "_value"

/-- An `hourSelection` transformation for the hours 2 to 4, with an empty cache, in a
location where the hour of the time `n` is `n`, and unknown for the time 5. -/
def exampleHourSelection : hourSelectionTransformation :=
  { cache := [], start := 2, stop := 4,
    localHour := fun time => if time = 5 then none else some time,
    timeCol := "_time" }

/-- Follows the spec: the local hours an `hourSelection` keeps: `start <= h <= stop` when
`start <= stop`, and `h >= start` or `h <= stop` when `start > stop`, a range that wraps past
midnight. -/
def hourSelectionTransformation.keeps (t : hourSelectionTransformation) (h : Int) : Bool :=
  if t.start ≤ t.stop then decide (t.start ≤ h ∧ h ≤ t.stop)
  else decide (h ≥ t.start ∨ h ≤ t.stop)

/-- Follows the spec: whether row `i` of a reader is kept: its time is not null, and its
local hour is one of the hours kept. -/
def hourSelectionTransformation.keepsRow (t : hourSelectionTransformation) (colIdx : Nat)
    (cr : ColReader) (i : Nat) : Bool :=
  if cr.ValueForRow i colIdx = .null then false
  else
    match t.localHour (cr.Times colIdx i) with
    | none => false
    | some h => t.keeps h

/-- Follows the spec: the rows `is` of a reader appended to a builder one after the other,
every column of a row by `AppendValue`, up to the first error. -/
def appendRows (cr : ColReader) :
    List Nat → ColListTableBuilder → ColListTableBuilder × Error
  | [], builder => (builder, none)
  | i :: rest, builder =>
    match hourSelectionTransformation.Process.appendRow cr i cr.Cols 0 builder with
    | (builder1, some err) => (builder1, some err)
    | (builder1, none) => appendRows cr rest builder1

/-- A column reader with the one column `_time`, over times of which `none` is a null. -/
def timeReader (id : Nat) (times : List (Option Int)) : ColReader :=
  { id := id
    Len := times.length
    Cols := [{ Label := "_time", Typ := .TTime }]
    Times := fun _ i => ((times.get? i).getD none).getD 0
    ValueForRow := fun i _ =>
      match (times.get? i).getD none with
      | some time => .time time
      | none => .null }

/-- A table of two column readers with the one column `_time`, under the empty key. -/
def timeTable (first second : List (Option Int)) : Table :=
  { Key := { cols := [], values := [] }
    Cols := [{ Label := "_time", Typ := .TTime }]
    readers := [timeReader 0 first, timeReader 1 second]
    doErr := none }

/-- Modelled from the spec: a typed array of package `array` (`*array.Int`, `*array.Uint`),
through the methods the selectors call: `Len()`, `IsValid(i)` and `Value(i)`. -/
structure TypedArray (α : Type) where
  Len : Nat
  IsValid : Nat → Bool
  Value : Nat → α

/-- Modelled from the spec: the struct `execute.Row`, the values of one row. -/
structure Row where
  Values : List Value
deriving DecidableEq, Repr

/-- Modelled from the spec: `execute.ReadRow(i, cr)`, the values of row `i` of the reader in
the order of its columns. -/
def ReadRow (i : Nat) (cr : ColReader) : Row :=
  { Values := (List.range cr.Cols.length).map (fun j => cr.ValueForRow i j) }

/-- The struct `MaxSelector`. -/
structure MaxSelector where
  set : Bool
  rows : List Row
deriving DecidableEq, Repr

/-- The structs `MaxIntSelector` and `MaxUIntSelector`: the embedded `MaxSelector` and the
field `max`, of type `int64` or `uint64`. -/
structure MaxSelectorOf (α : Type) extends MaxSelector where
  max : α
deriving DecidableEq, Repr

/-- The struct `MaxIntSelector`. -/
abbrev MaxIntSelector := MaxSelectorOf Int

/-- The struct `MaxUIntSelector`. -/
abbrev MaxUIntSelector := MaxSelectorOf Nat

/-- The struct `MaxTimeSelector`, which embeds a `MaxIntSelector`. -/
structure MaxTimeSelector where
  MaxIntSelector : MaxIntSelector
deriving DecidableEq, Repr

/-- The method `MaxSelector.NewIntSelector`: `new(MaxIntSelector)`. -/
def MaxSelector.NewIntSelector : MaxIntSelector :=
  { set := false, rows := [], max := 0 }

/-- The method `MaxSelector.NewUIntSelector`: `new(MaxUIntSelector)`. -/
def MaxSelector.NewUIntSelector : MaxUIntSelector :=
  { set := false, rows := [], max := 0 }

/-- The method `MaxSelector.NewTimeSelector`: `new(MaxTimeSelector)`. -/
def MaxSelector.NewTimeSelector : MaxTimeSelector :=
  { MaxIntSelector := MaxSelector.NewIntSelector }

/-- The method `MaxSelector.Rows`; the nil slice is the empty list. -/
def MaxSelector.Rows (s : MaxSelector) : List Row :=
  if !s.set then [] else s.rows

/-- The method `MaxSelector.selectRow`. -/
def MaxSelector.selectRow (s : MaxSelector) (idx : Int) (cr : ColReader) : MaxSelector :=
  if idx ≥ 0 then { s with rows := [ReadRow idx.toNat cr] } else s

/-- The loop of `DoInt` and of `DoUInt`, whose bodies are the same text, from the index `i`
with `n` indices still to come: the selector and the variable `maxIdx`. -/
def doMax.loop {α : Type} [LinearOrder α] (vs : TypedArray α) :
    Nat → Nat → MaxSelectorOf α × Int → MaxSelectorOf α × Int
  | 0, _, st => st
  | n + 1, i, (s, maxIdx) =>
    if vs.IsValid i then
      if !s.set || vs.Value i > s.max then
        doMax.loop vs n (i + 1) ({ s with set := true, max := vs.Value i }, (i : Int))
      else doMax.loop vs n (i + 1) (s, maxIdx)
    else doMax.loop vs n (i + 1) (s, maxIdx)

/-- The body of `DoInt` and of `DoUInt`: the loop from `maxIdx := -1`, then
`s.selectRow(maxIdx, cr)`. -/
def doMax {α : Type} [LinearOrder α] (s : MaxSelectorOf α) (vs : TypedArray α)
    (cr : ColReader) : MaxSelectorOf α :=
  { (doMax.loop vs vs.Len 0 (s, -1)).1 with
    toMaxSelector :=
      (doMax.loop vs vs.Len 0 (s, -1)).1.toMaxSelector.selectRow
        (doMax.loop vs vs.Len 0 (s, -1)).2 cr }

/-- The method `MaxIntSelector.DoInt`. -/
def MaxIntSelector.DoInt (s : MaxIntSelector) (vs : TypedArray Int) (cr : ColReader) :
    MaxIntSelector :=
  doMax s vs cr

/-- The method `MaxUIntSelector.DoUInt`. -/
def MaxUIntSelector.DoUInt (s : MaxUIntSelector) (vs : TypedArray Nat) (cr : ColReader) :
    MaxUIntSelector :=
  doMax s vs cr

/-- The method `MaxTimeSelector.DoTime`: `s.MaxIntSelector.DoInt(vs, cr)`. -/
def MaxTimeSelector.DoTime (s : MaxTimeSelector) (vs : TypedArray Int) (cr : ColReader) :
    MaxTimeSelector :=
  { MaxIntSelector := MaxIntSelector.DoInt s.MaxIntSelector vs cr }

/-- Follows the spec: the non-null values of a sequence of batches with their rows, in batch
order and then index order. -/
def validEntries {α : Type} (batches : List (TypedArray α × ColReader)) : List (α × Row) :=
  batches.flatMap (fun b =>
    ((List.range b.1.Len).filter b.1.IsValid).map (fun i => (b.1.Value i, ReadRow i b.2)))

/-- Follows the spec: what a selector holds after the values `entries`: `set` is true if and
only if there is a non-null value; if so `max` is the maximum of the values and the selected
row is the first row that holds it; and if there is none, `Rows()` returns no row. -/
def selectsFirstMax {α : Type} [LinearOrder α] (s : MaxSelectorOf α)
    (entries : List (α × Row)) : Prop :=
  (s.set = true ↔ entries ≠ [])
    ∧ (entries ≠ [] →
        (∃ e ∈ entries, e.1 = s.max) ∧ (∀ e ∈ entries, e.1 ≤ s.max)
        ∧ ∃ e, entries.find? (fun e => decide (e.1 = s.max)) = some e
            ∧ s.toMaxSelector.Rows = [e.2])
    ∧ (entries = [] → s.toMaxSelector.Rows = [])

/-- A batch of integers over the example columns: the rows are given as a time and a value,
`none` for a null value, and the array is the column `_value`. -/
def intBatch (id : Nat) (rows : List (Int × Option Int)) : TypedArray Int × ColReader :=
  ({ Len := rows.length
     IsValid := fun i => ((rows.get? i).getD (0, none)).2.isSome
     Value := fun i => (((rows.get? i).getD (0, none)).2).getD 0 },
   exampleReader id rows)

/-- Follows the spec: a list of values with every repeated value removed, keeping first
occurrences in input order, where a value of `seen` counts as having occurred before; null is
a value like any other. -/
def distinctFrom (seen : List Value) : List Value → List Value
  | [] => []
  | v :: rest =>
    if v ∈ seen then distinctFrom seen rest else v :: distinctFrom (seen ++ [v]) rest

/-- Follows the spec: a column with every repeated value removed, keeping first occurrences
in input order. -/
def distinctValues (input : List Value) : List Value :=
  distinctFrom [] input

/-- Follows the spec: the values of column `j` of a table, over the rows of all its column
readers in order. -/
def columnValues (tbl : Table) (j : Nat) : List Value :=
  tbl.readers.flatMap (fun cr => (List.range cr.Len).map (fun i => cr.ValueForRow i j))

/-- The state of the row loop of `distinct` when the column `n` of the builder, the value
column, holds the values `out`: the builder has the columns `schema` and a list of values for
each, the flag `nullDistinct` tells whether `out` has a null, and the map of values seen
holds the other values of `out`. -/
def distinctState.holds (st : distinctState) (schema : List ColMeta) (n : Nat)
    (out : List Value) : Prop :=
  st.builder.colMeta = schema ∧ st.builder.cols.length = schema.length
    ∧ st.builder.cols[n]? = some out
    ∧ (st.nullDistinct = true ↔ Value.null ∈ out)
    ∧ ∀ v, v ∈ st.seen ↔ (v ∈ out ∧ v ≠ .null)

end universepkg

namespace plan

/-! ## Lemmas on the node store -/

@[simp] theorem NodeObj.edges_withEdges (o : NodeObj) (e : plan.edges) :
    (o.withEdges e).edges = e := by
  cases o <;> rfl

@[simp] theorem NodeObj.ID_withEdges (o : NodeObj) (e : plan.edges) :
    (o.withEdges e).ID = o.ID := by
  cases o <;> rfl

@[simp] theorem NodeObj.ProcedureSpec_withEdges (o : NodeObj) (e : plan.edges) :
    (o.withEdges e).ProcedureSpec = o.ProcedureSpec := by
  cases o <;> rfl

@[simp] theorem NodeObj.withEdges_withEdges (o : NodeObj) (e f : plan.edges) :
    (o.withEdges e).withEdges f = o.withEdges f := by
  cases o <;> rfl

@[simp] theorem NodeObj.withEdges_edges (o : NodeObj) : o.withEdges o.edges = o := by
  cases o <;> rfl

theorem Heap.ext_iff2 (h1 h2 : Heap) (hn : h1.nodes = h2.nodes) (hx : h1.next = h2.next) :
    h1 = h2 := by
  cases h1; cases h2; simp_all

@[simp] theorem Heap.Successors_setSuccessors (h : Heap) (n m : Node) (s : List Node) :
    (h.setSuccessors n s).Successors m = if m = n then s else h.Successors m := by
  unfold Heap.setSuccessors Heap.setEdges Heap.Successors
  by_cases hm : m = n
  · subst hm; simp
  · simp [hm, Function.update_noteq hm]

@[simp] theorem Heap.Predecessors_setSuccessors (h : Heap) (n m : Node) (s : List Node) :
    (h.setSuccessors n s).Predecessors m = h.Predecessors m := by
  unfold Heap.setSuccessors Heap.setEdges Heap.Predecessors
  by_cases hm : m = n
  · subst hm; simp
  · simp [hm, Function.update_noteq hm]

@[simp] theorem Heap.Predecessors_setPredecessors (h : Heap) (n m : Node) (s : List Node) :
    (h.setPredecessors n s).Predecessors m = if m = n then s else h.Predecessors m := by
  unfold Heap.setPredecessors Heap.setEdges Heap.Predecessors
  by_cases hm : m = n
  · subst hm; simp
  · simp [hm, Function.update_noteq hm]

@[simp] theorem Heap.Successors_setPredecessors (h : Heap) (n m : Node) (s : List Node) :
    (h.setPredecessors n s).Successors m = h.Successors m := by
  unfold Heap.setPredecessors Heap.setEdges Heap.Successors
  by_cases hm : m = n
  · subst hm; simp
  · simp [hm, Function.update_noteq hm]

@[simp] theorem Heap.ID_setSuccessors (h : Heap) (n m : Node) (s : List Node) :
    (h.setSuccessors n s).ID m = h.ID m := by
  unfold Heap.setSuccessors Heap.setEdges Heap.ID
  by_cases hm : m = n
  · subst hm; simp
  · simp [hm, Function.update_noteq hm]

@[simp] theorem Heap.ID_setPredecessors (h : Heap) (n m : Node) (s : List Node) :
    (h.setPredecessors n s).ID m = h.ID m := by
  unfold Heap.setPredecessors Heap.setEdges Heap.ID
  by_cases hm : m = n
  · subst hm; simp
  · simp [hm, Function.update_noteq hm]

@[simp] theorem Heap.ProcedureSpec_setSuccessors (h : Heap) (n m : Node) (s : List Node) :
    (h.setSuccessors n s).ProcedureSpec m = h.ProcedureSpec m := by
  unfold Heap.setSuccessors Heap.setEdges Heap.ProcedureSpec
  by_cases hm : m = n
  · subst hm; simp
  · simp [hm, Function.update_noteq hm]

@[simp] theorem Heap.ProcedureSpec_setPredecessors (h : Heap) (n m : Node) (s : List Node) :
    (h.setPredecessors n s).ProcedureSpec m = h.ProcedureSpec m := by
  unfold Heap.setPredecessors Heap.setEdges Heap.ProcedureSpec
  by_cases hm : m = n
  · subst hm; simp
  · simp [hm, Function.update_noteq hm]

@[simp] theorem Heap.next_setSuccessors (h : Heap) (n : Node) (s : List Node) :
    (h.setSuccessors n s).next = h.next := rfl

@[simp] theorem Heap.next_setPredecessors (h : Heap) (n : Node) (s : List Node) :
    (h.setPredecessors n s).next = h.next := rfl

theorem Heap.setSuccessors_setSuccessors (h : Heap) (n : Node) (s t : List Node) :
    (h.setSuccessors n s).setSuccessors n t = h.setSuccessors n t := by
  apply Heap.ext_iff2
  · unfold Heap.setSuccessors Heap.setEdges
    simp
  · rfl

theorem Heap.setSuccessors_self (h : Heap) (n : Node) (s : List Node)
    (hs : h.Successors n = s) : h.setSuccessors n s = h := by
  apply Heap.ext_iff2
  · unfold Heap.setSuccessors Heap.setEdges
    subst hs
    unfold Heap.Successors
    simp only [Function.update_eq_self_iff]
    exact NodeObj.withEdges_edges _
  · rfl

/-! ## The rewiring loops -/

theorem index_append_length (pre suf : List Node) (x : Node) :
    index (pre ++ x :: suf) pre.length = some x := by
  unfold index
  simp [List.getElem_append_right]

theorem assign_append_length (pre suf : List Node) (x v : Node) :
    assign (pre ++ x :: suf) pre.length v = some (pre ++ v :: suf) := by
  unfold assign
  simp

theorem rewireSuccessors_suffix (pred old new : Node) :
    ∀ (suf pre : List Node) (h : Heap), h.Successors pred = pre ++ suf →
      rewireSuccessors pred old new (List.range' pre.length suf.length) h
        = some (h.setSuccessors pred (pre ++ replaceAll old new suf)) := by
  intro suf
  induction suf with
  | nil =>
    intro pre h hs
    simp only [List.length_nil, List.range'_zero, rewireSuccessors, replaceAll, List.map_nil]
    rw [Heap.setSuccessors_self h pred _ hs]
  | cons x suf ih =>
    intro pre h hs
    simp only [List.length_cons, List.range'_succ, rewireSuccessors, hs, index_append_length]
    by_cases hx : x = old
    · simp only [hx, if_true, assign_append_length]
      have h1 := ih (pre ++ [new]) (h.setSuccessors pred (pre ++ new :: suf)) (by simp)
      simp only [List.length_append, List.length_singleton] at h1
      rw [h1, Heap.setSuccessors_setSuccessors]
      simp [replaceAll]
    · simp only [hx, if_false]
      have h1 := ih (pre ++ [x]) h (by simp [hs])
      simp only [List.length_append, List.length_singleton] at h1
      rw [h1]
      simp [replaceAll, hx]

theorem rewireSuccessors_range (pred old new : Node) (h : Heap) :
    rewireSuccessors pred old new (List.range (h.Successors pred).length) h
      = some (h.setSuccessors pred (replaceAll old new (h.Successors pred))) := by
  have h1 := rewireSuccessors_suffix pred old new (h.Successors pred) [] h (by simp)
  simpa [List.range_eq_range'] using h1

theorem replaceAll_idem (old new : Node) (s : List Node) :
    replaceAll old new (replaceAll old new s) = replaceAll old new s := by
  unfold replaceAll
  simp only [List.map_map]
  apply List.map_congr_left
  intro x _
  by_cases hx : x = old
  · by_cases hn : new = old <;> simp [hx, hn]
  · simp [hx]

/-- What the outer rewiring loop leaves: the successor lists of the visited predecessors
have `old` replaced by `new`, and nothing else in the store is touched. -/
theorem rewirePredecessors_spec (old new : Node) :
    ∀ (ps : List Node) (h : Heap), ∃ h2, rewirePredecessors old new ps h = some h2 ∧
      (∀ m, h2.Successors m
          = if m ∈ ps then replaceAll old new (h.Successors m) else h.Successors m) ∧
      (∀ m, h2.Predecessors m = h.Predecessors m) ∧
      (∀ m, h2.ID m = h.ID m) ∧
      (∀ m, h2.ProcedureSpec m = h.ProcedureSpec m) ∧
      h2.next = h.next := by
  intro ps
  induction ps with
  | nil =>
    intro h
    exact ⟨h, rfl, by simp, by simp, by simp, by simp, rfl⟩
  | cons p ps ih =>
    intro h
    obtain ⟨h2, hrun, hs, hp, hid, hsp, hn⟩ :=
      ih (h.setSuccessors p (replaceAll old new (h.Successors p)))
    refine ⟨h2, ?_, ?_, ?_, ?_, ?_, ?_⟩
    · simp only [rewirePredecessors, rewireSuccessors_range]
      exact hrun
    · intro m
      rw [hs m]
      by_cases hm : m = p
      · subst hm
        by_cases hmem : m ∈ ps <;> simp [hmem, replaceAll_idem]
      · by_cases hmem : m ∈ ps <;> simp [hmem, hm]
    · intro m; rw [hp m]; simp
    · intro m; rw [hid m]; simp
    · intro m; rw [hsp m]; simp
    · rw [hn]; rfl

/-! ## `mergePlanNodes` -/

theorem index_zero (s : List Node) : index s 0 = s.head? := by
  cases s <;> simp [index]

/-- The guard of `mergePlanNodes` fails: the error is returned and the store is untouched. -/
theorem mergePlanNodes_of_not (h : Heap) (top bottom merged : Node)
    (hc : (h.Predecessors top).length ≠ 1 ∨ (h.Successors bottom).length ≠ 1 ∨
      (h.Predecessors top).head? ≠ some bottom) :
    mergePlanNodes h top bottom merged = .ret (.error (mergeError h top bottom)) h := by
  unfold mergePlanNodes
  by_cases h1 : (h.Predecessors top).length = 1
  · by_cases h2 : (h.Successors bottom).length = 1
    · have h3 : (h.Predecessors top).head? ≠ some bottom := by
        rcases hc with hc | hc | hc
        · exact absurd h1 hc
        · exact absurd h2 hc
        · exact hc
      rw [index_zero]
      cases hd : (h.Predecessors top).head? with
      | none =>
        exfalso
        rw [List.head?_eq_none_iff] at hd
        rw [hd] at h1
        simp at h1
      | some p =>
        have hp : p ≠ bottom := by
          intro hpb
          apply h3
          rw [hd, hpb]
        simp [h1, h2, hp]
    · simp [h1, h2]
  · simp [h1]

/-- The guard of `mergePlanNodes` passes: the merged node is returned, it has received the
predecessors of `bottom`, and those predecessors have been rewired. -/
theorem mergePlanNodes_of_adjacent (h : Heap) (top bottom merged : Node)
    (h1 : (h.Predecessors top).length = 1) (h2 : (h.Successors bottom).length = 1)
    (h3 : (h.Predecessors top).head? = some bottom) :
    ∃ h2, mergePlanNodes h top bottom merged = .ret (.ok merged) h2 ∧
      (∀ m, h2.Successors m
          = if m ∈ h.Predecessors merged ++ h.Predecessors bottom
            then replaceAll bottom merged (h.Successors m) else h.Successors m) ∧
      (∀ m, h2.Predecessors m
          = if m = merged then h.Predecessors merged ++ h.Predecessors bottom
            else h.Predecessors m) ∧
      (∀ m, h2.ID m = h.ID m) ∧
      (∀ m, h2.ProcedureSpec m = h.ProcedureSpec m) ∧
      h2.next = h.next := by
  obtain ⟨hh, hrun, hs, hp, hid, hsp, hn⟩ :=
    rewirePredecessors_spec bottom merged
      ((h.AddPredecessors merged (h.Predecessors bottom)).Predecessors merged)
      (h.AddPredecessors merged (h.Predecessors bottom))
  refine ⟨hh, ?_, ?_, ?_, ?_, ?_, ?_⟩
  · unfold mergePlanNodes
    rw [index_zero, h3]
    simp only [h1, h2, ne_eq, not_true_eq_false, if_false]
    rw [hrun]
  · intro m
    rw [hs m]
    simp [Heap.AddPredecessors]
  · intro m
    rw [hp m]
    simp [Heap.AddPredecessors]
  · intro m; rw [hid m]; simp [Heap.AddPredecessors]
  · intro m; rw [hsp m]; simp [Heap.AddPredecessors]
  · rw [hn]; rfl

/-! ## Allocation -/

@[simp] theorem Heap.Predecessors_alloc (h : Heap) (o : NodeObj) (m : Node) :
    (h.alloc o).2.Predecessors m
      = if m = h.next then o.edges.predecessors else h.Predecessors m := by
  unfold Heap.alloc Heap.Predecessors
  by_cases hm : m = h.next
  · subst hm; simp
  · simp [hm, Function.update_noteq hm]

@[simp] theorem Heap.Successors_alloc (h : Heap) (o : NodeObj) (m : Node) :
    (h.alloc o).2.Successors m
      = if m = h.next then o.edges.successors else h.Successors m := by
  unfold Heap.alloc Heap.Successors
  by_cases hm : m = h.next
  · subst hm; simp
  · simp [hm, Function.update_noteq hm]

@[simp] theorem Heap.ID_alloc (h : Heap) (o : NodeObj) (m : Node) :
    (h.alloc o).2.ID m = if m = h.next then o.ID else h.ID m := by
  unfold Heap.alloc Heap.ID
  by_cases hm : m = h.next
  · subst hm; simp
  · simp [hm, Function.update_noteq hm]

@[simp] theorem Heap.ProcedureSpec_alloc (h : Heap) (o : NodeObj) (m : Node) :
    (h.alloc o).2.ProcedureSpec m
      = if m = h.next then o.ProcedureSpec else h.ProcedureSpec m := by
  unfold Heap.alloc Heap.ProcedureSpec
  by_cases hm : m = h.next
  · subst hm; simp
  · simp [hm, Function.update_noteq hm]

@[simp] theorem Heap.alloc_fst (h : Heap) (o : NodeObj) : (h.alloc o).1 = h.next := rfl

@[simp] theorem Heap.next_alloc (h : Heap) (o : NodeObj) : (h.alloc o).2.next = h.next + 1 := rfl

theorem Heap.nodes_alloc_of_ne (h : Heap) (o : NodeObj) (m : Node) (hm : m ≠ h.next) :
    (h.alloc o).2.nodes m = h.nodes m := by
  unfold Heap.alloc
  simp [Function.update_noteq hm]

/-- Merging into a freshly allocated node with empty edge lists: either the guard fails and
the error is returned, or the fresh node is returned with the predecessors of `bottom`. -/
theorem mergePlanNodes_alloc (h : Heap) (top bottom : Node) (o : NodeObj)
    (ho : o.edges = { predecessors := [], successors := [] })
    (htop : top ≠ h.next) (hbottom : bottom ≠ h.next) :
    (((h.Predecessors top).length ≠ 1 ∨ (h.Successors bottom).length ≠ 1 ∨
        (h.Predecessors top).head? ≠ some bottom) ∧
      mergePlanNodes (h.alloc o).2 top bottom (h.alloc o).1
        = .ret (.error (mergeError (h.alloc o).2 top bottom)) (h.alloc o).2) ∨
    (((h.Predecessors top).length = 1 ∧ (h.Successors bottom).length = 1 ∧
        (h.Predecessors top).head? = some bottom) ∧
      ∃ h2, mergePlanNodes (h.alloc o).2 top bottom (h.alloc o).1 = .ret (.ok h.next) h2 ∧
        (∀ m, m ≠ h.next → h2.Successors m
            = if m ∈ h.Predecessors bottom then replaceAll bottom h.next (h.Successors m)
              else h.Successors m) ∧
        h2.Successors h.next = [] ∧
        h2.Predecessors h.next = h.Predecessors bottom ∧
        (∀ m, m ≠ h.next → h2.Predecessors m = h.Predecessors m) ∧
        h2.ProcedureSpec h.next = o.ProcedureSpec) := by
  by_cases hc : (h.Predecessors top).length = 1 ∧ (h.Successors bottom).length = 1 ∧
      (h.Predecessors top).head? = some bottom
  · right
    refine ⟨hc, ?_⟩
    obtain ⟨c1, c2, c3⟩ := hc
    obtain ⟨h2, hrun, hs, hp, _, hsp, _⟩ :=
      mergePlanNodes_of_adjacent (h.alloc o).2 top bottom (h.alloc o).1
        (by simpa [htop] using c1) (by simpa [hbottom] using c2) (by simpa [htop] using c3)
    refine ⟨h2, hrun, ?_, ?_, ?_, ?_, ?_⟩
    · intro m hm
      rw [hs m]
      simp [hm, hbottom, ho]
    · rw [hs h.next]
      simp [ho, replaceAll]
    · rw [hp h.next]
      simp [ho, hbottom]
    · intro m hm
      rw [hp m]
      simp [hm]
    · rw [hsp h.next]
      simp
  · left
    have hc2 : (h.Predecessors top).length ≠ 1 ∨ (h.Successors bottom).length ≠ 1 ∨
        (h.Predecessors top).head? ≠ some bottom := by
      by_contra hn
      push_neg at hn
      exact hc hn
    refine ⟨hc2, ?_⟩
    apply mergePlanNodes_of_not
    simpa [htop, hbottom] using hc2

/-! ## Claims on merging -/

/-- C1: `mergePlanNodes`, and `MergeToLogicalNode` and `MergeToPhysicalNode` through it, always
return (they never index out of range), and the result carries an error exactly when `top`
does not have exactly one predecessor, or `bottom` does not have exactly one successor, or
the single predecessor of `top` is not `bottom`. Here `top` and `bottom` are allocated
nodes, with any edge lists, empty ones included. -/
theorem merge_error_iff (h : Heap) (top bottom : Node) (procSpec : ProcedureSpec)
    (htop : top < h.next) (hbottom : bottom < h.next) :
    (∀ merged, ∃ r h2, mergePlanNodes h top bottom merged = .ret r h2 ∧
      (isError r = true ↔
        ((h.Predecessors top).length ≠ 1 ∨ (h.Successors bottom).length ≠ 1 ∨
          (h.Predecessors top).head? ≠ some bottom))) ∧
    (∃ r h2, MergeToLogicalNode h top bottom procSpec = .ret r h2 ∧
      (isError r = true ↔
        ((h.Predecessors top).length ≠ 1 ∨ (h.Successors bottom).length ≠ 1 ∨
          (h.Predecessors top).head? ≠ some bottom))) ∧
    (∃ r h2, MergeToPhysicalNode h top bottom procSpec = .ret r h2 ∧
      (isError r = true ↔
        ((h.Predecessors top).length ≠ 1 ∨ (h.Successors bottom).length ≠ 1 ∨
          (h.Predecessors top).head? ≠ some bottom))) := by
  refine ⟨?_, ?_, ?_⟩
  · intro merged
    by_cases hc : (h.Predecessors top).length ≠ 1 ∨ (h.Successors bottom).length ≠ 1 ∨
        (h.Predecessors top).head? ≠ some bottom
    · exact ⟨_, _, mergePlanNodes_of_not h top bottom merged hc, by simp [isError, hc]⟩
    · have hc2 := hc
      push_neg at hc2
      obtain ⟨h2, hrun, _⟩ := mergePlanNodes_of_adjacent h top bottom merged hc2.1 hc2.2.1 hc2.2.2
      exact ⟨_, _, hrun, by simp only [isError, hc]; simp⟩
  · rcases mergePlanNodes_alloc h top bottom
        (.logical { edges := { predecessors := [], successors := [] },
                    id := mergeIDs (h.ID top) (h.ID bottom), Spec := procSpec })
        rfl (Nat.ne_of_lt htop) (Nat.ne_of_lt hbottom) with ⟨hc, hrun⟩ | ⟨hc, h2, hrun, _⟩
    · exact ⟨_, _, hrun, by simp [isError, hc]⟩
    · refine ⟨_, _, hrun, ?_⟩
      simp only [isError]
      constructor
      · intro hf; cases hf
      · intro hf
        exfalso
        rcases hf with hf | hf | hf
        · exact hf hc.1
        · exact hf hc.2.1
        · exact hf hc.2.2
  · rcases mergePlanNodes_alloc h top bottom
        (.physical { edges := { predecessors := [], successors := [] },
                     id := mergeIDs (h.ID top) (h.ID bottom), Spec := procSpec })
        rfl (Nat.ne_of_lt htop) (Nat.ne_of_lt hbottom) with ⟨hc, hrun⟩ | ⟨hc, h2, hrun, _⟩
    · exact ⟨_, _, hrun, by simp [isError, hc]⟩
    · refine ⟨_, _, hrun, ?_⟩
      simp only [isError]
      constructor
      · intro hf; cases hf
      · intro hf
        exfalso
        rcases hf with hf | hf | hf
        · exact hf hc.1
        · exact hf hc.2.1
        · exact hf hc.2.2

/-- Witness of C1 on the chain `from0 -> filter1 -> filter2 -> yield3`, merging `filter2` (top)
onto `filter1` (bottom). -/
theorem merge_error_iff_witness :
    (2 < chainHeap.next ∧ 1 < chainHeap.next) ∧
    ((∀ merged, ∃ r h2, mergePlanNodes chainHeap 2 1 merged = .ret r h2 ∧
      (isError r = true ↔
        ((chainHeap.Predecessors 2).length ≠ 1 ∨ (chainHeap.Successors 1).length ≠ 1 ∨
          (chainHeap.Predecessors 2).head? ≠ some 1))) ∧
    (∃ r h2, MergeToLogicalNode chainHeap 2 1 { kind := "filter", params := [] } = .ret r h2 ∧
      (isError r = true ↔
        ((chainHeap.Predecessors 2).length ≠ 1 ∨ (chainHeap.Successors 1).length ≠ 1 ∨
          (chainHeap.Predecessors 2).head? ≠ some 1))) ∧
    (∃ r h2, MergeToPhysicalNode chainHeap 2 1 { kind := "filter", params := [] } = .ret r h2 ∧
      (isError r = true ↔
        ((chainHeap.Predecessors 2).length ≠ 1 ∨ (chainHeap.Successors 1).length ≠ 1 ∨
          (chainHeap.Predecessors 2).head? ≠ some 1)))) :=
  ⟨⟨by decide, by decide⟩,
    merge_error_iff chainHeap 2 1 { kind := "filter", params := [] } (by decide) (by decide)⟩

/-- C2: when `mergePlanNodes` returns an error the node store is exactly the one before the
call, so every predecessor and successor list is unchanged; through `MergeToLogicalNode` and
`MergeToPhysicalNode` the only difference is the unused merged node that was allocated. -/
theorem merge_error_leaves_graph (h : Heap) (top bottom : Node) :
    (∀ merged, (mergePlanNodes h top bottom merged).failed = true →
      (mergePlanNodes h top bottom merged).heap? = some h) ∧
    (∀ procSpec, (MergeToLogicalNode h top bottom procSpec).failed = true →
      ∃ h2, (MergeToLogicalNode h top bottom procSpec).heap? = some h2 ∧
        ∀ n, n ≠ h.next → h2.nodes n = h.nodes n) ∧
    (∀ procSpec, (MergeToPhysicalNode h top bottom procSpec).failed = true →
      ∃ h2, (MergeToPhysicalNode h top bottom procSpec).heap? = some h2 ∧
        ∀ n, n ≠ h.next → h2.nodes n = h.nodes n) := by
  have key : ∀ (g : Heap) (merged : Node), (mergePlanNodes g top bottom merged).failed = true →
      (mergePlanNodes g top bottom merged).heap? = some g := by
    intro g merged hf
    by_cases hc : (g.Predecessors top).length ≠ 1 ∨ (g.Successors bottom).length ≠ 1 ∨
        (g.Predecessors top).head? ≠ some bottom
    · rw [mergePlanNodes_of_not g top bottom merged hc]
      rfl
    · push_neg at hc
      obtain ⟨h2, hrun, _⟩ := mergePlanNodes_of_adjacent g top bottom merged hc.1 hc.2.1 hc.2.2
      rw [hrun] at hf
      simp [Exec.failed, isError] at hf
  refine ⟨key h, ?_, ?_⟩
  · intro procSpec hf
    exact ⟨_, key _ _ hf, fun n hn => Heap.nodes_alloc_of_ne h _ n hn⟩
  · intro procSpec hf
    exact ⟨_, key _ _ hf, fun n hn => Heap.nodes_alloc_of_ne h _ n hn⟩

/-- Witness of C2: merging `yield3` onto `filter1`, which are not adjacent, fails. -/
theorem merge_error_leaves_graph_witness :
    (mergePlanNodes chainHeap 3 1 0).failed = true ∧
    (mergePlanNodes chainHeap 3 1 0).heap? = some chainHeap :=
  ⟨by decide, (merge_error_leaves_graph chainHeap 3 1).1 0 (by decide)⟩

theorem getElem?_replaceAll (old new : Node) (s : List Node) (i : Nat) (x : Node)
    (hx : s[i]? = some x) :
    (replaceAll old new s)[i]? = some (if x = old then new else x) := by
  unfold replaceAll
  simp [List.getElem?_map, hx]

theorem not_mem_replaceAll (old new : Node) (s : List Node) (hne : new ≠ old) :
    old ∉ replaceAll old new s := by
  unfold replaceAll
  intro hmem
  obtain ⟨x, _, hx⟩ := List.mem_map.mp hmem
  by_cases hxo : x = old
  · rw [if_pos hxo] at hx
    exact hne hx
  · rw [if_neg hxo] at hx
    exact hxo hx

theorem succeeded_ret_error (e : String) (g : Heap) :
    (Exec.ret (Except.error e : NodeOrError) g).succeeded = false := rfl

/-- The rewiring part of a successful merge into a fresh node. -/
theorem merge_alloc_rewires (h : Heap) (top bottom : Node) (o : NodeObj)
    (ho : o.edges = { predecessors := [], successors := [] })
    (hwf : h.WellFormed) (htop : top < h.next) (hbottom : bottom < h.next)
    (hs : (mergePlanNodes (h.alloc o).2 top bottom (h.alloc o).1).succeeded = true) :
    ∃ merged h2, mergePlanNodes (h.alloc o).2 top bottom (h.alloc o).1 = .ret (.ok merged) h2 ∧
      ∀ p ∈ h.Predecessors bottom,
        h2.Successors p = replaceAll bottom merged (h.Successors p) ∧
        (h2.Successors p).length = (h.Successors p).length ∧
        (∀ (i : Nat) (x : Node), (h.Successors p)[i]? = some x →
          (h2.Successors p)[i]? = some (if x = bottom then merged else x)) ∧
        bottom ∉ h2.Successors p := by
  rcases mergePlanNodes_alloc h top bottom o ho (Nat.ne_of_lt htop) (Nat.ne_of_lt hbottom)
    with ⟨_, hrun⟩ | ⟨_, h2, hrun, hsucc, _⟩
  · rw [hrun, succeeded_ret_error] at hs
    cases hs
  · refine ⟨h.next, h2, hrun, ?_⟩
    intro p hp
    have hpn : p ≠ h.next := Nat.ne_of_lt ((hwf bottom hbottom).1 p hp)
    have heq : h2.Successors p = replaceAll bottom h.next (h.Successors p) := by
      rw [hsucc p hpn]
      simp [hp]
    refine ⟨heq, ?_, ?_, ?_⟩
    · rw [heq]; simp [replaceAll]
    · intro i x hx
      rw [heq]
      exact getElem?_replaceAll bottom h.next _ i x hx
    · rw [heq]
      exact not_mem_replaceAll bottom h.next _ (Ne.symm (Nat.ne_of_lt hbottom))

/-- C3: on a successful merge, every predecessor `p` of `bottom` has, after the call, its old
successor list with every occurrence of `bottom` replaced by the merged node at the same
position: same length, the other entries kept, and `bottom` no longer among them. Here
`top` and `bottom` are allocated nodes of a well-formed store. -/
theorem merge_rewires_successors (h : Heap) (top bottom : Node) (procSpec : ProcedureSpec)
    (hwf : h.WellFormed) (htop : top < h.next) (hbottom : bottom < h.next) :
    ((MergeToLogicalNode h top bottom procSpec).succeeded = true →
      ∃ merged h2, MergeToLogicalNode h top bottom procSpec = .ret (.ok merged) h2 ∧
        ∀ p ∈ h.Predecessors bottom,
          h2.Successors p = replaceAll bottom merged (h.Successors p) ∧
          (h2.Successors p).length = (h.Successors p).length ∧
          (∀ (i : Nat) (x : Node), (h.Successors p)[i]? = some x →
            (h2.Successors p)[i]? = some (if x = bottom then merged else x)) ∧
          bottom ∉ h2.Successors p) ∧
    ((MergeToPhysicalNode h top bottom procSpec).succeeded = true →
      ∃ merged h2, MergeToPhysicalNode h top bottom procSpec = .ret (.ok merged) h2 ∧
        ∀ p ∈ h.Predecessors bottom,
          h2.Successors p = replaceAll bottom merged (h.Successors p) ∧
          (h2.Successors p).length = (h.Successors p).length ∧
          (∀ (i : Nat) (x : Node), (h.Successors p)[i]? = some x →
            (h2.Successors p)[i]? = some (if x = bottom then merged else x)) ∧
          bottom ∉ h2.Successors p) :=
  ⟨fun hs => merge_alloc_rewires h top bottom _ rfl hwf htop hbottom hs,
   fun hs => merge_alloc_rewires h top bottom _ rfl hwf htop hbottom hs⟩

theorem chainHeap_wellFormed : chainHeap.WellFormed := by
  intro n hn
  have hn4 : n < 4 := hn
  interval_cases n <;> decide

/-- Witness of C3: merging `filter2` onto `filter1` in the chain succeeds. -/
theorem merge_rewires_successors_witness :
    (chainHeap.WellFormed ∧ 2 < chainHeap.next ∧ 1 < chainHeap.next ∧
      (MergeToLogicalNode chainHeap 2 1 { kind := "filter", params := [] }).succeeded = true ∧
      (MergeToPhysicalNode chainHeap 2 1 { kind := "filter", params := [] }).succeeded = true) ∧
    (∃ merged h2, MergeToLogicalNode chainHeap 2 1 { kind := "filter", params := [] }
        = .ret (.ok merged) h2 ∧
      ∀ p ∈ chainHeap.Predecessors 1,
        h2.Successors p = replaceAll 1 merged (chainHeap.Successors p) ∧
        (h2.Successors p).length = (chainHeap.Successors p).length ∧
        (∀ (i : Nat) (x : Node), (chainHeap.Successors p)[i]? = some x →
          (h2.Successors p)[i]? = some (if x = 1 then merged else x)) ∧
        1 ∉ h2.Successors p) ∧
    (∃ merged h2, MergeToPhysicalNode chainHeap 2 1 { kind := "filter", params := [] }
        = .ret (.ok merged) h2 ∧
      ∀ p ∈ chainHeap.Predecessors 1,
        h2.Successors p = replaceAll 1 merged (chainHeap.Successors p) ∧
        (h2.Successors p).length = (chainHeap.Successors p).length ∧
        (∀ (i : Nat) (x : Node), (chainHeap.Successors p)[i]? = some x →
          (h2.Successors p)[i]? = some (if x = 1 then merged else x)) ∧
        1 ∉ h2.Successors p) :=
  ⟨⟨chainHeap_wellFormed, by decide, by decide, by decide, by decide⟩,
   (merge_rewires_successors chainHeap 2 1 { kind := "filter", params := [] }
      chainHeap_wellFormed (by decide) (by decide)).1 (by decide),
   (merge_rewires_successors chainHeap 2 1 { kind := "filter", params := [] }
      chainHeap_wellFormed (by decide) (by decide)).2 (by decide)⟩

/-- The node returned by a successful merge into a fresh node. -/
theorem merge_alloc_result (h : Heap) (top bottom : Node) (o : NodeObj)
    (ho : o.edges = { predecessors := [], successors := [] })
    (htop : top < h.next) (hbottom : bottom < h.next)
    (hs : (mergePlanNodes (h.alloc o).2 top bottom (h.alloc o).1).succeeded = true) :
    ∃ merged h2, mergePlanNodes (h.alloc o).2 top bottom (h.alloc o).1 = .ret (.ok merged) h2 ∧
      h2.Predecessors merged = h.Predecessors bottom ∧
      h2.Predecessors bottom = h.Predecessors bottom ∧
      h2.Successors merged = [] ∧
      h2.ProcedureSpec merged = o.ProcedureSpec := by
  rcases mergePlanNodes_alloc h top bottom o ho (Nat.ne_of_lt htop) (Nat.ne_of_lt hbottom)
    with ⟨_, hrun⟩ | ⟨_, h2, hrun, _, hsucc, hpred, hpreds, hspec⟩
  · rw [hrun, succeeded_ret_error] at hs
    cases hs
  · exact ⟨h.next, h2, hrun, hpred, hpreds bottom (Nat.ne_of_lt hbottom), hsucc, hspec⟩

/-- C4: on a successful merge the returned node has the predecessor list of `bottom` (same
nodes, same order; `bottom` itself keeps that list), an empty successor list, and the
procedure spec the caller passed. Here `top` and `bottom` are allocated nodes. -/
theorem merge_result_node (h : Heap) (top bottom : Node) (procSpec : ProcedureSpec)
    (htop : top < h.next) (hbottom : bottom < h.next) :
    ((MergeToLogicalNode h top bottom procSpec).succeeded = true →
      ∃ merged h2, MergeToLogicalNode h top bottom procSpec = .ret (.ok merged) h2 ∧
        h2.Predecessors merged = h.Predecessors bottom ∧
        h2.Predecessors bottom = h.Predecessors bottom ∧
        h2.Successors merged = [] ∧
        h2.ProcedureSpec merged = procSpec) ∧
    ((MergeToPhysicalNode h top bottom procSpec).succeeded = true →
      ∃ merged h2, MergeToPhysicalNode h top bottom procSpec = .ret (.ok merged) h2 ∧
        h2.Predecessors merged = h.Predecessors bottom ∧
        h2.Predecessors bottom = h.Predecessors bottom ∧
        h2.Successors merged = [] ∧
        h2.ProcedureSpec merged = procSpec) :=
  ⟨fun hs => merge_alloc_result h top bottom _ rfl htop hbottom hs,
   fun hs => merge_alloc_result h top bottom _ rfl htop hbottom hs⟩

/-- Witness of C4: merging `filter2` onto `filter1` in the chain succeeds. -/
theorem merge_result_node_witness :
    (2 < chainHeap.next ∧ 1 < chainHeap.next ∧
      (MergeToLogicalNode chainHeap 2 1 { kind := "filter", params := [7] }).succeeded = true ∧
      (MergeToPhysicalNode chainHeap 2 1 { kind := "filter", params := [7] }).succeeded = true) ∧
    (∃ merged h2, MergeToLogicalNode chainHeap 2 1 { kind := "filter", params := [7] }
        = .ret (.ok merged) h2 ∧
      h2.Predecessors merged = chainHeap.Predecessors 1 ∧
      h2.Predecessors 1 = chainHeap.Predecessors 1 ∧
      h2.Successors merged = [] ∧
      h2.ProcedureSpec merged = { kind := "filter", params := [7] }) ∧
    (∃ merged h2, MergeToPhysicalNode chainHeap 2 1 { kind := "filter", params := [7] }
        = .ret (.ok merged) h2 ∧
      h2.Predecessors merged = chainHeap.Predecessors 1 ∧
      h2.Predecessors 1 = chainHeap.Predecessors 1 ∧
      h2.Successors merged = [] ∧
      h2.ProcedureSpec merged = { kind := "filter", params := [7] }) :=
  ⟨⟨by decide, by decide, by decide, by decide⟩,
   (merge_result_node chainHeap 2 1 { kind := "filter", params := [7] }
      (by decide) (by decide)).1 (by decide),
   (merge_result_node chainHeap 2 1 { kind := "filter", params := [7] }
      (by decide) (by decide)).2 (by decide)⟩

/-! ## `SwapPlanNodes` -/

theorem swapLoop_suffix (bottom newBottom w : Node) :
    ∀ (suf pre : List Node) (h : Heap), h.Successors w = pre ++ suf →
      (h.Predecessors bottom).head? = some w →
      swapLoop bottom newBottom w (List.range' pre.length suf.length) h
        = some (h.setSuccessors w (pre ++ replaceFirst bottom newBottom suf)) := by
  intro suf
  induction suf with
  | nil =>
    intro pre h hs _
    simp only [List.length_nil, List.range'_zero, swapLoop, replaceFirst]
    rw [Heap.setSuccessors_self h w _ hs]
  | cons x suf ih =>
    intro pre h hs hw
    simp only [List.length_cons, List.range'_succ, swapLoop, hs, index_append_length]
    by_cases hx : x = bottom
    · simp only [hx, if_true, index_zero, hw, hs, assign_append_length, replaceFirst]
    · simp only [hx, if_false]
      have h1 := ih (pre ++ [x]) h (by simp [hs]) hw
      simp only [List.length_append, List.length_singleton] at h1
      rw [h1]
      simp [replaceFirst, hx]

theorem swapLoop_range (bottom newBottom w : Node) (h : Heap)
    (hw : (h.Predecessors bottom).head? = some w) :
    swapLoop bottom newBottom w (List.range (h.Successors w).length) h
      = some (h.setSuccessors w (replaceFirst bottom newBottom (h.Successors w))) := by
  have h1 := swapLoop_suffix bottom newBottom w (h.Successors w) [] h (by simp) hw
  simpa [List.range_eq_range'] using h1

@[simp] theorem NodeObj.ProcedureSpec_ShallowCopy (o : NodeObj) :
    o.ShallowCopy.ProcedureSpec = o.ProcedureSpec := by
  cases o <;> rfl

@[simp] theorem NodeObj.ID_ShallowCopy (o : NodeObj) : o.ShallowCopy.ID = o.ID ++ "_copy" := by
  cases o <;> rfl

@[simp] theorem NodeObj.edges_ShallowCopy (o : NodeObj) :
    o.ShallowCopy.edges = { predecessors := [], successors := [] } := by
  cases o <;> rfl

/-- The guard of `SwapPlanNodes` fails: the error is returned and the store is untouched. -/
theorem SwapPlanNodes_of_not (h : Heap) (top bottom : Node)
    (hc : (h.Predecessors top).length ≠ 1 ∨ (h.Successors bottom).length ≠ 1 ∨
      (h.Predecessors bottom).length ≠ 1) :
    SwapPlanNodes h top bottom = .ret (.error (swapError h top bottom)) h := by
  unfold SwapPlanNodes
  by_cases h1 : (h.Predecessors top).length = 1
  · by_cases h2 : (h.Successors bottom).length = 1
    · have h3 : (h.Predecessors bottom).length ≠ 1 := by
        rcases hc with hc | hc | hc
        · exact absurd h1 hc
        · exact absurd h2 hc
        · exact hc
      simp [h1, h2, h3]
    · simp [h1, h2]
  · simp [h1]

/-- The guard of `SwapPlanNodes` passes: `bottom` is returned, and the store is described
node by node, with `w` the predecessor of `bottom` and the copy of `top` at the fresh address. -/
theorem SwapPlanNodes_of_guard (h : Heap) (top bottom w : Node)
    (h1 : (h.Predecessors top).length = 1) (h2 : (h.Successors bottom).length = 1)
    (h3 : h.Predecessors bottom = [w]) (hb : bottom ≠ h.next) (hw : w ≠ h.next) :
    ∃ g, SwapPlanNodes h top bottom = .ret (.ok bottom) g ∧
      (∀ m, g.Predecessors m
          = if m = bottom then [h.next] else if m = h.next then [w] else h.Predecessors m) ∧
      (∀ m, g.Successors m
          = if m = bottom then [] else if m = h.next then [bottom]
            else if m = w then replaceFirst bottom h.next (h.Successors w)
            else h.Successors m) ∧
      (∀ m, g.ProcedureSpec m
          = if m = h.next then h.ProcedureSpec top else h.ProcedureSpec m) ∧
      (∀ m, g.ID m = if m = h.next then h.ID top ++ "_copy" else h.ID m) := by
  have hlen : (h.Predecessors bottom).length = 1 := by rw [h3]; rfl
  have e3 : ((((h.ShallowCopy top).2.ClearSuccessors h.next).ClearPredecessors h.next).AddSuccessors
      h.next [bottom]).Predecessors bottom = [w] := by
    simp [Heap.ShallowCopy, Heap.ClearSuccessors, Heap.ClearPredecessors, Heap.AddSuccessors,
      hb, h3]
  obtain ⟨h4, hh4⟩ : ∃ h4, h4 = ((((h.ShallowCopy top).2.ClearSuccessors h.next).ClearPredecessors
      h.next).AddSuccessors h.next [bottom]).AddPredecessors h.next [w] := ⟨_, rfl⟩
  have e4 : h4.Predecessors bottom = [w] := by
    rw [hh4]
    simp [Heap.ShallowCopy, Heap.ClearSuccessors, Heap.ClearPredecessors, Heap.AddSuccessors,
      Heap.AddPredecessors, hb, h3]
  refine ⟨(((h4.setSuccessors w (replaceFirst bottom h.next (h4.Successors w))).ClearPredecessors
      bottom).AddPredecessors bottom [h.next]).ClearSuccessors bottom, ?_, ?_, ?_, ?_, ?_⟩
  · unfold SwapPlanNodes
    simp only [h1, h2, hlen, ne_eq, not_true_eq_false, if_false]
    have a1 : (h.ShallowCopy top).1 = h.next := rfl
    simp only [a1, index_zero, e3, List.head?_cons, ← hh4, e4]
    rw [swapLoop_range _ _ _ _ (by rw [e4]; rfl)]
  · intro m
    rw [hh4]
    simp only [Heap.ShallowCopy, Heap.ClearSuccessors, Heap.ClearPredecessors, Heap.AddSuccessors,
      Heap.AddPredecessors, Heap.Predecessors_setPredecessors, Heap.Predecessors_setSuccessors,
      Heap.Predecessors_alloc]
    by_cases hmb : m = bottom
    · simp [hmb]
    · by_cases hmn : m = h.next
      · simp [hmn, hb, Ne.symm hb]
      · simp [hmb, hmn]
  · intro m
    rw [hh4]
    simp only [Heap.ShallowCopy, Heap.ClearSuccessors, Heap.ClearPredecessors, Heap.AddSuccessors,
      Heap.AddPredecessors, Heap.Successors_setPredecessors, Heap.Successors_setSuccessors,
      Heap.Successors_alloc]
    by_cases hmb : m = bottom
    · simp [hmb]
    · by_cases hmn : m = h.next
      · simp [hmb, hmn, hw, Ne.symm hw]
      · by_cases hmw : m = w
        · simp [hmb, hmn, hmw, hw]
        · simp [hmb, hmn, hmw]
  · intro m
    rw [hh4]
    simp only [Heap.ShallowCopy, Heap.ClearSuccessors, Heap.ClearPredecessors, Heap.AddSuccessors,
      Heap.AddPredecessors, Heap.ProcedureSpec_setPredecessors, Heap.ProcedureSpec_setSuccessors,
      Heap.ProcedureSpec_alloc, NodeObj.ProcedureSpec_ShallowCopy]
    rfl
  · intro m
    rw [hh4]
    simp only [Heap.ShallowCopy, Heap.ClearSuccessors, Heap.ClearPredecessors, Heap.AddSuccessors,
      Heap.AddPredecessors, Heap.ID_setPredecessors, Heap.ID_setSuccessors,
      Heap.ID_alloc, NodeObj.ID_ShallowCopy]
    rfl

theorem SwapPlanNodes_guard_of_succeeded (h : Heap) (top bottom : Node)
    (hs : (SwapPlanNodes h top bottom).succeeded = true) :
    (h.Predecessors top).length = 1 ∧ (h.Successors bottom).length = 1 ∧
      (h.Predecessors bottom).length = 1 := by
  by_contra hc
  have hc2 : (h.Predecessors top).length ≠ 1 ∨ (h.Successors bottom).length ≠ 1 ∨
      (h.Predecessors bottom).length ≠ 1 := by
    by_contra hn
    push_neg at hn
    exact hc hn
  rw [SwapPlanNodes_of_not h top bottom hc2, succeeded_ret_error] at hs
  cases hs

theorem eq_singleton_of_length_one (s : List Node) (hs : s.length = 1) : ∃ w, s = [w] := by
  match s, hs with
  | [w], _ => exact ⟨w, rfl⟩

theorem replaceFirst_split (old new : Node) (pre suf : List Node) (hpre : old ∉ pre) :
    replaceFirst old new (pre ++ old :: suf) = pre ++ new :: suf := by
  induction pre with
  | nil => simp [replaceFirst]
  | cons x pre ih =>
    have hx : x ≠ old := fun e => hpre (e ▸ List.mem_cons_self _ _)
    have hp : old ∉ pre := fun e => hpre (List.mem_cons_of_mem _ e)
    simp [replaceFirst, hx, ih hp]

theorem replaceFirst_of_not_mem (old new : Node) (s : List Node) (hs : old ∉ s) :
    replaceFirst old new s = s := by
  induction s with
  | nil => rfl
  | cons x s ih =>
    have hx : x ≠ old := fun e => hs (e ▸ List.mem_cons_self _ _)
    have hp : old ∉ s := fun e => hs (List.mem_cons_of_mem _ e)
    simp [replaceFirst, hx, ih hp]

/-! ## Claims on swapping -/

/-- C5 (amended): on success, provided `bottom` is not its own predecessor,
`SwapPlanNodes(top, bottom)` returns `bottom` itself, and with `W` the single predecessor
`bottom` had before the call and `C` the new shallow copy of `top` (stored at the fresh
address, with the spec of `top`): the predecessors of `C` are exactly `[W]`, its successors
are exactly `[bottom]`, the predecessors of `bottom` are exactly `[C]`, and the successor
list of `W` is its old list with the first occurrence of `bottom` replaced by `C`. Here
`bottom` is an allocated node of a well-formed store. -/
theorem swap_places_copy (h : Heap) (top bottom : Node)
    (hwf : h.WellFormed) (hbottom : bottom < h.next)
    (hloop : bottom ∉ h.Predecessors bottom)
    (hs : (SwapPlanNodes h top bottom).succeeded = true) :
    ∃ w g, h.Predecessors bottom = [w] ∧
      SwapPlanNodes h top bottom = .ret (.ok bottom) g ∧
      g.ProcedureSpec h.next = h.ProcedureSpec top ∧
      g.Predecessors h.next = [w] ∧
      g.Successors h.next = [bottom] ∧
      g.Predecessors bottom = [h.next] ∧
      g.Successors w = replaceFirst bottom h.next (h.Successors w) ∧
      (∀ pre suf, h.Successors w = pre ++ bottom :: suf → bottom ∉ pre →
        g.Successors w = pre ++ h.next :: suf) ∧
      (bottom ∉ h.Successors w → g.Successors w = h.Successors w) := by
  obtain ⟨g1, g2, g3⟩ := SwapPlanNodes_guard_of_succeeded h top bottom hs
  obtain ⟨w, hw⟩ := eq_singleton_of_length_one _ g3
  have hwn : w ≠ h.next :=
    Nat.ne_of_lt ((hwf bottom hbottom).1 w (by rw [hw]; exact List.mem_singleton_self w))
  have hbn : bottom ≠ h.next := Nat.ne_of_lt hbottom
  have hwb : w ≠ bottom := by
    intro hwb
    apply hloop
    rw [hw, hwb]
    exact List.mem_singleton_self bottom
  obtain ⟨g, hrun, hp, hsu, hsp, _⟩ := SwapPlanNodes_of_guard h top bottom w g1 g2 hw hbn hwn
  have hsw : g.Successors w = replaceFirst bottom h.next (h.Successors w) := by
    rw [hsu]; simp [hwb, hwn]
  refine ⟨w, g, hw, hrun, ?_, ?_, ?_, ?_, hsw, ?_, ?_⟩
  · rw [hsp]; simp
  · rw [hp]; simp [Ne.symm hbn]
  · rw [hsu]; simp [Ne.symm hbn]
  · rw [hp]; simp
  · intro pre suf hsplit hpre
    rw [hsw, hsplit, replaceFirst_split bottom h.next pre suf hpre]
  · intro hnot
    rw [hsw, replaceFirst_of_not_mem bottom h.next _ hnot]

/-- Witness of C5 (amended): swapping `filter2` (top) and `filter1` (bottom) in the chain. -/
theorem swap_places_copy_witness :
    (chainHeap.WellFormed ∧ 1 < chainHeap.next ∧ 1 ∉ chainHeap.Predecessors 1 ∧
      (SwapPlanNodes chainHeap 2 1).succeeded = true) ∧
    ∃ w g, chainHeap.Predecessors 1 = [w] ∧
      SwapPlanNodes chainHeap 2 1 = .ret (.ok 1) g ∧
      g.ProcedureSpec chainHeap.next = chainHeap.ProcedureSpec 2 ∧
      g.Predecessors chainHeap.next = [w] ∧
      g.Successors chainHeap.next = [1] ∧
      g.Predecessors 1 = [chainHeap.next] ∧
      g.Successors w = replaceFirst 1 chainHeap.next (chainHeap.Successors w) ∧
      (∀ pre suf, chainHeap.Successors w = pre ++ 1 :: suf → 1 ∉ pre →
        g.Successors w = pre ++ chainHeap.next :: suf) ∧
      (1 ∉ chainHeap.Successors w → g.Successors w = chainHeap.Successors w) :=
  ⟨⟨chainHeap_wellFormed, by decide, by decide, by decide⟩,
   swap_places_copy chainHeap 2 1 chainHeap_wellFormed (by decide) (by decide) (by decide)⟩

/-- C5 as stated fails when `bottom` is its own predecessor `W`: the swap succeeds, and the
successor list of `W` ends empty, because the final `bottom.ClearSuccessors()` clears it,
while the old list with the first `bottom` replaced by the copy (at address 2) is `[2]`. -/
theorem swap_self_loop_counterexample :
    (SwapPlanNodes selfLoopHeap 0 1).succeeded = true ∧
    selfLoopHeap.Predecessors 1 = [1] ∧
    (SwapPlanNodes selfLoopHeap 0 1).Successors 1 = some [] ∧
    replaceFirst 1 2 (selfLoopHeap.Successors 1) = [2] := by
  decide

/-- C6 (amended): after every successful `SwapPlanNodes` the returned node has zero
successors, and, provided `top` is neither `bottom` nor the predecessor of `bottom`, the
original `top` is not modified: its predecessor list and its successor list are those before
the call. Here `top` and `bottom` are allocated nodes of a well-formed store. -/
theorem swap_keeps_top (h : Heap) (top bottom : Node)
    (hwf : h.WellFormed) (htop : top < h.next) (hbottom : bottom < h.next)
    (hs : (SwapPlanNodes h top bottom).succeeded = true) :
    ∃ r g, SwapPlanNodes h top bottom = .ret (.ok r) g ∧
      g.Successors r = [] ∧
      (top ≠ bottom → top ∉ h.Predecessors bottom →
        g.Predecessors top = h.Predecessors top ∧
        g.Successors top = h.Successors top) := by
  obtain ⟨g1, g2, g3⟩ := SwapPlanNodes_guard_of_succeeded h top bottom hs
  obtain ⟨w, hw⟩ := eq_singleton_of_length_one _ g3
  have hwn : w ≠ h.next :=
    Nat.ne_of_lt ((hwf bottom hbottom).1 w (by rw [hw]; exact List.mem_singleton_self w))
  have hbn : bottom ≠ h.next := Nat.ne_of_lt hbottom
  have htn : top ≠ h.next := Nat.ne_of_lt htop
  obtain ⟨g, hrun, hp, hsu, _, _⟩ := SwapPlanNodes_of_guard h top bottom w g1 g2 hw hbn hwn
  refine ⟨bottom, g, hrun, ?_, ?_⟩
  · rw [hsu]; simp
  · intro hne hpred
    have htw : top ≠ w := by
      intro htw
      apply hpred
      rw [hw, htw]
      exact List.mem_singleton_self w
    constructor
    · rw [hp]; simp [hne, htn]
    · rw [hsu]; simp [hne, htn, htw]

/-- Witness of C6 (amended): swapping `filter2` (top) and `filter1` (bottom) in the chain
leaves `filter2` as it was and returns `filter1` without successors; and the swap of
`filter1` with itself, where `top` is `bottom`, also returns a node without successors. -/
theorem swap_keeps_top_witness :
    (chainHeap.WellFormed ∧ 2 < chainHeap.next ∧ 1 < chainHeap.next ∧ (2 : Node) ≠ 1 ∧
      2 ∉ chainHeap.Predecessors 1 ∧ (SwapPlanNodes chainHeap 2 1).succeeded = true ∧
      (SwapPlanNodes chainHeap 1 1).succeeded = true) ∧
    (∃ r g, SwapPlanNodes chainHeap 2 1 = .ret (.ok r) g ∧
      g.Successors r = [] ∧
      g.Predecessors 2 = chainHeap.Predecessors 2 ∧
      g.Successors 2 = chainHeap.Successors 2) ∧
    (∃ r g, SwapPlanNodes chainHeap 1 1 = .ret (.ok r) g ∧ g.Successors r = []) := by
  obtain ⟨r, g, h1, h2, h3⟩ := swap_keeps_top chainHeap 2 1 chainHeap_wellFormed (by decide)
    (by decide) (by decide)
  obtain ⟨r1, g1, k1, k2, _⟩ := swap_keeps_top chainHeap 1 1 chainHeap_wellFormed (by decide)
    (by decide) (by decide)
  exact ⟨⟨chainHeap_wellFormed, by decide, by decide, by decide, by decide, by decide,
    by decide⟩,
    ⟨r, g, h1, h2, (h3 (by decide) (by decide)).1, (h3 (by decide) (by decide)).2⟩,
    ⟨r1, g1, k1, k2⟩⟩

/-- C6 as stated fails when `top` is one of the two nodes the swap rewires. When the
predecessor of `bottom` is `top`: in the cycle `a0 -> b1 -> a0`, with `top = a0` whose single
predecessor is `bottom = b1`, the swap succeeds and overwrites the successor list `[1]` of
`top` with `[2]`, the copy. When `top` is `bottom`: in the chain, `SwapPlanNodes(filter1,
filter1)` succeeds and overwrites the predecessor list `[0]` of `filter1` with `[4]`, the
copy, and clears its successor list `[2]`. -/
theorem swap_modifies_top_counterexample :
    (cycleHeap.Predecessors 0 = [1] ∧
      (SwapPlanNodes cycleHeap 0 1).succeeded = true ∧
      cycleHeap.Successors 0 = [1] ∧
      (SwapPlanNodes cycleHeap 0 1).Successors 0 = some [2]) ∧
    ((SwapPlanNodes chainHeap 1 1).succeeded = true ∧
      chainHeap.Predecessors 1 = [0] ∧
      (SwapPlanNodes chainHeap 1 1).Predecessors 1 = some [4] ∧
      chainHeap.Successors 1 = [2] ∧
      (SwapPlanNodes chainHeap 1 1).Successors 1 = some []) := by
  decide

/-- C7 (the code at the failing input): in the chain, `yield3` (top) has the single
predecessor `filter2`, not `filter1` (bottom), yet `SwapPlanNodes(yield3, filter1)` returns
no error and rewires `from0` and `filter1` around a copy of `yield3` at address 4. -/
theorem swap_accepts_non_adjacent :
    chainHeap.Predecessors 3 = [2] ∧
    (SwapPlanNodes chainHeap 3 1).succeeded = true ∧
    (SwapPlanNodes chainHeap 3 1).node? = some 1 ∧
    (SwapPlanNodes chainHeap 3 1).Successors 0 = some [4] ∧
    (SwapPlanNodes chainHeap 3 1).Predecessors 1 = some [4] ∧
    (SwapPlanNodes chainHeap 3 1).Successors 1 = some [] := by
  decide


/-! ## `ReplaceNode` -/

/-- What `ReplaceNode` leaves, node by node, for distinct nodes. -/
theorem ReplaceNode_spec (h : Heap) (oldNode newNode : Node) (hne : oldNode ≠ newNode) :
    ∃ g, ReplaceNode h oldNode newNode = .ret () g ∧
      (∀ m, g.Predecessors m
          = if m = oldNode then [] else if m = newNode then h.Predecessors oldNode
            else h.Predecessors m) ∧
      (∀ m, g.Successors m
          = if m = newNode then []
            else if m ∈ h.Predecessors oldNode then replaceAll oldNode newNode (h.Successors m)
            else h.Successors m) := by
  obtain ⟨h3, hh3⟩ : ∃ h3, h3 = ((h.ClearPredecessors newNode).ClearSuccessors
      newNode).AddPredecessors newNode
        (((h.ClearPredecessors newNode).ClearSuccessors newNode).Predecessors oldNode) := ⟨_, rfl⟩
  have e1 : h3.Predecessors newNode = h.Predecessors oldNode := by
    rw [hh3]
    simp [Heap.ClearSuccessors, Heap.ClearPredecessors, Heap.AddPredecessors, hne]
  obtain ⟨h4, hrun, hs, hp, _, _, _⟩ :=
    rewirePredecessors_spec oldNode newNode (h3.Predecessors newNode) h3
  refine ⟨h4.ClearPredecessors oldNode, ?_, ?_, ?_⟩
  · unfold ReplaceNode
    simp only [← hh3]
    rw [hrun]
  · intro m
    simp only [Heap.ClearPredecessors, Heap.Predecessors_setPredecessors, hp]
    by_cases hmo : m = oldNode
    · simp [hmo]
    · rw [hh3]
      by_cases hmn : m = newNode
      · simp [hmn, Ne.symm hne, hne, Heap.ClearSuccessors, Heap.ClearPredecessors,
          Heap.AddPredecessors]
      · simp [hmo, hmn, Heap.ClearSuccessors, Heap.ClearPredecessors, Heap.AddPredecessors]
  · intro m
    simp only [Heap.ClearPredecessors, Heap.Successors_setPredecessors, hs, e1]
    rw [hh3]
    by_cases hmn : m = newNode
    · simp [hmn, Heap.ClearSuccessors, Heap.ClearPredecessors, Heap.AddPredecessors, replaceAll]
    · simp [hmn, Heap.ClearSuccessors, Heap.ClearPredecessors, Heap.AddPredecessors]

/-! ## Claims on replacing -/

/-- C8 (amended): for distinct nodes `oldNode` and `newNode` such that neither of them is a
predecessor of `oldNode`, after `ReplaceNode(oldNode, newNode)` the predecessors of `newNode`
are those `oldNode` had before the call, each of those predecessors has every occurrence of
`oldNode` in its successor list replaced by `newNode`, `oldNode` has no predecessors,
`newNode` has no successors, and the successor list of `oldNode` is unchanged. -/
theorem replace_node_transfers (h : Heap) (oldNode newNode : Node) (hne : oldNode ≠ newNode)
    (hnew : newNode ∉ h.Predecessors oldNode) (hold : oldNode ∉ h.Predecessors oldNode) :
    ∃ g, ReplaceNode h oldNode newNode = .ret () g ∧
      g.Predecessors newNode = h.Predecessors oldNode ∧
      (∀ p ∈ h.Predecessors oldNode,
        g.Successors p = replaceAll oldNode newNode (h.Successors p)) ∧
      g.Predecessors oldNode = [] ∧
      g.Successors newNode = [] ∧
      g.Successors oldNode = h.Successors oldNode := by
  obtain ⟨g, hrun, hp, hs⟩ := ReplaceNode_spec h oldNode newNode hne
  refine ⟨g, hrun, ?_, ?_, ?_, ?_, ?_⟩
  · rw [hp]; simp [Ne.symm hne]
  · intro p hpm
    have hpn : p ≠ newNode := fun e => hnew (e ▸ hpm)
    rw [hs]; simp [hpn, hpm]
  · rw [hp]; simp
  · rw [hs]; simp
  · rw [hs]; simp [hne, hold]

/-- Witness of C8 (amended): replacing `filter2` by the detached node `new4`. -/
theorem replace_node_transfers_witness :
    ((2 : Node) ≠ 4 ∧ 4 ∉ detachedHeap.Predecessors 2 ∧ 2 ∉ detachedHeap.Predecessors 2) ∧
    ∃ g, ReplaceNode detachedHeap 2 4 = .ret () g ∧
      g.Predecessors 4 = detachedHeap.Predecessors 2 ∧
      (∀ p ∈ detachedHeap.Predecessors 2,
        g.Successors p = replaceAll 2 4 (detachedHeap.Successors p)) ∧
      g.Predecessors 2 = [] ∧
      g.Successors 4 = [] ∧
      g.Successors 2 = detachedHeap.Successors 2 :=
  ⟨⟨by decide, by decide, by decide⟩,
   replace_node_transfers detachedHeap 2 4 (by decide) (by decide) (by decide)⟩

/-- C8 as stated fails when `newNode` is a predecessor of `oldNode`: replacing `filter2` by
its predecessor `filter1` in the chain clears the successor list of `filter1`, which is one
of "those predecessors", instead of leaving it with `filter2` replaced by `filter1`. It also
fails when `oldNode` is its own predecessor: replacing `loop1` by `top0` rewires the successor
list `[1]` of `loop1` itself to `[0]`, so that list is not unchanged. -/
theorem replace_by_predecessor_counterexample :
    ((2 : Node) ≠ 1 ∧
      1 ∈ chainHeap.Predecessors 2 ∧
      (ReplaceNode chainHeap 2 1).Successors 1 = some [] ∧
      replaceAll 2 1 (chainHeap.Successors 1) = [1]) ∧
    ((1 : Node) ≠ 0 ∧
      1 ∈ selfLoopHeap.Predecessors 1 ∧
      selfLoopHeap.Successors 1 = [1] ∧
      (ReplaceNode selfLoopHeap 1 0).Successors 1 = some [0]) := by
  decide

/-! ## The traversal -/

theorem length_le_of_nodup_subset (stk S : List Node) (hn : stk.Nodup) (hs : ∀ x ∈ stk, x ∈ S) :
    stk.length ≤ S.length :=
  (List.subperm_of_subset hn hs).length_le

theorem walkAll_spec (ordering : Node → List Node) (S stk : List Node)
    (walkOne : Node → topologicalWalk → Walked topologicalWalk)
    (hone : ∀ node tw, WalkInv ordering S stk tw → node ∈ S →
      (∀ x ∈ stk, Relation.TransGen (Edge ordering) x node) →
      StepOk ordering S stk tw node (walkOne node tw)) :
    ∀ (cs : List Node) (tw : topologicalWalk), WalkInv ordering S stk tw →
      (∀ c ∈ cs, c ∈ S) → (∀ c ∈ cs, ∀ x ∈ stk, Relation.TransGen (Edge ordering) x c) →
      walkAll walkOne cs tw ≠ .outOfFuel ∧
      (∀ e, walkAll walkOne cs tw = .error e →
        ∃ x ∈ S, Relation.TransGen (Edge ordering) x x) ∧
      (∀ tw1, walkAll walkOne cs tw = .ok tw1 → WalkInv ordering S stk tw1 ∧
        (∀ x ∈ tw.permanentMarks, x ∈ tw1.permanentMarks) ∧
        (∀ c ∈ cs, c ∈ tw1.permanentMarks)) := by
  intro cs
  induction cs with
  | nil =>
    intro tw hinv _ _
    refine ⟨by simp [walkAll], by simp [walkAll], ?_⟩
    intro tw1 h1
    simp only [walkAll, Walked.ok.injEq] at h1
    subst h1
    exact ⟨hinv, fun x hx => hx, by simp⟩
  | cons c cs ih =>
    intro tw hinv hS hanc
    obtain ⟨o1, o2, o3⟩ := hone c tw hinv (hS c (List.mem_cons_self c cs))
      (hanc c (List.mem_cons_self c cs))
    cases hr : walkOne c tw with
    | outOfFuel => exact absurd hr o1
    | error e =>
      refine ⟨by simp [walkAll, hr], ?_, by simp [walkAll, hr]⟩
      intro e1 _
      exact o2 e hr
    | ok tw1 =>
      obtain ⟨hinv1, hmono1, hc1⟩ := o3 tw1 hr
      obtain ⟨r1, r2, r3⟩ := ih tw1 hinv1 (fun c1 hc => hS c1 (List.mem_cons_of_mem c hc))
        (fun c1 hc => hanc c1 (List.mem_cons_of_mem c hc))
      simp only [walkAll, hr]
      refine ⟨r1, r2, ?_⟩
      intro tw2 h2
      obtain ⟨hinv2, hmono2, hc2⟩ := r3 tw2 h2
      refine ⟨hinv2, fun x hx => hmono2 x (hmono1 x hx), ?_⟩
      intro c1 hc
      rcases List.mem_cons.mp hc with hc | hc
      · subst hc; exact hmono2 _ hc1
      · exact hc2 c1 hc

theorem walk_spec (ordering : Node → List Node) (S : List Node)
    (hclosed : ∀ a ∈ S, ∀ b ∈ ordering a, b ∈ S) :
    ∀ (fuel : Nat) (stk : List Node) (node : Node) (tw : topologicalWalk),
      S.length < fuel + stk.length →
      WalkInv ordering S stk tw → node ∈ S →
      (∀ x ∈ stk, Relation.TransGen (Edge ordering) x node) →
      StepOk ordering S stk tw node (walk ordering fuel node tw) := by
  intro fuel
  induction fuel with
  | zero =>
    intro stk node tw hfuel hinv _ _
    exfalso
    have := length_le_of_nodup_subset stk S hinv.1 hinv.2.1
    omega
  | succ fuel ih =>
    intro stk node tw hfuel hinv hnode hanc
    obtain ⟨i1, i2, i3, i4, i5, i6, i7⟩ := hinv
    unfold walk
    by_cases hperm : node ∈ tw.permanentMarks
    · simp only [hperm, if_true]
      refine ⟨by simp, by simp, ?_⟩
      intro tw1 h1
      simp only [Walked.ok.injEq] at h1
      subst h1
      exact ⟨⟨i1, i2, i3, i4, i5, i6, i7⟩, fun x hx => hx, hperm⟩
    · by_cases htemp : node ∈ tw.temporaryMarks
      · simp only [hperm, htemp, if_true, if_false]
        refine ⟨by simp, ?_, by simp⟩
        intro e _
        rcases i4 node htemp with hp | hs
        · exact absurd hp hperm
        · exact ⟨node, hnode, hanc node hs⟩
      · simp only [hperm, htemp, if_false]
        have hns : node ∉ stk := fun hs => htemp (i3 node hs)
        have hinv1 : WalkInv ordering S (node :: stk)
            { tw with temporaryMarks := node :: tw.temporaryMarks } := by
          refine ⟨List.nodup_cons.mpr ⟨hns, i1⟩, ?_, ?_, ?_, i5, i6, i7⟩
          · intro x hx
            rcases List.mem_cons.mp hx with hx | hx
            · subst hx; exact hnode
            · exact i2 x hx
          · intro x hx
            rcases List.mem_cons.mp hx with hx | hx
            · subst hx; exact List.mem_cons_self _ _
            · exact List.mem_cons_of_mem _ (i3 x hx)
          · intro x hx
            rcases List.mem_cons.mp hx with hx | hx
            · subst hx; exact Or.inr (List.mem_cons_self _ _)
            · rcases i4 x hx with hp | hs
              · exact Or.inl hp
              · exact Or.inr (List.mem_cons_of_mem _ hs)
        obtain ⟨r1, r2, r3⟩ := walkAll_spec ordering S (node :: stk) (walk ordering fuel)
          (fun n t hi hn ha => ih (node :: stk) n t (by simp only [List.length_cons]; omega) hi hn ha)
          (ordering node) _ hinv1 (fun c hc => hclosed node hnode c hc)
          (by
            intro c hc x hx
            rcases List.mem_cons.mp hx with hx | hx
            · subst hx; exact Relation.TransGen.single hc
            · exact Relation.TransGen.tail (hanc x hx) hc)
        cases hr : walkAll (walk ordering fuel) (ordering node)
            { tw with temporaryMarks := node :: tw.temporaryMarks } with
        | outOfFuel => exact absurd hr r1
        | error e =>
          refine ⟨by simp, ?_, by simp⟩
          intro e1 _
          exact r2 e hr
        | ok tw1 =>
          refine ⟨by simp, by simp, ?_⟩
          intro tw2 h2
          simp only [Walked.ok.injEq] at h2
          subst h2
          obtain ⟨⟨j1, j2, j3, j4, j5, j6, j7⟩, hmono, hcs⟩ := r3 tw1 hr
          refine ⟨⟨i1, i2, ?_, ?_, ?_, ?_, ?_⟩, ?_, ?_⟩
          · intro x hx
            exact j3 x (List.mem_cons_of_mem _ hx)
          · intro x hx
            rcases j4 x hx with hp | hs
            · exact Or.inl (List.mem_cons_of_mem _ hp)
            · rcases List.mem_cons.mp hs with hs | hs
              · subst hs; exact Or.inl (List.mem_cons_self _ _)
              · exact Or.inr hs
          · intro x hx y hy
            rcases List.mem_cons.mp hx with hx | hx
            · subst hx; exact List.mem_cons_of_mem _ (hcs y hy)
            · exact List.mem_cons_of_mem _ (j5 x hx y hy)
          · intro x
            simp only [List.mem_cons, List.mem_append, List.mem_singleton, j6 x]
            tauto
          · intro x hx
            simp only [List.mem_append, List.mem_singleton] at hx
            rcases hx with hx | hx
            · exact j7 x hx
            · subst hx; exact hnode
          · intro x hx
            exact List.mem_cons_of_mem _ (hmono x hx)
          · exact List.mem_cons_self _ _

/-! ## `symmetryCheck` -/

theorem IndexOfNode_loop_eq_neg_one (node : Node) :
    ∀ (nodes : List Node) (i : Nat), IndexOfNode.loop node nodes i = -1 ↔ node ∉ nodes := by
  intro nodes
  induction nodes with
  | nil => intro i; simp [IndexOfNode.loop]
  | cons n rest ih =>
    intro i
    unfold IndexOfNode.loop
    by_cases hn : n = node
    · simp only [hn, if_true, List.mem_cons, true_or, not_true_eq_false, iff_false]
      omega
    · simp only [hn, if_false, ih (i + 1), List.mem_cons]
      constructor
      · intro h1 h2
        rcases h2 with h2 | h2
        · exact hn h2.symm
        · exact h1 h2
      · intro h1 h2
        exact h1 (Or.inr h2)

theorem IndexOfNode_eq_neg_one (node : Node) (nodes : List Node) :
    IndexOfNode node nodes = -1 ↔ node ∉ nodes :=
  IndexOfNode_loop_eq_neg_one node nodes 0

theorem symmetryCheck_predecessors_eq_none (h : Heap) (node : Node) :
    ∀ ps : List Node, symmetryCheck.predecessors h node ps = none ↔
      ∀ p ∈ ps, node ∈ h.Successors p := by
  intro ps
  induction ps with
  | nil => simp [symmetryCheck.predecessors]
  | cons p ps ih =>
    unfold symmetryCheck.predecessors
    by_cases hp : node ∈ h.Successors p
    · have : ¬ IndexOfNode node (h.Successors p) = -1 := by
        rw [IndexOfNode_eq_neg_one]; exact not_not.mpr hp
      simp [this, ih, hp]
    · have : IndexOfNode node (h.Successors p) = -1 := by
        rw [IndexOfNode_eq_neg_one]; exact hp
      simp [this, hp]

theorem symmetryCheck_successors_eq_none (h : Heap) (node : Node) :
    ∀ ss : List Node, symmetryCheck.successors h node ss = none ↔
      ∀ s ∈ ss, node ∈ h.Predecessors s := by
  intro ss
  induction ss with
  | nil => simp [symmetryCheck.successors]
  | cons p ps ih =>
    unfold symmetryCheck.successors
    by_cases hp : node ∈ h.Predecessors p
    · have : ¬ IndexOfNode node (h.Predecessors p) = -1 := by
        rw [IndexOfNode_eq_neg_one]; exact not_not.mpr hp
      simp [this, ih, hp]
    · have : IndexOfNode node (h.Predecessors p) = -1 := by
        rw [IndexOfNode_eq_neg_one]; exact hp
      simp [this, hp]

/-- The check at a node passes exactly when each of its edges is mirrored. -/
theorem symmetryCheck_eq_none (h : Heap) (node : Node) :
    symmetryCheck h node = none ↔
      (∀ p ∈ h.Predecessors node, node ∈ h.Successors p) ∧
      (∀ s ∈ h.Successors node, node ∈ h.Predecessors s) := by
  unfold symmetryCheck
  cases hp : symmetryCheck.predecessors h node (h.Predecessors node) with
  | none =>
    rw [symmetryCheck_predecessors_eq_none] at hp
    simp only [symmetryCheck_successors_eq_none]
    exact ⟨fun hs => ⟨hp, hs⟩, fun hs => hs.2⟩
  | some e =>
    have hne : ¬ ∀ p ∈ h.Predecessors node, node ∈ h.Successors p := by
      rw [← symmetryCheck_predecessors_eq_none, hp]
      simp
    simp only [false_iff, not_and, reduceCtorEq]
    intro h1
    exact absurd h1 hne

/-! ## The visiting phase -/

theorem visit_eq_none {σ : Type} (visitFn : σ → Node → σ × Error) :
    ∀ (nodes : List Node) (s : σ), (∀ n ∈ nodes, ∀ t, (visitFn t n).2 = none) →
      (visit visitFn nodes s).2 = none := by
  intro nodes
  induction nodes with
  | nil => intro s _; rfl
  | cons n rest ih =>
    intro s hall
    unfold visit
    have hn := hall n (List.mem_cons_self n rest) s
    cases hv : visitFn s n with
    | mk s1 e =>
      rw [hv] at hn
      simp only at hn
      subst hn
      exact ih s1 (fun m hm t => hall m (List.mem_cons_of_mem n hm) t)

theorem visit_ne_none {σ : Type} (visitFn : σ → Node → σ × Error) (a : Node)
    (ha : ∀ t, (visitFn t a).2 ≠ none) :
    ∀ (nodes : List Node) (s : σ), a ∈ nodes → (visit visitFn nodes s).2 ≠ none := by
  intro nodes
  induction nodes with
  | nil => intro s hmem; cases hmem
  | cons n rest ih =>
    intro s hmem
    unfold visit
    cases hv : visitFn s n with
    | mk s1 e =>
      cases e with
      | some err => simp
      | none =>
        simp only
        apply ih s1
        rcases List.mem_cons.mp hmem with hmem | hmem
        · exfalso
          apply ha s
          rw [hmem, hv]
        · exact hmem

/-- The sources collected by the closure of `CheckIntegrity` are among the visited nodes. -/
theorem visit_fn_sources (h : Heap) :
    ∀ (nodes : List Node) (s : List Node),
      ∀ x ∈ (visit (CheckIntegrity.fn h) nodes s).1, x ∈ s ∨ x ∈ nodes := by
  intro nodes
  induction nodes with
  | nil => intro s x hx; exact Or.inl hx
  | cons n rest ih =>
    intro s x hx
    unfold visit at hx
    cases hv : CheckIntegrity.fn h s n with
    | mk s1 e =>
      rw [hv] at hx
      have hs1 : ∀ y ∈ s1, y ∈ s ∨ y = n := by
        intro y hy
        unfold CheckIntegrity.fn at hv
        simp only [Prod.mk.injEq] at hv
        rw [← hv.1] at hy
        by_cases hl : (h.Predecessors n).length = 0
        · simp only [hl, if_true, List.mem_append, List.mem_singleton] at hy
          exact hy
        · simp only [hl, if_false] at hy
          exact Or.inl hy
      cases e with
      | some err =>
        simp only at hx
        rcases hs1 x hx with h1 | h1
        · exact Or.inl h1
        · exact Or.inr (h1 ▸ List.mem_cons_self _ _)
      | none =>
        simp only at hx
        rcases ih s1 x hx with h1 | h1
        · rcases hs1 x h1 with h2 | h2
          · exact Or.inl h2
          · exact Or.inr (h2 ▸ List.mem_cons_self _ _)
        · exact Or.inr (List.mem_cons_of_mem _ h1)

/-! ## Traversals from the roots -/

theorem walkInv_new (ordering : Node → List Node) (S : List Node) :
    WalkInv ordering S [] newTopologicalWalk := by
  refine ⟨List.nodup_nil, ?_, ?_, ?_, ?_, ?_, ?_⟩ <;> simp [newTopologicalWalk]

/-- The marking phase from the roots, inside a node set closed under `ordering`: with fuel
above the size of the set it does not run out of fuel, an error exhibits a cycle, and with a
nil error the visiting order lies in the set and contains all that the roots reach. -/
theorem walk_roots_spec (ordering : Node → List Node) (S roots : List Node) (fuel : Nat)
    (hclosed : ∀ a ∈ S, ∀ b ∈ ordering a, b ∈ S) (hroots : ∀ r ∈ roots, r ∈ S)
    (hfuel : S.length < fuel) :
    walkAll (walk ordering fuel) roots newTopologicalWalk ≠ .outOfFuel ∧
    (∀ e, walkAll (walk ordering fuel) roots newTopologicalWalk = .error e →
      ∃ x ∈ S, Relation.TransGen (Edge ordering) x x) ∧
    (∀ tw, walkAll (walk ordering fuel) roots newTopologicalWalk = .ok tw →
      (∀ x ∈ tw.nodes, x ∈ S) ∧
      (∀ r ∈ roots, ∀ a, Relation.ReflTransGen (Edge ordering) r a → a ∈ tw.nodes)) := by
  obtain ⟨r1, r2, r3⟩ := walkAll_spec ordering S [] (walk ordering fuel)
    (fun n t hi hn ha => walk_spec ordering S hclosed fuel [] n t (by simpa using hfuel) hi hn ha)
    roots newTopologicalWalk (walkInv_new ordering S) hroots (by simp)
  refine ⟨r1, r2, ?_⟩
  intro tw htw
  obtain ⟨⟨_, _, _, _, j5, j6, j7⟩, _, hcs⟩ := r3 tw htw
  refine ⟨j7, ?_⟩
  intro r hr a hreach
  rw [← j6]
  induction hreach with
  | refl => exact hcs r hr
  | tail _ hbc ih => exact j5 _ ih _ hbc

/-- A traversal over an acyclic node set on which `visitFn` never fails returns a nil error. -/
theorem topologicalWalkFrom_ok {σ : Type} (ordering : Node → List Node) (S roots : List Node)
    (fuel : Nat) (visitFn : σ → Node → σ × Error) (s : σ)
    (hclosed : ∀ a ∈ S, ∀ b ∈ ordering a, b ∈ S) (hroots : ∀ r ∈ roots, r ∈ S)
    (hfuel : S.length < fuel)
    (hacyc : ∀ x ∈ S, ¬ Relation.TransGen (Edge ordering) x x)
    (hvisit : ∀ n ∈ S, ∀ t, (visitFn t n).2 = none) :
    ∃ tw, walkAll (walk ordering fuel) roots newTopologicalWalk = .ok tw ∧
      (∀ x ∈ tw.nodes, x ∈ S) ∧
      topologicalWalkFrom ordering fuel roots visitFn s = .ok (visit visitFn tw.nodes s).1 := by
  obtain ⟨r1, r2, r3⟩ := walk_roots_spec ordering S roots fuel hclosed hroots hfuel
  cases hr : walkAll (walk ordering fuel) roots newTopologicalWalk with
  | outOfFuel => exact absurd hr r1
  | error e =>
    obtain ⟨x, hx, hcyc⟩ := r2 e hr
    exact absurd hcyc (hacyc x hx)
  | ok tw =>
    obtain ⟨hS, _⟩ := r3 tw hr
    refine ⟨tw, rfl, hS, ?_⟩
    unfold topologicalWalkFrom
    rw [hr]
    have hv := visit_eq_none visitFn tw.nodes s (fun n hn t => hvisit n (hS n hn) t)
    cases hvis : visit visitFn tw.nodes s with
    | mk s1 e =>
      rw [hvis] at hv
      simp only at hv
      subst hv
      simp only [hvis]

/-- A traversal that reaches a node on which `visitFn` always fails returns an error. -/
theorem topologicalWalkFrom_error {σ : Type} (ordering : Node → List Node) (S roots : List Node)
    (fuel : Nat) (visitFn : σ → Node → σ × Error) (s : σ)
    (hclosed : ∀ a ∈ S, ∀ b ∈ ordering a, b ∈ S) (hroots : ∀ r ∈ roots, r ∈ S)
    (hfuel : S.length < fuel) (r a : Node) (hr : r ∈ roots)
    (hreach : Relation.ReflTransGen (Edge ordering) r a)
    (hvisit : ∀ t, (visitFn t a).2 ≠ none) :
    ∃ e, topologicalWalkFrom ordering fuel roots visitFn s = .error e := by
  obtain ⟨r1, _, r3⟩ := walk_roots_spec ordering S roots fuel hclosed hroots hfuel
  unfold topologicalWalkFrom
  cases hw : walkAll (walk ordering fuel) roots newTopologicalWalk with
  | outOfFuel => exact absurd hw r1
  | error e => exact ⟨e, rfl⟩
  | ok tw =>
    obtain ⟨_, hall⟩ := r3 tw hw
    have hv := visit_ne_none visitFn a hvisit tw.nodes s (hall r hr a hreach)
    cases hvis : visit visitFn tw.nodes s with
    | mk s1 e =>
      rw [hvis] at hv
      cases e with
      | none => exact absurd rfl hv
      | some err => exact ⟨err, by simp only [hvis]⟩

/-- In a node set closed under both edge lists and with mirrored edges, a path along
successor links is a path along predecessor links backwards. -/
theorem transGen_successors_reverse (h : Heap) (S : List Node)
    (hsucc : ∀ a ∈ S, ∀ b ∈ h.Successors a, b ∈ S)
    (hsym : ∀ a ∈ S, ∀ b ∈ S, (a ∈ h.Successors b ↔ b ∈ h.Predecessors a))
    (a b : Node) (ha : a ∈ S) (hab : Relation.TransGen (Edge h.Successors) a b) :
    b ∈ S ∧ Relation.TransGen (Edge h.Predecessors) b a := by
  induction hab with
  | single hs =>
    have hb := hsucc a ha _ hs
    exact ⟨hb, Relation.TransGen.single ((hsym _ hb a ha).mp hs)⟩
  | tail _ hs ih =>
    obtain ⟨hb, hrev⟩ := ih
    have hc := hsucc _ hb _ hs
    exact ⟨hc, Relation.TransGen.head ((hsym _ hc _ hb).mp hs) hrev⟩

/-- With a nil error, the closure of `CheckIntegrity` has collected every visited node that
has no predecessors. -/
theorem visit_fn_collects (h : Heap) (src : Node) (hsrc : (h.Predecessors src).length = 0) :
    ∀ (nodes : List Node) (s : List Node),
      (visit (CheckIntegrity.fn h) nodes s).2 = none → src ∈ s ∨ src ∈ nodes →
      src ∈ (visit (CheckIntegrity.fn h) nodes s).1 := by
  intro nodes
  induction nodes with
  | nil =>
    intro s _ hmem
    rcases hmem with hmem | hmem
    · exact hmem
    · cases hmem
  | cons n rest ih =>
    intro s hnone hmem
    unfold visit at hnone ⊢
    cases hv : CheckIntegrity.fn h s n with
    | mk s1 e =>
      rw [hv] at hnone
      have hs1 : src ∈ s1 ∨ src ∈ rest := by
        unfold CheckIntegrity.fn at hv
        simp only [Prod.mk.injEq] at hv
        rw [← hv.1]
        rcases hmem with hmem | hmem
        · left
          by_cases hl : (h.Predecessors n).length = 0
          · simp [hl, hmem]
          · simp [hl, hmem]
        · rcases List.mem_cons.mp hmem with hmem | hmem
          · left
            subst hmem
            simp [hsrc]
          · exact Or.inr hmem
      cases e with
      | some err => simp at hnone
      | none =>
        simp only at hnone ⊢
        exact ih s1 hnone hs1

/-! ## Claims on the integrity check -/

/-- C9: for every valid plan, `CheckIntegrity` returns no error. The plan is a finite node
set `S` that contains the roots and is closed under predecessor and successor links, so it
holds every node and edge reachable from the roots; each edge inside it is mirrored (`a` is
in the successors of `b` exactly when `b` is in the predecessors of `a`), and no node of it
reaches itself through predecessor links. Any recursion bound above the size of `S` is
enough for the two traversals to finish. -/
theorem checkIntegrity_valid_plan (plan : Spec) (h : Heap) (S : List Node) (fuel : Nat)
    (hroots : ∀ r ∈ plan.Roots, r ∈ S)
    (hpred : ∀ a ∈ S, ∀ b ∈ h.Predecessors a, b ∈ S)
    (hsucc : ∀ a ∈ S, ∀ b ∈ h.Successors a, b ∈ S)
    (hsym : ∀ a ∈ S, ∀ b ∈ S, (a ∈ h.Successors b ↔ b ∈ h.Predecessors a))
    (hacyc : ∀ a ∈ S, ¬ Relation.TransGen (fun x y => y ∈ h.Predecessors x) a a)
    (hfuel : S.length < fuel) :
    plan.CheckIntegrity h fuel = .ok () := by
  have hcheck : ∀ n ∈ S, symmetryCheck h n = none := by
    intro n hn
    rw [symmetryCheck_eq_none]
    exact ⟨fun p hp => (hsym n hn p (hpred n hn p hp)).mpr hp,
           fun s hs => (hsym s (hsucc n hn s hs) n hn).mp hs⟩
  obtain ⟨tw, _, hnodes, hrun⟩ := topologicalWalkFrom_ok h.Predecessors S plan.Roots fuel
    (CheckIntegrity.fn h) [] hpred hroots hfuel hacyc (fun n hn _ => hcheck n hn)
  have hsources : ∀ x ∈ (visit (CheckIntegrity.fn h) tw.nodes []).1, x ∈ S := by
    intro x hx
    rcases visit_fn_sources h tw.nodes [] x hx with h1 | h1
    · cases h1
    · exact hnodes x h1
  have hacyc2 : ∀ x ∈ S, ¬ Relation.TransGen (Edge h.Successors) x x := by
    intro x hx hcyc
    exact hacyc x hx (transGen_successors_reverse h S hsucc hsym x x hx hcyc).2
  obtain ⟨tw2, _, _, hrun2⟩ := topologicalWalkFrom_ok h.Successors S
    (visit (CheckIntegrity.fn h) tw.nodes []).1 fuel
    (fun (_ : Unit) node => ((), symmetryCheck h node)) () hsucc hsources hfuel hacyc2
    (fun n hn _ => hcheck n hn)
  unfold Spec.CheckIntegrity WalkPredecessors WalkSuccessors
  simp only [hrun, hrun2]

theorem chainHeap_rank (a b : Node)
    (hab : Relation.TransGen (fun x y => y ∈ chainHeap.Predecessors x) a b) : b < a := by
  have step : ∀ x y : Node, y ∈ chainHeap.Predecessors x → y < x := by
    intro x y hy
    match x, hy with
    | 0, hy => simp [chainHeap, mkNode, Heap.Predecessors, NodeObj.edges] at hy
    | 1, hy => simp [chainHeap, mkNode, Heap.Predecessors, NodeObj.edges] at hy; simp [hy]
    | 2, hy => simp [chainHeap, mkNode, Heap.Predecessors, NodeObj.edges] at hy; simp [hy]
    | 3, hy => simp [chainHeap, mkNode, Heap.Predecessors, NodeObj.edges] at hy; simp [hy]
    | n + 4, hy =>
      exfalso
      have : chainHeap.Predecessors (n + 4) = [] := rfl
      rw [this] at hy
      cases hy
  induction hab with
  | single hs => exact step _ _ hs
  | tail _ hs ih => exact Nat.lt_trans (step _ _ hs) ih

/-- Witness of C9: the chain `from0 -> filter1 -> filter2 -> yield3` with root `yield3`. -/
theorem checkIntegrity_valid_plan_witness :
    ((∀ r ∈ (Spec.mk [3]).Roots, r ∈ [0, 1, 2, 3]) ∧
      (∀ a ∈ [0, 1, 2, 3], ∀ b ∈ chainHeap.Predecessors a, b ∈ [0, 1, 2, 3]) ∧
      (∀ a ∈ [0, 1, 2, 3], ∀ b ∈ chainHeap.Successors a, b ∈ [0, 1, 2, 3]) ∧
      (∀ a ∈ [0, 1, 2, 3], ∀ b ∈ [0, 1, 2, 3],
        (a ∈ chainHeap.Successors b ↔ b ∈ chainHeap.Predecessors a)) ∧
      (∀ a ∈ [0, 1, 2, 3],
        ¬ Relation.TransGen (fun x y => y ∈ chainHeap.Predecessors x) a a) ∧
      [0, 1, 2, 3].length < 5) ∧
    (Spec.mk [3]).CheckIntegrity chainHeap 5 = .ok () :=
  ⟨⟨by decide, by decide, by decide, by decide,
      fun a _ hcyc => Nat.lt_irrefl a (chainHeap_rank a a hcyc), by decide⟩,
   checkIntegrity_valid_plan (Spec.mk [3]) chainHeap [0, 1, 2, 3] 5 (by decide) (by decide)
     (by decide) (by decide) (fun a _ hcyc => Nat.lt_irrefl a (chainHeap_rank a a hcyc))
     (by decide)⟩

/-- C10 (amended): if some node `a` lists `b` as successor while `b` does not list `a` as
predecessor, or lists `b` as predecessor while `b` does not list `a` as successor, and `a`
is visited by one of the two traversals (it is reachable from a root through predecessor
links, or through successor links from a node without predecessors that is reachable from a
root through predecessor links), then `CheckIntegrity` returns an error. The plan lies in a
finite node set `S` closed under both edge lists, and the recursion bound is above its
size. -/
theorem checkIntegrity_detects_visited (plan : Spec) (h : Heap) (S : List Node) (fuel : Nat)
    (hroots : ∀ r ∈ plan.Roots, r ∈ S)
    (hpred : ∀ a ∈ S, ∀ b ∈ h.Predecessors a, b ∈ S)
    (hsucc : ∀ a ∈ S, ∀ b ∈ h.Successors a, b ∈ S)
    (hfuel : S.length < fuel)
    (r a b : Node) (hr : r ∈ plan.Roots)
    (hreach : Relation.ReflTransGen (fun x y => y ∈ h.Predecessors x) r a ∨
      ∃ src, Relation.ReflTransGen (fun x y => y ∈ h.Predecessors x) r src ∧
        (h.Predecessors src).length = 0 ∧
        Relation.ReflTransGen (fun x y => y ∈ h.Successors x) src a)
    (hasym : (b ∈ h.Successors a ∧ a ∉ h.Predecessors b) ∨
      (b ∈ h.Predecessors a ∧ a ∉ h.Successors b)) :
    ∃ msg, plan.CheckIntegrity h fuel = .error msg := by
  have hcheck : symmetryCheck h a ≠ none := by
    rw [Ne, symmetryCheck_eq_none]
    intro hs
    rcases hasym with ⟨h1, h2⟩ | ⟨h1, h2⟩
    · exact h2 (hs.2 b h1)
    · exact h2 (hs.1 b h1)
  unfold Spec.CheckIntegrity WalkPredecessors WalkSuccessors
  rcases hreach with hreach | ⟨src, hsrc, hnil, hreach⟩
  · obtain ⟨e, he⟩ := topologicalWalkFrom_error h.Predecessors S plan.Roots fuel
      (CheckIntegrity.fn h) [] hpred hroots hfuel r a hr hreach (fun _ => hcheck)
    exact ⟨e, by simp only [he]⟩
  · obtain ⟨r1, _, r3⟩ := walk_roots_spec h.Predecessors S plan.Roots fuel hpred hroots hfuel
    cases hw : topologicalWalkFrom h.Predecessors fuel plan.Roots (CheckIntegrity.fn h) [] with
    | outOfFuel =>
      exfalso
      unfold topologicalWalkFrom at hw
      cases hwa : walkAll (walk h.Predecessors fuel) plan.Roots newTopologicalWalk with
      | outOfFuel => exact r1 hwa
      | error e => simp [hwa] at hw
      | ok tw =>
        rw [hwa] at hw
        simp only at hw
        cases hvis : visit (CheckIntegrity.fn h) tw.nodes [] with
        | mk s1 e =>
          rw [hvis] at hw
          cases e <;> simp at hw
    | error e => exact ⟨e, by simp only [hw]⟩
    | ok sources =>
      have hw0 := hw
      unfold topologicalWalkFrom at hw
      cases hwa : walkAll (walk h.Predecessors fuel) plan.Roots newTopologicalWalk with
      | outOfFuel => simp [hwa] at hw
      | error e => simp [hwa] at hw
      | ok tw =>
        rw [hwa] at hw
        simp only at hw
        obtain ⟨hS, hall⟩ := r3 tw hwa
        cases hvis : visit (CheckIntegrity.fn h) tw.nodes [] with
        | mk s1 e =>
          rw [hvis] at hw
          cases e with
          | some err => simp at hw
          | none =>
            simp only [Walked.ok.injEq] at hw
            subst hw
            have hmem : src ∈ s1 := by
              have := visit_fn_collects h src hnil tw.nodes [] (by rw [hvis])
                (Or.inr (hall r hr src hsrc))
              rw [hvis] at this
              exact this
            have hsub : ∀ x ∈ s1, x ∈ S := by
              intro x hx
              have hx2 : x ∈ (visit (CheckIntegrity.fn h) tw.nodes []).1 := by
                rw [hvis]; exact hx
              rcases visit_fn_sources h tw.nodes [] x hx2 with h1 | h1
              · cases h1
              · exact hS x h1
            obtain ⟨e, he⟩ := topologicalWalkFrom_error h.Successors S s1 fuel
              (fun (_ : Unit) node => ((), symmetryCheck h node)) () hsucc hsub hfuel src a
              hmem hreach (fun _ => hcheck)
            exact ⟨e, by simp only [hw0, he]⟩

/-- Witness of C10 (amended): the root `R` lists `N2` as predecessor, `N2` does not list `R`
as successor. -/
theorem checkIntegrity_detects_visited_witness :
    ((∀ r ∈ (Spec.mk [0]).Roots, r ∈ [0, 1, 2]) ∧
      (∀ a ∈ [0, 1, 2], ∀ b ∈ danglingPredHeap.Predecessors a, b ∈ [0, 1, 2]) ∧
      (∀ a ∈ [0, 1, 2], ∀ b ∈ danglingPredHeap.Successors a, b ∈ [0, 1, 2]) ∧
      [0, 1, 2].length < 4 ∧ 0 ∈ (Spec.mk [0]).Roots ∧
      (Relation.ReflTransGen (fun x y => y ∈ danglingPredHeap.Predecessors x) 0 0 ∨
        ∃ src, Relation.ReflTransGen (fun x y => y ∈ danglingPredHeap.Predecessors x) 0 src ∧
          (danglingPredHeap.Predecessors src).length = 0 ∧
          Relation.ReflTransGen (fun x y => y ∈ danglingPredHeap.Successors x) src 0) ∧
      ((2 ∈ danglingPredHeap.Successors 0 ∧ 0 ∉ danglingPredHeap.Predecessors 2) ∨
        (2 ∈ danglingPredHeap.Predecessors 0 ∧ 0 ∉ danglingPredHeap.Successors 2))) ∧
    ∃ msg, (Spec.mk [0]).CheckIntegrity danglingPredHeap 4 = .error msg :=
  ⟨⟨by decide, by decide, by decide, by decide, by decide,
      Or.inl Relation.ReflTransGen.refl, Or.inr (by decide)⟩,
   checkIntegrity_detects_visited (Spec.mk [0]) danglingPredHeap [0, 1, 2] 4 (by decide)
     (by decide) (by decide) (by decide) 0 0 2 (by decide) (Or.inl Relation.ReflTransGen.refl)
     (Or.inr (by decide))⟩

/-- C10 as stated fails on the third plan of the doc comment of `CheckIntegrity`: `N2` lists
the root `R` as successor, `R` does not list `N2` as predecessor, and the check returns no
error, because `N2` is reached by neither traversal. -/
theorem checkIntegrity_unreachable_counterexample :
    (0 ∈ unreachableHeap.Successors 2 ∧ 0 ∉ unreachableHeap.Predecessors 2 ∧
      2 ∉ unreachableHeap.Predecessors 0) ∧
    (Spec.mk [0]).CheckIntegrity unreachableHeap 4 = .ok () := by
  decide

/-! ## The blind spot of the integrity check -/

/-- The check returns no error as soon as every node the two traversals can visit passes:
`S1` holds what the roots reach through predecessor links, `S2` what the sources found in
`S1` reach through successor links. Nodes outside the two sets are never looked at. -/
theorem checkIntegrity_ok_of_regions (plan : Spec) (h : Heap) (S1 S2 : List Node) (fuel : Nat)
    (hroots : ∀ r ∈ plan.Roots, r ∈ S1)
    (hpred : ∀ a ∈ S1, ∀ b ∈ h.Predecessors a, b ∈ S1)
    (hsrc : ∀ a ∈ S1, (h.Predecessors a).length = 0 → a ∈ S2)
    (hsucc : ∀ a ∈ S2, ∀ b ∈ h.Successors a, b ∈ S2)
    (hmirror : ∀ a, a ∈ S1 ∨ a ∈ S2 →
      (∀ p ∈ h.Predecessors a, a ∈ h.Successors p) ∧
      (∀ s ∈ h.Successors a, a ∈ h.Predecessors s))
    (hacyc1 : ∀ a ∈ S1, ¬ Relation.TransGen (fun x y => y ∈ h.Predecessors x) a a)
    (hacyc2 : ∀ a ∈ S2, ¬ Relation.TransGen (fun x y => y ∈ h.Successors x) a a)
    (hfuel1 : S1.length < fuel) (hfuel2 : S2.length < fuel) :
    plan.CheckIntegrity h fuel = .ok () := by
  have hcheck : ∀ n, n ∈ S1 ∨ n ∈ S2 → symmetryCheck h n = none := by
    intro n hn
    rw [symmetryCheck_eq_none]
    exact hmirror n hn
  obtain ⟨tw, _, hnodes, hrun⟩ := topologicalWalkFrom_ok h.Predecessors S1 plan.Roots fuel
    (CheckIntegrity.fn h) [] hpred hroots hfuel1 hacyc1 (fun n hn _ => hcheck n (Or.inl hn))
  have hcollected : ∀ (nodes s : List Node),
      ∀ x ∈ (visit (CheckIntegrity.fn h) nodes s).1,
        x ∈ s ∨ (x ∈ nodes ∧ (h.Predecessors x).length = 0) := by
    intro nodes
    induction nodes with
    | nil => intro s x hx; exact Or.inl hx
    | cons n rest ih =>
      intro s x hx
      unfold visit at hx
      cases hv : CheckIntegrity.fn h s n with
      | mk s1 e =>
        rw [hv] at hx
        have hs1 : ∀ y ∈ s1, y ∈ s ∨ (y = n ∧ (h.Predecessors y).length = 0) := by
          intro y hy
          unfold CheckIntegrity.fn at hv
          simp only [Prod.mk.injEq] at hv
          rw [← hv.1] at hy
          by_cases hl : (h.Predecessors n).length = 0
          · simp only [hl, if_true, List.mem_append, List.mem_singleton] at hy
            rcases hy with hy | hy
            · exact Or.inl hy
            · exact Or.inr ⟨hy, hy ▸ hl⟩
          · simp only [hl, if_false] at hy
            exact Or.inl hy
        have lift : ∀ y, (y ∈ s ∨ (y = n ∧ (h.Predecessors y).length = 0)) →
            y ∈ s ∨ (y ∈ n :: rest ∧ (h.Predecessors y).length = 0) := by
          intro y hy
          rcases hy with hy | ⟨hy, hl⟩
          · exact Or.inl hy
          · exact Or.inr ⟨hy ▸ List.mem_cons_self _ _, hl⟩
        cases e with
        | some err =>
          simp only at hx
          exact lift x (hs1 x hx)
        | none =>
          simp only at hx
          rcases ih s1 x hx with h1 | ⟨h1, hl⟩
          · exact lift x (hs1 x h1)
          · exact Or.inr ⟨List.mem_cons_of_mem _ h1, hl⟩
  have hsources : ∀ x ∈ (visit (CheckIntegrity.fn h) tw.nodes []).1, x ∈ S2 := by
    intro x hx
    rcases hcollected tw.nodes [] x hx with h1 | ⟨h1, hl⟩
    · cases h1
    · exact hsrc x (hnodes x h1) hl
  obtain ⟨tw2, _, _, hrun2⟩ := topologicalWalkFrom_ok h.Successors S2
    (visit (CheckIntegrity.fn h) tw.nodes []).1 fuel
    (fun (_ : Unit) node => ((), symmetryCheck h node)) () hsucc hsources hfuel2 hacyc2
    (fun n hn _ => hcheck n (Or.inr hn))
  unfold Spec.CheckIntegrity WalkPredecessors WalkSuccessors
  simp only [hrun, hrun2]

/-- The check returns an error as soon as a node reachable from a root through predecessor
links holds an unmirrored entry. -/
theorem checkIntegrity_error_of_reachable (plan : Spec) (h : Heap) (S : List Node) (fuel : Nat)
    (hroots : ∀ r ∈ plan.Roots, r ∈ S)
    (hpred : ∀ a ∈ S, ∀ b ∈ h.Predecessors a, b ∈ S)
    (hfuel : S.length < fuel) (r a : Node) (hr : r ∈ plan.Roots)
    (hreach : Relation.ReflTransGen (fun x y => y ∈ h.Predecessors x) r a)
    (hcheck : symmetryCheck h a ≠ none) :
    ∃ msg, plan.CheckIntegrity h fuel = .error msg := by
  obtain ⟨e, he⟩ := topologicalWalkFrom_error h.Predecessors S plan.Roots fuel
    (CheckIntegrity.fn h) [] hpred hroots hfuel r a hr hreach (fun _ => hcheck)
  unfold Spec.CheckIntegrity WalkPredecessors WalkSuccessors
  exact ⟨e, by simp only [he]⟩

theorem acyclic_of_rank (E : Node → Node → Prop) (f : Node → Nat)
    (hf : ∀ x y, E x y → f y < f x) (a : Node) : ¬ Relation.TransGen E a a := by
  have key : ∀ x y, Relation.TransGen E x y → f y < f x := by
    intro x y hxy
    induction hxy with
    | single hs => exact hf _ _ hs
    | tail _ hs ih => exact Nat.lt_trans (hf _ _ hs) ih
  intro hcyc
  exact Nat.lt_irrefl _ (key a a hcyc)

theorem unreachableHeap_pred_rank (x y : Node) (hy : y ∈ unreachableHeap.Predecessors x) :
    (if y = 0 then 1 else 0) < (if x = 0 then 1 else 0) := by
  match x, hy with
  | 0, hy => simp [unreachableHeap, mkNode, Heap.Predecessors, NodeObj.edges] at hy; simp [hy]
  | 1, hy => simp [unreachableHeap, mkNode, Heap.Predecessors, NodeObj.edges] at hy
  | 2, hy => simp [unreachableHeap, mkNode, Heap.Predecessors, NodeObj.edges] at hy
  | n + 3, hy =>
    exfalso
    have : unreachableHeap.Predecessors (n + 3) = [] := rfl
    rw [this] at hy
    cases hy

theorem unreachableHeap_succ_rank (x y : Node) (hy : y ∈ unreachableHeap.Successors x) :
    (if y = 0 then 0 else 1) < (if x = 0 then 0 else 1) := by
  match x, hy with
  | 0, hy => simp [unreachableHeap, mkNode, Heap.Successors, NodeObj.edges] at hy
  | 1, hy => simp [unreachableHeap, mkNode, Heap.Successors, NodeObj.edges] at hy; simp [hy]
  | 2, hy => simp [unreachableHeap, mkNode, Heap.Successors, NodeObj.edges] at hy; simp [hy]
  | n + 3, hy =>
    exfalso
    have : unreachableHeap.Successors (n + 3) = [] := rfl
    rw [this] at hy
    cases hy

theorem forwardOnlyHeap_not_reachable :
    ¬ Relation.ReflTransGen (fun x y => y ∈ forwardOnlyHeap.Predecessors x) 0 2 := by
  have key : ∀ y, Relation.ReflTransGen (fun x y => y ∈ forwardOnlyHeap.Predecessors x) 0 y →
      y = 0 ∨ y = 1 := by
    intro y hy
    induction hy with
    | refl => exact Or.inl rfl
    | tail _ hs ih =>
      rcases ih with ih | ih
      · subst ih
        simp [forwardOnlyHeap, mkNode, Heap.Predecessors, NodeObj.edges] at hs
        exact Or.inr hs
      · subst ih
        simp [forwardOnlyHeap, mkNode, Heap.Predecessors, NodeObj.edges] at hs
  intro h2
  rcases key 2 h2 with h | h <;> cases h

/-- C11 (amended): `CheckIntegrity` does not detect an asymmetric edge at a node that neither
of its two traversals visits: it returns no error as soon as every node in `S1` (what the
roots reach through predecessor links) and in `S2` (what the predecessor-less nodes of `S1`
reach through successor links) has mirrored edges and lies on no cycle, whatever the other
nodes hold. So in the plan with root `R`, `R.predecessors = [N1]`, `N1.successors = [R]` and a
source `N2` whose successors are `[R]` while `R` does not list `N2`, it returns no error;
whereas it returns an error in the two documented cases, where `R` lists `N2` as predecessor
without the mirror, and where `N2` is reachable from `R` and lists `R` as successor without
the mirror. Any recursion bound above the number of nodes is enough. -/
theorem checkIntegrity_blind_spot :
    (∀ (plan : Spec) (h : Heap) (S1 S2 : List Node) (fuel : Nat),
      (∀ r ∈ plan.Roots, r ∈ S1) →
      (∀ a ∈ S1, ∀ b ∈ h.Predecessors a, b ∈ S1) →
      (∀ a ∈ S1, (h.Predecessors a).length = 0 → a ∈ S2) →
      (∀ a ∈ S2, ∀ b ∈ h.Successors a, b ∈ S2) →
      (∀ a, a ∈ S1 ∨ a ∈ S2 →
        (∀ p ∈ h.Predecessors a, a ∈ h.Successors p) ∧
        (∀ s ∈ h.Successors a, a ∈ h.Predecessors s)) →
      (∀ a ∈ S1, ¬ Relation.TransGen (fun x y => y ∈ h.Predecessors x) a a) →
      (∀ a ∈ S2, ¬ Relation.TransGen (fun x y => y ∈ h.Successors x) a a) →
      S1.length < fuel → S2.length < fuel →
      plan.CheckIntegrity h fuel = .ok ()) ∧
    (∀ fuel : Nat, 3 < fuel →
      ((0 ∈ unreachableHeap.Successors 2 ∧ 2 ∉ unreachableHeap.Predecessors 0) ∧
        (Spec.mk [0]).CheckIntegrity unreachableHeap fuel = .ok ()) ∧
      ((2 ∈ danglingPredHeap.Predecessors 0 ∧ 0 ∉ danglingPredHeap.Successors 2) ∧
        ∃ msg, (Spec.mk [0]).CheckIntegrity danglingPredHeap fuel = .error msg) ∧
      ((0 ∈ danglingSuccHeap.Successors 2 ∧ 2 ∉ danglingSuccHeap.Predecessors 0 ∧
          Relation.ReflTransGen (fun x y => y ∈ danglingSuccHeap.Predecessors x) 0 2) ∧
        ∃ msg, (Spec.mk [0]).CheckIntegrity danglingSuccHeap fuel = .error msg)) := by
  refine ⟨?_, ?_⟩
  · intro plan h S1 S2 fuel h1 h2 h3 h4 h5 h6 h7 h8 h9
    exact checkIntegrity_ok_of_regions plan h S1 S2 fuel h1 h2 h3 h4 h5 h6 h7 h8 h9
  · intro fuel hfuel
    have hreach : Relation.ReflTransGen (fun x y => y ∈ danglingSuccHeap.Predecessors x) 0 2 :=
      Relation.ReflTransGen.tail
        (Relation.ReflTransGen.tail Relation.ReflTransGen.refl
          (show (1 : Node) ∈ danglingSuccHeap.Predecessors 0 by decide))
        (show (2 : Node) ∈ danglingSuccHeap.Predecessors 1 by decide)
    refine ⟨⟨by decide, ?_⟩, ⟨by decide, ?_⟩, ⟨⟨by decide, by decide, hreach⟩, ?_⟩⟩
    · exact checkIntegrity_ok_of_regions (Spec.mk [0]) unreachableHeap [0, 1] [1, 0] fuel
        (by decide) (by decide) (by decide) (by decide)
        (by
          intro a ha
          have h01 : a = 0 ∨ a = 1 := by
            rcases ha with ha | ha
            · simpa using ha
            · simpa [or_comm] using ha
          rcases h01 with rfl | rfl <;> decide)
        (fun a _ => acyclic_of_rank _ _ unreachableHeap_pred_rank a)
        (fun a _ => acyclic_of_rank _ _ unreachableHeap_succ_rank a)
        (by simp only [List.length_cons, List.length_nil]; omega)
        (by simp only [List.length_cons, List.length_nil]; omega)
    · exact checkIntegrity_error_of_reachable (Spec.mk [0]) danglingPredHeap [0, 1, 2] fuel
        (by decide) (by decide) (by simp only [List.length_cons, List.length_nil]; omega)
        0 0 (by decide) Relation.ReflTransGen.refl (by decide)
    · exact checkIntegrity_error_of_reachable (Spec.mk [0]) danglingSuccHeap [0, 1, 2] fuel
        (by decide) (by decide) (by simp only [List.length_cons, List.length_nil]; omega)
        0 2 (by decide) hreach (by decide)

/-- Witness of C11 (amended): the three plans of the doc comment with recursion bound 4. -/
theorem checkIntegrity_blind_spot_witness :
    (3 < 4) ∧
    ((0 ∈ unreachableHeap.Successors 2 ∧ 2 ∉ unreachableHeap.Predecessors 0) ∧
      (Spec.mk [0]).CheckIntegrity unreachableHeap 4 = .ok ()) ∧
    ((2 ∈ danglingPredHeap.Predecessors 0 ∧ 0 ∉ danglingPredHeap.Successors 2) ∧
      ∃ msg, (Spec.mk [0]).CheckIntegrity danglingPredHeap 4 = .error msg) ∧
    ((0 ∈ danglingSuccHeap.Successors 2 ∧ 2 ∉ danglingSuccHeap.Predecessors 0 ∧
        Relation.ReflTransGen (fun x y => y ∈ danglingSuccHeap.Predecessors x) 0 2) ∧
      ∃ msg, (Spec.mk [0]).CheckIntegrity danglingSuccHeap 4 = .error msg) :=
  ⟨by decide, checkIntegrity_blind_spot.2 4 (by decide)⟩

/-- C11 as stated fails for a node that only the second traversal visits: `X` is not
reachable backward from the root `R`, it lists `Y` as successor while `Y` does not list it as
predecessor, and the check returns an error, because `X` is reached forward from the source
`N1`. -/
theorem checkIntegrity_forward_counterexample :
    ¬ Relation.ReflTransGen (fun x y => y ∈ forwardOnlyHeap.Predecessors x) 0 2 ∧
    (3 ∈ forwardOnlyHeap.Successors 2 ∧ 2 ∉ forwardOnlyHeap.Predecessors 3) ∧
    ((Spec.mk [0]).CheckIntegrity forwardOnlyHeap 5).isError = true :=
  ⟨forwardOnlyHeap_not_reachable, by decide, by decide⟩

/-! ## `mergeIDs` -/

theorem merged_data : ("merged_" : String).data = ['m', 'e', 'r', 'g', 'e', 'd', '_'] := rfl

theorem stripMerged_of_data (s : NodeID) (rest : List Char)
    (hs : s.data = 'm' :: 'e' :: 'r' :: 'g' :: 'e' :: 'd' :: '_' :: rest) :
    stripMerged s = String.mk rest := by
  unfold stripMerged
  rw [hs]
  rfl

theorem stripMerged_of_not_data (s : NodeID)
    (hs : ∀ rest, s.data ≠ 'm' :: 'e' :: 'r' :: 'g' :: 'e' :: 'd' :: '_' :: rest) :
    stripMerged s = s := by
  unfold stripMerged
  split
  · next rest hdata => exact absurd hdata (hs rest)
  · rfl

theorem stripMerged_eq (s : NodeID) :
    (if hasPrefix s "merged_" then String.mk (s.data.drop 7) else s) = stripMerged s := by
  unfold hasPrefix
  rw [merged_data]
  cases hp : List.isPrefixOf ['m', 'e', 'r', 'g', 'e', 'd', '_'] s.data with
  | true =>
    obtain ⟨t, ht⟩ := List.isPrefixOf_iff_prefix.mp hp
    have hdata : s.data = 'm' :: 'e' :: 'r' :: 'g' :: 'e' :: 'd' :: '_' :: t := by
      rw [← ht]; rfl
    rw [stripMerged_of_data s t hdata, hdata]
    rfl
  | false =>
    rw [stripMerged_of_not_data s]
    · rfl
    · intro rest hrest
      rw [hrest] at hp
      simp [List.isPrefixOf] at hp

theorem stripMerged_append (t : NodeID) : stripMerged ("merged_" ++ t) = t := by
  have : ("merged_" ++ t).data = 'm' :: 'e' :: 'r' :: 'g' :: 'e' :: 'd' :: '_' :: t.data := by
    rw [String.data_append, merged_data]; rfl
  rw [stripMerged_of_data _ _ this]

theorem stripMerged_of_not (s : NodeID) (hs : ∀ t : NodeID, s ≠ "merged_" ++ t) :
    stripMerged s = s := by
  apply stripMerged_of_not_data
  intro rest hdata
  apply hs (String.mk rest)
  apply String.ext
  rw [String.data_append, merged_data, hdata]
  rfl

theorem mergeIDs_eq (top bottom : NodeID) :
    mergeIDs top bottom = "merged_" ++ stripMerged bottom ++ "_" ++ stripMerged top := by
  unfold mergeIDs
  simp only [stripMerged_eq]

/-- The identifier of the node a successful merge into a fresh node returns. -/
theorem mergePlanNodes_alloc_ID (h : Heap) (top bottom : Node) (o : NodeObj)
    (hs : (mergePlanNodes (h.alloc o).2 top bottom (h.alloc o).1).succeeded = true) :
    ∃ merged h2, mergePlanNodes (h.alloc o).2 top bottom (h.alloc o).1 = .ret (.ok merged) h2 ∧
      h2.ID merged = o.ID := by
  by_cases hc : ((h.alloc o).2.Predecessors top).length ≠ 1 ∨
      ((h.alloc o).2.Successors bottom).length ≠ 1 ∨
      ((h.alloc o).2.Predecessors top).head? ≠ some bottom
  · rw [mergePlanNodes_of_not _ top bottom _ hc, succeeded_ret_error] at hs
    cases hs
  · push_neg at hc
    obtain ⟨h2, hrun, _, _, hid, _, _⟩ :=
      mergePlanNodes_of_adjacent (h.alloc o).2 top bottom (h.alloc o).1 hc.1 hc.2.1 hc.2.2
    refine ⟨_, h2, hrun, ?_⟩
    rw [hid]
    simp

/-! ## Claim on `mergeIDs` -/

/-- C12: `mergeIDs(top, bottom)` is "merged_" + strip(bottom) + "_" + strip(top), where strip
removes one leading "merged_" when present and is the identity otherwise; merging `filter2`
onto `filter1` and then `filter3` onto the result gives "merged_filter1_filter2_filter3"
(and merging the copy `filter3_copy` onto `filter1` gives "merged_filter1_filter3_copy");
and the identifier of a merged node is this function of the identifiers of `top` and
`bottom` alone. -/
theorem mergeIDs_strip :
    (∀ top bottom : NodeID,
      mergeIDs top bottom = "merged_" ++ stripMerged bottom ++ "_" ++ stripMerged top) ∧
    (∀ t : NodeID, stripMerged ("merged_" ++ t) = t) ∧
    (∀ s : NodeID, (∀ t : NodeID, s ≠ "merged_" ++ t) → stripMerged s = s) ∧
    mergeIDs "filter2" "filter1" = "merged_filter1_filter2" ∧
    mergeIDs "filter3" (mergeIDs "filter2" "filter1") = "merged_filter1_filter2_filter3" ∧
    mergeIDs "filter3_copy" "filter1" = "merged_filter1_filter3_copy" ∧
    (∀ (h : Heap) (top bottom : Node) (procSpec : ProcedureSpec),
      (MergeToLogicalNode h top bottom procSpec).succeeded = true →
      ∃ merged h2, MergeToLogicalNode h top bottom procSpec = .ret (.ok merged) h2 ∧
        h2.ID merged = mergeIDs (h.ID top) (h.ID bottom)) ∧
    (∀ (h : Heap) (top bottom : Node) (procSpec : PhysicalProcedureSpec),
      (MergeToPhysicalNode h top bottom procSpec).succeeded = true →
      ∃ merged h2, MergeToPhysicalNode h top bottom procSpec = .ret (.ok merged) h2 ∧
        h2.ID merged = mergeIDs (h.ID top) (h.ID bottom)) :=
  ⟨mergeIDs_eq, stripMerged_append, stripMerged_of_not, by decide, by decide, by decide,
   fun h top bottom _ hs => mergePlanNodes_alloc_ID h top bottom _ hs,
   fun h top bottom _ hs => mergePlanNodes_alloc_ID h top bottom _ hs⟩

/-- Witness of C12: the identifier `filter1` carries no "merged_", and merging `filter2` onto
`filter1` in the chain names the merged node `merged_filter1_filter2`. -/
theorem mergeIDs_strip_witness :
    ((∀ t : NodeID, ("filter1" : NodeID) ≠ "merged_" ++ t) ∧
      (MergeToLogicalNode chainHeap 2 1 { kind := "filter", params := [] }).succeeded = true) ∧
    stripMerged "filter1" = "filter1" ∧
    ∃ merged h2, MergeToLogicalNode chainHeap 2 1 { kind := "filter", params := [] }
        = .ret (.ok merged) h2 ∧
      h2.ID merged = mergeIDs (chainHeap.ID 2) (chainHeap.ID 1) :=
  ⟨⟨fun t ht => by
      have hd := congrArg String.data ht
      rw [String.data_append] at hd
      exact absurd hd (by simp [merged_data]),
    by decide⟩,
   mergeIDs_strip.2.2.1 "filter1" (fun t ht => by
      have hd := congrArg String.data ht
      rw [String.data_append] at hd
      exact absurd hd (by simp [merged_data])),
   mergeIDs_strip.2.2.2.2.2.2.1 chainHeap 2 1 { kind := "filter", params := [] } (by decide)⟩

end plan

/-!
# The sort-merge join: lemmas and properties
-/

namespace experimental

open execute



/-! ## The join scenario -/

/-- C14 (the rows the claim names are not the rows of the join): with left rows
(_time=1, v=1), (_time=2, v=2) and right rows (_time=2, v=20), (_time=2, v=21) under the empty
group key, the table `join` returns for the function
that returns the record of `left._time` and `left.v + right.v` does not have the rows
(2, 21) and (2, 22). -/
theorem join_scenario_counterexample :
    (join scenarioFn emptyKey scenarioLeft scenarioRight).val?.map ColListTable.rows
      ≠ some [[.time 2, .int 21], [.time 2, .int 22]] := by
  decide

/-- C14 (amended): in the scenario, under the empty group key, `join` evaluates the function
on the index pairs (1, 0) and (1, 1), the one left row at time 2 with each right row at time
2, and returns a table with the columns `_time` and `v` and exactly the two rows (2, 22) and
(2, 23): the left row at time 2 has v = 2. Under a group key with a column, the record the
function returns omits that column and `join` returns the group key error. -/
theorem join_scenario :
    (joinRun scenarioFn emptyKey scenarioLeft scenarioRight).val?.map joinState.evals
        = some [(1, 0), (1, 1)]
      ∧ (join scenarioFn emptyKey scenarioLeft scenarioRight).val?.map ColListTable.Cols
        = some [{ Label := "_time", Typ := .TTime }, { Label := "v", Typ := .TInt }]
      ∧ (join scenarioFn emptyKey scenarioLeft scenarioRight).val?.map ColListTable.rows
        = some [[.time 2, .int 22], [.time 2, .int 23]]
      ∧ (join scenarioFn emptyKey scenarioLeft scenarioRight).val?.map ColListTable.Key
        = some emptyKey
      ∧ (join scenarioFn hostKey scenarioLeft scenarioRight).error?
        = some "argument 'fn' may not modify group key" := by
  refine ⟨by decide, by decide, by decide, by decide, by decide⟩


/-! ## The order of labels -/

theorem lexLess_irrefl (s : List Char) : lexLess s s = false := by
  induction s with
  | nil => rfl
  | cons a s ih => simp [lexLess, ih]

theorem lexLess_asymm : ∀ (s t : List Char), lexLess s t = true → lexLess t s = false
  | [], [], h => by simp [lexLess] at h
  | [], _ :: _, _ => by simp [lexLess]
  | _ :: _, [], h => by simp [lexLess] at h
  | a :: s, b :: t, h => by
    simp only [lexLess] at h ⊢
    by_cases h1 : a.toNat < b.toNat
    · have h2 : ¬ b.toNat < a.toNat := by omega
      simp [h1, h2]
    · by_cases h2 : b.toNat < a.toNat
      · simp [h1, h2] at h
      · simp only [h1, h2, if_false] at h ⊢
        exact lexLess_asymm s t h

theorem char_eq_of_toNat {a b : Char} (h1 : ¬ a.toNat < b.toNat) (h2 : ¬ b.toNat < a.toNat) :
    a = b := by
  have h : a.toNat = b.toNat := by omega
  exact Char.ext (UInt32.toNat.inj h)

theorem lexLess_total : ∀ (s t : List Char), lexLess s t = false → lexLess t s = false → s = t
  | [], [], _, _ => rfl
  | [], _ :: _, h, _ => by simp [lexLess] at h
  | _ :: _, [], _, h => by simp [lexLess] at h
  | a :: s, b :: t, h, h' => by
    simp only [lexLess] at h h'
    by_cases h1 : a.toNat < b.toNat
    · simp [h1] at h
    · by_cases h2 : b.toNat < a.toNat
      · simp [h2] at h'
      · simp only [h1, h2, if_false] at h h'
        rw [char_eq_of_toNat h1 h2, lexLess_total s t h h']

theorem lexLess_trans : ∀ (s t u : List Char), lexLess s t = true → lexLess t u = true →
    lexLess s u = true
  | [], [], _, h, _ => by simp [lexLess] at h
  | [], _ :: _, [], _, h => by simp [lexLess] at h
  | [], _ :: _, _ :: _, _, _ => by simp [lexLess]
  | _ :: _, [], _, h, _ => by simp [lexLess] at h
  | _ :: _, _ :: _, [], _, h => by simp [lexLess] at h
  | a :: s, b :: t, c :: u, h, h' => by
    simp only [lexLess] at h h' ⊢
    by_cases h1 : a.toNat < b.toNat
    · by_cases h3 : b.toNat < c.toNat
      · have : a.toNat < c.toNat := by omega
        simp [this]
      · by_cases h4 : c.toNat < b.toNat
        · simp [h3, h4] at h'
        · have : a.toNat < c.toNat := by omega
          simp [this]
    · by_cases h2 : b.toNat < a.toNat
      · simp [h1, h2] at h
      · simp only [h1, h2, if_false] at h
        by_cases h3 : b.toNat < c.toNat
        · have : a.toNat < c.toNat := by omega
          simp [this]
        · by_cases h4 : c.toNat < b.toNat
          · simp [h3, h4] at h'
          · simp only [h3, h4, if_false] at h'
            have h5 : ¬ a.toNat < c.toNat := by omega
            have h6 : ¬ c.toNat < a.toNat := by omega
            simp only [h5, h6, if_false]
            exact lexLess_trans s t u h h'

theorem labelLess_irrefl (x : ColMeta) : labelLess x x = false :=
  lexLess_irrefl _

theorem labelLess_asymm {x y : ColMeta} (h : labelLess x y = true) : labelLess y x = false :=
  lexLess_asymm _ _ h

theorem labelLess_trans {x y z : ColMeta} (h : labelLess x y = true) (h' : labelLess y z = true) :
    labelLess x z = true :=
  lexLess_trans _ _ _ h h'

theorem labelLess_total {x y : ColMeta} (h : labelLess x y = false) (h' : labelLess y x = false) :
    x.Label = y.Label :=
  String.ext (lexLess_total _ _ h h')

/-- The relation `sortSchema` sorts by is total. -/
theorem labelLess_isTotal : IsTotal ColMeta (fun x y => labelLess y x = false) :=
  ⟨fun x y => by
    cases h : labelLess y x
    · exact Or.inl rfl
    · exact Or.inr (labelLess_asymm h)⟩

/-- The relation `sortSchema` sorts by is transitive. -/
theorem labelLess_isTrans : IsTrans ColMeta (fun x y => labelLess y x = false) :=
  ⟨fun x y z hxy hyz => by
    cases hzx : labelLess z x
    · rfl
    · exfalso
      cases hyx : labelLess x y
      · have he : x.Label = y.Label := labelLess_total hyx hxy
        have : labelLess z y = true := by
          unfold labelLess at hzx ⊢
          rw [← he]; exact hzx
        rw [this] at hyz; cases hyz
      · have := labelLess_trans hzx hyx
        rw [this] at hyz; cases hyz⟩

theorem labelLess_isAntisymm : IsAntisymm ColMeta (fun x y => labelLess x y = true) :=
  ⟨fun x y h h' => by rw [labelLess_asymm h] at h'; cases h'⟩

/-- The result of `sortSchema` is a permutation of its argument. -/
theorem sortSchema_perm (schema : List ColMeta) : (sortSchema schema).Perm schema :=
  List.perm_insertionSort _ schema

/-- With distinct labels, the result of `sortSchema` is strictly ascending. -/
theorem sortSchema_sorted (schema : List ColMeta) (hnd : (schema.map ColMeta.Label).Nodup) :
    (sortSchema schema).Pairwise (fun x y => labelLess x y = true) := by
  have hs : (sortSchema schema).Pairwise (fun x y => labelLess y x = false) :=
    @List.sorted_insertionSort _ _ _ labelLess_isTotal labelLess_isTrans schema
  have hn : (sortSchema schema).Pairwise (fun x y => x.Label ≠ y.Label) := by
    have : ((sortSchema schema).map ColMeta.Label).Nodup :=
      ((sortSchema_perm schema).map _).nodup_iff.2 hnd
    exact List.pairwise_map.1 this
  refine (hs.and hn).imp ?_
  rintro x y ⟨h1, h2⟩
  cases h : labelLess x y
  · exact absurd (labelLess_total h h1) h2
  · rfl

/-- With distinct labels, the result of `sortSchema` does not depend on the order of its
argument. -/
theorem sortSchema_congr {s1 s2 : List ColMeta} (hp : s1.Perm s2)
    (hnd : (s2.map ColMeta.Label).Nodup) : sortSchema s1 = sortSchema s2 := by
  have hnd1 : (s1.map ColMeta.Label).Nodup := (hp.map _).nodup_iff.2 hnd
  exact @List.eq_of_perm_of_sorted _ _ labelLess_isAntisymm _ _
    (((sortSchema_perm s1).trans hp).trans (sortSchema_perm s2).symm)
    (sortSchema_sorted s1 hnd1) (sortSchema_sorted s2 hnd)

theorem objectSchema_labels (obj : Object) :
    (objectSchema obj).map ColMeta.Label = obj.map Prod.fst := by
  simp [objectSchema, Function.comp_def]


/-! ## Column lookup and the schema of the builder -/

theorem ColIdx_loop_of_not_mem (label : String) :
    ∀ (cols : List ColMeta) (i : Nat), label ∉ cols.map ColMeta.Label →
      ColIdx.loop label cols i = -1
  | [], _, _ => rfl
  | c :: rest, i, h => by
    simp only [List.map_cons, List.mem_cons, not_or] at h
    simp only [ColIdx.loop]
    rw [if_neg (fun he => h.1 he.symm)]
    exact ColIdx_loop_of_not_mem label rest (i + 1) h.2

/-- The lookup finds the first column with the label. -/
theorem ColIdx_loop_of_mem (label : String) :
    ∀ (cols : List ColMeta) (i : Nat), label ∈ cols.map ColMeta.Label →
      ∃ n, ColIdx.loop label cols i = ((i + n : Nat) : Int) ∧ n < cols.length
        ∧ (∃ c, cols[n]? = some c ∧ c.Label = label)
        ∧ ∀ m c, m < n → cols[m]? = some c → c.Label ≠ label
  | [], _, h => by simp at h
  | c :: rest, i, h => by
    simp only [ColIdx.loop]
    by_cases hc : c.Label = label
    · refine ⟨0, by simp [hc], by simp, ⟨c, by simp, hc⟩, ?_⟩
      intro m c' hm
      omega
    · have hmem : label ∈ rest.map ColMeta.Label := by
        simp only [List.map_cons, List.mem_cons] at h
        rcases h with h | h
        · exact absurd h.symm hc
        · exact h
      obtain ⟨n, h1, h2, h3, h4⟩ := ColIdx_loop_of_mem label rest (i + 1) hmem
      refine ⟨n + 1, ?_, by simp [h2], by simpa using h3, ?_⟩
      · rw [if_neg hc, h1]
        congr 1
        omega
      · intro m c' hm hget
        cases m with
        | zero =>
          simp at hget
          rw [← hget]; exact hc
        | succ m =>
          simp at hget
          exact h4 m c' (by omega) (by simpa using hget)

theorem ColIdx_of_not_mem (label : String) (cols : List ColMeta)
    (h : label ∉ cols.map ColMeta.Label) : ColIdx label cols = -1 :=
  ColIdx_loop_of_not_mem label cols 0 h

theorem ColIdx_of_mem (label : String) (cols : List ColMeta)
    (h : label ∈ cols.map ColMeta.Label) :
    ∃ n : Nat, ColIdx label cols = (n : Int) ∧ n < cols.length
      ∧ (∃ c, cols[n]? = some c ∧ c.Label = label)
      ∧ ∀ m c, m < n → cols[m]? = some c → c.Label ≠ label := by
  obtain ⟨n, h1, h2, h3, h4⟩ := ColIdx_loop_of_mem label cols 0 h
  exact ⟨n, by simpa [ColIdx] using h1, h2, h3, h4⟩

/-- The lookup returns -1 exactly for a label that no column has. -/
theorem ColIdx_eq_neg_one (label : String) (cols : List ColMeta) :
    ColIdx label cols = -1 ↔ ∀ c ∈ cols, c.Label ≠ label := by
  constructor
  · intro h c hc he
    obtain ⟨n, h1, _⟩ := ColIdx_of_mem label cols (List.mem_map.2 ⟨c, hc, he⟩)
    rw [h1] at h
    omega
  · intro h
    apply ColIdx_of_not_mem
    intro hm
    obtain ⟨c, hc, he⟩ := List.mem_map.1 hm
    exact h c hc he

/-- Adding columns whose labels are distinct and new to the builder succeeds and appends
them, each with an empty column of values. -/
theorem addCols_ok : ∀ (schema : List ColMeta) (b : ColListTableBuilder),
    ((b.colMeta ++ schema).map ColMeta.Label).Nodup →
    buildSchema.addCols b schema
      = .ok { b with colMeta := b.colMeta ++ schema,
                     cols := b.cols ++ List.replicate schema.length [] }
  | [], b, _ => by simp [buildSchema.addCols]
  | c :: rest, b, h => by
    have hc : c.Label ∉ b.colMeta.map ColMeta.Label := by
      intro hm
      rw [List.map_append, List.nodup_append] at h
      exact h.2.2 hm (by simp)
    have hidx : ¬ (0 ≤ ColIdx c.Label b.Cols) := by
      rw [ColListTableBuilder.Cols, ColIdx_of_not_mem _ _ hc]; omega
    simp only [buildSchema.addCols, ColListTableBuilder.AddCol, if_neg hidx]
    rw [addCols_ok rest _ (by simpa using h)]
    simp [List.replicate_succ]

/-- When `buildSchema.addCols` succeeds, the columns of the builder are the old ones followed
by the added ones. -/
theorem addCols_colMeta : ∀ (schema : List ColMeta) (b b1 : ColListTableBuilder),
    buildSchema.addCols b schema = .ok b1 →
      b1.colMeta = b.colMeta ++ schema ∧ b1.key = b.key
  | [], b, b1, h => by
    simp only [buildSchema.addCols, Except.ok.injEq] at h
    subst h; simp
  | c :: rest, b, b1, h => by
    simp only [buildSchema.addCols] at h
    cases ha : b.AddCol c with
    | error e => rw [ha] at h; cases h
    | ok b2 =>
      rw [ha] at h
      obtain ⟨h1, h2⟩ := addCols_colMeta rest b2 b1 h
      simp only [ColListTableBuilder.AddCol] at ha
      split at ha
      · cases ha
      · simp only [Except.ok.injEq] at ha
        subst ha
        simp [h1, h2]

/-- On the empty builder and an object with distinct property names, `buildSchema` succeeds
and leaves the sorted schema of the object, with no values. -/
theorem buildSchema_new (key : GroupKey) (obj : Object) (hnd : (obj.map Prod.fst).Nodup) :
    buildSchema (NewColListTableBuilder key) obj
      = .ok { key := key, colMeta := sortSchema (objectSchema obj),
              cols := List.replicate obj.length [] } := by
  have hl : (sortSchema (objectSchema obj)).length = obj.length := by
    rw [(sortSchema_perm _).length_eq]; simp [objectSchema]
  have hn : ((sortSchema (objectSchema obj)).map ColMeta.Label).Nodup := by
    rw [((sortSchema_perm (objectSchema obj)).map _).nodup_iff, objectSchema_labels]
    exact hnd
  rw [buildSchema, addCols_ok _ _ (by simpa [NewColListTableBuilder] using hn)]
  simp [NewColListTableBuilder, hl]


/-! ## Row iterators -/

/-- The rows of the first `n` readers. -/
theorem take_succ_len (rs : List ColReader) (i : Nat) (r : ColReader) (h : rs[i]? = some r) :
    ((rs.take (i + 1)).map ColReader.Len).sum = ((rs.take i).map ColReader.Len).sum + r.Len := by
  rw [List.take_succ, h]
  simp

theorem NewRowIterator_loop_spec : ∀ (rs : List ColReader) (l : Nat),
    (NewRowIterator.loop rs l).1.length = rs.length
      ∧ (NewRowIterator.loop rs l).2 = l + (rs.map ColReader.Len).sum
      ∧ ∀ i, i < rs.length →
          (NewRowIterator.loop rs l).1[i]? = some (l + ((rs.take i).map ColReader.Len).sum)
  | [], l => by simp [NewRowIterator.loop]
  | r :: rest, l => by
    obtain ⟨h1, h2, h3⟩ := NewRowIterator_loop_spec rest (l + r.Len)
    refine ⟨by simp [NewRowIterator.loop, h1], ?_, ?_⟩
    · simp only [NewRowIterator.loop, h2, List.map_cons, List.sum_cons]
      omega
    · intro i hi
      cases i with
      | zero => simp [NewRowIterator.loop]
      | succ i =>
        simp only [List.length_cons, Nat.succ_lt_succ_iff] at hi
        simp only [NewRowIterator.loop, List.getElem?_cons_succ, h3 i hi, List.take_succ_cons,
          List.map_cons, List.sum_cons]
        congr 1
        omega

/-- The offsets of a well-formed iterator are the numbers of rows before each reader. -/
theorem RowIterator.WellFormed.offset {iter : RowIterator} (h : iter.WellFormed) (i : Nat)
    (hi : i < iter.readers.length) :
    iter.offsets[i]? = some (((iter.readers.take i).map ColReader.Len).sum) := by
  have h1 : iter.offsets = (NewRowIterator.loop iter.readers 0).1 := congrArg Prod.fst h
  rw [h1, (NewRowIterator_loop_spec iter.readers 0).2.2 i hi]
  simp

/-- The length of a well-formed iterator is the number of rows of its readers. -/
theorem RowIterator.WellFormed.len_eq {iter : RowIterator} (h : iter.WellFormed) :
    iter.len = (iter.readers.map ColReader.Len).sum := by
  have h1 : iter.len = (NewRowIterator.loop iter.readers 0).2 := congrArg Prod.snd h
  rw [h1, (NewRowIterator_loop_spec iter.readers 0).2.1]
  simp

theorem NewRowIterator_wellFormed (columns : List ColMeta) (readers : List ColReader)
    (timeCol : Nat) : (NewRowIterator columns readers timeCol).WellFormed := by
  simp [RowIterator.WellFormed, NewRowIterator]

theorem take_len_le (rs : List ColReader) (n : Nat) :
    ((rs.take n).map ColReader.Len).sum ≤ (rs.map ColReader.Len).sum := by
  have h := List.sum_take_add_sum_drop (rs.map ColReader.Len) n
  rw [← List.map_take] at h
  omega

/-- On a well-formed iterator `time` returns a value at every index. -/
theorem time_loop_total {iter : RowIterator} (h : iter.WellFormed) (idx : Nat) :
    ∀ n, n ≤ iter.readers.length → ∃ t, RowIterator.time.loop iter idx n = some t
  | 0, _ => ⟨-1, rfl⟩
  | i + 1, hn => by
    have hi : i < iter.readers.length := hn
    obtain ⟨r, hr⟩ : ∃ r, iter.readers[i]? = some r := ⟨_, List.getElem?_eq_getElem hi⟩
    simp only [RowIterator.time.loop, List.get?_eq_getElem?, h.offset i hi, hr]
    split
    · split
      · exact ⟨_, rfl⟩
      · exact ⟨_, rfl⟩
    · exact time_loop_total h idx i (by omega)

/-- On a well-formed iterator `time` returns -1 at every index from the length on. -/
theorem time_loop_beyond {iter : RowIterator} (h : iter.WellFormed) (idx : Nat)
    (hidx : iter.len ≤ idx) :
    ∀ n, n ≤ iter.readers.length → RowIterator.time.loop iter idx n = some (-1)
  | 0, _ => rfl
  | i + 1, hn => by
    have hi : i < iter.readers.length := hn
    obtain ⟨r, hr⟩ : ∃ r, iter.readers[i]? = some r := ⟨_, List.getElem?_eq_getElem hi⟩
    have h1 := take_succ_len iter.readers i r hr
    have h2 := take_len_le iter.readers (i + 1)
    have h3 := h.len_eq
    simp only [RowIterator.time.loop, List.get?_eq_getElem?, h.offset i hi, hr]
    rw [if_pos (by omega), if_pos (by omega)]

theorem record_fill_isSome (r : ColReader) (i : Nat) (hi : i < r.Len) :
    ∀ (cols : List ColMeta) (j : Nat) (row : Row),
      ∃ row1, RowIterator.record.fill r i cols j row = some row1
  | [], _, row => ⟨row, rfl⟩
  | col :: rest, j, row => by
    simp only [RowIterator.record.fill, if_pos hi]
    exact record_fill_isSome r i hi rest (j + 1) _

/-- On a well-formed iterator `record` returns a row at every index below the length. -/
theorem record_loop_isSome {iter : RowIterator} (h : iter.WellFormed) (idx : Nat) :
    ∀ n, n ≤ iter.readers.length → idx < ((iter.readers.take n).map ColReader.Len).sum →
      ∃ row, RowIterator.record.loop iter idx n = some row
  | 0, _, hlt => by simp at hlt
  | i + 1, hn, hlt => by
    have hi : i < iter.readers.length := hn
    obtain ⟨r, hr⟩ : ∃ r, iter.readers[i]? = some r := ⟨_, List.getElem?_eq_getElem hi⟩
    have h1 := take_succ_len iter.readers i r hr
    simp only [RowIterator.record.loop, List.get?_eq_getElem?, h.offset i hi, hr]
    split
    · exact record_fill_isSome r _ (by omega) _ _ _
    · exact record_loop_isSome h idx i (by omega) (by omega)

theorem time_total {iter : RowIterator} (h : iter.WellFormed) (idx : Nat) :
    ∃ t, iter.time idx = some t :=
  time_loop_total h idx _ (Nat.le_refl _)

theorem time_beyond {iter : RowIterator} (h : iter.WellFormed) (idx : Nat)
    (hidx : iter.len ≤ idx) : iter.time idx = some (-1) :=
  time_loop_beyond h idx hidx _ (Nat.le_refl _)

theorem record_isSome {iter : RowIterator} (h : iter.WellFormed) (idx : Nat)
    (hidx : idx < iter.len) : ∃ row, iter.record idx = some row := by
  apply record_loop_isSome h idx _ (Nat.le_refl _)
  rw [List.take_length, ← h.len_eq]
  exact hidx


/-! ## The loops of `join` -/

theorem runPairs_append {σ : Type} (process : Nat → Nat → σ → Run σ) :
    ∀ (xs ys : List (Nat × Nat)) (st : σ),
      runPairs process (xs ++ ys) st
        = match runPairs process xs st with
          | .ok st1 => runPairs process ys st1
          | other => other
  | [], ys, st => by simp [runPairs]
  | p :: xs, ys, st => by
    simp only [List.cons_append, runPairs]
    cases hp : process p.1 p.2 st with
    | ok st1 => exact runPairs_append process xs ys st1
    | error msg => rfl
    | panic msg => rfl
    | outOfFuel => rfl

theorem time_eq_timeD {iter : RowIterator} (h : iter.WellFormed) (idx : Nat) :
    iter.time idx = some (iter.timeD idx) := by
  obtain ⟨t, ht⟩ := time_total h idx
  simp [RowIterator.timeD, ht]

theorem timeD_beyond {iter : RowIterator} (h : iter.WellFormed) (idx : Nat)
    (hidx : iter.len ≤ idx) : iter.timeD idx = -1 := by
  simp [RowIterator.timeD, time_beyond h idx hidx]

/-- The inner loop of `join` runs its body on the rows of `b` from `k` on, as long as their
time is `ta`. -/
theorem matchLoop_eq {σ : Type} (process : Nat → Nat → σ → Run σ) (b : RowIterator)
    (hb : b.WellFormed) (ta : Int) (hta : ta ≠ -1) (i : Nat) :
    ∀ (n k fuel : Nat) (st : σ), k + n = b.len → n < fuel →
      matchLoop process b ta i fuel k st
        = runPairs process
            (((List.range' k n).takeWhile (fun k1 => decide (b.timeD k1 = ta))).map
              (fun k1 => (i, k1))) st
  | 0, k, fuel, st, hk, hf => by
    obtain ⟨f, rfl⟩ : ∃ f, fuel = f + 1 := ⟨fuel - 1, by omega⟩
    have hbt : b.time k = some (-1) := time_beyond hb k (by omega)
    simp only [matchLoop, hbt]
    rw [if_neg hta]
    simp [runPairs]
  | n + 1, k, fuel, st, hk, hf => by
    obtain ⟨f, rfl⟩ : ∃ f, fuel = f + 1 := ⟨fuel - 1, by omega⟩
    simp only [matchLoop, time_eq_timeD hb k, List.range'_succ]
    by_cases he : ta = b.timeD k
    · rw [if_pos he, List.takeWhile_cons_of_pos (by simp [he])]
      simp only [List.map_cons, runPairs]
      cases hp : process i k st with
      | ok st1 => exact matchLoop_eq process b hb ta hta i n (k + 1) f st1 (by omega) (by omega)
      | error msg => rfl
      | panic msg => rfl
      | outOfFuel => rfl
    · rw [if_neg he, List.takeWhile_cons_of_neg (by simp [Ne.symm he])]
      simp [runPairs]

/-- On a non-decreasing sequence that starts at or above `ta`, the rows with time `ta` are a
prefix. -/
theorem filter_eq_takeWhile (tb : Nat → Int) (ta : Int) :
    ∀ (n k : Nat), (∀ k1 k2, k1 ≤ k2 → k2 < k + n → tb k1 ≤ tb k2) →
      (∀ k1, k ≤ k1 → k1 < k + n → ta ≤ tb k1) →
      (List.range' k n).filter (fun k1 => decide (tb k1 = ta))
        = (List.range' k n).takeWhile (fun k1 => decide (tb k1 = ta))
  | 0, _, _, _ => by simp
  | n + 1, k, hs, hge => by
    simp only [List.range'_succ]
    by_cases he : tb k = ta
    · rw [List.filter_cons_of_pos (by simp [he]), List.takeWhile_cons_of_pos (by simp [he])]
      rw [filter_eq_takeWhile tb ta n (k + 1) (fun k1 k2 h1 h2 => hs k1 k2 h1 (by omega))
        (fun k1 h1 h2 => hge k1 (by omega) (by omega))]
    · rw [List.filter_cons_of_neg (by simp [he]), List.takeWhile_cons_of_neg (by simp [he])]
      rw [List.filter_eq_nil_iff]
      intro k1 hk1
      have hk := List.mem_range'_1.1 hk1
      have h1 := hs k k1 (by omega) (by omega)
      have h2 := hge k (by omega) (by omega)
      have h3 : tb k ≠ ta := he
      simp only [decide_eq_true_eq]
      omega


theorem rowPairs_eq {a b : RowIterator} (ha : a.WellFormed) (hb : b.WellFormed) (i : Nat) :
    rowPairs a b i
      = ((List.range b.len).filter (fun k => decide (b.timeD k = a.timeD i))).map
          (fun k => (i, k)) := by
  unfold rowPairs
  congr 1
  apply List.filter_congr
  intro k _
  rw [time_eq_timeD ha i, time_eq_timeD hb k]
  simp [eq_comm]

theorem rowPairs_eq_nil {a b : RowIterator} (ha : a.WellFormed) (hb : b.WellFormed) (i : Nat)
    (h : ∀ k, k < b.len → b.timeD k ≠ a.timeD i) : rowPairs a b i = [] := by
  rw [rowPairs_eq ha hb, List.map_eq_nil_iff, List.filter_eq_nil_iff]
  intro k hk
  simpa using h k (List.mem_range.1 hk)

/-- When the rows of `b` before `j` are earlier than row `i` of `a` and row `j` has the same
time, the pairs of row `i` are the ones the inner loop visits. -/
theorem rowPairs_eq_takeWhile {a b : RowIterator} (ha : a.WellFormed) (hb : b.WellFormed)
    (hsb : ∀ k1 k2, k1 ≤ k2 → k2 < b.len → b.timeD k1 ≤ b.timeD k2)
    (i j : Nat) (hj : j < b.len) (hlt : ∀ k, k < j → b.timeD k < a.timeD i)
    (he : a.timeD i = b.timeD j) :
    rowPairs a b i
      = ((List.range' j (b.len - j)).takeWhile (fun k => decide (b.timeD k = a.timeD i))).map
          (fun k => (i, k)) := by
  rw [rowPairs_eq ha hb, List.range_eq_range']
  have hsplit : List.range' 0 b.len = List.range' 0 j ++ List.range' j (b.len - j) := by
    have := List.range'_append_1 0 j (b.len - j)
    rw [Nat.zero_add] at this
    rw [this]
    congr 1
    omega
  rw [hsplit, List.filter_append]
  have h1 : (List.range' 0 j).filter (fun k => decide (b.timeD k = a.timeD i)) = [] := by
    rw [List.filter_eq_nil_iff]
    intro k hk
    have hk1 := List.mem_range'_1.1 hk
    have := hlt k (by omega)
    simp only [decide_eq_true_eq]
    omega
  rw [h1, List.nil_append]
  rw [filter_eq_takeWhile b.timeD (a.timeD i) (b.len - j) j
    (fun k1 k2 h1 h2 => hsb k1 k2 h1 (by omega))
    (fun k1 h1 h2 => by rw [he]; exact hsb j k1 h1 (by omega))]

/-- The loops of `join` run the body on the matched pairs in lexicographic order: from the
indices `i` and `j`, when the rows of `b` before `j` are earlier than row `i` of `a`. -/
theorem joinLoop_eq {σ : Type} (process : Nat → Nat → σ → Run σ) (a b : RowIterator)
    (ha : a.WellFormed) (hb : b.WellFormed)
    (hsa : ∀ i1 i2, i1 ≤ i2 → i2 < a.len → a.timeD i1 ≤ a.timeD i2)
    (hsb : ∀ k1 k2, k1 ≤ k2 → k2 < b.len → b.timeD k1 ≤ b.timeD k2)
    (hna : ∀ i, i < a.len → a.timeD i ≠ -1) (hnb : ∀ k, k < b.len → b.timeD k ≠ -1) :
    ∀ (fuel i j : Nat) (st : σ), i ≤ a.len → j ≤ b.len → (a.len - i) + (b.len - j) < fuel →
      (∀ k, k < j → i < a.len → b.timeD k < a.timeD i) →
      joinLoop process a b fuel i j st
        = runPairs process ((List.range' i (a.len - i)).flatMap (rowPairs a b)) st
  | 0, _, _, _, _, _, hf, _ => by omega
  | fuel + 1, i, j, st, hi, hj, hf, hinv => by
    simp only [joinLoop, time_eq_timeD ha i, time_eq_timeD hb j]
    by_cases hia : i = a.len
    · have h1 : a.timeD i = -1 := timeD_beyond ha i (by omega)
      rw [if_pos (Or.inl h1), hia]
      simp [runPairs]
    · have hia1 : i < a.len := by omega
      have hrange : List.range' i (a.len - i) = i :: List.range' (i + 1) (a.len - (i + 1)) := by
        rw [List.range'_eq_cons_iff]
        exact ⟨rfl, by omega, by congr 1⟩
      have hta := hna i hia1
      by_cases hjb : j = b.len
      · have h1 : b.timeD j = -1 := timeD_beyond hb j (by omega)
        rw [if_pos (Or.inr h1)]
        have hnil : (List.range' i (a.len - i)).flatMap (rowPairs a b) = [] := by
          rw [List.flatMap_eq_nil_iff]
          intro i1 hi1
          have hi2 := List.mem_range'_1.1 hi1
          apply rowPairs_eq_nil ha hb
          intro k hk
          have h2 := hinv k (by omega) hia1
          have h3 := hsa i i1 hi2.1 (by omega)
          omega
        rw [hnil]
        rfl
      · have hjb1 : j < b.len := by omega
        have htb := hnb j hjb1
        rw [if_neg (by simp [hta, htb])]
        by_cases hlt : a.timeD i < b.timeD j
        · rw [if_pos hlt]
          rw [joinLoop_eq process a b ha hb hsa hsb hna hnb fuel (i + 1) j st (by omega) hj
            (by omega)
            (fun k hk hi1 => by
              have h2 := hinv k hk hia1
              have h3 := hsa i (i + 1) (by omega) hi1
              omega)]
          rw [hrange, List.flatMap_cons]
          rw [rowPairs_eq_nil ha hb i (fun k hk => by
            by_cases hkj : k < j
            · have := hinv k hkj hia1
              omega
            · have := hsb j k (by omega) hk
              omega)]
          rfl
        · rw [if_neg hlt]
          by_cases hgt : a.timeD i > b.timeD j
          · rw [if_pos hgt]
            exact joinLoop_eq process a b ha hb hsa hsb hna hnb fuel i (j + 1) st hi (by omega)
              (by omega)
              (fun k hk hi1 => by
                by_cases hkj : k < j
                · exact hinv k hkj hi1
                · have : k = j := by omega
                  rw [this]; exact hgt)
          · rw [if_neg hgt]
            have he : a.timeD i = b.timeD j := by omega
            rw [matchLoop_eq process b hb (a.timeD i) hta i (b.len - j) j (b.len + 1) st
              (by omega) (by omega)]
            rw [hrange, List.flatMap_cons, runPairs_append]
            rw [rowPairs_eq_takeWhile ha hb hsb i j hjb1 (fun k hk => hinv k hk hia1) he]
            cases hr : runPairs process
                (((List.range' j (b.len - j)).takeWhile
                  (fun k => decide (b.timeD k = a.timeD i))).map (fun k => (i, k))) st with
            | ok st1 =>
              exact joinLoop_eq process a b ha hb hsa hsb hna hnb fuel (i + 1) j st1 (by omega)
                hj (by omega)
                (fun k hk hi1 => by
                  have h2 := hinv k hk hia1
                  have h3 := hsa i (i + 1) (by omega) hi1
                  omega)
            | error msg => rfl
            | panic msg => rfl
            | outOfFuel => rfl

/-- On well-formed iterators with non-decreasing times and no time -1, the loops of `join` run
their body on exactly the matched pairs, in lexicographic order. -/
theorem joinLoop_matchedPairs {σ : Type} (process : Nat → Nat → σ → Run σ) (a b : RowIterator)
    (ha : a.WellFormed) (hb : b.WellFormed)
    (hsa : ∀ i1 i2, i1 ≤ i2 → i2 < a.len → a.timeD i1 ≤ a.timeD i2)
    (hsb : ∀ k1 k2, k1 ≤ k2 → k2 < b.len → b.timeD k1 ≤ b.timeD k2)
    (hna : ∀ i, i < a.len → a.timeD i ≠ -1) (hnb : ∀ k, k < b.len → b.timeD k ≠ -1) (st : σ) :
    joinLoop process a b (a.len + b.len + 1) 0 0 st = runPairs process (matchedPairs a b) st := by
  rw [joinLoop_eq process a b ha hb hsa hsb hna hnb (a.len + b.len + 1) 0 0 st (by omega)
    (by omega) (by omega) (fun k hk => by omega)]
  rw [matchedPairs, List.range_eq_range']
  rfl


/-! ## Appending a row -/

/-- Columns with distinct labels are equal when their labels are. -/
theorem eq_of_label_eq {T : List ColMeta} (hT : (T.map ColMeta.Label).Nodup) {c c1 : ColMeta}
    (hc : c ∈ T) (hc1 : c1 ∈ T) (h : c.Label = c1.Label) : c = c1 :=
  List.inj_on_of_nodup_map hT hc hc1 h

/-- Appending a value to the column with a given label, in terms of the columns as a function
of their descriptors. -/
theorem set_map_append {T : List ColMeta} (hT : (T.map ColMeta.Label).Nodup)
    (g : ColMeta → List Value) (n : Nat) (c : ColMeta) (hn : T[n]? = some c) (v : Value) :
    (T.map g).set n (g c ++ [v])
      = T.map (fun c1 => if c1.Label = c.Label then g c1 ++ [v] else g c1) := by
  apply List.ext_getElem?
  intro m
  rw [List.getElem?_set]
  have hc : c ∈ T := List.getElem?_mem hn
  by_cases hnm : n = m
  · subst hnm
    have hlt : n < (T.map g).length := by
      rw [List.length_map]
      exact (List.getElem?_eq_some_iff.1 hn).1
    rw [if_pos rfl, if_pos hlt, List.getElem?_map, hn]
    simp
  · rw [if_neg hnm, List.getElem?_map, List.getElem?_map]
    cases hm : T[m]? with
    | none => rfl
    | some c1 =>
      have hc1 : c1 ∈ T := List.getElem?_mem hm
      have hne : c1.Label ≠ c.Label := by
        intro he
        have hcc := eq_of_label_eq hT hc1 hc he
        subst hcc
        obtain ⟨h1, h1e⟩ := List.getElem?_eq_some_iff.1 hn
        obtain ⟨h2, h2e⟩ := List.getElem?_eq_some_iff.1 hm
        have hnd : T.Nodup := List.Nodup.of_map _ hT
        exact hnm ((hnd.getElem_inj_iff).1 (h1e.trans h2e.symm))
      simp [hne]

/-- When every property of the object is a column of the builder, of the type of its value,
`appendRowToBuilder` returns no error and has appended to every column the values of the
properties with its label. -/
theorem appendRow_range_ok (key : GroupKey) (T : List ColMeta)
    (hT : (T.map ColMeta.Label).Nodup) :
    ∀ (obj : Object) (g : ColMeta → List Value),
      (∀ p ∈ obj, ({ Label := p.1, Typ := p.2.colType } : ColMeta) ∈ T) →
      appendRowToBuilder.range { key := key, colMeta := T, cols := T.map g } none obj
        = ({ key := key, colMeta := T,
             cols := T.map (fun c =>
               g c ++ (obj.filter (fun p => decide (p.1 = c.Label))).map Prod.snd) }, none)
  | [], g, _ => by simp [appendRowToBuilder.range]
  | (name, v) :: rest, g, h => by
    have hmem : ({ Label := name, Typ := v.colType } : ColMeta) ∈ T := h (name, v) (by simp)
    obtain ⟨n, h1, h2, ⟨c, h3, h4⟩, _⟩ :=
      ColIdx_of_mem name T (List.mem_map.2 ⟨_, hmem, rfl⟩)
    have hc : c = { Label := name, Typ := v.colType } :=
      eq_of_label_eq hT (List.getElem?_mem h3) hmem h4
    simp only [appendRowToBuilder.range, ColListTableBuilder.Cols, h1]
    rw [if_neg (by omega)]
    simp only [ColListTableBuilder.AppendValue, Int.toNat_ofNat, List.get?_eq_getElem?, h3,
      List.getElem?_map, Option.map_some']
    rw [if_pos (Or.inr (by rw [hc]))]
    simp only []
    rw [set_map_append hT g n c h3 v]
    rw [appendRow_range_ok key T hT rest _ (fun p hp => h p (List.mem_cons_of_mem _ hp))]
    congr 2
    apply List.map_congr_left
    intro c1 _
    by_cases he : c1.Label = c.Label
    · have he1 : name = c1.Label := by rw [he, h4]
      simp [he, he1]
    · have he1 : ¬ name = c1.Label := by
        intro h5; exact he (by rw [← h5, h4])
      simp [he, he1]

/-- In an object with distinct property names, the properties with a given name are the one
that `Get` returns. -/
theorem filter_eq_get : ∀ (obj : Object) (label : String), (obj.map Prod.fst).Nodup →
    (obj.filter (fun p => decide (p.1 = label))).map Prod.snd = (obj.Get label).toList
  | [], _, _ => rfl
  | (name, v) :: rest, label, h => by
    simp only [List.map_cons, List.nodup_cons] at h
    by_cases he : name = label
    · subst he
      have hnil : rest.filter (fun p => decide (p.1 = name)) = [] := by
        rw [List.filter_eq_nil_iff]
        intro p hp
        simp only [decide_eq_true_eq]
        intro hpe
        exact h.1 (List.mem_map.2 ⟨p, hp, hpe⟩)
      simp [Object.Get, hnil]
    · simp [Object.Get, he, filter_eq_get rest label h.2]

theorem get_of_mem : ∀ (obj : Object) (label : String), label ∈ obj.map Prod.fst →
    ∃ v, obj.Get label = some v ∧ (label, v) ∈ obj
  | [], _, h => by simp at h
  | (name, v) :: rest, label, h => by
    by_cases he : name = label
    · subst he
      exact ⟨v, by simp [Object.Get], by simp⟩
    · have hm : label ∈ rest.map Prod.fst := by
        simp only [List.map_cons, List.mem_cons] at h
        rcases h with h | h
        · exact absurd h.symm he
        · exact h
      obtain ⟨w, h1, h2⟩ := get_of_mem rest label hm
      exact ⟨w, by simp [Object.Get, he, h1], List.mem_cons_of_mem _ h2⟩

/-- An object whose sorted schema is `T`, with distinct property names, is appended to a
builder with the columns `T` as one value per column, the value of the property with the
label of the column. -/
theorem appendRow_ok (key : GroupKey) (T : List ColMeta) (obj : Object)
    (hnd : (obj.map Prod.fst).Nodup) (hT : sortSchema (objectSchema obj) = T)
    (g : ColMeta → List Value) :
    appendRowToBuilder { key := key, colMeta := T, cols := T.map g } obj
      = ({ key := key, colMeta := T,
           cols := T.map (fun c => g c ++ [(obj.Get c.Label).getD .null]) }, none) := by
  have hperm : T.Perm (objectSchema obj) := hT ▸ sortSchema_perm _
  have hTn : (T.map ColMeta.Label).Nodup := by
    rw [(hperm.map _).nodup_iff, objectSchema_labels]
    exact hnd
  rw [appendRowToBuilder, appendRow_range_ok key T hTn obj g]
  · congr 2
    apply List.map_congr_left
    intro c hc
    have hc1 : c.Label ∈ obj.map Prod.fst := by
      rw [← objectSchema_labels]
      exact List.mem_map.2 ⟨c, hperm.subset hc, rfl⟩
    obtain ⟨v, hv, _⟩ := get_of_mem obj c.Label hc1
    rw [filter_eq_get obj c.Label hnd, hv]
    rfl
  · intro p hp
    apply hperm.symm.subset
    exact List.mem_map.2 ⟨p, hp, rfl⟩


/-! ## The body of the loop on well-typed records -/

theorem evalAt_eq_some {fn : rowJoinFn} {a b : RowIterator} {p : Nat × Nat} {obj : Object}
    (h : evalAt fn a b p = some obj) :
    ∃ left right, a.record p.1 = some left ∧ b.record p.2 = some right
      ∧ fn.Eval a.columns b.columns left right = .ok obj := by
  unfold evalAt at h
  cases hl : a.record p.1 with
  | none => simp [hl] at h
  | some left =>
    cases hr : b.record p.2 with
    | none => simp [hl, hr] at h
    | some right =>
      cases hev : fn.Eval a.columns b.columns left right with
      | error e => simp [hl, hr, hev] at h
      | ok obj1 =>
        simp only [hl, hr, hev, Option.some.injEq] at h
        subst h
        exact ⟨left, right, rfl, rfl, hev⟩

theorem valueAt_eq {fn : rowJoinFn} {a b : RowIterator} {p : Nat × Nat} {obj : Object}
    (h : evalAt fn a b p = some obj) (label : String) :
    valueAt fn a b p label = (obj.Get label).getD .null := by
  simp [valueAt, h]

/-- The body of the loop, on a record that reproduces the group key and has the schema `T`,
adds one row to the builder. -/
theorem joinRow_stateAfter (fn : rowJoinFn) (key : GroupKey) (a b : RowIterator)
    (T : List ColMeta) (done : List (Nat × Nat)) (p : Nat × Nat) (obj : Object)
    (he : evalAt fn a b p = some obj) (hk : objContainsKey obj key = true)
    (hnd : (obj.map Prod.fst).Nodup) (hT : sortSchema (objectSchema obj) = T) :
    joinRow fn key a b p.1 p.2 (stateAfter fn key a b T done)
      = .ok (stateAfter fn key a b T (done ++ [p])) := by
  obtain ⟨left, right, hl, hr, hev⟩ := evalAt_eq_some he
  have hlen : T.length = obj.length := by
    rw [← hT, (sortSchema_perm _).length_eq]; simp [objectSchema]
  have hne : done ++ [p] ≠ [] := by simp
  simp only [joinRow, hl, hr, hev]
  by_cases hd : done = []
  · subst hd
    have hb0 : (stateAfter fn key a b T []).builder = NewColListTableBuilder key := by
      simp [stateAfter, builderAfter, NewColListTableBuilder]
    have hf0 : (stateAfter fn key a b T []).firstRow = true := by simp [stateAfter]
    rw [hf0, if_pos rfl, hb0, buildSchema_new key obj hnd, hT]
    simp only [hk, Bool.true_eq_false, if_false]
    have hrep : List.replicate obj.length ([] : List Value) = T.map (fun _ => []) := by
      rw [List.map_const', hlen]
    rw [hrep, appendRow_ok key T obj hnd hT]
    simp only [stateAfter, builderAfter, List.nil_append, if_neg (List.cons_ne_nil _ _),
      List.map_cons, List.map_nil, valueAt_eq he]
    simp
  · have hf0 : (stateAfter fn key a b T done).firstRow = false := by simp [stateAfter, hd]
    have hb0 : (stateAfter fn key a b T done).builder
        = { key := key, colMeta := T,
            cols := T.map (fun c => done.map (fun q => valueAt fn a b q c.Label)) } := by
      simp [stateAfter, builderAfter, hd]
    rw [hf0, hb0]
    simp only [Bool.false_eq_true, if_false, hk]
    rw [appendRow_ok key T obj hnd hT]
    simp only [stateAfter, builderAfter, if_neg hne, List.map_append, List.map_cons,
      List.map_nil, valueAt_eq he]
    simp [hd]

/-- The body of the loop run on pairs whose records reproduce the group key and have the
schema `T` adds one row per pair, in order. -/
theorem runPairs_stateAfter (fn : rowJoinFn) (key : GroupKey) (a b : RowIterator)
    (T : List ColMeta) :
    ∀ (pairs done : List (Nat × Nat)),
      (∀ p ∈ pairs, ∃ obj, evalAt fn a b p = some obj ∧ objContainsKey obj key = true
        ∧ (obj.map Prod.fst).Nodup ∧ sortSchema (objectSchema obj) = T) →
      runPairs (joinRow fn key a b) pairs (stateAfter fn key a b T done)
        = .ok (stateAfter fn key a b T (done ++ pairs))
  | [], done, _ => by simp [runPairs]
  | p :: rest, done, h => by
    obtain ⟨obj, he, hk, hnd, hT⟩ := h p (by simp)
    simp only [runPairs]
    rw [joinRow_stateAfter fn key a b T done p obj he hk hnd hT]
    simp only []
    rw [runPairs_stateAfter fn key a b T rest (done ++ [p])
      (fun q hq => h q (List.mem_cons_of_mem _ hq))]
    simp


/-! ## The matched pairs and the table of the join -/

theorem mem_matchedPairs {a b : RowIterator} (ha : a.WellFormed) (hb : b.WellFormed)
    (i k : Nat) :
    (i, k) ∈ matchedPairs a b ↔ i < a.len ∧ k < b.len ∧ a.timeD i = b.timeD k := by
  simp only [matchedPairs, List.mem_flatMap, List.mem_range, rowPairs_eq ha hb, List.mem_map,
    List.mem_filter, decide_eq_true_eq, Prod.mk.injEq]
  constructor
  · rintro ⟨i1, hi1, k1, ⟨hk1, he⟩, rfl, rfl⟩
    exact ⟨hi1, hk1, he.symm⟩
  · rintro ⟨hi, hk, he⟩
    exact ⟨i, hi, k, ⟨hk, he.symm⟩, rfl, rfl⟩

/-- The matched pairs are in strictly ascending lexicographic order. -/
theorem matchedPairs_sorted (a b : RowIterator) :
    (matchedPairs a b).Pairwise (fun p q => p.1 < q.1 ∨ (p.1 = q.1 ∧ p.2 < q.2)) := by
  rw [matchedPairs, List.pairwise_flatMap]
  constructor
  · intro i _
    rw [rowPairs, List.pairwise_map]
    exact ((List.pairwise_lt_range b.len).filter _).imp (fun h => Or.inr ⟨rfl, h⟩)
  · refine (List.pairwise_lt_range a.len).imp ?_
    intro i1 i2 h p hp q hq
    simp only [rowPairs, List.mem_map] at hp hq
    obtain ⟨_, _, rfl⟩ := hp
    obtain ⟨_, _, rfl⟩ := hq
    exact Or.inl h

theorem matchedPairs_nodup (a b : RowIterator) : (matchedPairs a b).Nodup := by
  refine (matchedPairs_sorted a b).imp ?_
  rintro p q (h | ⟨_, h⟩) he
  · rw [he] at h; exact Nat.lt_irrefl _ h
  · rw [he] at h; exact Nat.lt_irrefl _ h

/-- The rows of a table whose columns hold one value per index pair. -/
theorem rows_of_map (key : GroupKey) (cols : List ColMeta) (T : List ColMeta) (hT : T ≠ [])
    (pairs : List (Nat × Nat)) (f : ColMeta → Nat × Nat → Value) :
    ColListTable.rows { Key := key, Cols := cols, data := T.map (fun c => pairs.map (f c)) }
      = pairs.map (fun p => T.map (fun c => f c p)) := by
  obtain ⟨c0, T1, rfl⟩ := List.exists_cons_of_ne_nil hT
  simp only [ColListTable.rows, List.map_cons, List.length_map]
  apply List.ext_getElem?
  intro r
  simp only [List.getElem?_map, List.getElem?_range']
  by_cases hr : r < pairs.length
  · have hp : pairs[r]? = some pairs[r] := List.getElem?_eq_getElem hr
    simp [List.getElem?_range, hr, hp]
  · have hp : pairs[r]? = none := List.getElem?_eq_none (by omega)
    simp [List.getElem?_range, hr, hp]
    omega

/-- The state `join` reaches on well-formed inputs, when the function succeeds on every
matched pair with a record of the schema `T` that reproduces the group key. -/
theorem joinRun_ok (fn : rowJoinFn) (key : GroupKey) (a b : RowIterator) (T : List ColMeta)
    (ha : a.WellFormed) (hb : b.WellFormed)
    (hsa : ∀ i1 i2, i1 ≤ i2 → i2 < a.len → a.timeD i1 ≤ a.timeD i2)
    (hsb : ∀ k1 k2, k1 ≤ k2 → k2 < b.len → b.timeD k1 ≤ b.timeD k2)
    (hna : ∀ i, i < a.len → a.timeD i ≠ -1) (hnb : ∀ k, k < b.len → b.timeD k ≠ -1)
    (hprep : fn.Prepare a.columns b.columns = none)
    (hfn : ∀ p ∈ matchedPairs a b, ∃ obj, evalAt fn a b p = some obj
      ∧ objContainsKey obj key = true ∧ (obj.map Prod.fst).Nodup
      ∧ sortSchema (objectSchema obj) = T) :
    joinRun fn key a b = .ok (stateAfter fn key a b T (matchedPairs a b)) := by
  have h0 : ({ builder := NewColListTableBuilder key, firstRow := true, evals := [] } : joinState)
      = stateAfter fn key a b T [] := by
    simp [stateAfter, builderAfter, NewColListTableBuilder]
  rw [joinRun, hprep]
  simp only []
  rw [joinLoop_matchedPairs _ a b ha hb hsa hsb hna hnb, h0,
    runPairs_stateAfter fn key a b T (matchedPairs a b) [] hfn]
  simp


/-! ## The inputs of the scenario -/

theorem scenarioLeft_wellFormed : scenarioLeft.WellFormed := by decide

theorem scenarioRight_wellFormed : scenarioRight.WellFormed := by decide

theorem scenarioLeft_sorted :
    ∀ i1 i2, i1 ≤ i2 → i2 < scenarioLeft.len → scenarioLeft.timeD i1 ≤ scenarioLeft.timeD i2 := by
  intro i1 i2 h1 h2
  have hl : scenarioLeft.len = 2 := by decide
  rw [hl] at h2
  interval_cases i2 <;> interval_cases i1 <;> decide

theorem scenarioRight_sorted :
    ∀ k1 k2, k1 ≤ k2 → k2 < scenarioRight.len →
      scenarioRight.timeD k1 ≤ scenarioRight.timeD k2 := by
  intro k1 k2 h1 h2
  have hl : scenarioRight.len = 2 := by decide
  rw [hl] at h2
  interval_cases k2 <;> interval_cases k1 <;> decide

theorem scenarioLeft_times : ∀ i, i < scenarioLeft.len → scenarioLeft.timeD i ≠ -1 := by
  intro i h
  have hl : scenarioLeft.len = 2 := by decide
  rw [hl] at h
  interval_cases i <;> decide

theorem scenarioRight_times : ∀ k, k < scenarioRight.len → scenarioRight.timeD k ≠ -1 := by
  intro k h
  have hl : scenarioRight.len = 2 := by decide
  rw [hl] at h
  interval_cases k <;> decide

theorem scenario_matchedPairs : matchedPairs scenarioLeft scenarioRight = [(1, 0), (1, 1)] := by
  decide

/-- In the scenario the function succeeds on the matched pairs, with records of the columns
`_time` and `v`. -/
theorem scenarioFn_succeeds :
    ∀ p ∈ matchedPairs scenarioLeft scenarioRight,
      ∃ obj, evalAt scenarioFn scenarioLeft scenarioRight p = some obj
        ∧ objContainsKey obj emptyKey = true ∧ (obj.map Prod.fst).Nodup
        ∧ sortSchema (objectSchema obj) = scenarioCols := by
  intro p hp
  rw [scenario_matchedPairs] at hp
  simp only [List.mem_cons, List.mem_singleton, List.not_mem_nil, or_false] at hp
  rcases hp with rfl | rfl
  · exact ⟨[("_time", .time 2), ("v", .int 22)], by decide, by decide, by decide, by decide⟩
  · exact ⟨[("_time", .time 2), ("v", .int 23)], by decide, by decide, by decide, by decide⟩

/-! ## The join evaluates the matched pairs -/

/-- C13: for row iterators `a` and `b` as `NewRowIterator` makes them, whose times are
non-decreasing and never -1 over their rows, and a join function that `Prepare` accepts and
that succeeds on every matched pair with a record that reproduces the group key (a record
with distinct property names and, the function being typed, the same sorted schema `T` for
every pair): the matched pairs are exactly the pairs `(i, k)` of rows with
`a.time(i) = b.time(k)`, each once, in strictly ascending lexicographic order; the loops of
`join` visit exactly these pairs in that order; `join` returns, it has evaluated the function
on exactly these pairs in that order, and the table it returns has the group key, the columns
`T` (none when there is no matched pair), and one row per matched pair in that order, holding
the values of the record of the pair. -/
theorem join_matched_pairs (fn : rowJoinFn) (key : GroupKey) (a b : RowIterator)
    (T : List ColMeta) (ha : a.WellFormed) (hb : b.WellFormed)
    (hsa : ∀ i1 i2, i1 ≤ i2 → i2 < a.len → a.timeD i1 ≤ a.timeD i2)
    (hsb : ∀ k1 k2, k1 ≤ k2 → k2 < b.len → b.timeD k1 ≤ b.timeD k2)
    (hna : ∀ i, i < a.len → a.timeD i ≠ -1) (hnb : ∀ k, k < b.len → b.timeD k ≠ -1)
    (hprep : fn.Prepare a.columns b.columns = none)
    (hfn : ∀ p ∈ matchedPairs a b, ∃ obj, evalAt fn a b p = some obj
      ∧ objContainsKey obj key = true ∧ (obj.map Prod.fst).Nodup
      ∧ sortSchema (objectSchema obj) = T) :
    (∀ i k, (i, k) ∈ matchedPairs a b ↔ i < a.len ∧ k < b.len ∧ a.time i = b.time k)
      ∧ (matchedPairs a b).Nodup
      ∧ (matchedPairs a b).Pairwise (fun p q => p.1 < q.1 ∨ (p.1 = q.1 ∧ p.2 < q.2))
      ∧ joinPairs a b = .ok (matchedPairs a b)
      ∧ (∃ st, joinRun fn key a b = .ok st ∧ st.evals = matchedPairs a b)
      ∧ ∃ tbl, join fn key a b = .ok tbl
          ∧ tbl.Key = key
          ∧ tbl.Cols = (if matchedPairs a b = [] then [] else T)
          ∧ tbl.data = tbl.Cols.map (fun c =>
              (matchedPairs a b).map (fun p => valueAt fn a b p c.Label))
          ∧ (T ≠ [] → tbl.rows
              = (matchedPairs a b).map (fun p => T.map (fun c => valueAt fn a b p c.Label))) := by
  have hrun := joinRun_ok fn key a b T ha hb hsa hsb hna hnb hprep hfn
  refine ⟨?_, matchedPairs_nodup a b, matchedPairs_sorted a b, ?_, ⟨_, hrun, rfl⟩, ?_⟩
  · intro i k
    rw [mem_matchedPairs ha hb, time_eq_timeD ha i, time_eq_timeD hb k]
    simp
  · rw [joinPairs, joinLoop_matchedPairs _ a b ha hb hsa hsb hna hnb]
    generalize matchedPairs a b = pairs
    have : ∀ (ps done : List (Nat × Nat)),
        runPairs (fun i k (qs : List (Nat × Nat)) => Run.ok (qs ++ [(i, k)])) ps done
          = .ok (done ++ ps) := by
      intro ps
      induction ps with
      | nil => intro done; simp [runPairs]
      | cons p ps ih => intro done; simp [runPairs, ih]
    simpa using this pairs []
  · refine ⟨_, by rw [join, hrun]; rfl, rfl, rfl, rfl, ?_⟩
    intro hT
    by_cases hp : matchedPairs a b = []
    · simp [stateAfter, builderAfter, ColListTableBuilder.Table, hp, ColListTable.rows]
    · have := rows_of_map key T T hT (matchedPairs a b) (fun c p => valueAt fn a b p c.Label)
      simpa [stateAfter, builderAfter, ColListTableBuilder.Table, hp] using this

theorem join_matched_pairs_witness :
    scenarioLeft.WellFormed ∧ scenarioRight.WellFormed
      ∧ scenarioFn.Prepare scenarioLeft.columns scenarioRight.columns = none
      ∧ matchedPairs scenarioLeft scenarioRight = [(1, 0), (1, 1)]
      ∧ ∃ st, joinRun scenarioFn emptyKey scenarioLeft scenarioRight = .ok st
          ∧ st.evals = matchedPairs scenarioLeft scenarioRight :=
  ⟨scenarioLeft_wellFormed, scenarioRight_wellFormed, by decide, scenario_matchedPairs,
   (join_matched_pairs scenarioFn emptyKey scenarioLeft scenarioRight scenarioCols
      scenarioLeft_wellFormed scenarioRight_wellFormed scenarioLeft_sorted scenarioRight_sorted
      scenarioLeft_times scenarioRight_times (by decide) scenarioFn_succeeds).2.2.2.2.1⟩


/-! ## The schema of the output -/

/-- A property of the state that the body of the loop keeps is kept by the inner loop. -/
theorem matchLoop_inv {σ : Type} (process : Nat → Nat → σ → Run σ) (P : σ → Prop)
    (hP : ∀ i k st st1, P st → process i k st = .ok st1 → P st1) (b : RowIterator) (ta : Int)
    (i : Nat) :
    ∀ (fuel k : Nat) (st st1 : σ), P st → matchLoop process b ta i fuel k st = .ok st1 → P st1
  | 0, _, _, _, _, h => by simp [matchLoop] at h
  | fuel + 1, k, st, st1, hst, h => by
    simp only [matchLoop] at h
    cases hb : b.time k with
    | none => simp [hb] at h
    | some tbk =>
      simp only [hb] at h
      by_cases he : ta = tbk
      · rw [if_pos he] at h
        cases hp : process i k st with
        | ok st2 =>
          rw [hp] at h
          exact matchLoop_inv process P hP b ta i fuel (k + 1) st2 st1 (hP i k st st2 hst hp) h
        | error msg => rw [hp] at h; cases h
        | panic msg => rw [hp] at h; cases h
        | outOfFuel => rw [hp] at h; cases h
      · rw [if_neg he] at h
        cases h
        exact hst

/-- A property of the state that the body of the loop keeps is kept by the loops of `join`. -/
theorem joinLoop_inv {σ : Type} (process : Nat → Nat → σ → Run σ) (P : σ → Prop)
    (hP : ∀ i k st st1, P st → process i k st = .ok st1 → P st1) (a b : RowIterator) :
    ∀ (fuel i j : Nat) (st st1 : σ), P st → joinLoop process a b fuel i j st = .ok st1 → P st1
  | 0, _, _, _, _, _, h => by simp [joinLoop] at h
  | fuel + 1, i, j, st, st1, hst, h => by
    simp only [joinLoop] at h
    cases ha : a.time i with
    | none => simp [ha] at h
    | some ta =>
      cases hb : b.time j with
      | none => simp [ha, hb] at h
      | some tb =>
        simp only [ha, hb] at h
        split at h
        · cases h; exact hst
        · split at h
          · exact joinLoop_inv process P hP a b fuel (i + 1) j st st1 hst h
          · split at h
            · exact joinLoop_inv process P hP a b fuel i (j + 1) st st1 hst h
            · cases hm : matchLoop process b ta i (b.len + 1) j st with
              | ok st2 =>
                rw [hm] at h
                exact joinLoop_inv process P hP a b fuel (i + 1) j st2 st1
                  (matchLoop_inv process P hP b ta i _ j st st2 hst hm) h
              | error msg => rw [hm] at h; cases h
              | panic msg => rw [hm] at h; cases h
              | outOfFuel => rw [hm] at h; cases h

/-- The call `AppendValue` does not change the columns of the builder. -/
theorem AppendValue_colMeta {b b1 : ColListTableBuilder} {j : Nat} {v : Value}
    (h : b.AppendValue j v = .ok b1) : b1.colMeta = b.colMeta ∧ b1.key = b.key := by
  unfold ColListTableBuilder.AppendValue at h
  split at h
  · split at h
    · cases h; exact ⟨rfl, rfl⟩
    · cases h
  · cases h

/-- The function `appendRowToBuilder` does not change the columns of the builder. -/
theorem appendRow_range_colMeta : ∀ (obj : Object) (b : ColListTableBuilder) (err : Error),
    (appendRowToBuilder.range b err obj).1.colMeta = b.colMeta
      ∧ (appendRowToBuilder.range b err obj).1.key = b.key
  | [], _, _ => ⟨rfl, rfl⟩
  | (name, v) :: rest, b, err => by
    simp only [appendRowToBuilder.range]
    split
    · exact appendRow_range_colMeta rest b _
    · cases ha : b.AppendValue (ColIdx name b.Cols).toNat v with
      | error e => exact appendRow_range_colMeta rest b _
      | ok b1 =>
        have h1 := appendRow_range_colMeta rest b1 none
        have h2 := AppendValue_colMeta ha
        exact ⟨h1.1.trans h2.1, h1.2.trans h2.2⟩

/-- What the body of the loop of `join` does when it returns a state: the function returned a
record for the pair, that record holds the group key, and only when the flag `firstRow` is set
the columns of that record are added to the builder. -/
theorem joinRow_ok {fn : rowJoinFn} {key : GroupKey} {a b : RowIterator} {i k : Nat}
    {st st1 : joinState} (h : joinRow fn key a b i k st = .ok st1) :
    ∃ obj, evalAt fn a b (i, k) = some obj ∧ objContainsKey obj key = true
      ∧ st1.firstRow = false ∧ st1.evals = st.evals ++ [(i, k)]
      ∧ (st.firstRow = false → st1.builder.colMeta = st.builder.colMeta)
      ∧ (st.firstRow = true → ∃ bd, buildSchema st.builder obj = .ok bd
          ∧ st1.builder.colMeta = bd.colMeta) := by
  unfold joinRow at h
  cases hl : a.record i with
  | none => simp [hl] at h
  | some left =>
    cases hr : b.record k with
    | none => simp [hl, hr] at h
    | some right =>
      cases hev : fn.Eval a.columns b.columns left right with
      | error e => simp [hl, hr, hev] at h
      | ok obj =>
        simp only [hl, hr, hev] at h
        refine ⟨obj, by simp [evalAt, hl, hr, hev], ?_⟩
        cases hbs : (if st.firstRow = true then buildSchema st.builder obj else .ok st.builder) with
        | error e => simp [hbs] at h
        | ok bd =>
          simp only [hbs] at h
          cases hk : objContainsKey obj key with
          | false => simp [hk] at h
          | true =>
            simp only [hk, Bool.true_eq_false, if_false] at h
            have hcm := (appendRow_range_colMeta obj bd none).1
            rw [← appendRowToBuilder] at hcm
            cases hap : appendRowToBuilder bd obj with
            | mk bd1 err =>
              rw [hap] at h hcm
              cases err with
              | some e => simp at h
              | none =>
                simp only [Run.ok.injEq] at h
                subst h
                refine ⟨rfl, rfl, rfl, ?_, ?_⟩
                · intro hf
                  rw [hf] at hbs
                  simp only [Bool.false_eq_true, if_false, Except.ok.injEq] at hbs
                  rw [hbs]; exact hcm
                · intro hf
                  rw [hf, if_pos rfl] at hbs
                  exact ⟨bd, hbs, hcm⟩

/-- When `join` returns, the columns of its builder are the sorted schema of the record of
the first pair it evaluated, and there is no column when it evaluated none. -/
theorem joinRun_schema {fn : rowJoinFn} {key : GroupKey} {a b : RowIterator} {st : joinState}
    (h : joinRun fn key a b = .ok st) :
    (st.evals = [] → st.builder.colMeta = [])
      ∧ ∀ p rest, st.evals = p :: rest →
          ∃ obj, evalAt fn a b p = some obj
            ∧ st.builder.colMeta = sortSchema (objectSchema obj) := by
  unfold joinRun at h
  cases hp : fn.Prepare a.columns b.columns with
  | some e => simp [hp] at h
  | none =>
    simp only [hp] at h
    have hinv := joinLoop_inv (joinRow fn key a b)
      (fun s => (s.firstRow = true ∧ s.evals = [] ∧ s.builder = NewColListTableBuilder key)
        ∨ (s.firstRow = false ∧ ∃ p rest obj, s.evals = p :: rest ∧ evalAt fn a b p = some obj
            ∧ s.builder.colMeta = sortSchema (objectSchema obj)))
      (by
        intro i k s s1 hs hrow
        obtain ⟨obj, he, _, hf1, hev1, hkeep, hfirst⟩ := joinRow_ok hrow
        right
        refine ⟨hf1, ?_⟩
        rcases hs with ⟨hf, hev, hb⟩ | ⟨hf, p, rest, obj0, hev, he0, hcm⟩
        · obtain ⟨bd, hbs, hcm1⟩ := hfirst hf
          rw [hb, buildSchema] at hbs
          have := (addCols_colMeta _ _ _ hbs).1
          refine ⟨(i, k), [], obj, by rw [hev1, hev]; rfl, he, ?_⟩
          rw [hcm1, this]
          rfl
        · exact ⟨p, rest ++ [(i, k)], obj0, by rw [hev1, hev]; rfl, he0,
            by rw [hkeep hf, hcm]⟩)
      a b _ 0 0 _ st (Or.inl ⟨rfl, rfl, rfl⟩) h
    rcases hinv with ⟨_, hev, hb⟩ | ⟨_, p, rest, obj, hev, he, hcm⟩
    · refine ⟨fun _ => (by rw [hb]; rfl), ?_⟩
      intro p rest hpr
      rw [hev] at hpr; cases hpr
    · refine ⟨fun h0 => (by rw [hev] at h0; cases h0), ?_⟩
      intro p1 rest1 hpr
      rw [hev] at hpr
      cases hpr
      exact ⟨obj, he, hcm⟩


/-- C16: `buildSchema` applied to the empty builder and an object with distinct property
names returns no error and leaves exactly one column per property (the columns are a
permutation of the descriptors of the properties), each without values, in strictly ascending
order of label, and the same builder whatever order the object enumerates its properties in.
In `join`, a pass of the loop body that finds the flag `firstRow` cleared leaves the columns
as they are and every pass clears the flag; so when `join` returns, the columns of its
builder are the sorted schema of the record of the first pair it evaluated. -/
theorem buildSchema_sorted (key : GroupKey) (obj : Object) (hnd : (obj.map Prod.fst).Nodup) :
    (∃ bd, buildSchema (NewColListTableBuilder key) obj = .ok bd
        ∧ bd.Cols.length = obj.length
        ∧ bd.Cols.Perm (objectSchema obj)
        ∧ bd.Cols.Pairwise (fun x y => lexLess x.Label.data y.Label.data = true)
        ∧ bd.cols = List.replicate obj.length []
        ∧ ∀ obj2 : Object, obj2.Perm obj →
            buildSchema (NewColListTableBuilder key) obj2 = .ok bd)
      ∧ (∀ (fn : rowJoinFn) (a b : RowIterator) (i k : Nat) (st st1 : joinState),
          joinRow fn key a b i k st = .ok st1 →
            st1.firstRow = false ∧ (st.firstRow = false → st1.builder.Cols = st.builder.Cols))
      ∧ (∀ (fn : rowJoinFn) (a b : RowIterator) (st : joinState),
          joinRun fn key a b = .ok st →
            (st.evals = [] → st.builder.Cols = [])
              ∧ ∀ p rest, st.evals = p :: rest →
                  ∃ obj1, evalAt fn a b p = some obj1
                    ∧ st.builder.Cols = sortSchema (objectSchema obj1)) := by
  have hn : ((objectSchema obj).map ColMeta.Label).Nodup := by
    rw [objectSchema_labels]; exact hnd
  refine ⟨⟨_, buildSchema_new key obj hnd, ?_, sortSchema_perm _, sortSchema_sorted _ hn, rfl,
    ?_⟩, ?_, ?_⟩
  · rw [ColListTableBuilder.Cols, (sortSchema_perm _).length_eq]
    simp [objectSchema]
  · intro obj2 hp
    have hnd2 : (obj2.map Prod.fst).Nodup := (hp.map _).nodup_iff.2 hnd
    have hps : (objectSchema obj2).Perm (objectSchema obj) := hp.map _
    rw [buildSchema_new key obj2 hnd2, sortSchema_congr hps hn, hp.length_eq]
  · intro fn a b i k st st1 h
    obtain ⟨_, _, _, hf, _, hkeep, _⟩ := joinRow_ok h
    exact ⟨hf, hkeep⟩
  · intro fn a b st h
    exact joinRun_schema h

theorem buildSchema_sorted_witness :
    (∃ bd, buildSchema (NewColListTableBuilder emptyKey) [("v", .int 22), ("_time", .time 2)]
          = .ok bd
        ∧ bd.Cols.length = 2
        ∧ bd.Cols.Perm (objectSchema [("v", .int 22), ("_time", .time 2)])
        ∧ bd.Cols.Pairwise (fun x y => lexLess x.Label.data y.Label.data = true)
        ∧ bd.cols = List.replicate 2 []
        ∧ ∀ obj2 : Object, obj2.Perm [("v", .int 22), ("_time", .time 2)] →
            buildSchema (NewColListTableBuilder emptyKey) obj2 = .ok bd)
      ∧ (buildSchema (NewColListTableBuilder emptyKey)
            [("v", .int 22), ("_time", .time 2)]).toOption.map ColListTableBuilder.Cols
          = some scenarioCols :=
  ⟨(buildSchema_sorted emptyKey [("v", .int 22), ("_time", .time 2)] (by decide)).1,
   by decide⟩


/-! ## The group key check -/

theorem objContainsKey_loop_iff (obj : Object) (key : GroupKey) :
    ∀ cols : List ColMeta, objContainsKey.loop obj key cols = true ↔
      ∀ col ∈ cols, ∃ v, obj.Get col.Label = some v
        ∧ v.Equal (key.LabelValue col.Label) = true
  | [] => by simp [objContainsKey.loop]
  | col :: rest => by
    simp only [objContainsKey.loop, List.mem_cons, forall_eq_or_imp]
    cases hg : obj.Get col.Label with
    | none => simp
    | some v =>
      cases he : v.Equal (key.LabelValue col.Label) with
      | false => simp [he]
      | true => simp [he, objContainsKey_loop_iff obj key rest]

/-- The body of the loop of `join` returns the group key error for a record that does not
hold the group key, once the schema of the first row could be built. -/
theorem joinRow_key_error {fn : rowJoinFn} {key : GroupKey} {a b : RowIterator} {p : Nat × Nat}
    {obj : Object} (st : joinState) (he : evalAt fn a b p = some obj)
    (hk : objContainsKey obj key = false)
    (hs : st.firstRow = true → ∃ bd, buildSchema st.builder obj = .ok bd) :
    joinRow fn key a b p.1 p.2 st = .error "argument 'fn' may not modify group key" := by
  obtain ⟨left, right, hl, hr, hev⟩ := evalAt_eq_some he
  simp only [joinRow, hl, hr, hev]
  cases hf : st.firstRow with
  | false => simp [hk]
  | true =>
    obtain ⟨bd, hbd⟩ := hs hf
    simp [hbd, hk]

/-- The body of the loop of `join` returns no state for a record that does not hold the group
key. -/
theorem joinRow_not_ok {fn : rowJoinFn} {key : GroupKey} {a b : RowIterator} {p : Nat × Nat}
    {obj : Object} (st : joinState) (he : evalAt fn a b p = some obj)
    (hk : objContainsKey obj key = false) :
    (joinRow fn key a b p.1 p.2 st).isOk = false := by
  cases h : joinRow fn key a b p.1 p.2 st with
  | ok st1 =>
    obtain ⟨obj1, he1, hk1, _⟩ := joinRow_ok h
    have he2 : evalAt fn a b p = some obj1 := he1
    rw [he] at he2
    cases he2
    rw [hk] at hk1
    cases hk1
  | error msg => rfl
  | panic msg => rfl
  | outOfFuel => rfl

theorem runPairs_not_ok {σ : Type} (process : Nat → Nat → σ → Run σ) (p : Nat × Nat)
    (hp : ∀ st, (process p.1 p.2 st).isOk = false) :
    ∀ (pairs : List (Nat × Nat)) (st : σ), p ∈ pairs → (runPairs process pairs st).isOk = false
  | [], _, h => by simp at h
  | q :: rest, st, h => by
    simp only [runPairs]
    cases hq : process q.1 q.2 st with
    | ok st1 =>
      simp only []
      rcases List.mem_cons.1 h with h1 | h1
      · subst h1
        have := hp st
        rw [hq] at this
        cases this
      · exact runPairs_not_ok process p hp rest st1 h1
    | error msg => rfl
    | panic msg => rfl
    | outOfFuel => rfl

/-- C15: `objContainsKey(obj, key)` is true if and only if for every column of the group key
`obj` has a property with that label whose value equals the value of the key. On row
iterators as `NewRowIterator` makes them, with non-decreasing times that are never -1: when
the record the function returns for a matched pair omits or alters a group-key column, `join`
returns no table; and it returns the error "argument 'fn' may not modify group key" when that
pair is the first one that fails, that is when `Prepare` accepts the function and the records
of the matched pairs before it hold the key and have one schema. -/
theorem join_rejects_modified_key (obj : Object) (key : GroupKey) :
    (objContainsKey obj key = true ↔
        ∀ col ∈ key.Cols, ∃ v, obj.Get col.Label = some v
          ∧ v.Equal (key.LabelValue col.Label) = true)
      ∧ (∀ (fn : rowJoinFn) (a b : RowIterator) (p : Nat × Nat),
          a.WellFormed → b.WellFormed →
          (∀ i1 i2, i1 ≤ i2 → i2 < a.len → a.timeD i1 ≤ a.timeD i2) →
          (∀ k1 k2, k1 ≤ k2 → k2 < b.len → b.timeD k1 ≤ b.timeD k2) →
          (∀ i, i < a.len → a.timeD i ≠ -1) → (∀ k, k < b.len → b.timeD k ≠ -1) →
          p ∈ matchedPairs a b → evalAt fn a b p = some obj → objContainsKey obj key = false →
          (join fn key a b).isOk = false)
      ∧ (∀ (fn : rowJoinFn) (a b : RowIterator) (T : List ColMeta)
          (pre post : List (Nat × Nat)) (p : Nat × Nat),
          a.WellFormed → b.WellFormed →
          (∀ i1 i2, i1 ≤ i2 → i2 < a.len → a.timeD i1 ≤ a.timeD i2) →
          (∀ k1 k2, k1 ≤ k2 → k2 < b.len → b.timeD k1 ≤ b.timeD k2) →
          (∀ i, i < a.len → a.timeD i ≠ -1) → (∀ k, k < b.len → b.timeD k ≠ -1) →
          fn.Prepare a.columns b.columns = none →
          matchedPairs a b = pre ++ p :: post →
          (∀ q ∈ pre, ∃ obj1, evalAt fn a b q = some obj1 ∧ objContainsKey obj1 key = true
            ∧ (obj1.map Prod.fst).Nodup ∧ sortSchema (objectSchema obj1) = T) →
          evalAt fn a b p = some obj → (obj.map Prod.fst).Nodup →
          objContainsKey obj key = false →
          join fn key a b = .error "argument 'fn' may not modify group key") := by
  refine ⟨objContainsKey_loop_iff obj key key.Cols, ?_, ?_⟩
  · intro fn a b p ha hb hsa hsb hna hnb hp he hk
    have hrun : (joinRun fn key a b).isOk = false := by
      unfold joinRun
      cases hprep : fn.Prepare a.columns b.columns with
      | some e => rfl
      | none =>
        simp only []
        rw [joinLoop_matchedPairs _ a b ha hb hsa hsb hna hnb]
        exact runPairs_not_ok _ p (fun st => joinRow_not_ok st he hk) _ _ hp
    unfold join
    cases hj : joinRun fn key a b with
    | ok st => rw [hj] at hrun; cases hrun
    | error msg => rfl
    | panic msg => rfl
    | outOfFuel => rfl
  · intro fn a b T pre post p ha hb hsa hsb hna hnb hprep hsplit hpre he hnd hk
    have h0 : ({ builder := NewColListTableBuilder key, firstRow := true, evals := [] }
        : joinState) = stateAfter fn key a b T [] := by
      simp [stateAfter, builderAfter, NewColListTableBuilder]
    have hrow : joinRow fn key a b p.1 p.2 (stateAfter fn key a b T pre)
        = .error "argument 'fn' may not modify group key" := by
      apply joinRow_key_error _ he hk
      intro hf
      have hpre0 : pre = [] := by simpa [stateAfter] using hf
      subst hpre0
      have : (stateAfter fn key a b T []).builder = NewColListTableBuilder key := by
        simp [stateAfter, builderAfter, NewColListTableBuilder]
      rw [this]
      exact ⟨_, buildSchema_new key obj hnd⟩
    have hrun : joinRun fn key a b = .error "argument 'fn' may not modify group key" := by
      rw [joinRun, hprep]
      simp only []
      rw [joinLoop_matchedPairs _ a b ha hb hsa hsb hna hnb, hsplit, runPairs_append, h0,
        runPairs_stateAfter fn key a b T pre [] hpre]
      simp only [List.nil_append, runPairs, hrow]
    rw [join, hrun]

theorem join_rejects_modified_key_witness :
    (objContainsKey [("_time", .time 2), ("v", .int 22)] hostKey = true ↔
        ∀ col ∈ hostKey.Cols, ∃ v, Object.Get [("_time", .time 2), ("v", .int 22)] col.Label
            = some v ∧ v.Equal (hostKey.LabelValue col.Label) = true)
      ∧ (join scenarioFn hostKey scenarioLeft scenarioRight).isOk = false
      ∧ join scenarioFn hostKey scenarioLeft scenarioRight
          = .error "argument 'fn' may not modify group key" :=
  ⟨(join_rejects_modified_key [("_time", .time 2), ("v", .int 22)] hostKey).1,
   (join_rejects_modified_key [("_time", .time 2), ("v", .int 22)] hostKey).2.1
     scenarioFn scenarioLeft scenarioRight (1, 0)
     scenarioLeft_wellFormed scenarioRight_wellFormed scenarioLeft_sorted scenarioRight_sorted
     scenarioLeft_times scenarioRight_times (by decide) (by decide) (by decide),
   (join_rejects_modified_key [("_time", .time 2), ("v", .int 22)] hostKey).2.2
     scenarioFn scenarioLeft scenarioRight scenarioCols [] [(1, 1)] (1, 0)
     scenarioLeft_wellFormed scenarioRight_wellFormed scenarioLeft_sorted scenarioRight_sorted
     scenarioLeft_times scenarioRight_times (by decide) (by decide)
     (by intro q hq; cases hq) (by decide) (by decide) (by decide)⟩


/-! ## Rows that do not conform to the schema -/

/-- The error `appendRowToBuilder` returns is the one of the property enumerated last. -/
theorem appendRow_range_append (b : ColListTableBuilder) (name : String) (v : Value) :
    ∀ (obj : Object) (err : Error),
      (appendRowToBuilder.range b err (obj ++ [(name, v)])).2
        = (appendRowToBuilder.range (appendRowToBuilder.range b err obj).1 none [(name, v)]).2 := by
  intro obj
  induction obj generalizing b with
  | nil =>
    intro err
    show (appendRowToBuilder.range b err [(name, v)]).2
      = (appendRowToBuilder.range b none [(name, v)]).2
    simp only [appendRowToBuilder.range]
  | cons p rest ih =>
    intro err
    obtain ⟨n, w⟩ := p
    simp only [List.cons_append, appendRowToBuilder.range]
    split
    · exact ih b _
    · split
      · exact ih b _
      · exact ih _ _

/-- C17 (the error is lost): an object whose first enumerated property `a` is not a column of
the builder and whose second property `b` is one: `appendRowToBuilder` appends the value of
`b` and returns no error, because the assignment `err = builder.AppendValue(idx, v)` of the
later property overwrites the "column a not found" error. In general the error returned is
the one of the last enumerated property alone. In `join`, with a function whose second record
has one more property than the first, the second row is not rejected: `join` returns a table
with both rows. -/
theorem appendRow_drops_error :
    appendRowToBuilder oneColumnBuilder [("a", .int 1), ("b", .int 2)]
        = ({ oneColumnBuilder with cols := [[.int 2]] }, none)
      ∧ appendRowToBuilder oneColumnBuilder [("b", .int 2), ("a", .int 1)]
        = ({ oneColumnBuilder with cols := [[.int 2]] }, some "column a not found")
      ∧ (∀ (builder : ColListTableBuilder) (obj : Object) (name : String) (v : Value),
          (appendRowToBuilder builder (obj ++ [(name, v)])).2
            = (appendRowToBuilder (appendRowToBuilder builder obj).1 [(name, v)]).2)
      ∧ (evalAt raggedFn scenarioLeft scenarioRight (1, 1)
          = some [("w", .int 0), ("_time", .time 2), ("v", .int 23)])
      ∧ (join raggedFn emptyKey scenarioLeft scenarioRight).val?
          = some { Key := emptyKey, Cols := scenarioCols,
                   data := [[.time 2, .time 2], [.int 22, .int 23]] } := by
  refine ⟨by decide, by decide, ?_, by decide, by decide⟩
  intro builder obj name v
  exact appendRow_range_append builder name v obj none


/-! ## The cache of the join -/

theorem range_ready {σ : Type} (f : GroupKey → σ → σ × Error) :
    ∀ (l : GroupLookup cacheEntry) (s : σ),
      GroupLookup.Range l (fun key value s1 => if value.ready then f key s1 else (s1, none)) s
        = callEach f ((l.filter (fun e => e.2.ready)).map Prod.fst) s
  | [], s => rfl
  | (k, v) :: rest, s => by
    cases hr : v.ready with
    | false =>
      simp only [GroupLookup.Range, hr, Bool.false_eq_true, if_false, List.filter_cons_of_neg,
        not_false_eq_true]
      exact range_ready f rest s
    | true =>
      simp only [GroupLookup.Range, hr, if_true, List.filter_cons_of_pos, List.map_cons,
        callEach]
      cases hf : f k s with
      | mk s1 err =>
        cases err with
        | some e => rfl
        | none => exact range_ready f rest s1

theorem callEach_log : ∀ (keys log : List GroupKey),
    callEach (fun key (log1 : List GroupKey) => (log1 ++ [key], none)) keys log
      = (log ++ keys, none)
  | [], log => by simp [callEach]
  | key :: rest, log => by simp [callEach, callEach_log rest]

/-- C18: a cache entry is ready if and only if it holds both a left and a right iterator and
each has at least one row; `ForEach` and `ForEachWithContext` invoke the callback on the keys
whose entry is ready, in the order of `Range` and up to the first error of the callback, and
on no other key; a callback that never fails is invoked on exactly the ready keys. In the
scenario, a key seen on the left side only, or with an empty right side, is not among the
keys the callback is invoked on, and a key with rows on both sides is. -/
theorem forEach_ready_keys :
    (∀ e : cacheEntry, e.ready = true ↔
        ∃ l r, e.l = some l ∧ e.r = some r ∧ 0 < l.len ∧ 0 < r.len)
      ∧ (∀ (c : mergeJoinCache) (key : GroupKey),
          key ∈ readyKeys c ↔ ∃ e, (key, e) ∈ c.data ∧ e.ready = true)
      ∧ (∀ (σ : Type) (c : mergeJoinCache) (f : GroupKey → σ → σ × Error) (s : σ),
          c.ForEach f s = callEach f (readyKeys c) s)
      ∧ (∀ (σ : Type) (c : mergeJoinCache)
          (f : GroupKey → Trigger → TableContext → σ → σ × Error) (s : σ),
          c.ForEachWithContext f s
            = callEach (fun key => f key (NewTriggerFromSpec c.spec) { Key := key })
                (readyKeys c) s)
      ∧ (∀ c : mergeJoinCache,
          c.ForEach (fun key (log : List GroupKey) => (log ++ [key], none)) []
            = (readyKeys c, none))
      ∧ readyKeys (scenarioTransformation.Process 0 (scenarioTable 0 [(1, 1), (2, 2)])).1.cache
          = []
      ∧ readyKeys (((scenarioTransformation.Process 0 (scenarioTable 0 [(1, 1), (2, 2)])).1
          ).Process 1 (scenarioTable 1 [])).1.cache = []
      ∧ readyKeys (((scenarioTransformation.Process 0 (scenarioTable 0 [(1, 1), (2, 2)])).1
          ).Process 1 (scenarioTable 1 [(2, 20), (2, 21)])).1.cache = [emptyKey] := by
  refine ⟨?_, ?_, ?_, ?_, ?_, by decide, by decide, by decide⟩
  · intro e
    unfold cacheEntry.ready
    cases hl : e.l with
    | none => simp
    | some l =>
      cases hr : e.r with
      | none => simp
      | some r => simp [Nat.pos_iff_ne_zero]
  · intro c key
    simp only [readyKeys, List.mem_map, List.mem_filter]
    constructor
    · rintro ⟨⟨k, e⟩, ⟨hm, hr⟩, rfl⟩
      exact ⟨e, hm, hr⟩
    · rintro ⟨e, hm, hr⟩
      exact ⟨(key, e), ⟨hm, hr⟩, rfl⟩
  · intro σ c f s
    exact range_ready f c.data s
  · intro σ c f s
    exact range_ready _ c.data s
  · intro c
    rw [mergeJoinCache.ForEach, range_ready, callEach_log]
    rfl

/-! ## Process without a time column -/

/-- C19: `Process` on a table that has no `_time` column returns the error "no _time column
found"; the transformation is left as it was: no reader is retained and the cache is
unchanged. -/
theorem process_without_time (t : mergeJoinTransformation) (id : DatasetID) (tbl : Table)
    (h : ∀ c ∈ tbl.Cols, c.Label ≠ "_time") :
    (t.Process id tbl).2 = some "no _time column found"
      ∧ (t.Process id tbl).1 = t
      ∧ (t.Process id tbl).1.retained = t.retained
      ∧ (t.Process id tbl).1.cache.data = t.cache.data := by
  have hidx : ColIdx DefaultTimeColLabel tbl.Cols = -1 :=
    (ColIdx_eq_neg_one _ _).2 h
  simp [mergeJoinTransformation.Process, hidx]

theorem process_without_time_witness :
    (scenarioTransformation.Process 0 noTimeTable).2 = some "no _time column found"
      ∧ (scenarioTransformation.Process 0 noTimeTable).1 = scenarioTransformation
      ∧ (scenarioTransformation.Process 0 noTimeTable).1.retained = []
      ∧ (scenarioTransformation.Process 0 noTimeTable).1.cache.data = [] :=
  process_without_time scenarioTransformation 0 noTimeTable (by decide)


/-! ## Retained and released readers -/

theorem deleteAll_empty (c : mergeJoinCache) (hc : c.data = []) :
    ∀ keys : List GroupKey, c.deleteAll keys = (c, [])
  | [] => rfl
  | key :: rest => by
    have hd : c.delete key = (c, []) := by
      simp [mergeJoinCache.delete, hc, GroupLookup.Delete]
    simp only [mergeJoinCache.deleteAll, hd, deleteAll_empty c hc rest, List.append_nil]

theorem clean_empty (c : mergeJoinCache) (hc : c.data = []) : c.clean = (c, []) := by
  simp [mergeJoinCache.clean, hc, GroupLookup.Range, mergeJoinCache.deleteAll]

/-- On a cache with one entry, the deletions of any list of keys followed by `clean` release
the readers of that entry, once, and no other reader. -/
theorem deleteAll_clean_single (c : mergeJoinCache) (k : GroupKey) (e : cacheEntry)
    (hc : c.data = [(k, e)]) :
    ∀ keys : List GroupKey,
      (c.deleteAll keys).2 ++ ((c.deleteAll keys).1.clean).2 = e.readerIDs
  | [] => by
    simp [mergeJoinCache.deleteAll, mergeJoinCache.clean, hc, GroupLookup.Range,
      mergeJoinCache.delete, GroupLookup.Delete]
  | key :: rest => by
    by_cases hk : k = key
    · have hd : c.delete key = ({ c with data := [] }, e.readerIDs) := by
        simp [mergeJoinCache.delete, hc, GroupLookup.Delete, hk]
      simp only [mergeJoinCache.deleteAll, hd]
      rw [deleteAll_empty _ rfl rest, clean_empty _ rfl]
      simp
    · have hd : c.delete key = (c, []) := by
        simp [mergeJoinCache.delete, hc, GroupLookup.Delete, hk]
      simp only [mergeJoinCache.deleteAll, hd, List.nil_append]
      exact deleteAll_clean_single c k e hc rest

/-- C20 (a retained reader that is never released): two successful `Process` calls from the
left parent with tables of the same group key, the first with the reader 0 and the second
with the reader 1, then a `Finish` call from each parent, for every choice of the tables the
dataset expires. `Process` has retained both readers; `insert` has replaced the iterator of
the first table by the one of the second without releasing its readers, so the reader 0 is
released zero times: only the reader 1 is released. With the second table sent by the right
parent instead, both readers are released once. -/
theorem insert_overwrite_leaks (expired1 expired2 : List GroupKey) :
    (scenarioTransformation.Process 0 (scenarioTable 0 [(1, 1)])).2 = none
      ∧ ((scenarioTransformation.Process 0 (scenarioTable 0 [(1, 1)])).1.Process 0
          (scenarioTable 1 [(2, 2)])).2 = none
      ∧ (((((scenarioTransformation.Process 0 (scenarioTable 0 [(1, 1)])).1.Process 0
          (scenarioTable 1 [(2, 2)])).1.Finish 0 none expired1).Finish 1 none expired2).retained
          = [0, 1])
      ∧ (((((scenarioTransformation.Process 0 (scenarioTable 0 [(1, 1)])).1.Process 0
          (scenarioTable 1 [(2, 2)])).1.Finish 0 none expired1).Finish 1 none expired2).released
          = [1])
      ∧ (((((scenarioTransformation.Process 0 (scenarioTable 0 [(1, 1)])).1.Process 0
          (scenarioTable 1 [(2, 2)])).1.Finish 0 none expired1).Finish 1 none expired2
          ).released.count 0 = 0)
      ∧ (((((scenarioTransformation.Process 0 (scenarioTable 0 [(1, 1)])).1.Process 1
          (scenarioTable 1 [(2, 2)])).1.Finish 0 none expired1).Finish 1 none expired2).released
          = [0, 1]) := by
  have hrel : ∀ (t : mergeJoinTransformation) (k : GroupKey) (e : cacheEntry),
      t.cache.data = [(k, e)] → t.done = false → t.released = [] →
      ((t.Finish 0 none expired1).Finish 1 none expired2).released = e.readerIDs
        ∧ ((t.Finish 0 none expired1).Finish 1 none expired2).retained = t.retained := by
    intro t k e hc hd hr
    have h1 : t.Finish 0 none expired1 = { t with done := true } := by
      simp [mergeJoinTransformation.Finish, hd]
    rw [h1]
    have h2 := deleteAll_clean_single t.cache k e hc expired2
    simp only [mergeJoinTransformation.Finish, mergeJoinTransformation.datasetFinish, ne_eq,
      not_true_eq_false, false_or, if_true, hr, List.nil_append, List.append_assoc, h2,
      and_self]
  have hA := hrel ((scenarioTransformation.Process 0 (scenarioTable 0 [(1, 1)])).1.Process 0
      (scenarioTable 1 [(2, 2)])).1 emptyKey
      { l := some (NewRowIterator scenarioCols [scenarioReader 1 [(2, 2)]] 0), r := none }
      rfl rfl rfl
  have hB := hrel ((scenarioTransformation.Process 0 (scenarioTable 0 [(1, 1)])).1.Process 1
      (scenarioTable 1 [(2, 2)])).1 emptyKey
      { l := some (NewRowIterator scenarioCols [scenarioReader 0 [(1, 1)]] 0),
        r := some (NewRowIterator scenarioCols [scenarioReader 1 [(2, 2)]] 0) }
      rfl rfl rfl
  refine ⟨rfl, rfl, ?_, ?_, ?_, ?_⟩
  · rw [hA.2]; rfl
  · rw [hA.1]; rfl
  · rw [hA.1]; rfl
  · rw [hB.1]; rfl

end experimental

namespace experimental

open execute

/-! ## The dataset of the join is finished -/

theorem datasetFinish_finished (t : mergeJoinTransformation) (err : Error)
    (expired : List GroupKey) :
    (t.datasetFinish err expired).finished = t.finished ++ [err] := rfl

/-- The calls of `d.Finish` that one `Finish` call adds: one, with the error it was given,
when that error is not nil or the flag `done` is set, and none otherwise. -/
theorem Finish_finished (t : mergeJoinTransformation) (id : DatasetID) (err : Error)
    (expired : List GroupKey) :
    (t.Finish id err expired).finished
        = (if err ≠ none ∨ t.done = true then t.finished ++ [err] else t.finished)
      ∧ (t.Finish id err expired).done = true := by
  unfold mergeJoinTransformation.Finish
  by_cases h : err ≠ none ∨ t.done = true
  · simp only [if_pos h, datasetFinish_finished, and_self]
  · simp only [if_neg h, and_self]

/-- C21 (the dataset is finished twice): when the first of the two `Finish` calls carries an
error `e`, the transformation calls `d.Finish(e)` at once and sets `done`, and the second
`Finish` call, finding `done` set, calls `d.Finish` again, with its own error, nil included:
the dataset's `Finish` is invoked two times. When the first call carries no error, the
dataset's `Finish` is invoked once, by the second call. -/
theorem finish_after_error_finishes_twice (t : mergeJoinTransformation) (e : String)
    (err2 : Error) (expired1 expired2 : List GroupKey) :
    ((t.Finish 0 (some e) expired1).Finish 1 err2 expired2).finished
        = t.finished ++ [some e, err2]
      ∧ ((scenarioTransformation.Finish 0 (some e) expired1).Finish 1 none expired2).finished
        = [some e, none]
      ∧ ((scenarioTransformation.Finish 0 none expired1).Finish 1 err2 expired2).finished
        = [err2] := by
  have h1 := Finish_finished t 0 (some e) expired1
  have h2 := Finish_finished (t.Finish 0 (some e) expired1) 1 err2 expired2
  have h3 := Finish_finished scenarioTransformation 0 (some e) expired1
  have h4 := Finish_finished (scenarioTransformation.Finish 0 (some e) expired1) 1 none expired2
  have h5 := Finish_finished scenarioTransformation 0 none expired1
  have h6 := Finish_finished (scenarioTransformation.Finish 0 none expired1) 1 err2 expired2
  refine ⟨?_, ?_, ?_⟩
  · rw [h2.1, if_pos (Or.inr h1.2), h1.1, if_pos (Or.inl (by simp))]
    simp
  · rw [h4.1, if_pos (Or.inr h3.2), h3.1, if_pos (Or.inl (by simp))]
    rfl
  · rw [h6.1, if_pos (Or.inr h5.2), h5.1, if_neg (by simp [scenarioTransformation,
      NewMergeJoinTransformation])]
    rfl

end experimental

namespace arrowutil

/-! ## The ascending comparison functions -/

theorem stringLess_irrefl (s : String) : stringLess s s = false :=
  experimental.lexLess_irrefl _

theorem stringLess_asymm {s t : String} (h : stringLess s t = true) : stringLess t s = false :=
  experimental.lexLess_asymm _ _ h

theorem stringLess_total {s t : String} (h : stringLess s t = false)
    (h1 : stringLess t s = false) : s = t :=
  String.ext (experimental.lexLess_total _ _ h h1)

theorem stringLess_trans {s t u : String} (h : stringLess s t = true)
    (h1 : stringLess t u = true) : stringLess s u = true :=
  experimental.lexLess_trans _ _ _ h h1

theorem IntCompare_eq (x y : IntArray) (i j : Nat) :
    IntCompare x y i j
      = compareSpec (x.IsNull i) (y.IsNull j) (decide (x.Value i < y.Value j))
          (decide (x.Value i = y.Value j)) := by
  unfold IntCompare compareSpec
  cases x.IsNull i <;> cases y.IsNull j <;> simp
  by_cases h1 : x.Value i < y.Value j
  · have h2 : x.Value i ≠ y.Value j := by omega
    simp [h1, h2]
  · simp [h1]

theorem UintCompare_eq (x y : UintArray) (i j : Nat) :
    UintCompare x y i j
      = compareSpec (x.IsNull i) (y.IsNull j) (decide (x.Value i < y.Value j))
          (decide (x.Value i = y.Value j)) := by
  unfold UintCompare compareSpec
  cases x.IsNull i <;> cases y.IsNull j <;> simp
  by_cases h1 : x.Value i < y.Value j
  · have h2 : x.Value i ≠ y.Value j := by omega
    simp [h1, h2]
  · simp [h1]

theorem StringCompare_eq (x y : StringArray) (i j : Nat) :
    StringCompare x y i j
      = compareSpec (x.IsNull i) (y.IsNull j) (stringLess (x.Value i) (y.Value j))
          (decide (x.Value i = y.Value j)) := by
  unfold StringCompare compareSpec
  cases x.IsNull i <;> cases y.IsNull j <;> simp
  cases h1 : stringLess (x.Value i) (y.Value j)
  · simp
  · have h2 : x.Value i ≠ y.Value j := by
      intro he
      rw [he, stringLess_irrefl] at h1
      cases h1
    simp [h2]

theorem BooleanCompare_eq (x y : BooleanArray) (i j : Nat) :
    BooleanCompare x y i j
      = compareSpec (x.IsNull i) (y.IsNull j) (!x.Value i && y.Value j)
          (decide (x.Value i = y.Value j)) := by
  unfold BooleanCompare compareSpec
  cases x.IsNull i <;> cases y.IsNull j <;> cases x.Value i <;> cases y.Value j <;> rfl

theorem compareSpec_range (xNull yNull lt eq : Bool) :
    compareSpec xNull yNull lt eq = -1 ∨ compareSpec xNull yNull lt eq = 0
      ∨ compareSpec xNull yNull lt eq = 1 := by
  unfold compareSpec
  split
  · exact Or.inr (Or.inl rfl)
  · split
    · exact Or.inl rfl
    · exact Or.inr (Or.inr rfl)

/-- C26: each of `IntCompare`, `UintCompare`, `StringCompare` and `BooleanCompare` (with false
before true) returns 0 if `x[i]` and `y[j]` are both null or are equal non-null values, -1 if
`x[i]` is null and `y[j]` is not or both are non-null with `x[i] < y[j]`, and +1 otherwise;
so a null is less than every non-null value, a non-null value is greater than a null, and
the result is always one of -1, 0, +1. The function `Compare` returns the result of the
function of the type of its arrays. -/
theorem compare_ascending :
    (∀ (x y : IntArray) (i j : Nat),
        IntCompare x y i j
          = compareSpec (x.IsNull i) (y.IsNull j) (decide (x.Value i < y.Value j))
              (decide (x.Value i = y.Value j))
        ∧ (x.IsNull i = true → y.IsNull j = false → IntCompare x y i j = -1)
        ∧ (x.IsNull i = false → y.IsNull j = true → IntCompare x y i j = 1)
        ∧ (IntCompare x y i j = -1 ∨ IntCompare x y i j = 0 ∨ IntCompare x y i j = 1)
        ∧ Compare (.int x) (.int y) i j = some (IntCompare x y i j))
      ∧ (∀ (x y : UintArray) (i j : Nat),
        UintCompare x y i j
          = compareSpec (x.IsNull i) (y.IsNull j) (decide (x.Value i < y.Value j))
              (decide (x.Value i = y.Value j))
        ∧ (x.IsNull i = true → y.IsNull j = false → UintCompare x y i j = -1)
        ∧ (x.IsNull i = false → y.IsNull j = true → UintCompare x y i j = 1)
        ∧ (UintCompare x y i j = -1 ∨ UintCompare x y i j = 0 ∨ UintCompare x y i j = 1)
        ∧ Compare (.uint x) (.uint y) i j = some (UintCompare x y i j))
      ∧ (∀ (x y : StringArray) (i j : Nat),
        StringCompare x y i j
          = compareSpec (x.IsNull i) (y.IsNull j) (stringLess (x.Value i) (y.Value j))
              (decide (x.Value i = y.Value j))
        ∧ (x.IsNull i = true → y.IsNull j = false → StringCompare x y i j = -1)
        ∧ (x.IsNull i = false → y.IsNull j = true → StringCompare x y i j = 1)
        ∧ (StringCompare x y i j = -1 ∨ StringCompare x y i j = 0 ∨ StringCompare x y i j = 1)
        ∧ Compare (.string x) (.string y) i j = some (StringCompare x y i j))
      ∧ (∀ (x y : BooleanArray) (i j : Nat),
        BooleanCompare x y i j
          = compareSpec (x.IsNull i) (y.IsNull j) (!x.Value i && y.Value j)
              (decide (x.Value i = y.Value j))
        ∧ (x.IsNull i = true → y.IsNull j = false → BooleanCompare x y i j = -1)
        ∧ (x.IsNull i = false → y.IsNull j = true → BooleanCompare x y i j = 1)
        ∧ (BooleanCompare x y i j = -1 ∨ BooleanCompare x y i j = 0
            ∨ BooleanCompare x y i j = 1)
        ∧ Compare (.boolean x) (.boolean y) i j = some (BooleanCompare x y i j)) := by
  refine ⟨fun x y i j => ⟨IntCompare_eq x y i j, ?_, ?_, ?_, rfl⟩,
    fun x y i j => ⟨UintCompare_eq x y i j, ?_, ?_, ?_, rfl⟩,
    fun x y i j => ⟨StringCompare_eq x y i j, ?_, ?_, ?_, rfl⟩,
    fun x y i j => ⟨BooleanCompare_eq x y i j, ?_, ?_, ?_, rfl⟩⟩
  · intro h1 h2; simp [IntCompare, h1, h2]
  · intro h1 h2; simp [IntCompare, h1, h2]
  · rw [IntCompare_eq]; exact compareSpec_range _ _ _ _
  · intro h1 h2; simp [UintCompare, h1, h2]
  · intro h1 h2; simp [UintCompare, h1, h2]
  · rw [UintCompare_eq]; exact compareSpec_range _ _ _ _
  · intro h1 h2; simp [StringCompare, h1, h2]
  · intro h1 h2; simp [StringCompare, h1, h2]
  · rw [StringCompare_eq]; exact compareSpec_range _ _ _ _
  · intro h1 h2; simp [BooleanCompare, h1, h2]
  · intro h1 h2; simp [BooleanCompare, h1, h2]
  · rw [BooleanCompare_eq]; exact compareSpec_range _ _ _ _

theorem compare_ascending_witness :
    IntCompare (ofList [none, some 3]) (ofList [some (-5), some 7]) 0 0 = -1
      ∧ IntCompare (ofList [none, some 3]) (ofList [some (-5), none]) 1 1 = 1
      ∧ BooleanCompare (ofList [some false]) (ofList [some true]) 0 0
          = compareSpec false false true false
      ∧ StringCompare (ofList [none]) (ofList [some "a"]) 0 0 = -1 :=
  ⟨(compare_ascending.1 (ofList [none, some 3]) (ofList [some (-5), some 7]) 0 0).2.1
      (by decide) (by decide),
   (compare_ascending.1 (ofList [none, some 3]) (ofList [some (-5), none]) 1 1).2.2.1
      (by decide) (by decide),
   (compare_ascending.2.2.2 (ofList [some false]) (ofList [some true]) 0 0).1,
   (compare_ascending.2.2.1 (ofList [none]) (ofList [some "a"]) 0 0).2.1
      (by decide) (by decide)⟩

end arrowutil

namespace arrowutil

/-! ## The descending comparison functions -/

theorem IntCompareDesc_eq (x y : IntArray) (i j : Nat) :
    IntCompareDesc x y i j
      = compareSpec (x.IsNull i) (y.IsNull j) (decide (x.Value i > y.Value j))
          (decide (x.Value i = y.Value j)) := by
  unfold IntCompareDesc compareSpec
  cases x.IsNull i <;> cases y.IsNull j <;> simp
  by_cases h1 : y.Value j < x.Value i
  · have h2 : x.Value i ≠ y.Value j := by omega
    simp [h1, h2]
  · simp [h1]

theorem UintCompareDesc_eq (x y : UintArray) (i j : Nat) :
    UintCompareDesc x y i j
      = compareSpec (x.IsNull i) (y.IsNull j) (decide (x.Value i > y.Value j))
          (decide (x.Value i = y.Value j)) := by
  unfold UintCompareDesc compareSpec
  cases x.IsNull i <;> cases y.IsNull j <;> simp
  by_cases h1 : y.Value j < x.Value i
  · have h2 : x.Value i ≠ y.Value j := by omega
    simp [h1, h2]
  · simp [h1]

theorem StringCompareDesc_eq (x y : StringArray) (i j : Nat) :
    StringCompareDesc x y i j
      = compareSpec (x.IsNull i) (y.IsNull j) (stringLess (y.Value j) (x.Value i))
          (decide (x.Value i = y.Value j)) := by
  unfold StringCompareDesc compareSpec
  cases x.IsNull i <;> cases y.IsNull j <;> simp
  cases h1 : stringLess (y.Value j) (x.Value i)
  · simp
  · have h2 : x.Value i ≠ y.Value j := by
      intro he
      rw [he, stringLess_irrefl] at h1
      cases h1
    simp [h2]

theorem BooleanCompareDesc_eq (x y : BooleanArray) (i j : Nat) :
    BooleanCompareDesc x y i j
      = compareSpec (x.IsNull i) (y.IsNull j) (x.Value i && !y.Value j)
          (decide (x.Value i = y.Value j)) := by
  unfold BooleanCompareDesc compareSpec
  cases x.IsNull i <;> cases y.IsNull j <;> cases x.Value i <;> cases y.Value j <;> rfl

/-- On two values that are not null, a descending comparison is the ascending comparison
with the arguments swapped. -/
theorem desc_eq_swap :
    (∀ (x y : IntArray) (i j : Nat), x.IsNull i = false → y.IsNull j = false →
        IntCompareDesc x y i j = IntCompare y x j i)
      ∧ (∀ (x y : UintArray) (i j : Nat), x.IsNull i = false → y.IsNull j = false →
        UintCompareDesc x y i j = UintCompare y x j i)
      ∧ (∀ (x y : StringArray) (i j : Nat), x.IsNull i = false → y.IsNull j = false →
        StringCompareDesc x y i j = StringCompare y x j i)
      ∧ (∀ (x y : BooleanArray) (i j : Nat), x.IsNull i = false → y.IsNull j = false →
        BooleanCompareDesc x y i j = BooleanCompare y x j i) := by
  refine ⟨?_, ?_, ?_, ?_⟩
  · intro x y i j h1 h2
    simp only [IntCompareDesc, IntCompare, h1, h2, Bool.false_eq_true, if_false, gt_iff_lt]
    by_cases h3 : y.Value j < x.Value i
    · simp [h3]
    · by_cases h4 : x.Value i = y.Value j
      · simp [h4]
      · have h5 : ¬ y.Value j = x.Value i := fun h => h4 h.symm
        simp [h3, h4, h5]
  · intro x y i j h1 h2
    simp only [UintCompareDesc, UintCompare, h1, h2, Bool.false_eq_true, if_false, gt_iff_lt]
    by_cases h3 : y.Value j < x.Value i
    · simp [h3]
    · by_cases h4 : x.Value i = y.Value j
      · simp [h4]
      · have h5 : ¬ y.Value j = x.Value i := fun h => h4 h.symm
        simp [h3, h4, h5]
  · intro x y i j h1 h2
    simp only [StringCompareDesc, StringCompare, h1, h2, Bool.false_eq_true, if_false]
    cases h3 : stringLess (y.Value j) (x.Value i)
    · by_cases h4 : x.Value i = y.Value j
      · simp [h4]
      · have h5 : ¬ y.Value j = x.Value i := fun h => h4 h.symm
        simp [h4, h5]
    · simp
  · intro x y i j h1 h2
    simp only [BooleanCompareDesc, BooleanCompare, h1, h2, Bool.false_eq_true, if_false]
    cases x.Value i <;> cases y.Value j <;> rfl

/-- C27: each of `IntCompareDesc`, `UintCompareDesc`, `StringCompareDesc` and
`BooleanCompareDesc` returns, on values that are not null, 0 if `x[i] = y[j]`, -1 if
`x[i] > y[j]` and +1 if `x[i] < y[j]`, which is the result of the ascending function with
its arguments swapped; and it returns -1 when `x[i]` is null and `y[j]` is not, +1 when
`y[j]` is null and `x[i]` is not, and 0 when both are null: a null comes before every
non-null value, which in the descending order is the place of the greatest value. The
function `CompareDesc` returns the result of the function of the type of its arrays. -/
theorem compare_descending :
    (∀ (x y : IntArray) (i j : Nat),
        IntCompareDesc x y i j
          = compareSpec (x.IsNull i) (y.IsNull j) (decide (x.Value i > y.Value j))
              (decide (x.Value i = y.Value j))
        ∧ (x.IsNull i = false → y.IsNull j = false →
            IntCompareDesc x y i j = IntCompare y x j i)
        ∧ (x.IsNull i = true → y.IsNull j = false → IntCompareDesc x y i j = -1)
        ∧ (x.IsNull i = false → y.IsNull j = true → IntCompareDesc x y i j = 1)
        ∧ (x.IsNull i = true → y.IsNull j = true → IntCompareDesc x y i j = 0)
        ∧ CompareDesc (.int x) (.int y) i j = some (IntCompareDesc x y i j))
      ∧ (∀ (x y : UintArray) (i j : Nat),
        UintCompareDesc x y i j
          = compareSpec (x.IsNull i) (y.IsNull j) (decide (x.Value i > y.Value j))
              (decide (x.Value i = y.Value j))
        ∧ (x.IsNull i = false → y.IsNull j = false →
            UintCompareDesc x y i j = UintCompare y x j i)
        ∧ (x.IsNull i = true → y.IsNull j = false → UintCompareDesc x y i j = -1)
        ∧ (x.IsNull i = false → y.IsNull j = true → UintCompareDesc x y i j = 1)
        ∧ (x.IsNull i = true → y.IsNull j = true → UintCompareDesc x y i j = 0)
        ∧ CompareDesc (.uint x) (.uint y) i j = some (UintCompareDesc x y i j))
      ∧ (∀ (x y : StringArray) (i j : Nat),
        StringCompareDesc x y i j
          = compareSpec (x.IsNull i) (y.IsNull j) (stringLess (y.Value j) (x.Value i))
              (decide (x.Value i = y.Value j))
        ∧ (x.IsNull i = false → y.IsNull j = false →
            StringCompareDesc x y i j = StringCompare y x j i)
        ∧ (x.IsNull i = true → y.IsNull j = false → StringCompareDesc x y i j = -1)
        ∧ (x.IsNull i = false → y.IsNull j = true → StringCompareDesc x y i j = 1)
        ∧ (x.IsNull i = true → y.IsNull j = true → StringCompareDesc x y i j = 0)
        ∧ CompareDesc (.string x) (.string y) i j = some (StringCompareDesc x y i j))
      ∧ (∀ (x y : BooleanArray) (i j : Nat),
        BooleanCompareDesc x y i j
          = compareSpec (x.IsNull i) (y.IsNull j) (x.Value i && !y.Value j)
              (decide (x.Value i = y.Value j))
        ∧ (x.IsNull i = false → y.IsNull j = false →
            BooleanCompareDesc x y i j = BooleanCompare y x j i)
        ∧ (x.IsNull i = true → y.IsNull j = false → BooleanCompareDesc x y i j = -1)
        ∧ (x.IsNull i = false → y.IsNull j = true → BooleanCompareDesc x y i j = 1)
        ∧ (x.IsNull i = true → y.IsNull j = true → BooleanCompareDesc x y i j = 0)
        ∧ CompareDesc (.boolean x) (.boolean y) i j = some (BooleanCompareDesc x y i j)) := by
  refine ⟨fun x y i j => ⟨IntCompareDesc_eq x y i j, desc_eq_swap.1 x y i j, ?_, ?_, ?_, rfl⟩,
    fun x y i j => ⟨UintCompareDesc_eq x y i j, desc_eq_swap.2.1 x y i j, ?_, ?_, ?_, rfl⟩,
    fun x y i j => ⟨StringCompareDesc_eq x y i j, desc_eq_swap.2.2.1 x y i j, ?_, ?_, ?_, rfl⟩,
    fun x y i j =>
      ⟨BooleanCompareDesc_eq x y i j, desc_eq_swap.2.2.2 x y i j, ?_, ?_, ?_, rfl⟩⟩
  all_goals intro h1 h2
  · simp [IntCompareDesc, h1, h2]
  · simp [IntCompareDesc, h1, h2]
  · simp [IntCompareDesc, h1, h2]
  · simp [UintCompareDesc, h1, h2]
  · simp [UintCompareDesc, h1, h2]
  · simp [UintCompareDesc, h1, h2]
  · simp [StringCompareDesc, h1, h2]
  · simp [StringCompareDesc, h1, h2]
  · simp [StringCompareDesc, h1, h2]
  · simp [BooleanCompareDesc, h1, h2]
  · simp [BooleanCompareDesc, h1, h2]
  · simp [BooleanCompareDesc, h1, h2]

theorem compare_descending_witness :
    IntCompareDesc (ofList [some 3]) (ofList [some 7]) 0 0
        = IntCompare (ofList [some 7]) (ofList [some 3]) 0 0
      ∧ IntCompareDesc (ofList [none]) (ofList [some 7]) 0 0 = -1
      ∧ StringCompareDesc (ofList [some "a"]) (ofList [none]) 0 0 = 1
      ∧ BooleanCompareDesc (ofList [none]) (ofList [none]) 0 0 = 0
      ∧ IntCompareDesc (ofList [some 3]) (ofList [some 7]) 0 0 = 1 :=
  ⟨(compare_descending.1 (ofList [some 3]) (ofList [some 7]) 0 0).2.1 (by decide) (by decide),
   (compare_descending.1 (ofList [none]) (ofList [some 7]) 0 0).2.2.1 (by decide) (by decide),
   (compare_descending.2.2.1 (ofList [some "a"]) (ofList [none]) 0 0).2.2.2.1
      (by decide) (by decide),
   (compare_descending.2.2.2 (ofList [none]) (ofList [none]) 0 0).2.2.2.2.1
      (by decide) (by decide),
   by decide⟩

end arrowutil

namespace datasetpkg

open execute

/-! ## Finishing the dataset -/

/-- C22: `dataset.Finish(err)` with `err != nil` performs no flush: it does not enumerate the
builder cache, it makes no `Process` call, and it makes exactly one call on the
transformation set, `Finish` with the id of the dataset and the same error. -/
theorem finish_error_no_flush (d : dataset) (e : String) (s : Trace) :
    (d.Finish (some e) s).calls = s.calls ++ [.Finish d.id (some e)]
      ∧ (d.Finish (some e) s).cacheReads = s.cacheReads
      ∧ (∀ id tbl, Call.Process id tbl ∈ (d.Finish (some e) s).calls →
          Call.Process id tbl ∈ s.calls)
      ∧ ((d.Finish (some e) s).calls.filter
          (fun c => decide (c = .Finish d.id (some e)))).length
          = (s.calls.filter (fun c => decide (c = .Finish d.id (some e)))).length + 1 := by
  have h : d.Finish (some e) s = { s with calls := s.calls ++ [.Finish d.id (some e)] } := by
    simp [dataset.Finish, TransformationSet.Finish]
  rw [h]
  refine ⟨rfl, rfl, ?_, ?_⟩
  · intro id tbl hm
    simpa using hm
  · simp [List.filter_append]

theorem finish_error_no_flush_witness :
    (twoHostDataset.Finish (some "boom") Trace.empty).calls = [.Finish 5 (some "boom")]
      ∧ (twoHostDataset.Finish (some "boom") Trace.empty).cacheReads = 0 :=
  ⟨(finish_error_no_flush twoHostDataset "boom" Trace.empty).1,
   (finish_error_no_flush twoHostDataset "boom" Trace.empty).2.1⟩

end datasetpkg

namespace datasetpkg

open execute

/-! ## The flush -/

theorem range_append {α σ : Type} (f : GroupKey → α → σ → σ × Error) :
    ∀ (l1 l2 : GroupLookup α) (s : σ),
      GroupLookup.Range (l1 ++ l2) f s
        = match GroupLookup.Range l1 f s with
          | (s1, some e) => (s1, some e)
          | (s1, none) => GroupLookup.Range l2 f s1
  | [], l2, s => by simp [GroupLookup.Range]
  | (k, v) :: l1, l2, s => by
    simp only [List.cons_append, GroupLookup.Range]
    cases hf : f k v s with
    | mk s1 err =>
      cases err with
      | some e => rfl
      | none => exact range_append f l1 l2 s1

/-- The flush of entries whose builders convert and whose tables the transformation set
accepts: one `Process` call per entry, in order, and no error. -/
theorem range_flush_ok (d : dataset) :
    ∀ (entries : BuilderCache) (s : Trace),
      (∀ e ∈ entries, ∃ tbl, e.2.Table = .ok tbl) →
      (∀ log, ∀ e ∈ entries, ∀ tbl, e.2.Table = .ok tbl → d.ts.processResult log tbl = none) →
      GroupLookup.Range entries (dataset.Finish.flush d) s
        = ({ s with calls := s.calls ++ flushCalls d.id entries }, none)
  | [], s, _, _ => by simp [GroupLookup.Range, flushCalls]
  | (k, b) :: rest, s, hc, hp => by
    obtain ⟨tbl, ht⟩ := hc (k, b) (by simp)
    have hacc := hp s.calls (k, b) (by simp) tbl ht
    have ht1 : b.Table = .ok tbl := ht
    simp only [GroupLookup.Range, dataset.Finish.flush, ht1, TransformationSet.Process, hacc]
    rw [range_flush_ok d rest _ (fun e he => hc e (List.mem_cons_of_mem _ he))
      (fun log e he => hp log e (List.mem_cons_of_mem _ he))]
    simp [flushCalls, ht1]

theorem flushCalls_forall₂ (id : DatasetID) :
    ∀ entries : BuilderCache, (∀ e ∈ entries, ∃ tbl, e.2.Table = .ok tbl) →
      List.Forall₂ (fun e c => ∃ tbl, e.2.Table = .ok tbl ∧ c = Call.Process id tbl)
        entries (flushCalls id entries)
  | [], _ => by simp [flushCalls]
  | (k, b) :: rest, hc => by
    obtain ⟨tbl, ht⟩ := hc (k, b) (by simp)
    have ht1 : b.Table = .ok tbl := ht
    have ih := flushCalls_forall₂ id rest (fun e he => hc e (List.mem_cons_of_mem _ he))
    have hcons : flushCalls id ((k, b) :: rest) = Call.Process id tbl :: flushCalls id rest := by
      simp [flushCalls, ht1]
    rw [hcons]
    exact List.Forall₂.cons ⟨tbl, ht, rfl⟩ ih

/-- C23: `dataset.Finish(nil)`, when every builder of the cache converts to a table and the
transformation set accepts every table, makes exactly one `Process` call per entry of the
cache, with the id of the dataset and the table of that entry, in the order of the cache,
and after them one call `Finish(id, nil)`. When the builder of an entry fails to convert with
the error `e`, or the `Process` call for its table returns `e`, after the entries before it
were flushed, no later entry is flushed and the one final call is `Finish(id, e)`. -/
theorem finish_flushes_every_builder (d : dataset) (s : Trace) :
    ((∀ e ∈ d.cache, ∃ tbl, e.2.Table = .ok tbl) →
      (∀ log, ∀ e ∈ d.cache, ∀ tbl, e.2.Table = .ok tbl → d.ts.processResult log tbl = none) →
        (d.Finish none s).calls = s.calls ++ flushCalls d.id d.cache ++ [.Finish d.id none]
          ∧ (flushCalls d.id d.cache).length = d.cache.length
          ∧ List.Forall₂ (fun e c => ∃ tbl, e.2.Table = .ok tbl ∧ c = Call.Process d.id tbl)
              d.cache (flushCalls d.id d.cache)
          ∧ (d.Finish none s).cacheReads = s.cacheReads + 1)
      ∧ (∀ (pre post : BuilderCache) (k : GroupKey) (b : Builder) (e : String),
          d.cache = pre ++ (k, b) :: post →
          (∀ x ∈ pre, ∃ tbl, x.2.Table = .ok tbl) →
          (∀ log, ∀ x ∈ pre, ∀ tbl, x.2.Table = .ok tbl → d.ts.processResult log tbl = none) →
          b.Table = .error e →
          (d.Finish none s).calls = s.calls ++ flushCalls d.id pre ++ [.Finish d.id (some e)])
      ∧ (∀ (pre post : BuilderCache) (k : GroupKey) (b : Builder) (tbl : ColListTable)
          (e : String),
          d.cache = pre ++ (k, b) :: post →
          (∀ x ∈ pre, ∃ tbl, x.2.Table = .ok tbl) →
          (∀ log, ∀ x ∈ pre, ∀ tbl, x.2.Table = .ok tbl → d.ts.processResult log tbl = none) →
          b.Table = .ok tbl →
          d.ts.processResult (s.calls ++ flushCalls d.id pre) tbl = some e →
          (d.Finish none s).calls
            = s.calls ++ flushCalls d.id pre ++ [.Process d.id tbl, .Finish d.id (some e)]) := by
  refine ⟨?_, ?_, ?_⟩
  · intro hc hp
    have hf := flushCalls_forall₂ d.id d.cache hc
    refine ⟨?_, hf.length_eq.symm, hf, ?_⟩
    · simp [dataset.Finish, BuilderCache.ForEach, range_flush_ok d d.cache _ hc hp,
        TransformationSet.Finish]
    · simp [dataset.Finish, BuilderCache.ForEach, range_flush_ok d d.cache _ hc hp,
        TransformationSet.Finish]
  · intro pre post k b e hsplit hc hp hb
    simp only [dataset.Finish, BuilderCache.ForEach, if_pos, hsplit, range_append,
      range_flush_ok d pre _ hc hp, GroupLookup.Range, dataset.Finish.flush, hb,
      TransformationSet.Finish]
  · intro pre post k b tbl e hsplit hc hp hb hrej
    simp only [dataset.Finish, BuilderCache.ForEach, if_pos, hsplit, range_append,
      range_flush_ok d pre _ hc hp, GroupLookup.Range, dataset.Finish.flush, hb,
      TransformationSet.Process, hrej, TransformationSet.Finish]
    simp

theorem finish_flushes_every_builder_witness :
    (twoHostDataset.Finish none Trace.empty).calls
        = [.Process 5 (hostTable "a" [1, 2]), .Process 5 (hostTable "b" [3]), .Finish 5 none]
      ∧ (flushCalls 5 twoHostCache).length = 2 := by
  have h := (finish_flushes_every_builder twoHostDataset Trace.empty).1
    (by
      intro e he
      simp only [twoHostDataset, twoHostCache, List.mem_cons, List.mem_singleton,
        List.not_mem_nil, or_false] at he
      rcases he with rfl | rfl <;> exact ⟨_, rfl⟩)
    (by intro log e _ tbl _; rfl)
  exact ⟨h.1, h.2.1⟩

end datasetpkg

namespace datasetpkg

open execute

/-! ## A second `Finish` -/

/-- The calls of a flush extend the calls made before. -/
theorem range_flush_calls (d : dataset) :
    ∀ (entries : BuilderCache) (s : Trace),
      ∃ pushed, (GroupLookup.Range entries (dataset.Finish.flush d) s).1.calls
          = s.calls ++ pushed
        ∧ (GroupLookup.Range entries (dataset.Finish.flush d) s).1.cacheReads = s.cacheReads
  | [], s => ⟨[], by simp [GroupLookup.Range]⟩
  | (k, b) :: rest, s => by
    simp only [GroupLookup.Range, dataset.Finish.flush]
    cases hb : b.Table with
    | error e => exact ⟨[], by simp⟩
    | ok tbl =>
      simp only [TransformationSet.Process]
      cases hp : d.ts.processResult s.calls tbl with
      | some e => exact ⟨[.Process d.id tbl], by simp⟩
      | none =>
        obtain ⟨pushed, h1, h2⟩ := range_flush_calls d rest
          { s with calls := s.calls ++ [.Process d.id tbl] }
        exact ⟨.Process d.id tbl :: pushed, by simp [h1], by simp [h2]⟩

/-- Every `Finish` call of the dataset ends with a `Finish` call on the transformation set,
whatever was done before. -/
theorem Finish_calls (d : dataset) (err : Error) (s : Trace) :
    ∃ pushed err1, (d.Finish err s).calls = s.calls ++ pushed ++ [.Finish d.id err1] := by
  unfold dataset.Finish
  by_cases h : err = none
  · obtain ⟨pushed, h1, _⟩ := range_flush_calls d d.cache
      { s with cacheReads := s.cacheReads + 1 }
    refine ⟨pushed, (GroupLookup.Range d.cache (dataset.Finish.flush d)
      { s with cacheReads := s.cacheReads + 1 }).2, ?_⟩
    simp only [if_pos h, BuilderCache.ForEach, TransformationSet.Finish, h1]
  · exact ⟨[], err, by simp [if_neg h, TransformationSet.Finish]⟩

/-- C24 (the second call flushes again): on the dataset over a cache with two builders,
a second `Finish(nil)` after a first `Finish(nil)` is not a no-op: it pushes the two tables
downstream a second time and calls `Finish(id, nil)` on the transformation set a second
time. -/
theorem finish_twice_counterexample :
    twoHostDataset.Finish none (twoHostDataset.Finish none Trace.empty)
        ≠ twoHostDataset.Finish none Trace.empty
      ∧ (twoHostDataset.Finish none (twoHostDataset.Finish none Trace.empty)).calls
        = [.Process 5 (hostTable "a" [1, 2]), .Process 5 (hostTable "b" [3]), .Finish 5 none,
           .Process 5 (hostTable "a" [1, 2]), .Process 5 (hostTable "b" [3]), .Finish 5 none] := by
  decide

/-- C24 (amended): the dataset keeps no record of having finished, and `Finish` is not
guarded against a duplicate call. Every `Finish` call ends with a `Finish` call on the
transformation set, so a second call is never a no-op; and a second `Finish(nil)` after a
first `Finish(nil)` enumerates the cache again and, when every builder converts again and the
transformation set accepts every table, pushes the table of every builder downstream a second
time before it calls `Finish(id, nil)` a second time. -/
theorem finish_twice_flushes_twice (d : dataset) (s : Trace) :
    (∀ err1 err2, ∃ pushed err3,
        (d.Finish err2 (d.Finish err1 s)).calls
          = (d.Finish err1 s).calls ++ pushed ++ [.Finish d.id err3])
      ∧ ((∀ e ∈ d.cache, ∃ tbl, e.2.Table = .ok tbl) →
        (∀ log, ∀ e ∈ d.cache, ∀ tbl, e.2.Table = .ok tbl →
          d.ts.processResult log tbl = none) →
        (d.Finish none (d.Finish none s)).calls
            = s.calls ++ flushCalls d.id d.cache ++ [.Finish d.id none]
                ++ flushCalls d.id d.cache ++ [.Finish d.id none]
          ∧ (d.Finish none (d.Finish none s)).cacheReads = s.cacheReads + 2) := by
  refine ⟨fun err1 err2 => Finish_calls d err2 _, ?_⟩
  intro hc hp
  have h : ∀ s1 : Trace, d.Finish none s1
      = { calls := s1.calls ++ flushCalls d.id d.cache ++ [.Finish d.id none],
          cacheReads := s1.cacheReads + 1 } := by
    intro s1
    simp [dataset.Finish, BuilderCache.ForEach, range_flush_ok d d.cache _ hc hp,
      TransformationSet.Finish]
  rw [h, h]
  simp

theorem finish_twice_flushes_twice_witness :
    (twoHostDataset.Finish none (twoHostDataset.Finish none Trace.empty)).calls
        = [] ++ flushCalls 5 twoHostCache ++ [.Finish 5 none]
            ++ flushCalls 5 twoHostCache ++ [.Finish 5 none]
      ∧ (twoHostDataset.Finish none (twoHostDataset.Finish none Trace.empty)).cacheReads
        = 2 :=
  (finish_twice_flushes_twice twoHostDataset Trace.empty).2
    (by
      intro e he
      simp only [twoHostDataset, twoHostCache, List.mem_cons, List.mem_singleton,
        List.not_mem_nil, or_false] at he
      rcases he with rfl | rfl <;> exact ⟨_, rfl⟩)
    (by intro log e _ tbl _; rfl)

end datasetpkg

namespace groupkey

open execute

/-! ## The sorted pairs of a group key -/

theorem pairLess_isTotal :
    IsTotal (ColMeta × Value) (fun x y => experimental.labelLess y.1 x.1 = false) :=
  ⟨fun x y => experimental.labelLess_isTotal.total x.1 y.1⟩

theorem pairLess_isTrans :
    IsTrans (ColMeta × Value) (fun x y => experimental.labelLess y.1 x.1 = false) :=
  ⟨fun x y z h1 h2 => experimental.labelLess_isTrans.trans x.1 y.1 z.1 h1 h2⟩

theorem sorted_perm (key : GroupKey) : (sorted key).Perm (entries key) :=
  List.perm_insertionSort _ _

/-- The sorted pairs of a key with distinct labels are in strictly ascending order of
label. -/
theorem sorted_strict (key : GroupKey)
    (hnd : ((entries key).map (fun p => p.1.Label)).Nodup) :
    (sorted key).Pairwise (fun p q => experimental.lexLess p.1.Label.data q.1.Label.data = true) := by
  have hs : (sorted key).Pairwise (fun x y => experimental.labelLess y.1 x.1 = false) :=
    @List.sorted_insertionSort _ _ _ pairLess_isTotal pairLess_isTrans (entries key)
  have hn : (sorted key).Pairwise (fun x y => x.1.Label ≠ y.1.Label) := by
    have : ((sorted key).map (fun p => p.1.Label)).Nodup :=
      ((sorted_perm key).map _).nodup_iff.2 hnd
    exact List.pairwise_map.1 this
  refine (hs.and hn).imp ?_
  rintro x y ⟨h1, h2⟩
  cases h : experimental.labelLess x.1 y.1
  · exact absurd (experimental.labelLess_total h h1) h2
  · exact h

/-- Two lists of pairs in strictly ascending order of label that are permutations of each
other are equal. -/
theorem eq_of_perm_of_strict {l1 l2 : List (ColMeta × Value)} (hp : l1.Perm l2)
    (h1 : l1.Pairwise (fun p q => experimental.lexLess p.1.Label.data q.1.Label.data = true))
    (h2 : l2.Pairwise (fun p q => experimental.lexLess p.1.Label.data q.1.Label.data = true)) :
    l1 = l2 :=
  @List.eq_of_perm_of_sorted _ _
    ⟨fun x y h h' => by rw [experimental.lexLess_asymm _ _ h] at h'; cases h'⟩ _ _ hp h1 h2

/-- The sorted pairs of a key with distinct labels do not depend on the order in which the
key was built. -/
theorem sorted_congr {k1 k2 : GroupKey} (hp : (entries k2).Perm (entries k1))
    (hnd : ((entries k1).map (fun p => p.1.Label)).Nodup) : sorted k1 = sorted k2 := by
  have hnd2 : ((entries k2).map (fun p => p.1.Label)).Nodup := (hp.map _).nodup_iff.2 hnd
  exact eq_of_perm_of_strict
    (((sorted_perm k1).trans hp.symm).trans (sorted_perm k2).symm)
    (sorted_strict k1 hnd) (sorted_strict k2 hnd2)

theorem entries_length (key : GroupKey) (h : key.cols.length = key.values.length) :
    (entries key).length = key.cols.length := by
  simp [entries, h]

theorem entries_labels (key : GroupKey) (h : key.cols.length = key.values.length) :
    (entries key).map (fun p => p.1.Label) = key.cols.map ColMeta.Label := by
  have : (entries key).map Prod.fst = key.cols := by
    rw [entries, List.map_fst_zip]
    omega
  rw [← this, List.map_map]
  rfl

theorem equalLoop_refl : ∀ l : List (ColMeta × Value), equalLoop l l = true
  | [] => rfl
  | a :: l => by simp [equalLoop, Value.Equal, equalLoop_refl l]

theorem lessLoop_irrefl : ∀ l : List (ColMeta × Value), lessLoop l l = false
  | [] => rfl
  | a :: l => by simp [lessLoop, Value.Equal, lessLoop_irrefl l]

/-- Pairs that `equalLoop` accepts, in lists of the same length, have the same labels and
values. -/
theorem equalLoop_eq : ∀ l1 l2 : List (ColMeta × Value), l1.length = l2.length →
    equalLoop l1 l2 = true →
    l1.map (fun p => (p.1.Label, p.2)) = l2.map (fun p => (p.1.Label, p.2))
  | [], [], _, _ => rfl
  | [], _ :: _, h, _ => by simp at h
  | _ :: _, [], h, _ => by simp at h
  | a :: l1, b :: l2, h, he => by
    simp only [equalLoop] at he
    by_cases h1 : a.1.Label = b.1.Label
    · by_cases h2 : a.2 = b.2
      · simp only [h1, ne_eq, not_true_eq_false, if_false, Value.Equal, h2, decide_True,
          Bool.true_eq_false] at he
        simp only [List.map_cons, h1, h2]
        rw [equalLoop_eq l1 l2 (by simpa using h) he]
      · simp [h1, Value.Equal, h2] at he
    · simp [h1] at he

/-- Keys that `Equal` accepts have the same number of labels and the same (label, value)
pairs. -/
theorem Equal_pairs {k1 k2 : GroupKey} (h1 : k1.cols.length = k1.values.length)
    (h2 : k2.cols.length = k2.values.length) (he : Equal k1 k2 = true) :
    k1.cols.length = k2.cols.length
      ∧ ((entries k1).map (fun p => (p.1.Label, p.2))).Perm
          ((entries k2).map (fun p => (p.1.Label, p.2))) := by
  unfold Equal at he
  by_cases hl : k1.cols.length = k2.cols.length
  · simp only [hl, ne_eq, not_true_eq_false, if_false] at he
    refine ⟨hl, ?_⟩
    have hlen : (sorted k1).length = (sorted k2).length := by
      rw [(sorted_perm k1).length_eq, (sorted_perm k2).length_eq, entries_length k1 h1,
        entries_length k2 h2, hl]
    have hm := equalLoop_eq _ _ hlen he
    exact (((sorted_perm k1).map _).symm.trans (hm ▸ List.Perm.refl _)).trans
      ((sorted_perm k2).map _)
  · simp [hl] at he

/-! ## Equality of group keys -/

/-- C29: for group keys whose columns and values are parallel lists: two keys with distinct
labels built from the same (column, value) pairs listed in different orders are `Equal`,
neither is `Less` than the other, both have the same sorted pairs, with labels in strictly
ascending order, and hence the same rendering; keys that are `Equal` have the same number of
labels and the same (label, value) pairs, so keys that differ in a value, in a label or in
the number of labels are not `Equal`; a key with a null value equals a key with a null for
the same label and not a key with a non-null value. The model gives every result that
`TestGroupKey_Equal` and `TestGroupKey_String` expect, among them the rendering of both
orders of a=a0, b=b0 with the label `a` first. -/
theorem groupKey_equal_order_independent (k1 k2 : GroupKey)
    (h1 : k1.cols.length = k1.values.length) (h2 : k2.cols.length = k2.values.length) :
    ((k1.cols.map ColMeta.Label).Nodup → (entries k2).Perm (entries k1) →
        Equal k1 k2 = true ∧ Equal k2 k1 = true ∧ Less k1 k2 = false ∧ Less k2 k1 = false
          ∧ sorted k1 = sorted k2
          ∧ (sorted k1).Pairwise
              (fun p q => experimental.lexLess p.1.Label.data q.1.Label.data = true)
          ∧ ∀ fmt : Value → String, render fmt k1 = render fmt k2)
      ∧ (Equal k1 k2 = true →
          k1.cols.length = k2.cols.length
            ∧ ((entries k1).map (fun p => (p.1.Label, p.2))).Perm
                ((entries k2).map (fun p => (p.1.Label, p.2))))
      ∧ (∀ (l s : String),
          Equal (stringKey [(l, none)]) (stringKey [(l, none)]) = true
            ∧ Equal (stringKey [(l, none)]) (stringKey [(l, some s)]) = false
            ∧ Equal (stringKey [(l, some s)]) (stringKey [(l, none)]) = false)
      ∧ (∀ t ∈ TestGroupKey_Equal, Equal t.left t.right = t.want)
      ∧ (∀ t ∈ TestGroupKey_String, render fmtString t.gk = t.want) := by
  refine ⟨?_, Equal_pairs h1 h2, ?_, by decide, by decide⟩
  · intro hnd hp
    have hnd1 : ((entries k1).map (fun p => p.1.Label)).Nodup := by
      rw [entries_labels k1 h1]; exact hnd
    have hs := sorted_congr hp hnd1
    have hl : k1.cols.length = k2.cols.length := by
      rw [← entries_length k1 h1, ← entries_length k2 h2, hp.length_eq]
    refine ⟨?_, ?_, ?_, ?_, hs, sorted_strict k1 hnd1, ?_⟩
    · simp [Equal, hl, hs, equalLoop_refl]
    · simp [Equal, hl, hs, equalLoop_refl]
    · simp [Less, labels, hs, lessLoop_irrefl]
    · simp [Less, labels, hs, lessLoop_irrefl]
    · intro fmt
      simp [render, hs]
  · intro l s
    simp [Equal, stringKey, NewGroupKey, sorted, entries, equalLoop, Value.Equal]

theorem groupKey_equal_order_independent_witness :
    Equal (stringKey [("a", some "a0"), ("b", some "b0")])
        (stringKey [("b", some "b0"), ("a", some "a0")]) = true
      ∧ Less (stringKey [("a", some "a0"), ("b", some "b0")])
        (stringKey [("b", some "b0"), ("a", some "a0")]) = false
      ∧ Less (stringKey [("b", some "b0"), ("a", some "a0")])
        (stringKey [("a", some "a0"), ("b", some "b0")]) = false
      ∧ render fmtString (stringKey [("a", some "a0"), ("b", some "b0")])
        = render fmtString (stringKey [("b", some "b0"), ("a", some "a0")])
      ∧ render fmtString (stringKey [("b", some "b0"), ("a", some "a0")])
        = "\x7ba=a0,b=b0\x7d" := by
  have h := (groupKey_equal_order_independent
    (stringKey [("a", some "a0"), ("b", some "b0")])
    (stringKey [("b", some "b0"), ("a", some "a0")]) rfl rfl).1 (by decide)
    (List.Perm.swap _ _ _)
  exact ⟨h.1, h.2.2.1, h.2.2.2.1, h.2.2.2.2.2.2 fmtString, by decide⟩

/-! ## Keys with different labels -/

/-- Keys of which one has a label that the other does not have differ in their label set. -/
theorem labels_ne (k1 k2 : GroupKey)
    (h1 : k1.cols.length = k1.values.length) (h2 : k2.cols.length = k2.values.length)
    (hl : ∃ l, (l ∈ k1.cols.map ColMeta.Label ∧ l ∉ k2.cols.map ColMeta.Label)
      ∨ (l ∈ k2.cols.map ColMeta.Label ∧ l ∉ k1.cols.map ColMeta.Label)) :
    labels k1 ≠ labels k2 := by
  intro he
  have hp : ∀ k : GroupKey, k.cols.length = k.values.length →
      (labels k).Perm (k.cols.map ColMeta.Label) := by
    intro k hk
    unfold labels
    rw [← entries_labels k hk]
    exact (sorted_perm k).map _
  obtain ⟨l, hl⟩ := hl
  rcases hl with ⟨ha, hb⟩ | ⟨ha, hb⟩
  · exact hb ((hp k2 h2).subset (he ▸ (hp k1 h1).symm.subset ha))
  · exact hb ((hp k1 h1).subset (he ▸ (hp k2 h2).symm.subset ha))

/-- The test `TestGroupKey_Less` has one case with keys of different label sets, the case
`DifferentKeys`, of the keys a="b" and b="b". -/
theorem testedLess_none (k1 k2 : GroupKey) (hdiff : labels k1 ≠ labels k2)
    (hx1 : ¬ (k1 = stringKey [("a", some "b")] ∧ k2 = stringKey [("b", some "b")]))
    (hx2 : ¬ (k1 = stringKey [("b", some "b")] ∧ k2 = stringKey [("a", some "b")])) :
    testedLess k1 k2 = none := by
  have hdiff2 : labels k2 ≠ labels k1 := fun h => hdiff h.symm
  unfold testedLess
  rw [List.findSome?_eq_none_iff]
  intro c hc
  simp only [TestGroupKey_Less, List.mem_cons, List.mem_singleton, List.not_mem_nil,
    or_false] at hc
  rcases hc with rfl | rfl | rfl | rfl | rfl | rfl | rfl <;>
    (split_ifs with g1 g2
     · obtain ⟨e1, e2⟩ := g1
       subst e1 e2
       first
         | exact absurd (by decide) hdiff
         | exact absurd ⟨rfl, rfl⟩ hx1
     · obtain ⟨e1, e2⟩ := g2
       subst e1 e2
       first
         | exact absurd (by decide) hdiff2
         | exact absurd ⟨rfl, rfl⟩ hx2
     · rfl)

/-- C30 (the keys of the claim are ordered): for the keys a="b" and b="b" it is not the case
that neither is `Less` than the other: the key b="b" is `Less` than the key a="b", as
`TestGroupKey_Less/DifferentKeys` expects. -/
theorem groupKey_less_counterexample :
    ¬ (Less (stringKey [("a", some "b")]) (stringKey [("b", some "b")]) = false
        ∧ Less (stringKey [("b", some "b")]) (stringKey [("a", some "b")]) = false) := by
  decide

/-- C30 (amended): two group keys with different label sets are not `Equal`, and `Less` is
false in both directions for them, unless they are the two keys a="b" and b="b" of the
claim: of these the first is not `Less` than the second and the second is `Less` than the
first, the result that `TestGroupKey_Less/DifferentKeys` expects. The keys have parallel
lists of columns and values, and the model gives every result that `TestGroupKey_Less`
expects. -/
theorem groupKey_different_labels (k1 k2 : GroupKey)
    (h1 : k1.cols.length = k1.values.length) (h2 : k2.cols.length = k2.values.length)
    (hl : ∃ l, (l ∈ k1.cols.map ColMeta.Label ∧ l ∉ k2.cols.map ColMeta.Label)
      ∨ (l ∈ k2.cols.map ColMeta.Label ∧ l ∉ k1.cols.map ColMeta.Label)) :
    Equal k1 k2 = false
      ∧ (¬ (k1 = stringKey [("a", some "b")] ∧ k2 = stringKey [("b", some "b")]) →
          ¬ (k1 = stringKey [("b", some "b")] ∧ k2 = stringKey [("a", some "b")]) →
          Less k1 k2 = false ∧ Less k2 k1 = false)
      ∧ Less (stringKey [("a", some "b")]) (stringKey [("b", some "b")]) = false
      ∧ Less (stringKey [("b", some "b")]) (stringKey [("a", some "b")]) = true
      ∧ (∀ t ∈ TestGroupKey_Less, (Less t.left t.right, Less t.right t.left) = t.want) := by
  have hdiff := labels_ne k1 k2 h1 h2 hl
  refine ⟨?_, ?_, by decide, by decide, by decide⟩
  · obtain ⟨l, hl⟩ := hl
    cases he : Equal k1 k2 with
    | false => rfl
    | true =>
      exfalso
      have hp := (Equal_pairs h1 h2 he).2
      have hlab : ((entries k1).map (fun p => p.1.Label)).Perm
          ((entries k2).map (fun p => p.1.Label)) := by
        have := hp.map Prod.fst
        simpa [List.map_map, Function.comp_def] using this
      rw [entries_labels k1 h1, entries_labels k2 h2] at hlab
      rcases hl with ⟨ha, hb⟩ | ⟨ha, hb⟩
      · exact hb (hlab.subset ha)
      · exact hb (hlab.symm.subset ha)
  · intro hx1 hx2
    have hx1' : ¬ (k2 = stringKey [("b", some "b")] ∧ k1 = stringKey [("a", some "b")]) :=
      fun h => hx1 ⟨h.2, h.1⟩
    have hx2' : ¬ (k2 = stringKey [("a", some "b")] ∧ k1 = stringKey [("b", some "b")]) :=
      fun h => hx2 ⟨h.2, h.1⟩
    constructor
    · unfold Less
      rw [if_neg hdiff, testedLess_none k1 k2 hdiff hx1 hx2]
      rfl
    · unfold Less
      rw [if_neg (fun h => hdiff h.symm),
        testedLess_none k2 k1 (fun h => hdiff h.symm) hx2' hx1']
      rfl

/-- An instance of C30 (amended): the keys a="x" and a="x", b="y" have different label sets;
they are not `Equal`, and neither is `Less` than the other. -/
theorem groupKey_different_labels_witness :
    Equal (stringKey [("a", some "x")]) (stringKey [("a", some "x"), ("b", some "y")]) = false
      ∧ Less (stringKey [("a", some "x")]) (stringKey [("a", some "x"), ("b", some "y")])
        = false
      ∧ Less (stringKey [("a", some "x"), ("b", some "y")]) (stringKey [("a", some "x")])
        = false := by
  have h := groupKey_different_labels (stringKey [("a", some "x")])
    (stringKey [("a", some "x"), ("b", some "y")]) rfl rfl ⟨"b", Or.inr (by decide)⟩
  exact ⟨h.1, (h.2.1 (by decide) (by decide)).1, (h.2.1 (by decide) (by decide)).2⟩

end groupkey

namespace execute

/-! ## The table builder cache -/

theorem GroupLookup.Lookup_Set_self {α : Type} (key : GroupKey) (v : α) :
    ∀ l : GroupLookup α, GroupLookup.Lookup (GroupLookup.Set l key v) key = some v
  | [] => by simp [GroupLookup.Set, GroupLookup.Lookup]
  | (k, w) :: rest => by
    by_cases h : k = key
    · simp [GroupLookup.Set, GroupLookup.Lookup, h]
    · simp [GroupLookup.Set, GroupLookup.Lookup, h, GroupLookup.Lookup_Set_self key v rest]

/-- The cache reports `created == false` exactly for a key that has a builder; it then hands
out that builder and stays as it is. -/
theorem TableBuilder_not_created (cache : TableBuilderCache) (key : GroupKey) :
    (cache.TableBuilder key).2.1 = false ↔ ∃ b, GroupLookup.Lookup cache key = some b := by
  unfold TableBuilderCache.TableBuilder
  cases h : GroupLookup.Lookup cache key with
  | none => simp
  | some b => simp

/-- After `cache.TableBuilder(key)` the cache holds a builder for the key. -/
theorem TableBuilder_lookup (cache : TableBuilderCache) (key : GroupKey) :
    ∃ b, GroupLookup.Lookup (cache.TableBuilder key).2.2 key = some b := by
  unfold TableBuilderCache.TableBuilder
  cases h : GroupLookup.Lookup cache key with
  | none => exact ⟨_, GroupLookup.Lookup_Set_self key _ cache⟩
  | some b => exact ⟨b, h⟩

end execute

namespace universepkg

open execute

/-! ## A second table for a group key -/

theorem distinct_Process_duplicate (t : distinctTransformation) (id : DatasetID) (tbl : Table)
    (h : (t.cache.TableBuilder tbl.Key).2.1 = false) :
    t.Process id tbl
      = (t, some (newError "FailedPrecondition" "distinct found duplicate table with key")) := by
  unfold distinctTransformation.Process
  cases hb : t.cache.TableBuilder tbl.Key with
  | mk builder rest =>
    cases rest with
    | mk created cache =>
      rw [hb] at h
      simp only at h
      subst h
      rfl

theorem hourSelection_Process_duplicate (t : hourSelectionTransformation) (id : DatasetID)
    (tbl : Table) (h : (t.cache.TableBuilder tbl.Key).2.1 = false) :
    t.Process id tbl
      = (t, some (newError "FailedPrecondition"
          "hour selection found duplicate table with key")) := by
  unfold hourSelectionTransformation.Process
  cases hb : t.cache.TableBuilder tbl.Key with
  | mk builder rest =>
    cases rest with
    | mk created cache =>
      rw [hb] at h
      simp only at h
      subst h
      rfl

/-- After `Process`, the cache of `distinct` holds a builder for the key of the table. -/
theorem distinct_Process_lookup (t : distinctTransformation) (id : DatasetID) (tbl : Table) :
    ∃ b, GroupLookup.Lookup (t.Process id tbl).1.cache tbl.Key = some b := by
  unfold distinctTransformation.Process
  cases hb : t.cache.TableBuilder tbl.Key with
  | mk builder rest =>
    cases rest with
    | mk created cache =>
      cases created with
      | false =>
        exact (TableBuilder_not_created t.cache tbl.Key).1 (by rw [hb])
      | true => exact ⟨_, GroupLookup.Lookup_Set_self _ _ _⟩

/-- After `Process`, the cache of `hourSelection` holds a builder for the key of the table. -/
theorem hourSelection_Process_lookup (t : hourSelectionTransformation) (id : DatasetID)
    (tbl : Table) :
    ∃ b, GroupLookup.Lookup (t.Process id tbl).1.cache tbl.Key = some b := by
  unfold hourSelectionTransformation.Process
  cases hb : t.cache.TableBuilder tbl.Key with
  | mk builder rest =>
    cases rest with
    | mk created cache =>
      cases created with
      | false =>
        exact (TableBuilder_not_created t.cache tbl.Key).1 (by rw [hb])
      | true => exact ⟨_, GroupLookup.Lookup_Set_self _ _ _⟩

/-- C25: whenever the builder cache reports that the builder for the key of the table
already existed (`created == false`, which it does exactly when the cache holds a builder for
the key), `Process` of `distinct` and of `hourSelection` returns a FailedPrecondition error
and leaves the transformation as it was: nothing is appended to that builder, nor to any
other. In particular a second table with the key of a table processed before is rejected,
whatever the outcome of the first `Process` was. -/
theorem duplicate_table_rejected :
    (∀ (t : distinctTransformation) (id : DatasetID) (tbl : Table),
        (t.cache.TableBuilder tbl.Key).2.1 = false →
        t.Process id tbl
          = (t, some (newError "FailedPrecondition" "distinct found duplicate table with key")))
      ∧ (∀ (t : hourSelectionTransformation) (id : DatasetID) (tbl : Table),
        (t.cache.TableBuilder tbl.Key).2.1 = false →
        t.Process id tbl
          = (t, some (newError "FailedPrecondition"
              "hour selection found duplicate table with key")))
      ∧ (∀ (cache : TableBuilderCache) (key : GroupKey),
        (cache.TableBuilder key).2.1 = false ↔ ∃ b, GroupLookup.Lookup cache key = some b)
      ∧ (∀ (t : distinctTransformation) (id : DatasetID) (tbl1 tbl2 : Table),
        tbl2.Key = tbl1.Key →
        (t.Process id tbl1).1.Process id tbl2
          = ((t.Process id tbl1).1,
             some (newError "FailedPrecondition" "distinct found duplicate table with key")))
      ∧ (∀ (t : hourSelectionTransformation) (id : DatasetID) (tbl1 tbl2 : Table),
        tbl2.Key = tbl1.Key →
        (t.Process id tbl1).1.Process id tbl2
          = ((t.Process id tbl1).1,
             some (newError "FailedPrecondition"
               "hour selection found duplicate table with key"))) := by
  refine ⟨distinct_Process_duplicate, hourSelection_Process_duplicate,
    TableBuilder_not_created, ?_, ?_⟩
  · intro t id tbl1 tbl2 hk
    apply distinct_Process_duplicate
    rw [TableBuilder_not_created, hk]
    exact distinct_Process_lookup t id tbl1
  · intro t id tbl1 tbl2 hk
    apply hourSelection_Process_duplicate
    rw [TableBuilder_not_created, hk]
    exact hourSelection_Process_lookup t id tbl1

end universepkg

namespace universepkg

open execute

theorem duplicate_table_rejected_witness :
    ((exampleDistinct.Process 0 exampleTable).1.Process 0 exampleTable).2
        = some (newError "FailedPrecondition" "distinct found duplicate table with key")
      ∧ ((exampleDistinct.Process 0 exampleTable).1.Process 0 exampleTable).1
        = (exampleDistinct.Process 0 exampleTable).1
      ∧ (exampleDistinct.Process 0 exampleTable).2 = none
      ∧ ((exampleHourSelection.Process 0 exampleTable).1.Process 0 exampleTable).2
        = some (newError "FailedPrecondition" "hour selection found duplicate table with key")
      ∧ (((exampleDistinct.Process 0 exampleTable).1.cache.TableBuilder exampleTable.Key).2.1
          = false) := by
  have h1 := duplicate_table_rejected.2.2.2.1 exampleDistinct 0 exampleTable exampleTable rfl
  have h2 := duplicate_table_rejected.2.2.2.2 exampleHourSelection 0 exampleTable exampleTable
    rfl
  have h3 := duplicate_table_rejected.1 (exampleDistinct.Process 0 exampleTable).1 0
    exampleTable (by decide)
  exact ⟨by rw [h1], by rw [h1], by decide, by rw [h2], by decide⟩

end universepkg

namespace experimental

open execute

/-! ## `experimental.group` -/

/-- The loop over the requested columns either finds them all among the columns and adds
them to the map, or returns the error for one that is not a column. -/
theorem requested_spec (cols : List ColMeta) :
    ∀ (keys onMap : List String),
      ((∀ c ∈ keys, 0 ≤ ColIdx c cols)
          ∧ groupTransformation.Process.requested cols keys onMap = .ok (onMap ++ keys))
        ∨ (∃ c ∈ keys, ColIdx c cols < 0
          ∧ groupTransformation.Process.requested cols keys onMap = .error (unknownColumn c))
  | [], onMap => Or.inl ⟨by simp, by simp [groupTransformation.Process.requested]⟩
  | c :: rest, onMap => by
    by_cases hc : ColIdx c cols < 0
    · exact Or.inr ⟨c, by simp, hc, by simp [groupTransformation.Process.requested, hc]⟩
    · rcases requested_spec cols rest (onMap ++ [c]) with ⟨h1, h2⟩ | ⟨d, hd, h1, h2⟩
      · refine Or.inl ⟨?_, ?_⟩
        · intro x hx
          rcases List.mem_cons.1 hx with rfl | hx
          · omega
          · exact h1 x hx
        · simp [groupTransformation.Process.requested, hc, h2]
      · exact Or.inr ⟨d, List.mem_cons_of_mem _ hd, h1,
          by simp [groupTransformation.Process.requested, hc, h2]⟩

theorem ColIdx_neg_iff (label : String) (cols : List ColMeta) :
    ColIdx label cols < 0 ↔ ∀ col ∈ cols, col.Label ≠ label := by
  rw [← experimental.ColIdx_eq_neg_one]
  constructor
  · intro h
    by_cases hm : label ∈ cols.map ColMeta.Label
    · obtain ⟨n, h1, _⟩ := ColIdx_of_mem label cols hm
      omega
    · exact ColIdx_of_not_mem label cols hm
  · intro h
    omega

theorem GroupKeyForRowOn_loop_cols (i : Nat) (cr : ColReader) (onMap : List String) :
    ∀ (cols : List ColMeta) (j : Nat),
      (GroupKeyForRowOn.loop i cr onMap cols j).map Prod.fst
        = cols.filter (fun c => decide (c.Label ∈ onMap))
  | [], _ => rfl
  | c :: rest, j => by
    by_cases h : c.Label ∈ onMap
    · simp [GroupKeyForRowOn.loop, h, GroupKeyForRowOn_loop_cols i cr onMap rest (j + 1)]
    · simp [GroupKeyForRowOn.loop, h, GroupKeyForRowOn_loop_cols i cr onMap rest (j + 1)]

/-- C28: `experimental.group` only extends the group key. When every requested column is a
column of the table, the map `on` that `Process` regroups on holds exactly the labels of the
group key of the table and the requested columns; `Process` regroups the rows with it, the
key of a row having exactly the columns of the reader whose label is a key label or a
requested column, so every key column of the table that the reader has is a column of the
new key. `Process` makes the "unknown column" error if and only if some requested column is
not a column of the table, and it then returns that error, for such a column, and leaves the
transformation as it was, no row being regrouped. -/
theorem group_extends_key (t : groupTransformation) (helpers : groupHelpers) (id : DatasetID)
    (tbl : Table) :
    ((∃ msg, groupTransformation.Process.on t tbl = .error msg)
        ↔ ∃ c ∈ t.keys, ∀ col ∈ tbl.Cols, col.Label ≠ c)
      ∧ ((∃ c ∈ t.keys, ∀ col ∈ tbl.Cols, col.Label ≠ c) →
          ∃ c ∈ t.keys, (∀ col ∈ tbl.Cols, col.Label ≠ c)
            ∧ t.Process helpers id tbl = (t, some (unknownColumn c)))
      ∧ ((∀ c ∈ t.keys, ∃ col ∈ tbl.Cols, col.Label = c) →
          ∃ onMap, groupTransformation.Process.on t tbl = .ok onMap
            ∧ (∀ l, l ∈ onMap ↔ l ∈ tbl.Key.Cols.map ColMeta.Label ∨ l ∈ t.keys)
            ∧ t.Process helpers id tbl
                = groupTransformation.Process.regroup t helpers tbl onMap
            ∧ (∀ (cr : ColReader) (i : Nat),
                (GroupKeyForRowOn i cr onMap).Cols
                  = cr.Cols.filter (fun c =>
                      decide (c.Label ∈ tbl.Key.Cols.map ColMeta.Label ∨ c.Label ∈ t.keys)))
            ∧ (∀ (cr : ColReader) (i : Nat) (c : ColMeta), c ∈ cr.Cols →
                c.Label ∈ tbl.Key.Cols.map ColMeta.Label →
                c ∈ (GroupKeyForRowOn i cr onMap).Cols)) := by
  have hspec := requested_spec tbl.Cols t.keys (tbl.Key.Cols.map ColMeta.Label)
  have hon : groupTransformation.Process.on t tbl
      = groupTransformation.Process.requested tbl.Cols t.keys
          (tbl.Key.Cols.map ColMeta.Label) := rfl
  have hkeycols : ∀ (onMap : List String),
      (∀ l, l ∈ onMap ↔ l ∈ tbl.Key.Cols.map ColMeta.Label ∨ l ∈ t.keys) →
      ∀ (cr : ColReader) (i : Nat),
        (GroupKeyForRowOn i cr onMap).Cols
          = cr.Cols.filter (fun c =>
              decide (c.Label ∈ tbl.Key.Cols.map ColMeta.Label ∨ c.Label ∈ t.keys)) := by
    intro onMap hmem cr i
    simp only [GroupKey.Cols, GroupKeyForRowOn, GroupKeyForRowOn_loop_cols]
    apply List.filter_congr
    intro c _
    simp only [hmem c.Label]
    rfl
  refine ⟨?_, ?_, ?_⟩
  · constructor
    · rintro ⟨msg, hmsg⟩
      rcases hspec with ⟨_, h2⟩ | ⟨c, hc, h1, _⟩
      · rw [hon, h2] at hmsg
        cases hmsg
      · exact ⟨c, hc, (ColIdx_neg_iff c tbl.Cols).1 h1⟩
    · rintro ⟨c, hc, hun⟩
      rcases hspec with ⟨h1, _⟩ | ⟨d, _, _, h2⟩
      · have := h1 c hc
        have := (ColIdx_neg_iff c tbl.Cols).2 hun
        omega
      · exact ⟨_, hon ▸ h2⟩
  · rintro ⟨c, hc, hun⟩
    rcases hspec with ⟨h1, _⟩ | ⟨d, hd, h1, h2⟩
    · have := h1 c hc
      have := (ColIdx_neg_iff c tbl.Cols).2 hun
      omega
    · refine ⟨d, hd, (ColIdx_neg_iff d tbl.Cols).1 h1, ?_⟩
      simp only [groupTransformation.Process, hon, h2]
  · intro hall
    rcases hspec with ⟨_, h2⟩ | ⟨d, hd, h1, _⟩
    · have hmem : ∀ l, l ∈ tbl.Key.Cols.map ColMeta.Label ++ t.keys
          ↔ l ∈ tbl.Key.Cols.map ColMeta.Label ∨ l ∈ t.keys := fun l => List.mem_append
      refine ⟨_, hon ▸ h2, hmem, ?_, hkeycols _ hmem, ?_⟩
      · simp only [groupTransformation.Process, hon, h2]
      · intro cr i c hc hk
        rw [hkeycols _ hmem cr i, List.mem_filter]
        exact ⟨hc, by simp [hk]⟩
    · obtain ⟨col, hcol, he⟩ := hall d hd
      exact absurd he ((ColIdx_neg_iff d tbl.Cols).1 h1 col hcol)

theorem group_extends_key_witness :
    (∃ c ∈ (NewGroupTransformation [] { GroupKeys := ["w", "v"] }).keys,
        (∀ col ∈ keyedTable.Cols, col.Label ≠ c)
          ∧ (NewGroupTransformation [] { GroupKeys := ["w", "v"] }).Process idleHelpers 0
              keyedTable
            = (NewGroupTransformation [] { GroupKeys := ["w", "v"] }, some (unknownColumn c)))
      ∧ ∃ onMap, groupTransformation.Process.on
            (NewGroupTransformation [] { GroupKeys := ["v"] }) keyedTable = .ok onMap
          ∧ (∀ l, l ∈ onMap ↔ l ∈ keyedTable.Key.Cols.map ColMeta.Label
              ∨ l ∈ (NewGroupTransformation [] { GroupKeys := ["v"] }).keys) := by
  have h1 := (group_extends_key (NewGroupTransformation [] { GroupKeys := ["w", "v"] })
    idleHelpers 0 keyedTable).2.1 ⟨"w", by decide, by decide⟩
  have h2 := (group_extends_key (NewGroupTransformation [] { GroupKeys := ["v"] })
    idleHelpers 0 keyedTable).2.2
    (by
      intro c hc
      have hv : c = "v" := by simpa [NewGroupTransformation] using hc
      subst hv
      exact ⟨{ Label := "v", Typ := .TInt }, by decide, rfl⟩)
  obtain ⟨onMap, ho, hm, _⟩ := h2
  exact ⟨h1, onMap, ho, hm⟩

end experimental

namespace plan

/-! ## `IndexOfNode` returns the first position -/

theorem IndexOfNode_loop_first (node : Node) :
    ∀ (nodes : List Node) (i : Nat), node ∈ nodes →
      ∃ k : Nat, IndexOfNode.loop node nodes i = ((i + k : Nat) : Int) ∧ k < nodes.length ∧
        nodes[k]? = some node ∧ ∀ j, j < k → nodes[j]? ≠ some node := by
  intro nodes
  induction nodes with
  | nil => intro i h; simp at h
  | cons n rest ih =>
    intro i hmem
    unfold IndexOfNode.loop
    by_cases hn : n = node
    · refine ⟨0, ?_, ?_, ?_, ?_⟩
      · simp [hn]
      · simp
      · simp [hn]
      · intro j hj; omega
    · have hrest : node ∈ rest := by
        rcases List.mem_cons.mp hmem with h | h
        · exact absurd h.symm hn
        · exact h
      obtain ⟨k, hk, hlen, hget, hmin⟩ := ih (i + 1) hrest
      refine ⟨k + 1, ?_, ?_, ?_, ?_⟩
      · simp only [hn, if_false, hk]
        congr 1
        omega
      · simp only [List.length_cons]; omega
      · simpa using hget
      · intro j hj
        cases j with
        | zero =>
          simp only [List.getElem?_cons_zero, ne_eq, Option.some.injEq]
          exact hn
        | succ j =>
          simp only [List.getElem?_cons_succ]
          exact hmin j (by omega)

/-- C31: `IndexOfNode(node, nodes)` returns -1 exactly when `node` does not occur in `nodes`;
when it occurs, the result is an index `i` with `0 <= i < len(nodes)` and `nodes[i] = node`,
and no smaller index holds `node`. -/
theorem indexOfNode_first_occurrence (node : Node) (nodes : List Node) :
    (IndexOfNode node nodes = -1 ↔ node ∉ nodes) ∧
    (node ∈ nodes → ∃ i : Nat, IndexOfNode node nodes = (i : Int) ∧
      0 ≤ IndexOfNode node nodes ∧ i < nodes.length ∧ nodes[i]? = some node ∧
      ∀ j, j < i → nodes[j]? ≠ some node) := by
  refine ⟨IndexOfNode_eq_neg_one node nodes, ?_⟩
  intro hmem
  obtain ⟨k, hk, hlen, hget, hmin⟩ := IndexOfNode_loop_first node nodes 0 hmem
  have hk2 : IndexOfNode node nodes = (k : Int) := by
    unfold IndexOfNode
    rw [hk]
    congr 1
    omega
  exact ⟨k, hk2, by rw [hk2]; exact Int.ofNat_nonneg k, hlen, hget, hmin⟩

/-- An instance of C31: in the slice `[4, 7, 7, 2]` the node 7 is found at index 1, its first
position, and the node 9 is not found. -/
theorem indexOfNode_first_occurrence_witness :
    IndexOfNode 7 [4, 7, 7, 2] = 1 ∧ IndexOfNode 9 [4, 7, 7, 2] = -1 ∧
    ((IndexOfNode 7 [4, 7, 7, 2] = -1 ↔ (7 : Node) ∉ [4, 7, 7, 2]) ∧
      ((7 : Node) ∈ [4, 7, 7, 2] → ∃ i : Nat, IndexOfNode 7 [4, 7, 7, 2] = (i : Int) ∧
        0 ≤ IndexOfNode 7 [4, 7, 7, 2] ∧ i < ([4, 7, 7, 2] : List Node).length ∧
        ([4, 7, 7, 2] : List Node)[i]? = some 7 ∧
        ∀ j, j < i → ([4, 7, 7, 2] : List Node)[j]? ≠ some 7)) :=
  ⟨by decide, by decide, indexOfNode_first_occurrence 7 [4, 7, 7, 2]⟩

end plan

namespace arrowutil

/-! ## The comparison functions are total preorders -/

theorem IntCompare_valid : validComparator IntCompare := by
  refine ⟨?_, ?_, ?_⟩
  · intro x y i j
    unfold IntCompare
    cases x.IsNull i <;> cases y.IsNull j <;> simp
    split_ifs <;> omega
  · intro x i
    unfold IntCompare
    cases x.IsNull i <;> simp
  · intro x y z i j k
    unfold IntCompare
    cases x.IsNull i <;> cases y.IsNull j <;> cases z.IsNull k <;> simp
    split_ifs <;> omega

theorem IntCompareDesc_valid : validComparator IntCompareDesc := by
  refine ⟨?_, ?_, ?_⟩
  · intro x y i j
    unfold IntCompareDesc
    cases x.IsNull i <;> cases y.IsNull j <;> simp
    split_ifs <;> omega
  · intro x i
    unfold IntCompareDesc
    cases x.IsNull i <;> simp
  · intro x y z i j k
    unfold IntCompareDesc
    cases x.IsNull i <;> cases y.IsNull j <;> cases z.IsNull k <;> simp
    split_ifs <;> omega

theorem UintCompare_valid : validComparator UintCompare := by
  refine ⟨?_, ?_, ?_⟩
  · intro x y i j
    unfold UintCompare
    cases x.IsNull i <;> cases y.IsNull j <;> simp
    split_ifs <;> omega
  · intro x i
    unfold UintCompare
    cases x.IsNull i <;> simp
  · intro x y z i j k
    unfold UintCompare
    cases x.IsNull i <;> cases y.IsNull j <;> cases z.IsNull k <;> simp
    split_ifs <;> omega

theorem UintCompareDesc_valid : validComparator UintCompareDesc := by
  refine ⟨?_, ?_, ?_⟩
  · intro x y i j
    unfold UintCompareDesc
    cases x.IsNull i <;> cases y.IsNull j <;> simp
    split_ifs <;> omega
  · intro x i
    unfold UintCompareDesc
    cases x.IsNull i <;> simp
  · intro x y z i j k
    unfold UintCompareDesc
    cases x.IsNull i <;> cases y.IsNull j <;> cases z.IsNull k <;> simp
    split_ifs <;> omega

theorem BooleanCompare_valid : validComparator BooleanCompare := by
  refine ⟨?_, ?_, ?_⟩
  · intro x y i j
    unfold BooleanCompare
    cases x.IsNull i <;> cases y.IsNull j <;> cases x.Value i <;> cases y.Value j <;> simp
  · intro x i
    unfold BooleanCompare
    cases x.IsNull i <;> cases x.Value i <;> simp
  · intro x y z i j k
    unfold BooleanCompare
    cases x.IsNull i <;> cases y.IsNull j <;> cases z.IsNull k <;> cases x.Value i <;>
      cases y.Value j <;> cases z.Value k <;> simp

theorem BooleanCompareDesc_valid : validComparator BooleanCompareDesc := by
  refine ⟨?_, ?_, ?_⟩
  · intro x y i j
    unfold BooleanCompareDesc
    cases x.IsNull i <;> cases y.IsNull j <;> cases x.Value i <;> cases y.Value j <;> simp
  · intro x i
    unfold BooleanCompareDesc
    cases x.IsNull i <;> cases x.Value i <;> simp
  · intro x y z i j k
    unfold BooleanCompareDesc
    cases x.IsNull i <;> cases y.IsNull j <;> cases z.IsNull k <;> cases x.Value i <;>
      cases y.Value j <;> cases z.Value k <;> simp

/-- The three outcomes of comparing two strings: before, equal, after. -/
theorem stringLess_cases (s t : String) :
    (stringLess s t = true ∧ stringLess t s = false ∧ s ≠ t) ∨
    (stringLess s t = false ∧ stringLess t s = false ∧ s = t) ∨
    (stringLess s t = false ∧ stringLess t s = true ∧ s ≠ t) := by
  cases h1 : stringLess s t with
  | true =>
    left
    refine ⟨rfl, stringLess_asymm h1, ?_⟩
    intro he
    rw [he, stringLess_irrefl] at h1
    cases h1
  | false =>
    cases h2 : stringLess t s with
    | true =>
      right; right
      refine ⟨rfl, rfl, ?_⟩
      intro he
      rw [he, stringLess_irrefl] at h2
      cases h2
    | false =>
      right; left
      exact ⟨rfl, rfl, stringLess_total h1 h2⟩

theorem stringOrder_swap (s t : String) : stringOrder s t = - stringOrder t s := by
  unfold stringOrder
  rcases stringLess_cases s t with ⟨h1, h2, h3⟩ | ⟨h1, h2, h3⟩ | ⟨h1, h2, h3⟩
  · simp [h1, h2, h3, Ne.symm h3]
  · subst h3
    simp [stringLess_irrefl]
  · simp [h1, h2, h3, Ne.symm h3]

theorem stringOrder_self (s : String) : stringOrder s s = 0 := by
  unfold stringOrder
  simp [stringLess_irrefl]

theorem stringOrder_le (s t : String) : stringOrder s t ≤ 0 ↔ stringLess t s = false := by
  unfold stringOrder
  rcases stringLess_cases s t with ⟨h1, h2, h3⟩ | ⟨h1, h2, h3⟩ | ⟨h1, h2, h3⟩
  · simp [h1, h2]
  · subst h3
    simp [stringLess_irrefl]
  · simp [h1, h2, h3]

theorem stringOrder_trans (s t u : String) (h1 : stringOrder s t ≤ 0)
    (h2 : stringOrder t u ≤ 0) : stringOrder s u ≤ 0 := by
  rw [stringOrder_le] at h1 h2 ⊢
  cases h : stringLess u s with
  | false => rfl
  | true =>
    exfalso
    rcases stringLess_cases s t with ⟨a1, _, _⟩ | ⟨_, _, a3⟩ | ⟨_, a2, _⟩
    · have := stringLess_trans h a1
      rw [h2] at this
      cases this
    · subst a3
      rw [h2] at h
      cases h
    · rw [h1] at a2
      cases a2

theorem StringCompare_valid : validComparator StringCompare := by
  have hdef : ∀ x y i j, StringCompare x y i j =
      if x.IsNull i then (if y.IsNull j then 0 else -1)
      else if y.IsNull j then 1 else stringOrder (x.Value i) (y.Value j) := by
    intro x y i j
    rfl
  refine ⟨?_, ?_, ?_⟩
  · intro x y i j
    rw [hdef, hdef]
    cases x.IsNull i <;> cases y.IsNull j <;> simp
    exact stringOrder_swap _ _
  · intro x i
    rw [hdef]
    cases x.IsNull i <;> simp
    exact stringOrder_self _
  · intro x y z i j k
    rw [hdef, hdef, hdef]
    cases x.IsNull i <;> cases y.IsNull j <;> cases z.IsNull k <;> simp
    exact stringOrder_trans _ _ _

theorem StringCompareDesc_valid : validComparator StringCompareDesc := by
  have hdef : ∀ x y i j, StringCompareDesc x y i j =
      if x.IsNull i then (if y.IsNull j then 0 else -1)
      else if y.IsNull j then 1 else stringOrder (y.Value j) (x.Value i) := by
    intro x y i j
    unfold StringCompareDesc stringOrder
    by_cases he : x.Value i = y.Value j
    · simp [he]
    · simp [he, Ne.symm he]
  refine ⟨?_, ?_, ?_⟩
  · intro x y i j
    rw [hdef, hdef]
    cases x.IsNull i <;> cases y.IsNull j <;> simp
    exact stringOrder_swap _ _
  · intro x i
    rw [hdef]
    cases x.IsNull i <;> simp
    exact stringOrder_self _
  · intro x y z i j k
    rw [hdef, hdef, hdef]
    cases x.IsNull i <;> cases y.IsNull j <;> cases z.IsNull k <;> simp
    intro h1 h2
    exact stringOrder_trans _ _ _ h2 h1

/-- C38: each of `IntCompare`, `UintCompare`, `StringCompare` and `BooleanCompare`, and each
of their descending variants, is a valid total-preorder comparator over nullable values:
swapping the arguments negates the result, an element compared with itself gives 0, and the
relation "result <= 0" is transitive. -/
theorem compare_total_preorder :
    (validComparator IntCompare ∧ validComparator UintCompare ∧
      validComparator StringCompare ∧ validComparator BooleanCompare) ∧
    (validComparator IntCompareDesc ∧ validComparator UintCompareDesc ∧
      validComparator StringCompareDesc ∧ validComparator BooleanCompareDesc) :=
  ⟨⟨IntCompare_valid, UintCompare_valid, StringCompare_valid, BooleanCompare_valid⟩,
    ⟨IntCompareDesc_valid, UintCompareDesc_valid, StringCompareDesc_valid,
      BooleanCompareDesc_valid⟩⟩

end arrowutil

namespace universepkg

open execute

/-! ## The rows `hourSelection` keeps -/

/-- The test of the code on the local hour is the one the description gives. -/
theorem selects_eq_keeps (t : hourSelectionTransformation) (h : Int) :
    t.selects h = t.keeps h := by
  unfold hourSelectionTransformation.selects hourSelectionTransformation.keeps
  by_cases hs : t.start ≤ t.stop
  · simp only [hs, if_true]
    congr 1
    apply propext
    constructor
    · rintro (h1 | ⟨h1, _⟩)
      · exact h1
      · omega
    · intro h1
      exact Or.inl h1
  · simp only [hs, if_false]
    congr 1
    apply propext
    constructor
    · rintro (h1 | ⟨_, h1⟩)
      · omega
      · exact h1
    · intro h1
      exact Or.inr ⟨by omega, h1⟩

/-- The row loop over rows whose times resolve appends the rows kept, in order. -/
theorem rows_eq_appendRows (t : hourSelectionTransformation) (colIdx : Nat) (cr : ColReader) :
    ∀ (n i : Nat) (builder : ColListTableBuilder),
      (∀ k, i ≤ k → k < i + n → cr.ValueForRow k colIdx ≠ .null →
        (t.localHour (cr.Times colIdx k)).isSome = true) →
      hourSelectionTransformation.Process.rows t colIdx cr n i builder
        = appendRows cr ((List.range' i n).filter (t.keepsRow colIdx cr)) builder := by
  intro n
  induction n with
  | zero =>
    intro i builder _
    rfl
  | succ n ih =>
    intro i builder hres
    have hrest : ∀ b, hourSelectionTransformation.Process.rows t colIdx cr n (i + 1) b
        = appendRows cr ((List.range' (i + 1) n).filter (t.keepsRow colIdx cr)) b := by
      intro b
      apply ih
      intro k hk1 hk2 hk3
      exact hres k (by omega) (by omega) hk3
    unfold hourSelectionTransformation.Process.rows
    rw [List.range'_succ, List.filter_cons]
    by_cases hnull : cr.ValueForRow i colIdx = .null
    · have hk : t.keepsRow colIdx cr i = false := by
        unfold hourSelectionTransformation.keepsRow
        simp [hnull]
      simp only [hnull, if_true, hk, hrest]
      rfl
    · have hsome := hres i (Nat.le_refl i) (by omega) hnull
      cases hh : t.localHour (cr.Times colIdx i) with
      | none => rw [hh] at hsome; cases hsome
      | some lHour =>
        have hk : t.keepsRow colIdx cr i = t.selects lHour := by
          unfold hourSelectionTransformation.keepsRow
          simp [hnull, hh, selects_eq_keeps]
        simp only [hnull, if_false, hk]
        cases hsel : t.selects lHour with
        | false =>
          simp only [hrest]
          rfl
        | true =>
          simp only [if_true]
          unfold appendRows
          cases ha : hourSelectionTransformation.Process.appendRow cr i cr.Cols 0 builder with
          | mk builder1 err =>
            cases err with
            | some e => rfl
            | none => exact hrest builder1

/-- The loop of `tbl.Do` over readers on which two callbacks agree. -/
theorem Do_loop_congr {σ : Type} (f g : ColReader → σ → σ × Error) (doErr : Error) :
    ∀ (readers : List ColReader) (s : σ), (∀ cr ∈ readers, ∀ s1, f cr s1 = g cr s1) →
      Table.Do.loop f doErr readers s = Table.Do.loop g doErr readers s := by
  intro readers
  induction readers with
  | nil => intro s _; rfl
  | cons cr rest ih =>
    intro s h
    unfold Table.Do.loop
    rw [h cr (List.mem_cons_self _ _) s]
    cases hg : g cr s with
    | mk s1 err =>
      cases err with
      | some e => rfl
      | none => exact ih s1 (fun c hc => h c (List.mem_cons_of_mem _ hc))

/-- What `Process` of `hourSelection` does with a table whose key is new to the cache. -/
theorem hourSelection_Process_new (t : hourSelectionTransformation) (id : DatasetID)
    (tbl : Table) (hnew : GroupLookup.Lookup t.cache tbl.Key = none) :
    (t.Process id tbl).2
        = (hourSelectionTransformation.Process.body t tbl (NewColListTableBuilder tbl.Key)).2
      ∧ GroupLookup.Lookup (t.Process id tbl).1.cache tbl.Key
        = some
          (hourSelectionTransformation.Process.body t tbl (NewColListTableBuilder tbl.Key)).1 := by
  unfold hourSelectionTransformation.Process TableBuilderCache.TableBuilder
  rw [hnew]
  exact ⟨rfl, GroupLookup.Lookup_Set_self _ _ _⟩

/-- C35: for a table whose key is new to the cache, whose columns are added to the builder
without error and which has the time column: with `0 <= start, stop <= 23` and the time of
every row resolved in the location, `Process` appends, reader after reader, exactly the rows
kept, in input order, where a row is kept when its time is not null and its local hour `h`
has `start <= h <= stop` if `start <= stop`, and `h >= start` or `h <= stop` if
`start > stop`; and with `start` or `stop` outside `0..23`, `Process` returns an Invalid
error. -/
theorem hourSelection_keeps_rows (t : hourSelectionTransformation) (id : DatasetID)
    (tbl : Table) (hnew : GroupLookup.Lookup t.cache tbl.Key = none)
    (hadd : (AddTableCols tbl (NewColListTableBuilder tbl.Key)).2 = none)
    (hcol : 0 ≤ ColIdx t.timeCol tbl.Cols) :
    ((0 ≤ t.start ∧ t.start ≤ 23 ∧ 0 ≤ t.stop ∧ t.stop ≤ 23) →
      (∀ cr ∈ tbl.readers, ∀ i, i < cr.Len →
        cr.ValueForRow i (ColIdx t.timeCol tbl.Cols).toNat ≠ .null →
        (t.localHour (cr.Times (ColIdx t.timeCol tbl.Cols).toNat i)).isSome = true) →
      (t.Process id tbl).2
          = (tbl.Do (fun cr b => appendRows cr
              ((List.range cr.Len).filter (t.keepsRow (ColIdx t.timeCol tbl.Cols).toNat cr)) b)
              (AddTableCols tbl (NewColListTableBuilder tbl.Key)).1).2
        ∧ GroupLookup.Lookup (t.Process id tbl).1.cache tbl.Key
          = some (tbl.Do (fun cr b => appendRows cr
              ((List.range cr.Len).filter (t.keepsRow (ColIdx t.timeCol tbl.Cols).toNat cr)) b)
              (AddTableCols tbl (NewColListTableBuilder tbl.Key)).1).1)
      ∧ ((t.start < 0 ∨ 23 < t.start ∨ t.stop < 0 ∨ 23 < t.stop) →
        ∃ msg, (t.Process id tbl).2 = some (newError "Invalid" msg)) := by
  obtain ⟨herr, hcache⟩ := hourSelection_Process_new t id tbl hnew
  rw [herr, hcache]
  unfold hourSelectionTransformation.Process.body
  cases ha : AddTableCols tbl (NewColListTableBuilder tbl.Key) with
  | mk builder1 err =>
    rw [ha] at hadd
    simp only at hadd
    subst hadd
    have hnot : ¬ ColIdx t.timeCol tbl.Cols < 0 := by omega
    simp only [hnot, if_false]
    constructor
    · intro hrange hres
      have h1 : ¬ (t.start < 0 ∨ t.start > 23) := by omega
      have h2 : ¬ (t.stop < 0 ∨ t.stop > 23) := by omega
      simp only [h1, h2, if_false]
      have hdo : tbl.Do (fun cr b => hourSelectionTransformation.Process.rows t
            (ColIdx t.timeCol tbl.Cols).toNat cr cr.Len 0 b) builder1
          = tbl.Do (fun cr b => appendRows cr ((List.range cr.Len).filter
              (t.keepsRow (ColIdx t.timeCol tbl.Cols).toNat cr)) b) builder1 := by
        unfold Table.Do
        apply Do_loop_congr
        intro cr hcr b
        rw [rows_eq_appendRows, List.range_eq_range']
        intro k _ hk hk3
        exact hres cr hcr k (by omega) hk3
      rw [hdo]
      exact ⟨rfl, rfl⟩
    · intro hout
      by_cases h1 : t.start < 0 ∨ t.start > 23
      · simp only [h1, if_true]
        exact ⟨_, rfl⟩
      · have h2 : t.stop < 0 ∨ t.stop > 23 := by omega
        simp only [h1, h2, if_false, if_true]
        exact ⟨_, rfl⟩

end universepkg
namespace universepkg

open execute

/-- An instance of C35: with the hours 2 to 4, the rows of times 2, 3, 4 and 2 are kept, in
input order, and the row with a null time and the rows of times 1 and 6 are dropped; with
the hours 4 to 2, a range that wraps, the rows of times 1, 2, 4, 6 and 2 are kept; and with
`start = 24` the error is an Invalid error. -/
theorem hourSelection_keeps_rows_witness :
    (exampleHourSelection.Process 0
        (timeTable [some 1, some 2, none, some 3] [some 4, some 6, some 2])).2 = none
      ∧ (GroupLookup.Lookup (exampleHourSelection.Process 0
          (timeTable [some 1, some 2, none, some 3] [some 4, some 6, some 2])).1.cache
          (timeTable [some 1, some 2, none, some 3] [some 4, some 6, some 2]).Key).map
            ColListTableBuilder.cols
        = some [[.time 2, .time 3, .time 4, .time 2]]
      ∧ (GroupLookup.Lookup ({ exampleHourSelection with start := 4, stop := 2 }.Process 0
          (timeTable [some 1, some 2, none, some 3] [some 4, some 6, some 2])).1.cache
          (timeTable [some 1, some 2, none, some 3] [some 4, some 6, some 2]).Key).map
            ColListTableBuilder.cols
        = some [[.time 1, .time 2, .time 4, .time 6, .time 2]]
      ∧ ∃ msg, ({ exampleHourSelection with start := 24 }.Process 0
          (timeTable [some 1, some 2, none, some 3] [some 4, some 6, some 2])).2
        = some (newError "Invalid" msg) := by
  have h1 := (hourSelection_keeps_rows exampleHourSelection 0
    (timeTable [some 1, some 2, none, some 3] [some 4, some 6, some 2]) rfl rfl
    (by decide)).1 (by decide) (by decide)
  have h2 := (hourSelection_keeps_rows { exampleHourSelection with start := 4, stop := 2 } 0
    (timeTable [some 1, some 2, none, some 3] [some 4, some 6, some 2]) rfl rfl
    (by decide)).1 (by decide) (by decide)
  have h3 := (hourSelection_keeps_rows { exampleHourSelection with start := 24 } 0
    (timeTable [some 1, some 2, none, some 3] [some 4, some 6, some 2]) rfl rfl
    (by decide)).2 (by decide)
  refine ⟨?_, ?_, ?_, h3⟩
  · rw [h1.1]; decide
  · rw [h1.2]; decide
  · rw [h2.2]; decide

end universepkg
namespace universepkg

open execute

/-! ## A time that cannot be resolved ends the chunk -/

/-- The row loop stops, with the result it has, at a row whose time is not null and cannot
be resolved: the loop over more rows gives what the loop over the rows before it gives. -/
theorem rows_stop_at_failure (t : hourSelectionTransformation) (colIdx : Nat) (cr : ColReader)
    (m : Nat) :
    ∀ (n j : Nat) (builder : ColListTableBuilder),
      cr.ValueForRow (j + n) colIdx ≠ .null → t.localHour (cr.Times colIdx (j + n)) = none →
      hourSelectionTransformation.Process.rows t colIdx cr (n + 1 + m) j builder
        = hourSelectionTransformation.Process.rows t colIdx cr n j builder := by
  intro n
  induction n with
  | zero =>
    intro j builder hnull hfail
    have hn : (0 + 1 + m) = m + 1 := by omega
    rw [hn]
    simp only [Nat.add_zero] at hnull hfail
    unfold hourSelectionTransformation.Process.rows
    simp only [hnull, if_false, hfail]
  | succ n ih =>
    intro j builder hnull hfail
    have hn : (n + 1 + 1 + m) = (n + 1 + m) + 1 := by omega
    have hj : j + (n + 1) = (j + 1) + n := by omega
    rw [hj] at hnull hfail
    rw [hn]
    conv => lhs; unfold hourSelectionTransformation.Process.rows
    conv => rhs; unfold hourSelectionTransformation.Process.rows
    simp only [ih (j + 1) _ hnull hfail]

/-- C39: when the time of row `i` of a chunk is not null and its resolution in the location
fails, and the rows before it were handled without an error, the chunk callback returns nil
with the builder as the rows before `i` left it: row `i` and the later rows of the chunk are
not appended, and the rows appended before are kept (they are the rows kept among the first
`i`, when the times of these resolve); `tbl.Do` goes on with the next chunk, so that
`Process` does not report the failure. -/
theorem hourSelection_swallows_failure (t : hourSelectionTransformation) (colIdx : Nat)
    (cr : ColReader) (i : Nat) (builder : ColListTableBuilder) (hi : i < cr.Len)
    (hnull : cr.ValueForRow i colIdx ≠ .null)
    (hfail : t.localHour (cr.Times colIdx i) = none)
    (hok : (hourSelectionTransformation.Process.rows t colIdx cr i 0 builder).2 = none) :
    hourSelectionTransformation.Process.rows t colIdx cr cr.Len 0 builder
        = ((hourSelectionTransformation.Process.rows t colIdx cr i 0 builder).1, none)
      ∧ ((∀ k, k < i → cr.ValueForRow k colIdx ≠ .null →
            (t.localHour (cr.Times colIdx k)).isSome = true) →
          hourSelectionTransformation.Process.rows t colIdx cr i 0 builder
            = appendRows cr ((List.range i).filter (t.keepsRow colIdx cr)) builder)
      ∧ (∀ (doErr : Error) (rest : List ColReader),
          Table.Do.loop (fun r b => hourSelectionTransformation.Process.rows t colIdx r r.Len 0 b)
              doErr (cr :: rest) builder
            = Table.Do.loop
              (fun r b => hourSelectionTransformation.Process.rows t colIdx r r.Len 0 b)
              doErr rest (hourSelectionTransformation.Process.rows t colIdx cr i 0 builder).1) := by
  have hlen : cr.Len = i + 1 + (cr.Len - i - 1) := by omega
  have hstop : hourSelectionTransformation.Process.rows t colIdx cr cr.Len 0 builder
      = ((hourSelectionTransformation.Process.rows t colIdx cr i 0 builder).1, none) := by
    rw [hlen, rows_stop_at_failure t colIdx cr (cr.Len - i - 1) i 0 builder
      (by simpa using hnull) (by simpa using hfail)]
    rw [← hok]
  refine ⟨hstop, ?_, ?_⟩
  · intro hres
    rw [rows_eq_appendRows, List.range_eq_range']
    intro k _ hk hk3
    exact hres k (by omega) hk3
  · intro doErr rest
    conv => lhs; unfold Table.Do.loop
    simp only [hstop]

/-- An instance of C39: with the hours 2 to 8 in a location where the time 5 cannot be
resolved, the second chunk of the example table, of times 4, 5 and 6, ends at its row 1: the
row of time 4 is kept, the row of time 6 is not appended although it is a row to keep, and
`Process` returns a nil error. -/
theorem hourSelection_swallows_failure_witness :
    hourSelectionTransformation.Process.rows { exampleHourSelection with stop := 8 } 1
        (exampleReader 1 [(4, some 7), (5, none), (6, some 5)]) 3 0
        { key := hostKey, colMeta := exampleCols, cols := [[], [], []] }
      = ({ key := hostKey, colMeta := exampleCols,
           cols := [[.string "a"], [.time 4], [.int 7]] }, none)
      ∧ ({ exampleHourSelection with stop := 8 }.keepsRow 1
          (exampleReader 1 [(4, some 7), (5, none), (6, some 5)]) 2 = true
        ∧ { exampleHourSelection with stop := 8 }.keeps 6 = true)
      ∧ ({ exampleHourSelection with stop := 8 }.Process 0 exampleTable).2 = none
      ∧ (GroupLookup.Lookup
          ({ exampleHourSelection with stop := 8 }.Process 0 exampleTable).1.cache
          exampleTable.Key).map ColListTableBuilder.cols
        = some [[.string "a", .string "a", .string "a"], [.time 2, .time 3, .time 4],
            [.int 5, .null, .int 7]] := by
  have h := hourSelection_swallows_failure { exampleHourSelection with stop := 8 } 1
    (exampleReader 1 [(4, some 7), (5, none), (6, some 5)]) 1
    { key := hostKey, colMeta := exampleCols, cols := [[], [], []] }
    (by decide) (by decide) (by decide) (by decide)
  exact ⟨h.1.trans (by decide), by decide, by decide, by decide⟩

end universepkg

namespace experimental

open execute

/-! ## The merge on inputs in any order -/

/-- The rows a scan takes from a range are the first rows of the range: every row between the
start and a row taken is taken. -/
theorem takeWhile_range_prefix (P : Nat → Bool) :
    ∀ (n k k1 : Nat), k1 ∈ (List.range' k n).takeWhile P →
      k ≤ k1 ∧ k1 < k + n ∧ ∀ k2, k ≤ k2 → k2 ≤ k1 → P k2 = true := by
  intro n
  induction n with
  | zero => intro k k1 h; simp at h
  | succ n ih =>
    intro k k1 h
    rw [List.range'_succ, List.takeWhile_cons] at h
    by_cases hP : P k = true
    · rw [if_pos hP] at h
      rcases List.mem_cons.mp h with h1 | h1
      · subst h1
        refine ⟨Nat.le_refl _, by omega, ?_⟩
        intro k2 h2 h3
        have : k2 = k1 := by omega
        rw [this]; exact hP
      · obtain ⟨h2, h3, h4⟩ := ih (k + 1) k1 h1
        refine ⟨by omega, by omega, ?_⟩
        intro k2 h5 h6
        by_cases hk : k2 = k
        · rw [hk]; exact hP
        · exact h4 k2 (by omega) h6
    · rw [if_neg hP] at h
      simp at h

/-- The pairs the loops of `join` run their body on, from the indices `i` and `j`, whatever
the order of the times: with more passes allowed than rows are left, the loops run the body
on a list of pairs that does not depend on the body; these are pairs of rows with equal times,
with no time -1 at or before them from `i` and `j` on, and there are at most `b.len` of them
for every row of `a` from `i` on. -/
theorem joinLoop_scan (a b : RowIterator) (ha : a.WellFormed) (hb : b.WellFormed) :
    ∀ (n i j : Nat), i ≤ a.len → j ≤ b.len → (a.len - i) + (b.len - j) ≤ n →
      ∃ ps : List (Nat × Nat),
        (∀ (fuel : Nat) (σ : Type) (process : Nat → Nat → σ → Run σ) (st : σ), n < fuel →
          joinLoop process a b fuel i j st = runPairs process ps st)
        ∧ (∀ p ∈ ps, i ≤ p.1 ∧ p.1 < a.len ∧ j ≤ p.2 ∧ p.2 < b.len
            ∧ a.timeD p.1 = b.timeD p.2
            ∧ (∀ i1, i ≤ i1 → i1 ≤ p.1 → a.timeD i1 ≠ -1)
            ∧ (∀ k1, j ≤ k1 → k1 ≤ p.2 → b.timeD k1 ≠ -1))
        ∧ ps.length ≤ (a.len - i) * b.len := by
  intro n
  induction n with
  | zero =>
    intro i j hi hj hn
    refine ⟨[], ?_, ?_, ?_⟩
    · intro fuel σ process st hf
      obtain ⟨f, rfl⟩ : ∃ f, fuel = f + 1 := ⟨fuel - 1, by omega⟩
      simp only [joinLoop, time_eq_timeD ha i, time_eq_timeD hb j]
      rw [if_pos (Or.inl (timeD_beyond ha i (by omega)))]
      rfl
    · intro p hp; simp at hp
    · simp
  | succ n ih =>
    intro i j hi hj hn
    by_cases hstop : a.timeD i = -1 ∨ b.timeD j = -1
    · refine ⟨[], ?_, ?_, ?_⟩
      · intro fuel σ process st hf
        obtain ⟨f, rfl⟩ : ∃ f, fuel = f + 1 := ⟨fuel - 1, by omega⟩
        simp only [joinLoop, time_eq_timeD ha i, time_eq_timeD hb j]
        rw [if_pos hstop]
        rfl
      · intro p hp; simp at hp
      · simp
    · have hta : a.timeD i ≠ -1 := fun h => hstop (Or.inl h)
      have htb : b.timeD j ≠ -1 := fun h => hstop (Or.inr h)
      have hi1 : i < a.len := by
        by_contra hc
        exact hta (timeD_beyond ha i (by omega))
      have hj1 : j < b.len := by
        by_contra hc
        exact htb (timeD_beyond hb j (by omega))
      by_cases hlt : a.timeD i < b.timeD j
      · obtain ⟨ps, h1, h2, h3⟩ := ih (i + 1) j (by omega) hj (by omega)
        refine ⟨ps, ?_, ?_, ?_⟩
        · intro fuel σ process st hf
          obtain ⟨f, rfl⟩ : ∃ f, fuel = f + 1 := ⟨fuel - 1, by omega⟩
          simp only [joinLoop, time_eq_timeD ha i, time_eq_timeD hb j]
          rw [if_neg hstop, if_pos hlt]
          exact h1 f σ process st (by omega)
        · intro p hp
          obtain ⟨q1, q2, q3, q4, q5, q6, q7⟩ := h2 p hp
          refine ⟨by omega, q2, q3, q4, q5, ?_, q7⟩
          intro i1 h4 h5
          by_cases h6 : i1 = i
          · rw [h6]; exact hta
          · exact q6 i1 (by omega) h5
        · calc ps.length ≤ (a.len - (i + 1)) * b.len := h3
            _ ≤ (a.len - i) * b.len := Nat.mul_le_mul_right _ (by omega)
      · by_cases hgt : a.timeD i > b.timeD j
        · obtain ⟨ps, h1, h2, h3⟩ := ih i (j + 1) hi (by omega) (by omega)
          refine ⟨ps, ?_, ?_, h3⟩
          · intro fuel σ process st hf
            obtain ⟨f, rfl⟩ : ∃ f, fuel = f + 1 := ⟨fuel - 1, by omega⟩
            simp only [joinLoop, time_eq_timeD ha i, time_eq_timeD hb j]
            rw [if_neg hstop, if_neg hlt, if_pos hgt]
            exact h1 f σ process st (by omega)
          · intro p hp
            obtain ⟨q1, q2, q3, q4, q5, q6, q7⟩ := h2 p hp
            refine ⟨q1, q2, by omega, q4, q5, q6, ?_⟩
            intro k1 h4 h5
            by_cases h6 : k1 = j
            · rw [h6]; exact htb
            · exact q7 k1 (by omega) h5
        · obtain ⟨ps, h1, h2, h3⟩ := ih (i + 1) j (by omega) hj (by omega)
          refine ⟨((List.range' j (b.len - j)).takeWhile
            (fun k1 => decide (b.timeD k1 = a.timeD i))).map (fun k1 => (i, k1)) ++ ps,
            ?_, ?_, ?_⟩
          · intro fuel σ process st hf
            obtain ⟨f, rfl⟩ : ∃ f, fuel = f + 1 := ⟨fuel - 1, by omega⟩
            simp only [joinLoop, time_eq_timeD ha i, time_eq_timeD hb j]
            rw [if_neg hstop, if_neg hlt, if_neg hgt]
            rw [matchLoop_eq process b hb (a.timeD i) hta i (b.len - j) j (b.len + 1) st
              (by omega) (by omega)]
            rw [runPairs_append]
            cases runPairs process (((List.range' j (b.len - j)).takeWhile
              (fun k1 => decide (b.timeD k1 = a.timeD i))).map (fun k1 => (i, k1))) st with
            | ok st1 => exact h1 f σ process st1 (by omega)
            | error msg => rfl
            | panic msg => rfl
            | outOfFuel => rfl
          · intro p hp
            rcases List.mem_append.mp hp with hp1 | hp1
            · obtain ⟨k1, hk1, rfl⟩ := List.mem_map.mp hp1
              obtain ⟨q1, q2, q3⟩ := takeWhile_range_prefix _ _ _ _ hk1
              have hk : b.timeD k1 = a.timeD i := by
                simpa using q3 k1 q1 (Nat.le_refl _)
              refine ⟨Nat.le_refl _, hi1, q1, by omega, hk.symm, ?_, ?_⟩
              · intro i1 h4 h5
                have : i1 = i := by simp only at h5; omega
                rw [this]; exact hta
              · intro k2 h4 h5
                have : b.timeD k2 = a.timeD i := by
                  simpa using q3 k2 h4 h5
                rw [this]; exact hta
            · obtain ⟨q1, q2, q3, q4, q5, q6, q7⟩ := h2 p hp1
              refine ⟨by omega, q2, q3, q4, q5, ?_, q7⟩
              intro i1 h4 h5
              by_cases h6 : i1 = i
              · rw [h6]; exact hta
              · exact q6 i1 (by omega) h5
          · have hlen : (((List.range' j (b.len - j)).takeWhile
                (fun k1 => decide (b.timeD k1 = a.timeD i))).map (fun k1 => (i, k1))).length
                ≤ b.len := by
              rw [List.length_map]
              calc _ ≤ (List.range' j (b.len - j)).length := (List.takeWhile_prefix _).length_le
                _ ≤ b.len := by rw [List.length_range']; omega
            rw [List.length_append]
            have h4 : a.len - i = (a.len - (i + 1)) + 1 := by omega
            rw [h4, Nat.add_mul, Nat.one_mul]
            omega

end experimental
namespace experimental

open execute

/-- The body that records the pairs, run on a list of pairs, records them. -/
theorem runPairs_record : ∀ (ps done : List (Nat × Nat)),
    runPairs (fun i k (qs : List (Nat × Nat)) => Run.ok (qs ++ [(i, k)])) ps done
      = .ok (done ++ ps) := by
  intro ps
  induction ps with
  | nil => intro done; simp [runPairs]
  | cons p ps ih => intro done; simp [runPairs, ih]

/-- A body that returns on every pair of a list returns when it is run on the list. -/
theorem runPairs_returned {σ : Type} (process : Nat → Nat → σ → Run σ) :
    ∀ (ps : List (Nat × Nat)) (st : σ),
      (∀ p ∈ ps, ∀ s, (process p.1 p.2 s).returned = true) →
      (runPairs process ps st).returned = true := by
  intro ps
  induction ps with
  | nil => intro st _; rfl
  | cons p ps ih =>
    intro st h
    unfold runPairs
    have hp := h p (List.mem_cons_self _ _) st
    cases hq : process p.1 p.2 st with
    | ok st1 => exact ih st1 (fun q hq1 => h q (List.mem_cons_of_mem _ hq1))
    | error msg => rfl
    | panic msg => rw [hq] at hp; cases hp
    | outOfFuel => rw [hq] at hp; cases hp

/-- The body of the loop of `join` returns on a pair of rows the iterators have. -/
theorem joinRow_returned (fn : rowJoinFn) (key : GroupKey) (a b : RowIterator) (i k : Nat)
    (st : joinState) (hl : ∃ row, a.record i = some row) (hr : ∃ row, b.record k = some row) :
    (joinRow fn key a b i k st).returned = true := by
  obtain ⟨left, hl⟩ := hl
  obtain ⟨right, hr⟩ := hr
  unfold joinRow
  simp only [hl, hr]
  cases fn.Eval a.columns b.columns left right with
  | error err => rfl
  | ok obj =>
    simp only
    cases (if st.firstRow then buildSchema st.builder obj else .ok st.builder) with
    | error err => rfl
    | ok builder =>
      simp only
      split
      · rfl
      · cases happ : appendRowToBuilder builder obj with
        | mk b1 err =>
          cases err with
          | some e => rfl
          | none => rfl

/-- When the body of the loop of `join`, run on a list of pairs, returns a state, the pairs
are the ones added to the pairs evaluated. -/
theorem runPairs_evals (fn : rowJoinFn) (key : GroupKey) (a b : RowIterator) :
    ∀ (ps : List (Nat × Nat)) (st st1 : joinState),
      runPairs (joinRow fn key a b) ps st = .ok st1 → st1.evals = st.evals ++ ps := by
  intro ps
  induction ps with
  | nil =>
    intro st st1 h
    simp only [runPairs, Run.ok.injEq] at h
    rw [← h]; simp
  | cons p ps ih =>
    intro st st1 h
    unfold runPairs at h
    cases hq : joinRow fn key a b p.1 p.2 st with
    | ok st2 =>
      rw [hq] at h
      obtain ⟨_, _, _, _, hev, _⟩ := joinRow_ok hq
      rw [ih st2 st1 h, hev]
      simp
    | error msg => rw [hq] at h; cases h
    | panic msg => rw [hq] at h; cases h
    | outOfFuel => rw [hq] at h; cases h

end experimental
namespace experimental

open execute

/-! ## The time -1 ends the merge -/

/-- C36: for row iterators as `NewRowIterator` makes them, the loops of `join` run their
body, and with it the join function, on a list of index pairs `ps` that does not depend on
the function; every pair of `ps` lies strictly before every left index and every right index
whose time is -1, so no row at or after the first time -1 of its side is passed to the
function; and when the first row of either side has the time -1 there is no pair at all, and
`join` returns the table without columns and rows, whatever the later rows are. -/
theorem join_stops_at_minus_one (a b : RowIterator) (ha : a.WellFormed) (hb : b.WellFormed) :
    ∃ ps : List (Nat × Nat),
      joinPairs a b = .ok ps
      ∧ (∀ (σ : Type) (process : Nat → Nat → σ → Run σ) (st : σ),
          joinLoop process a b (a.len + b.len + 1) 0 0 st = runPairs process ps st)
      ∧ (∀ (fn : rowJoinFn) (key : GroupKey), fn.Prepare a.columns b.columns = none →
          joinRun fn key a b = runPairs (joinRow fn key a b) ps
            { builder := NewColListTableBuilder key, firstRow := true, evals := [] })
      ∧ (∀ p ∈ ps, (∀ i0, a.time i0 = some (-1) → p.1 < i0)
          ∧ (∀ k0, b.time k0 = some (-1) → p.2 < k0))
      ∧ ((a.time 0 = some (-1) ∨ b.time 0 = some (-1)) →
          ps = [] ∧ ∀ (fn : rowJoinFn) (key : GroupKey),
            fn.Prepare a.columns b.columns = none →
            join fn key a b = .ok { Key := key, Cols := [], data := [] }) := by
  obtain ⟨ps, h1, h2, _⟩ :=
    joinLoop_scan a b ha hb (a.len + b.len) 0 0 (Nat.zero_le _) (Nat.zero_le _) (by omega)
  have hrun : ∀ (fn : rowJoinFn) (key : GroupKey), fn.Prepare a.columns b.columns = none →
      joinRun fn key a b = runPairs (joinRow fn key a b) ps
        { builder := NewColListTableBuilder key, firstRow := true, evals := [] } := by
    intro fn key hprep
    unfold joinRun
    rw [hprep]
    exact h1 _ _ _ _ (by omega)
  have hbefore : ∀ p ∈ ps, (∀ i0, a.time i0 = some (-1) → p.1 < i0)
      ∧ (∀ k0, b.time k0 = some (-1) → p.2 < k0) := by
    intro p hp
    obtain ⟨_, _, _, _, _, q6, q7⟩ := h2 p hp
    constructor
    · intro i0 h0
      by_contra hc
      apply q6 i0 (Nat.zero_le _) (by omega)
      have := time_eq_timeD ha i0
      rw [h0] at this
      exact (Option.some.inj this).symm
    · intro k0 h0
      by_contra hc
      apply q7 k0 (Nat.zero_le _) (by omega)
      have := time_eq_timeD hb k0
      rw [h0] at this
      exact (Option.some.inj this).symm
  refine ⟨ps, ?_, ?_, hrun, hbefore, ?_⟩
  · unfold joinPairs
    rw [h1 _ _ _ _ (by omega), runPairs_record]
    rfl
  · intro σ process st
    exact h1 _ σ process st (by omega)
  · intro hfirst
    have hnil : ps = [] := by
      cases ps with
      | nil => rfl
      | cons p rest =>
        exfalso
        obtain ⟨q1, q2⟩ := hbefore p (List.mem_cons_self _ _)
        rcases hfirst with h0 | h0
        · exact absurd (q1 0 h0) (by omega)
        · exact absurd (q2 0 h0) (by omega)
    refine ⟨hnil, ?_⟩
    intro fn key hprep
    unfold join
    rw [hrun fn key hprep, hnil]
    rfl

theorem minusOneLeft_wellFormed : minusOneLeft.WellFormed :=
  NewRowIterator_wellFormed _ _ _

theorem minusOneMiddle_wellFormed : minusOneMiddle.WellFormed :=
  NewRowIterator_wellFormed _ _ _

theorem plainRight_wellFormed : plainRight.WellFormed :=
  NewRowIterator_wellFormed _ _ _

/-- An instance of C36: a left input whose first row has the time -1 joins to the empty
table, although its second row and the rows of the right input have the time 2; and with a
row of time -1 between the left rows of times 1 and 2, the function is evaluated on the pair
of the rows of time 1 only, and not on the rows of time 2. -/
theorem join_stops_at_minus_one_witness :
    minusOneLeft.time 0 = some (-1)
      ∧ (minusOneLeft.time 1 = some 2 ∧ scenarioRight.time 0 = some 2)
      ∧ (join scenarioFn emptyKey minusOneLeft scenarioRight).val?
        = some { Key := emptyKey, Cols := [], data := [] }
      ∧ (joinPairs minusOneMiddle plainRight).val? = some [(0, 0)]
      ∧ (minusOneMiddle.time 2 = some 2 ∧ plainRight.time 1 = some 2) := by
  obtain ⟨ps, _, _, _, _, h5⟩ :=
    join_stops_at_minus_one minusOneLeft scenarioRight minusOneLeft_wellFormed
      scenarioRight_wellFormed
  have h6 := (h5 (Or.inl (by decide))).2 scenarioFn emptyKey (by decide)
  refine ⟨by decide, by decide, ?_, by decide, by decide⟩
  rw [h6]
  rfl

end experimental
namespace experimental

open execute

/-! ## The merge ends on every input -/

/-- C37: for row iterators as `NewRowIterator` makes them, with times in any order, `join`
ends. The outer loop stops once `i` or `j` is at the end of its side, and every other pass
goes on from `i + 1` or from `j + 1`, so that more passes than rows are left are enough for
it to return; the inner loop returns within the rows of `b` that are left. The join function
is evaluated on a list of pairs `ps` that does not depend on it, of at most
`len(a) * len(b)` pairs, each of rows that both sides have, with equal times, so that
`record` is called in range: `join` returns a table or an error, and it neither panics nor
loops. -/
theorem join_terminates (a b : RowIterator) (ha : a.WellFormed) (hb : b.WellFormed) :
    ∃ ps : List (Nat × Nat),
      joinPairs a b = .ok ps
      ∧ (∀ (fuel : Nat) (σ : Type) (process : Nat → Nat → σ → Run σ) (st : σ),
          a.len + b.len < fuel → joinLoop process a b fuel 0 0 st = runPairs process ps st)
      ∧ ps.length ≤ a.len * b.len
      ∧ (∀ p ∈ ps, p.1 < a.len ∧ p.2 < b.len ∧ a.time p.1 = b.time p.2
          ∧ (∃ row, a.record p.1 = some row) ∧ (∃ row, b.record p.2 = some row))
      ∧ (∀ (fn : rowJoinFn) (key : GroupKey),
          (joinRun fn key a b).returned = true ∧ (join fn key a b).returned = true
          ∧ ∀ st, joinRun fn key a b = .ok st → st.evals = ps)
      ∧ (∀ (σ : Type) (process : Nat → Nat → σ → Run σ) (fuel i j : Nat) (st : σ),
          (a.len ≤ i ∨ b.len ≤ j) → joinLoop process a b (fuel + 1) i j st = .ok st)
      ∧ (∀ (σ : Type) (process : Nat → Nat → σ → Run σ) (fuel i j : Nat) (st : σ),
          i ≤ a.len → j ≤ b.len → (a.len - i) + (b.len - j) < fuel →
          (∀ i1 k1 s, (process i1 k1 s).returned = true) →
          (joinLoop process a b fuel i j st).returned = true)
      ∧ (∀ (σ : Type) (process : Nat → Nat → σ → Run σ) (ta : Int) (fuel i k : Nat) (st : σ),
          ta ≠ -1 → k ≤ b.len → b.len - k < fuel →
          (∀ i1 k1 s, (process i1 k1 s).returned = true) →
          (matchLoop process b ta i fuel k st).returned = true) := by
  obtain ⟨ps, h1, h2, h3⟩ :=
    joinLoop_scan a b ha hb (a.len + b.len) 0 0 (Nat.zero_le _) (Nat.zero_le _) (by omega)
  have hrange : ∀ p ∈ ps, p.1 < a.len ∧ p.2 < b.len ∧ a.time p.1 = b.time p.2
      ∧ (∃ row, a.record p.1 = some row) ∧ (∃ row, b.record p.2 = some row) := by
    intro p hp
    obtain ⟨_, q2, _, q4, q5, _, _⟩ := h2 p hp
    refine ⟨q2, q4, ?_, record_isSome ha p.1 q2, record_isSome hb p.2 q4⟩
    rw [time_eq_timeD ha, time_eq_timeD hb, q5]
  have hrun : ∀ (fn : rowJoinFn) (key : GroupKey),
      (joinRun fn key a b).returned = true ∧ (join fn key a b).returned = true
      ∧ ∀ st, joinRun fn key a b = .ok st → st.evals = ps := by
    intro fn key
    have hj : joinRun fn key a b
        = match fn.Prepare a.columns b.columns with
          | some err => .error err
          | none => runPairs (joinRow fn key a b) ps
              { builder := NewColListTableBuilder key, firstRow := true, evals := [] } := by
      unfold joinRun
      cases fn.Prepare a.columns b.columns with
      | some err => rfl
      | none => exact h1 _ _ _ _ (by omega)
    have hret : (joinRun fn key a b).returned = true := by
      rw [hj]
      cases fn.Prepare a.columns b.columns with
      | some err => rfl
      | none =>
        apply runPairs_returned
        intro p hp s
        obtain ⟨_, _, _, q4, q5⟩ := hrange p hp
        exact joinRow_returned fn key a b p.1 p.2 s q4 q5
    refine ⟨hret, ?_, ?_⟩
    · unfold join
      cases hr : joinRun fn key a b with
      | ok st => rfl
      | error err => rfl
      | panic msg => rw [hr] at hret; cases hret
      | outOfFuel => rw [hr] at hret; cases hret
    · intro st hst
      rw [hj] at hst
      cases hp : fn.Prepare a.columns b.columns with
      | some err => rw [hp] at hst; cases hst
      | none =>
        rw [hp] at hst
        have := runPairs_evals fn key a b ps _ st hst
        simpa using this
  refine ⟨ps, ?_, ?_, ?_, hrange, hrun, ?_, ?_, ?_⟩
  · unfold joinPairs
    rw [h1 _ _ _ _ (by omega), runPairs_record]
    rfl
  · intro fuel σ process st hf
    exact h1 fuel σ process st hf
  · simpa using h3
  · intro σ process fuel i j st hend
    simp only [joinLoop, time_eq_timeD ha i, time_eq_timeD hb j]
    have hstop : a.timeD i = -1 ∨ b.timeD j = -1 := by
      rcases hend with h | h
      · exact Or.inl (timeD_beyond ha i h)
      · exact Or.inr (timeD_beyond hb j h)
    rw [if_pos hstop]
  · intro σ process fuel i j st hi hj hf hproc
    obtain ⟨qs, g1, _, _⟩ := joinLoop_scan a b ha hb (fuel - 1) i j hi hj (by omega)
    rw [g1 fuel σ process st (by omega)]
    exact runPairs_returned process qs st (fun p _ s => hproc p.1 p.2 s)
  · intro σ process ta fuel i k st hta hk hf hproc
    rw [matchLoop_eq process b hb ta hta i (b.len - k) k fuel st (by omega) (by omega)]
    exact runPairs_returned process _ st (fun p _ s => hproc p.1 p.2 s)

theorem unsortedLeft_wellFormed : unsortedLeft.WellFormed :=
  NewRowIterator_wellFormed _ _ _

theorem unsortedRight_wellFormed : unsortedRight.WellFormed :=
  NewRowIterator_wellFormed _ _ _

/-- An instance of C37: on a left input of times 3, 1, 2 and a right input of times 2, 3, 1,
which are not sorted, the loops return after evaluating the function on the one pair
`(0, 1)`, of the rows of time 3, one pair of `3 * 3`, and `join` returns. -/
theorem join_terminates_witness :
    unsortedLeft.WellFormed ∧ unsortedRight.WellFormed
      ∧ (joinPairs unsortedLeft unsortedRight).val? = some [(0, 1)]
      ∧ (unsortedLeft.len = 3 ∧ unsortedRight.len = 3)
      ∧ (joinRun scenarioFn emptyKey unsortedLeft unsortedRight).returned = true
      ∧ (join scenarioFn emptyKey unsortedLeft unsortedRight).returned = true
      ∧ ((joinRun scenarioFn emptyKey unsortedLeft unsortedRight).val?.map joinState.evals
          = some [(0, 1)]) := by
  obtain ⟨ps, _, _, _, _, h5, _⟩ :=
    join_terminates unsortedLeft unsortedRight unsortedLeft_wellFormed unsortedRight_wellFormed
  exact ⟨unsortedLeft_wellFormed, unsortedRight_wellFormed, by decide, by decide,
    (h5 scenarioFn emptyKey).1, (h5 scenarioFn emptyKey).2.1, by decide⟩

end experimental

namespace universepkg

open execute

/-! ## The selector of `max` -/

/-- One non-null value, on what a selector holds: the flag `set`, the field `max`, and the
rows that `selectRow` leaves. -/
theorem doMax_loop_spec {α : Type} [LinearOrder α] (vs : TypedArray α) (cr : ColReader) :
    ∀ (n i : Nat) (s : MaxSelectorOf α) (maxIdx : Int),
      ((doMax.loop vs n i (s, maxIdx)).1.set,
        (doMax.loop vs n i (s, maxIdx)).1.max,
        ((doMax.loop vs n i (s, maxIdx)).1.toMaxSelector.selectRow
          (doMax.loop vs n i (s, maxIdx)).2 cr).rows)
      = (((List.range' i n).filter vs.IsValid).map
            (fun k => (vs.Value k, ReadRow k cr))).foldl
          (fun (st : Bool × α × List Row) e =>
            if !st.1 || decide (e.1 > st.2.1) then (true, e.1, [e.2]) else st)
          (s.set, s.max, (s.toMaxSelector.selectRow maxIdx cr).rows) := by
  intro n
  induction n with
  | zero => intro i s maxIdx; rfl
  | succ n ih =>
    intro i s maxIdx
    rw [List.range'_succ, List.filter_cons]
    unfold doMax.loop
    cases hv : vs.IsValid i with
    | false =>
      simp only [Bool.false_eq_true, if_false]
      exact ih (i + 1) s maxIdx
    | true =>
      simp only [if_true, List.map_cons, List.foldl_cons]
      cases hc : (!s.set || decide (vs.Value i > s.max)) with
      | false =>
        simp only [Bool.false_eq_true, if_false]
        exact ih (i + 1) s maxIdx
      | true =>
        simp only [if_true]
        rw [ih]
        have hrow : (MaxSelector.selectRow
            { set := true, rows := s.rows } (i : Int) cr).rows = [ReadRow i cr] := by
          simp [MaxSelector.selectRow]
        rw [hrow]

/-- What `doMax` leaves in the selector, as a fold over the non-null values of the batch. -/
theorem doMax_spec {α : Type} [LinearOrder α] (s : MaxSelectorOf α) (vs : TypedArray α)
    (cr : ColReader) :
    ((doMax s vs cr).set, (doMax s vs cr).max, (doMax s vs cr).rows)
      = (validEntries [(vs, cr)]).foldl
          (fun (st : Bool × α × List Row) e =>
            if !st.1 || decide (e.1 > st.2.1) then (true, e.1, [e.2]) else st)
          (s.set, s.max, s.rows) := by
  have h := doMax_loop_spec vs cr vs.Len 0 s (-1)
  have h1 : (s.toMaxSelector.selectRow (-1) cr).rows = s.rows := by
    simp [MaxSelector.selectRow]
  rw [h1, ← List.range_eq_range'] at h
  simp only [validEntries, List.flatMap_cons, List.flatMap_nil, List.append_nil]
  rw [← h]
  have h2 : (doMax s vs cr).set = (doMax.loop vs vs.Len 0 (s, -1)).1.set := by
    unfold doMax MaxSelector.selectRow
    split <;> rfl
  have h3 : (doMax s vs cr).rows
      = ((doMax.loop vs vs.Len 0 (s, -1)).1.toMaxSelector.selectRow
          (doMax.loop vs vs.Len 0 (s, -1)).2 cr).rows := rfl
  rw [h2, h3]
  rfl

/-- The fold over the non-null values keeps the flag, the maximum and the first row that
holds the maximum. -/
theorem foldMax_inv {α : Type} [LinearOrder α] :
    ∀ (entries done : List (α × Row)) (st : Bool × α × List Row),
      ((st.1 = true ↔ done ≠ [])
        ∧ (done ≠ [] → (∀ e ∈ done, e.1 ≤ st.2.1)
            ∧ ∃ e, done.find? (fun e => decide (e.1 = st.2.1)) = some e ∧ st.2.2 = [e.2])) →
      (((entries.foldl (fun (st : Bool × α × List Row) e =>
            if !st.1 || decide (e.1 > st.2.1) then (true, e.1, [e.2]) else st) st).1 = true
          ↔ done ++ entries ≠ [])
        ∧ (done ++ entries ≠ [] →
            (∀ e ∈ done ++ entries, e.1 ≤ (entries.foldl (fun (st : Bool × α × List Row) e =>
              if !st.1 || decide (e.1 > st.2.1) then (true, e.1, [e.2]) else st) st).2.1)
            ∧ ∃ e, (done ++ entries).find? (fun e => decide (e.1
                = (entries.foldl (fun (st : Bool × α × List Row) e =>
                  if !st.1 || decide (e.1 > st.2.1) then (true, e.1, [e.2]) else st) st).2.1))
                  = some e
              ∧ (entries.foldl (fun (st : Bool × α × List Row) e =>
                  if !st.1 || decide (e.1 > st.2.1) then (true, e.1, [e.2]) else st) st).2.2
                = [e.2])) := by
  intro entries
  induction entries with
  | nil =>
    intro done st h
    simpa using h
  | cons x rest ih =>
    intro done st h
    have hstep : ((if (!st.1 || decide (x.1 > st.2.1)) = true then (true, x.1, [x.2]) else st).1
          = true ↔ done ++ [x] ≠ [])
        ∧ (done ++ [x] ≠ [] →
          (∀ e ∈ done ++ [x], e.1
            ≤ (if (!st.1 || decide (x.1 > st.2.1)) = true then (true, x.1, [x.2]) else st).2.1)
          ∧ ∃ e, (done ++ [x]).find? (fun e => decide (e.1
              = (if (!st.1 || decide (x.1 > st.2.1)) = true then (true, x.1, [x.2])
                  else st).2.1)) = some e
            ∧ (if (!st.1 || decide (x.1 > st.2.1)) = true then (true, x.1, [x.2]) else st).2.2
              = [e.2]) := by
      obtain ⟨h1, h2⟩ := h
      obtain ⟨set, mx, rows⟩ := st
      have hne : done ++ [x] ≠ [] := by simp
      cases set with
      | false =>
        have hd : done = [] := by
          by_contra hc
          have := h1.mpr hc
          cases this
        subst hd
        have hcond : (!false || decide (x.1 > mx)) = true := by simp
        rw [if_pos hcond]
        refine ⟨⟨fun _ => hne, fun _ => rfl⟩, fun _ => ⟨?_, x, ?_, rfl⟩⟩
        · intro e he
          simp only [List.nil_append, List.mem_singleton] at he
          rw [he]
        · simp
      | true =>
        obtain ⟨h3, e0, h4, h5⟩ := h2 (h1.mp rfl)
        simp only at h3 h4 h5
        by_cases hgt : x.1 > mx
        · have hnone : done.find? (fun e => decide (e.1 = x.1)) = none := by
            rw [List.find?_eq_none]
            intro e he
            have := h3 e he
            simp only [decide_eq_true_eq]
            intro heq
            rw [heq] at this
            exact absurd hgt (not_lt.mpr this)
          have hcond : (!true || decide (x.1 > mx)) = true := by simp [hgt]
          rw [if_pos hcond]
          refine ⟨⟨fun _ => hne, fun _ => rfl⟩, fun _ => ⟨?_, x, ?_, rfl⟩⟩
          · intro e he
            rcases List.mem_append.mp he with he | he
            · exact le_of_lt (lt_of_le_of_lt (h3 e he) hgt)
            · simp only [List.mem_singleton] at he
              rw [he]
          · simp only [List.find?_append, hnone]
            simp
        · have hcond : ¬ (!true || decide (x.1 > mx)) = true := by simp [hgt]
          rw [if_neg hcond]
          refine ⟨⟨fun _ => hne, fun _ => rfl⟩, fun _ => ⟨?_, e0, ?_, h5⟩⟩
          · intro e he
            rcases List.mem_append.mp he with he | he
            · exact h3 e he
            · simp only [List.mem_singleton] at he
              rw [he]; exact not_lt.mp hgt
          · simp only [List.find?_append, h4]
            simp
    have := ih (done ++ [x]) _ hstep
    simpa [List.foldl_cons, List.append_assoc] using this

/-- What `doMax` over a sequence of batches leaves in the selector, as a fold over the
non-null values of all batches. -/
theorem doMax_batches_spec {α : Type} [LinearOrder α] :
    ∀ (batches : List (TypedArray α × ColReader)) (s : MaxSelectorOf α),
      ((batches.foldl (fun s b => doMax s b.1 b.2) s).set,
        (batches.foldl (fun s b => doMax s b.1 b.2) s).max,
        (batches.foldl (fun s b => doMax s b.1 b.2) s).rows)
      = (validEntries batches).foldl
          (fun (st : Bool × α × List Row) e =>
            if !st.1 || decide (e.1 > st.2.1) then (true, e.1, [e.2]) else st)
          (s.set, s.max, s.rows) := by
  intro batches
  induction batches with
  | nil => intro s; rfl
  | cons b rest ih =>
    intro s
    have hv : validEntries (b :: rest) = validEntries [b] ++ validEntries rest := by
      simp [validEntries]
    rw [List.foldl_cons, ih, hv, List.foldl_append]
    obtain ⟨vs, cr⟩ := b
    rw [← doMax_spec]

/-- A selector that is not set holds, after a sequence of batches, the first maximum of their
non-null values. -/
theorem doMax_selectsFirstMax {α : Type} [LinearOrder α]
    (batches : List (TypedArray α × ColReader)) (s0 : MaxSelectorOf α) (h0 : s0.set = false) :
    selectsFirstMax (batches.foldl (fun s b => doMax s b.1 b.2) s0) (validEntries batches) := by
  have hinv := foldMax_inv (validEntries batches) [] (s0.set, s0.max, s0.rows)
    ⟨by simp [h0], fun h => absurd rfl h⟩
  rw [← doMax_batches_spec] at hinv
  simp only [List.nil_append] at hinv
  obtain ⟨h1, h2⟩ := hinv
  refine ⟨h1, ?_, ?_⟩
  · intro hne
    obtain ⟨h3, e, h4, h5⟩ := h2 hne
    refine ⟨⟨e, List.mem_of_find?_eq_some h4, ?_⟩, h3, e, h4, ?_⟩
    · have := List.find?_some h4
      simpa using this
    · unfold MaxSelector.Rows
      rw [h1.mpr hne]
      exact h5
  · intro hnil
    unfold MaxSelector.Rows
    have : (batches.foldl (fun s b => doMax s b.1 b.2) s0).set = false := by
      cases hs : (batches.foldl (fun s b => doMax s b.1 b.2) s0).set with
      | false => rfl
      | true => exact absurd hnil (h1.mp hs)
    rw [this]
    rfl

/-- C34: after `MaxIntSelector.DoInt`, `MaxUIntSelector.DoUInt` or `MaxTimeSelector.DoTime`
has been applied to a sequence of batches, from a selector that is not set: `set` is true if
and only if some value of the batches is not null; if so `max` is the maximum of the non-null
values of all batches and `Rows()` returns the one row that is the first, in batch order and
then index order, to hold that maximum; and if every value is null, `Rows()` returns no
row. -/
theorem max_selects_first_maximum :
    (∀ (s0 : MaxIntSelector) (batches : List (TypedArray Int × ColReader)),
        s0.set = false →
        selectsFirstMax (batches.foldl (fun s b => MaxIntSelector.DoInt s b.1 b.2) s0)
          (validEntries batches))
      ∧ (∀ (s0 : MaxUIntSelector) (batches : List (TypedArray Nat × ColReader)),
        s0.set = false →
        selectsFirstMax (batches.foldl (fun s b => MaxUIntSelector.DoUInt s b.1 b.2) s0)
          (validEntries batches))
      ∧ (∀ (s0 : MaxTimeSelector) (batches : List (TypedArray Int × ColReader)),
        s0.MaxIntSelector.set = false →
        selectsFirstMax
          (batches.foldl (fun s b => MaxTimeSelector.DoTime s b.1 b.2) s0).MaxIntSelector
          (validEntries batches)) := by
  refine ⟨fun s0 batches h0 => doMax_selectsFirstMax batches s0 h0,
    fun s0 batches h0 => doMax_selectsFirstMax batches s0 h0, ?_⟩
  intro s0 batches h0
  have h : ∀ (bs : List (TypedArray Int × ColReader)) (s : MaxTimeSelector),
      (bs.foldl (fun s b => MaxTimeSelector.DoTime s b.1 b.2) s).MaxIntSelector
        = bs.foldl (fun s b => doMax s b.1 b.2) s.MaxIntSelector := by
    intro bs
    induction bs with
    | nil => intro s; rfl
    | cons b rest ih => intro s; rw [List.foldl_cons, ih]; rfl
  rw [h]
  exact doMax_selectsFirstMax batches s0.MaxIntSelector h0

/-- An instance of C34: over the batches of values 5, null, 9 and 9, 2, the maximum is 9 and
the row selected is the row of index 2 of the first batch, not the row of the second batch
with the same value; over a batch of nulls, nothing is selected. -/
theorem max_selects_first_maximum_witness :
    ([intBatch 0 [(1, some 5), (2, none), (3, some 9)],
        intBatch 1 [(4, some 9), (5, some 2)]].foldl
          (fun s b => MaxIntSelector.DoInt s b.1 b.2) MaxSelector.NewIntSelector).max = 9
      ∧ ([intBatch 0 [(1, some 5), (2, none), (3, some 9)],
        intBatch 1 [(4, some 9), (5, some 2)]].foldl
          (fun s b => MaxIntSelector.DoInt s b.1 b.2) MaxSelector.NewIntSelector).Rows
        = [{ Values := [.string "a", .time 3, .int 9] }]
      ∧ ([intBatch 0 [(1, none), (2, none)]].foldl
          (fun s b => MaxIntSelector.DoInt s b.1 b.2) MaxSelector.NewIntSelector).Rows = []
      ∧ selectsFirstMax
          ([intBatch 0 [(1, some 5), (2, none), (3, some 9)],
            intBatch 1 [(4, some 9), (5, some 2)]].foldl
              (fun s b => MaxIntSelector.DoInt s b.1 b.2) MaxSelector.NewIntSelector)
          (validEntries [intBatch 0 [(1, some 5), (2, none), (3, some 9)],
            intBatch 1 [(4, some 9), (5, some 2)]]) :=
  ⟨by decide, by decide, by decide,
    max_selects_first_maximum.1 MaxSelector.NewIntSelector _ rfl⟩

end universepkg

namespace universepkg

open execute

/-! ## The values `distinct` keeps -/

theorem distinctFrom_cons (seen : List Value) (v : Value) (rest : List Value) :
    distinctFrom seen (v :: rest)
      = if v ∈ seen then distinctFrom seen rest else v :: distinctFrom (seen ++ [v]) rest :=
  rfl

theorem distinctFrom_mem : ∀ (l seen : List Value) (v : Value),
    v ∈ distinctFrom seen l ↔ v ∈ l ∧ v ∉ seen := by
  intro l
  induction l with
  | nil => intro seen v; simp [distinctFrom]
  | cons x rest ih =>
    intro seen v
    unfold distinctFrom
    by_cases hx : x ∈ seen
    · rw [if_pos hx, ih]
      constructor
      · rintro ⟨h1, h2⟩
        exact ⟨List.mem_cons_of_mem _ h1, h2⟩
      · rintro ⟨h1, h2⟩
        rcases List.mem_cons.mp h1 with h3 | h3
        · rw [h3] at h2; exact absurd hx h2
        · exact ⟨h3, h2⟩
    · rw [if_neg hx, List.mem_cons, ih]
      constructor
      · rintro (h1 | ⟨h1, h2⟩)
        · rw [h1]; exact ⟨List.mem_cons_self _ _, hx⟩
        · refine ⟨List.mem_cons_of_mem _ h1, ?_⟩
          intro h3
          exact h2 (List.mem_append_left _ h3)
      · rintro ⟨h1, h2⟩
        by_cases hv : v = x
        · exact Or.inl hv
        · right
          rcases List.mem_cons.mp h1 with h3 | h3
          · exact absurd h3 hv
          · refine ⟨h3, ?_⟩
            intro h4
            rcases List.mem_append.mp h4 with h5 | h5
            · exact h2 h5
            · simp only [List.mem_singleton] at h5
              exact hv h5

theorem distinctFrom_nodup : ∀ (l seen : List Value), (distinctFrom seen l).Nodup := by
  intro l
  induction l with
  | nil => intro seen; simp [distinctFrom]
  | cons x rest ih =>
    intro seen
    unfold distinctFrom
    by_cases hx : x ∈ seen
    · rw [if_pos hx]; exact ih seen
    · rw [if_neg hx, List.nodup_cons]
      refine ⟨?_, ih _⟩
      rw [distinctFrom_mem]
      rintro ⟨_, h2⟩
      exact h2 (List.mem_append_right _ (List.mem_singleton_self _))

/-- A list without repeats, of values that have not occurred before, is kept as it is. -/
theorem distinctFrom_of_nodup : ∀ (l seen : List Value), l.Nodup → (∀ v ∈ l, v ∉ seen) →
    distinctFrom seen l = l := by
  intro l
  induction l with
  | nil => intro seen _ _; rfl
  | cons x rest ih =>
    intro seen hnd hdis
    unfold distinctFrom
    rw [if_neg (hdis x (List.mem_cons_self _ _))]
    rw [List.nodup_cons] at hnd
    rw [ih _ hnd.2]
    intro v hv h
    rcases List.mem_append.mp h with h1 | h1
    · exact hdis v (List.mem_cons_of_mem _ hv) h1
    · simp only [List.mem_singleton] at h1
      rw [h1] at hv
      exact hnd.1 hv

/-- Only the values that occurred before matter, not their order. -/
theorem distinctFrom_congr : ∀ (l s1 s2 : List Value), (∀ v, v ∈ s1 ↔ v ∈ s2) →
    distinctFrom s1 l = distinctFrom s2 l := by
  intro l
  induction l with
  | nil => intro s1 s2 _; rfl
  | cons x rest ih =>
    intro s1 s2 h
    unfold distinctFrom
    by_cases hx : x ∈ s1
    · rw [if_pos hx, if_pos ((h x).mp hx)]
      exact ih s1 s2 h
    · rw [if_neg hx, if_neg (fun h2 => hx ((h x).mpr h2))]
      congr 1
      apply ih
      intro v
      simp only [List.mem_append, List.mem_singleton, h v]

/-- A value that has occurred is removed from the rest of the list. -/
theorem distinctFrom_filter : ∀ (l seen : List Value) (v : Value),
    distinctFrom (seen ++ [v]) l = distinctFrom seen (l.filter (fun w => decide (w ≠ v))) := by
  intro l
  induction l with
  | nil => intro seen v; rfl
  | cons x rest ih =>
    intro seen v
    by_cases hxv : x = v
    · subst hxv
      have h1 : (x :: rest).filter (fun w => decide (w ≠ x))
          = rest.filter (fun w => decide (w ≠ x)) := by
        simp [List.filter_cons]
      rw [h1, ← ih, distinctFrom_cons,
        if_pos (List.mem_append_right _ (List.mem_singleton_self _))]
    · have h1 : (x :: rest).filter (fun w => decide (w ≠ v))
          = x :: rest.filter (fun w => decide (w ≠ v)) := by
        simp [List.filter_cons, hxv]
      rw [h1, distinctFrom_cons, distinctFrom_cons]
      by_cases hx : x ∈ seen
      · rw [if_pos (List.mem_append_left _ hx), if_pos hx]
        exact ih seen v
      · have hx2 : x ∉ seen ++ [v] := by
          intro h
          rcases List.mem_append.mp h with h2 | h2
          · exact hx h2
          · simp only [List.mem_singleton] at h2
            exact hxv h2
        rw [if_neg hx2, if_neg hx]
        congr 1
        rw [← ih]
        apply distinctFrom_congr
        intro w
        simp only [List.mem_append, List.mem_singleton]
        tauto

/-- The values kept continue the values kept so far. -/
theorem distinctFrom_append : ∀ (l1 l2 seen : List Value),
    distinctFrom seen (l1 ++ l2)
      = distinctFrom seen l1 ++ distinctFrom (seen ++ distinctFrom seen l1) l2 := by
  intro l1
  induction l1 with
  | nil => intro l2 seen; simp [distinctFrom]
  | cons x rest ih =>
    intro l2 seen
    simp only [List.cons_append]
    rw [distinctFrom_cons, distinctFrom_cons]
    by_cases hx : x ∈ seen
    · simp only [if_pos hx]
      exact ih l2 seen
    · simp only [if_neg hx, ih]
      simp

end universepkg
namespace universepkg

open execute

/-! ## The builder of `distinct` -/

/-- Columns with labels the builder does not have, and distinct among themselves, are added
without an error. -/
theorem addCols_spec : ∀ (cols : List ColMeta) (b : ColListTableBuilder),
    ((b.colMeta ++ cols).map ColMeta.Label).Nodup →
    addCols b cols
      = ({ b with colMeta := b.colMeta ++ cols,
                  cols := b.cols ++ List.replicate cols.length [] }, none)
  | [], b, _ => by simp [addCols]
  | c :: rest, b, h => by
    have hc : c.Label ∉ b.colMeta.map ColMeta.Label := by
      intro hm
      rw [List.map_append, List.nodup_append] at h
      exact h.2.2 hm (by simp)
    have hidx : ¬ (0 ≤ ColIdx c.Label b.Cols) := by
      rw [ColListTableBuilder.Cols, experimental.ColIdx_of_not_mem _ _ hc]; omega
    have hadd : b.AddCol c
        = .ok { b with colMeta := b.colMeta ++ [c], cols := b.cols ++ [[]] } := by
      unfold ColListTableBuilder.AddCol
      rw [if_neg hidx]
    unfold addCols
    rw [hadd]
    simp only
    rw [addCols_spec rest _ (by simpa using h)]
    simp [List.replicate_succ]

/-- A value of the type of the column, or a null, is appended to the column. -/
theorem AppendValue_spec (b : ColListTableBuilder) (k : Nat) (v : Value) (c : ColMeta)
    (col : List Value) (hc : b.colMeta[k]? = some c) (hcol : b.cols[k]? = some col)
    (hv : v = .null ∨ c.Typ = v.colType) :
    b.AppendValue k v = .ok { b with cols := b.cols.set k (col ++ [v]) } := by
  unfold ColListTableBuilder.AppendValue
  simp only [List.get?_eq_getElem?, hc, hcol]
  rw [if_pos hv]

/-- With distinct labels, the lookup of the label of a column gives the offset of the
column. -/
theorem ColIdx_of_nodup (cols : List ColMeta) (hnd : (cols.map ColMeta.Label).Nodup)
    (k : Nat) (c : ColMeta) (hk : cols[k]? = some c) : ColIdx c.Label cols = (k : Int) := by
  have hmem : c.Label ∈ cols.map ColMeta.Label :=
    List.mem_map.mpr ⟨c, List.getElem?_mem hk, rfl⟩
  obtain ⟨n, h1, h2, ⟨c1, h3, h4⟩, _⟩ := experimental.ColIdx_of_mem c.Label cols hmem
  rw [h1]
  have hk1 : k < cols.length := by
    by_contra hc
    rw [List.getElem?_eq_none (by omega)] at hk
    cases hk
  have e1 : (cols.map ColMeta.Label)[n]? = some c.Label := by
    rw [List.getElem?_map, h3]; simp [h4]
  have e2 : (cols.map ColMeta.Label)[k]? = some c.Label := by
    rw [List.getElem?_map, hk]; rfl
  have hn : n = k := by
    have hn1 : n < (cols.map ColMeta.Label).length := by simpa using h2
    have hk2 : k < (cols.map ColMeta.Label).length := by simpa using hk1
    rw [List.getElem?_eq_getElem hn1] at e1
    rw [List.getElem?_eq_getElem hk2] at e2
    exact (List.Nodup.getElem_inj_iff hnd).mp
      ((Option.some.inj e1).trans (Option.some.inj e2).symm)
  rw [hn]

end universepkg
namespace universepkg

open execute

/-- The values of the key are appended to the key columns of a builder that has them, and no
other column changes. -/
theorem AppendKeyValues_loop_spec (key : GroupKey) (schema : List ColMeta)
    (hschema : ∀ (k : Nat) (c : ColMeta), key.cols[k]? = some c → schema[k]? = some c)
    (hnd : (schema.map ColMeta.Label).Nodup)
    (hvals : ∀ (k : Nat) (c : ColMeta), key.cols[k]? = some c →
      key.Value k = .null ∨ c.Typ = (key.Value k).colType) :
    ∀ (m jj : Nat) (b : ColListTableBuilder), jj + m = key.cols.length →
      b.colMeta = schema → b.cols.length = schema.length →
      ∃ b1, AppendKeyValues.loop key (key.cols.drop jj) jj b = (b1, none)
        ∧ b1.colMeta = schema ∧ b1.cols.length = schema.length
        ∧ ∀ k, key.cols.length ≤ k → b1.cols[k]? = b.cols[k]? := by
  intro m
  induction m with
  | zero =>
    intro jj b hjj hb1 hb2
    rw [List.drop_of_length_le (by omega)]
    exact ⟨b, rfl, hb1, hb2, fun _ _ => rfl⟩
  | succ m ih =>
    intro jj b hjj hb1 hb2
    have hlt : jj < key.cols.length := by omega
    rw [List.drop_eq_getElem_cons hlt]
    have hc : key.cols[jj]? = some key.cols[jj] := List.getElem?_eq_getElem hlt
    have hs := hschema jj _ hc
    have hidx : ColIdx (key.cols[jj]).Label b.Cols = (jj : Int) := by
      rw [ColListTableBuilder.Cols, hb1]
      exact ColIdx_of_nodup schema hnd jj _ hs
    have hjs : jj < schema.length := by
      by_contra hcon
      rw [List.getElem?_eq_none (by omega)] at hs
      cases hs
    obtain ⟨col, hcol⟩ : ∃ col, b.cols[jj]? = some col :=
      ⟨_, List.getElem?_eq_getElem (by omega)⟩
    have happ := AppendValue_spec b jj (key.Value jj) _ col (by rw [hb1]; exact hs) hcol
      (hvals jj _ hc)
    unfold AppendKeyValues.loop
    simp only [hidx]
    rw [if_neg (by omega)]
    simp only [Int.toNat_ofNat, happ]
    obtain ⟨b1, h1, h2, h3, h4⟩ := ih (jj + 1)
      { b with cols := b.cols.set jj (col ++ [key.Value jj]) }
      (by omega) hb1 (by simpa using hb2)
    refine ⟨b1, h1, h2, h3, ?_⟩
    intro k hk
    rw [h4 k hk]
    simp only
    rw [List.getElem?_set_ne (by omega)]

/-- The call `AppendKeyValues` on a builder with the key columns. -/
theorem AppendKeyValues_spec (key : GroupKey) (schema : List ColMeta)
    (hschema : ∀ (k : Nat) (c : ColMeta), key.cols[k]? = some c → schema[k]? = some c)
    (hnd : (schema.map ColMeta.Label).Nodup)
    (hvals : ∀ (k : Nat) (c : ColMeta), key.cols[k]? = some c →
      key.Value k = .null ∨ c.Typ = (key.Value k).colType)
    (b : ColListTableBuilder) (hb1 : b.colMeta = schema) (hb2 : b.cols.length = schema.length) :
    ∃ b1, AppendKeyValues key b = (b1, none)
      ∧ b1.colMeta = schema ∧ b1.cols.length = schema.length
      ∧ ∀ k, key.cols.length ≤ k → b1.cols[k]? = b.cols[k]? := by
  have h := AppendKeyValues_loop_spec key schema hschema hnd hvals key.cols.length 0 b
    (by omega) hb1 hb2
  simpa [AppendKeyValues, GroupKey.Cols] using h

end universepkg
namespace universepkg

open execute

/-! ## The row loop of `distinct` -/

/-- One row of the loop of `distinct`: its value is appended to the value column when it has
not occurred before, and the state keeps describing the value column. -/
theorem distinct_row_spec (key : GroupKey) (schema : List ColMeta) (vc : ColMeta)
    (hvc : schema[key.cols.length]? = some vc)
    (hschema : ∀ (k : Nat) (c : ColMeta), key.cols[k]? = some c → schema[k]? = some c)
    (hnd : (schema.map ColMeta.Label).Nodup)
    (hvals : ∀ (k : Nat) (c : ColMeta), key.cols[k]? = some c →
      key.Value k = .null ∨ c.Typ = (key.Value k).colType)
    (colType : ColType) (hct : colType ∈ distinctTypes) (j : Nat) (cr : ColReader) (i : Nat)
    (st : distinctState) (out : List Value) (hst : st.holds schema key.cols.length out)
    (hv : cr.ValueForRow i j = .null ∨ vc.Typ = (cr.ValueForRow i j).colType) :
    ∃ st1, distinctTransformation.Process.row key colType key.cols.length j cr i st
        = (st1, none)
      ∧ st1.holds schema key.cols.length (out ++ distinctFrom out [cr.ValueForRow i j]) := by
  obtain ⟨h1, h2, h3, h4, h5⟩ := hst
  have hlen : key.cols.length < schema.length := by
    by_contra hc
    rw [List.getElem?_eq_none (by omega)] at hvc
    cases hvc
  have hmem : cr.ValueForRow i j ∈ out
      ↔ (cr.ValueForRow i j = .null ∧ st.nullDistinct = true)
        ∨ (cr.ValueForRow i j ≠ .null ∧ cr.ValueForRow i j ∈ st.seen) := by
    by_cases hn : cr.ValueForRow i j = .null
    · rw [hn, h4]; simp
    · rw [h5]; simp [hn]
  have happend : ∀ (st0 : distinctState), st0.builder.colMeta = schema →
      st0.builder.cols.length = schema.length →
      ∃ st1, distinctTransformation.Process.keyValues key st0 = (st1, none)
        ∧ st1.builder.colMeta = schema ∧ st1.builder.cols.length = schema.length
        ∧ st1.builder.cols[key.cols.length]? = st0.builder.cols[key.cols.length]?
        ∧ st1.nullDistinct = st0.nullDistinct ∧ st1.seen = st0.seen := by
    intro st0 g1 g2
    obtain ⟨b1, q1, q2, q3, q4⟩ := AppendKeyValues_spec key schema hschema hnd hvals
      st0.builder g1 g2
    refine ⟨{ st0 with builder := b1 }, ?_, q2, q3, q4 _ (Nat.le_refl _), rfl, rfl⟩
    unfold distinctTransformation.Process.keyValues
    rw [q1]
  have hnew : cr.ValueForRow i j ∉ out →
      ∃ b1, st.builder.AppendValue key.cols.length (cr.ValueForRow i j) = .ok b1
        ∧ b1.colMeta = schema ∧ b1.cols.length = schema.length
        ∧ b1.cols[key.cols.length]? = some (out ++ [cr.ValueForRow i j]) := by
    intro _
    refine ⟨_, AppendValue_spec st.builder _ _ vc out (by rw [h1]; exact hvc) h3 hv, h1, ?_, ?_⟩
    · simpa using h2
    · simp only
      rw [List.getElem?_set_self (by omega)]
  unfold distinctTransformation.Process.row
  rw [if_pos hct]
  by_cases hn : cr.ValueForRow i j = .null
  · rw [if_pos hn]
    cases hnd1 : st.nullDistinct with
    | true =>
      have hin : cr.ValueForRow i j ∈ out := hmem.mpr (Or.inl ⟨hn, hnd1⟩)
      refine ⟨st, by simp, ?_⟩
      rw [distinctFrom_cons, if_pos hin]
      simpa [distinctFrom] using (⟨h1, h2, h3, h4, h5⟩ : st.holds schema key.cols.length out)
    | false =>
      have hout : cr.ValueForRow i j ∉ out := by
        rw [hmem]
        rintro (⟨_, h⟩ | ⟨h, _⟩)
        · rw [hnd1] at h; cases h
        · exact h hn
      obtain ⟨b1, p1, p2, p3, p4⟩ := hnew hout
      rw [hn] at p1
      obtain ⟨st1, q1, q2, q3, q4, q5, q6⟩ :=
        happend { st with builder := b1, nullDistinct := true } p2 p3
      refine ⟨st1, ?_, ?_⟩
      · simp only [Bool.false_eq_true, if_false, p1]
        exact q1
      · rw [distinctFrom_cons, if_neg hout]
        refine ⟨q2, q3, ?_, ?_, ?_⟩
        · rw [q4]; simpa [distinctFrom] using p4
        · rw [q5]; simp [distinctFrom, hn]
        · intro v
          rw [q6, h5]
          simp only [distinctFrom, List.mem_append, List.mem_singleton]
          constructor
          · rintro ⟨g1, g2⟩
            exact ⟨Or.inl g1, g2⟩
          · rintro ⟨g1 | g1, g2⟩
            · exact ⟨g1, g2⟩
            · rw [g1, hn] at g2; exact absurd rfl g2
  · rw [if_neg hn]
    by_cases hs : cr.ValueForRow i j ∈ st.seen
    · have hin : cr.ValueForRow i j ∈ out := hmem.mpr (Or.inr ⟨hn, hs⟩)
      rw [if_pos hs]
      refine ⟨st, rfl, ?_⟩
      rw [distinctFrom_cons, if_pos hin]
      simpa [distinctFrom] using (⟨h1, h2, h3, h4, h5⟩ : st.holds schema key.cols.length out)
    · have hout : cr.ValueForRow i j ∉ out := by
        rw [hmem]
        rintro (⟨h, _⟩ | ⟨_, h⟩)
        · exact hn h
        · exact hs h
      obtain ⟨b1, p1, p2, p3, p4⟩ := hnew hout
      obtain ⟨st1, q1, q2, q3, q4, q5, q6⟩ :=
        happend { st with builder := b1, seen := st.seen ++ [cr.ValueForRow i j] } p2 p3
      refine ⟨st1, ?_, ?_⟩
      · rw [if_neg hs]
        simp only [p1]
        exact q1
      · rw [distinctFrom_cons, if_neg hout]
        refine ⟨q2, q3, ?_, ?_, ?_⟩
        · rw [q4]; simpa [distinctFrom] using p4
        · rw [q5, h4]
          simp only [distinctFrom, List.mem_append, List.mem_singleton]
          constructor
          · intro g; exact Or.inl g
          · rintro (g | g)
            · exact g
            · exact absurd g.symm hn
        · intro v
          rw [q6]
          simp only [distinctFrom, List.mem_append, List.mem_singleton, h5]
          constructor
          · rintro (⟨g1, g2⟩ | g1)
            · exact ⟨Or.inl g1, g2⟩
            · rw [g1]; exact ⟨Or.inr rfl, hn⟩
          · rintro ⟨g1 | g1, g2⟩
            · exact Or.inl ⟨g1, g2⟩
            · exact Or.inr g1

end universepkg
namespace universepkg

open execute

/-- The row loop of `distinct` over the rows of a reader: the values that have not occurred
before are appended to the value column, in order. -/
theorem distinct_rows_spec (key : GroupKey) (schema : List ColMeta) (vc : ColMeta)
    (hvc : schema[key.cols.length]? = some vc)
    (hschema : ∀ (k : Nat) (c : ColMeta), key.cols[k]? = some c → schema[k]? = some c)
    (hnd : (schema.map ColMeta.Label).Nodup)
    (hvals : ∀ (k : Nat) (c : ColMeta), key.cols[k]? = some c →
      key.Value k = .null ∨ c.Typ = (key.Value k).colType)
    (colType : ColType) (hct : colType ∈ distinctTypes) (j : Nat) (cr : ColReader) :
    ∀ (m i : Nat) (st : distinctState) (out : List Value),
      st.holds schema key.cols.length out →
      (∀ k, i ≤ k → k < i + m →
        cr.ValueForRow k j = .null ∨ vc.Typ = (cr.ValueForRow k j).colType) →
      ∃ st1, distinctTransformation.Process.rows key colType key.cols.length j cr m i st
          = (st1, none)
        ∧ st1.holds schema key.cols.length
            (out ++ distinctFrom out ((List.range' i m).map (fun k => cr.ValueForRow k j))) := by
  intro m
  induction m with
  | zero =>
    intro i st out hst _
    refine ⟨st, rfl, ?_⟩
    simpa [distinctFrom] using hst
  | succ m ih =>
    intro i st out hst htyped
    obtain ⟨st1, h1, h2⟩ := distinct_row_spec key schema vc hvc hschema hnd hvals colType hct
      j cr i st out hst (htyped i (Nat.le_refl _) (by omega))
    obtain ⟨st2, h3, h4⟩ := ih (i + 1) st1 _ h2
      (fun k hk1 hk2 => htyped k (by omega) (by omega))
    refine ⟨st2, ?_, ?_⟩
    · unfold distinctTransformation.Process.rows
      rw [h1]
      exact h3
    · rw [List.range'_succ, List.map_cons]
      have := distinctFrom_append [cr.ValueForRow i j]
        ((List.range' (i + 1) m).map (fun k => cr.ValueForRow k j)) out
      rw [List.singleton_append] at this
      rw [this, ← List.append_assoc]
      exact h4

/-- The loop of `tbl.Do` with the row loop of `distinct`, over the readers of a table. -/
theorem distinct_Do_spec (key : GroupKey) (schema : List ColMeta) (vc : ColMeta)
    (hvc : schema[key.cols.length]? = some vc)
    (hschema : ∀ (k : Nat) (c : ColMeta), key.cols[k]? = some c → schema[k]? = some c)
    (hnd : (schema.map ColMeta.Label).Nodup)
    (hvals : ∀ (k : Nat) (c : ColMeta), key.cols[k]? = some c →
      key.Value k = .null ∨ c.Typ = (key.Value k).colType)
    (colType : ColType) (hct : colType ∈ distinctTypes) (j : Nat) (doErr : Error) :
    ∀ (readers : List ColReader) (st : distinctState) (out : List Value),
      st.holds schema key.cols.length out →
      (∀ cr ∈ readers, ∀ k, k < cr.Len →
        cr.ValueForRow k j = .null ∨ vc.Typ = (cr.ValueForRow k j).colType) →
      ∃ st1, Table.Do.loop
          (fun cr st => distinctTransformation.Process.rows key colType key.cols.length j cr
            cr.Len 0 st) doErr readers st = (st1, doErr)
        ∧ st1.holds schema key.cols.length
            (out ++ distinctFrom out
              (readers.flatMap (fun cr => (List.range cr.Len).map (fun i => cr.ValueForRow i j)))) := by
  intro readers
  induction readers with
  | nil =>
    intro st out hst _
    refine ⟨st, rfl, ?_⟩
    simpa [distinctFrom] using hst
  | cons cr rest ih =>
    intro st out hst htyped
    obtain ⟨st1, h1, h2⟩ := distinct_rows_spec key schema vc hvc hschema hnd hvals colType hct
      j cr cr.Len 0 st out hst
      (fun k _ hk => htyped cr (List.mem_cons_self _ _) k (by omega))
    obtain ⟨st2, h3, h4⟩ := ih st1 _ h2
      (fun c hc k hk => htyped c (List.mem_cons_of_mem _ hc) k hk)
    refine ⟨st2, ?_, ?_⟩
    · unfold Table.Do.loop
      simp only [h1]
      exact h3
    · rw [List.flatMap_cons, distinctFrom_append, ← List.append_assoc, List.range_eq_range']
      exact h4

end universepkg
namespace universepkg

open execute

/-- What `Process` of `distinct` does with a table whose key is new to the cache. -/
theorem distinct_Process_new (t : distinctTransformation) (id : DatasetID) (tbl : Table)
    (hnew : GroupLookup.Lookup t.cache tbl.Key = none) :
    (t.Process id tbl).2
        = (distinctTransformation.Process.body t tbl (NewColListTableBuilder tbl.Key)).2
      ∧ GroupLookup.Lookup (t.Process id tbl).1.cache tbl.Key
        = some (distinctTransformation.Process.body t tbl (NewColListTableBuilder tbl.Key)).1 := by
  unfold distinctTransformation.Process TableBuilderCache.TableBuilder
  rw [hnew]
  exact ⟨rfl, GroupLookup.Lookup_Set_self _ _ _⟩

/-- C33: for a table whose key is new to the cache, whose distinct column is present at
offset `j` with a type among int, uint, string, bool and time, and is not a column of the
group key (a key whose columns have distinct labels other than `_value` and hold values of
their types, and a column whose values are nulls or of its type): `Process` returns the error
of `tbl.Do` and leaves for the key a builder with the key columns and the column `_value`,
which holds the values of the input column over all column readers in order with every
repeated value removed and first occurrences kept, null counting as one value. That list has
no duplicates, holds exactly the values of the input, is left as it is by the same removal,
and starts with the first value of the input followed by the list of the other values
without that value. -/
theorem distinct_removes_repeats (t : distinctTransformation) (id : DatasetID) (tbl : Table)
    (j : Nat) (col : ColMeta)
    (hnew : GroupLookup.Lookup t.cache tbl.Key = none)
    (hcol : ColIdx t.column tbl.Cols = (j : Int)) (hget : tbl.Cols[j]? = some col)
    (htyp : col.Typ ∈ [ColType.TInt, ColType.TUInt, ColType.TString, ColType.TBool,
      ColType.TTime])
    (hkey : tbl.Key.HasCol t.column = false)
    (hlabels : ((tbl.Key.cols
      ++ [({ Label := DefaultValueColLabel, Typ := col.Typ } : ColMeta)]).map
        ColMeta.Label).Nodup)
    (hkeyvals : ∀ (k : Nat) (c : ColMeta), tbl.Key.cols[k]? = some c →
      tbl.Key.Value k = .null ∨ c.Typ = (tbl.Key.Value k).colType)
    (hvals : ∀ cr ∈ tbl.readers, ∀ i, i < cr.Len →
      cr.ValueForRow i j = .null ∨ col.Typ = (cr.ValueForRow i j).colType) :
    (∃ b, GroupLookup.Lookup (t.Process id tbl).1.cache tbl.Key = some b
        ∧ b.colMeta = tbl.Key.cols ++ [{ Label := DefaultValueColLabel, Typ := col.Typ }]
        ∧ b.cols[tbl.Key.cols.length]? = some (distinctValues (columnValues tbl j)))
      ∧ (t.Process id tbl).2 = tbl.doErr
      ∧ (distinctValues (columnValues tbl j)).Nodup
      ∧ (∀ v, v ∈ distinctValues (columnValues tbl j) ↔ v ∈ columnValues tbl j)
      ∧ distinctValues (distinctValues (columnValues tbl j))
          = distinctValues (columnValues tbl j)
      ∧ (∀ v rest, columnValues tbl j = v :: rest →
          distinctValues (columnValues tbl j)
            = v :: distinctValues (rest.filter (fun w => decide (w ≠ v)))) := by
  have hct : col.Typ ∈ distinctTypes := by
    simp only [List.mem_cons, List.mem_singleton, List.not_mem_nil, or_false] at htyp
    unfold distinctTypes
    rcases htyp with h | h | h | h | h <;> rw [h] <;> decide
  have hschema : ∀ (k : Nat) (c : ColMeta), tbl.Key.cols[k]? = some c →
      (tbl.Key.cols ++ [{ Label := DefaultValueColLabel, Typ := col.Typ }])[k]? = some c := by
    intro k c hk
    have hlt : k < tbl.Key.cols.length := by
      by_contra hc
      rw [List.getElem?_eq_none (by omega)] at hk
      cases hk
    rw [List.getElem?_append_left hlt]
    exact hk
  have hvc : (tbl.Key.cols ++ [{ Label := DefaultValueColLabel, Typ := col.Typ }])[
      tbl.Key.cols.length]? = some { Label := DefaultValueColLabel, Typ := col.Typ } := by
    simp
  have hkeycols : ((NewColListTableBuilder tbl.Key).colMeta ++ tbl.Key.Cols).map ColMeta.Label
      |>.Nodup := by
    rw [List.map_append, List.nodup_append] at hlabels
    simpa [NewColListTableBuilder, GroupKey.Cols] using hlabels.1
  have hadd1 := addCols_spec tbl.Key.Cols (NewColListTableBuilder tbl.Key) hkeycols
  have hnotmem : DefaultValueColLabel ∉ tbl.Key.cols.map ColMeta.Label := by
    rw [List.map_append, List.nodup_append] at hlabels
    intro hm
    exact hlabels.2.2 hm (by simp)
  obtain ⟨st1, hdo, hholds⟩ := distinct_Do_spec tbl.Key
    (tbl.Key.cols ++ [{ Label := DefaultValueColLabel, Typ := col.Typ }])
    { Label := DefaultValueColLabel, Typ := col.Typ } hvc hschema hlabels hkeyvals col.Typ hct
    j tbl.doErr tbl.readers
    { builder :=
        { key := tbl.Key
          colMeta := tbl.Key.cols ++ [{ Label := DefaultValueColLabel, Typ := col.Typ }]
          cols := List.replicate tbl.Key.cols.length [] ++ [[]] }
      nullDistinct := false
      seen := [] } []
    ⟨rfl, by simp, by simp [List.getElem?_append_right], by simp, by simp⟩
    hvals
  have hbody : distinctTransformation.Process.body t tbl (NewColListTableBuilder tbl.Key)
      = (st1.builder, tbl.doErr) := by
    unfold distinctTransformation.Process.body
    simp only [hcol]
    rw [if_neg (by omega)]
    simp only [AddTableKeyCols, hadd1, Int.toNat_ofNat, List.get?_eq_getElem?, hget,
      Option.getD_some]
    have haddcol : ColListTableBuilder.AddCol
        { key := (NewColListTableBuilder tbl.Key).key
          colMeta := (NewColListTableBuilder tbl.Key).colMeta ++ tbl.Key.Cols
          cols := (NewColListTableBuilder tbl.Key).cols
            ++ List.replicate tbl.Key.Cols.length [] }
        { Label := DefaultValueColLabel, Typ := col.Typ }
        = .ok { key := tbl.Key
                colMeta := tbl.Key.cols ++ [{ Label := DefaultValueColLabel, Typ := col.Typ }]
                cols := List.replicate tbl.Key.cols.length [] ++ [[]] } := by
      unfold ColListTableBuilder.AddCol
      have hidx : ¬ (0 ≤ ColIdx DefaultValueColLabel tbl.Key.cols) := by
        rw [experimental.ColIdx_of_not_mem _ _ hnotmem]; omega
      simp only [ColListTableBuilder.Cols, NewColListTableBuilder, List.nil_append,
        GroupKey.Cols]
      rw [if_neg hidx]
    rw [haddcol]
    simp only [hkey, Bool.false_eq_true, if_false]
    unfold Table.Do
    simp only [NewColListTableBuilder, List.nil_append, GroupKey.Cols]
    rw [hdo]
  obtain ⟨herr, hcache⟩ := distinct_Process_new t id tbl hnew
  obtain ⟨g1, _, g3, _, _⟩ := hholds
  refine ⟨⟨st1.builder, ?_, g1, ?_⟩, ?_, ?_, ?_, ?_, ?_⟩
  · rw [hcache, hbody]
  · rw [g3]
    simp [distinctValues, columnValues]
  · rw [herr, hbody]
  · exact distinctFrom_nodup _ _
  · intro v
    unfold distinctValues
    rw [distinctFrom_mem]
    simp
  · unfold distinctValues
    apply distinctFrom_of_nodup _ _ (distinctFrom_nodup _ _)
    intro v _
    simp
  · intro v rest hrest
    rw [hrest]
    unfold distinctValues
    rw [distinctFrom_cons, if_neg (by simp), ← distinctFrom_filter]

/-- An instance of C33: the column `_value` of the example table holds 5, 5, null in its
first reader and 7, null, 5 in its second; `distinct` writes 5, null, 7. -/
theorem distinct_removes_repeats_witness :
    columnValues exampleTable 2 = [.int 5, .int 5, .null, .int 7, .null, .int 5]
      ∧ (GroupLookup.Lookup (exampleDistinct.Process 0 exampleTable).1.cache
          exampleTable.Key).map ColListTableBuilder.cols
        = some [[.string "a", .string "a", .string "a"], [.int 5, .null, .int 7]]
      ∧ (∃ b, GroupLookup.Lookup (exampleDistinct.Process 0 exampleTable).1.cache
          exampleTable.Key = some b
        ∧ b.colMeta = exampleTable.Key.cols ++ [{ Label := DefaultValueColLabel, Typ := .TInt }]
        ∧ b.cols[exampleTable.Key.cols.length]?
          = some (distinctValues (columnValues exampleTable 2)))
      ∧ (exampleDistinct.Process 0 exampleTable).2 = none := by
  have hkeyvals : ∀ (k : Nat) (c : ColMeta), exampleTable.Key.cols[k]? = some c →
      exampleTable.Key.Value k = .null ∨ c.Typ = (exampleTable.Key.Value k).colType := by
    intro k c hk
    cases k with
    | zero =>
      have hc : c = { Label := "host", Typ := .TString } := (Option.some.inj hk).symm
      rw [hc]
      decide
    | succ k => cases hk
  have h := distinct_removes_repeats exampleDistinct 0 exampleTable 2
    { Label := "_value", Typ := .TInt } rfl (by decide) rfl (by decide) (by decide) (by decide)
    hkeyvals (by decide)
  exact ⟨by decide, by decide, h.1, h.2.1⟩

end universepkg

namespace plan

/-! ## The predecessor side after a rewrite -/

theorem mem_replaceAll (old new : Node) (s : List Node) (h : old ∈ s) :
    new ∈ replaceAll old new s := by
  unfold replaceAll
  exact List.mem_map.mpr ⟨old, h, by simp⟩

theorem mem_replaceFirst (old new : Node) : ∀ (s : List Node), old ∈ s →
    new ∈ replaceFirst old new s := by
  intro s
  induction s with
  | nil => intro h; simp at h
  | cons x s ih =>
    intro h
    unfold replaceFirst
    by_cases hx : x = old
    · rw [if_pos hx]; exact List.mem_cons_self _ _
    · rw [if_neg hx]
      rcases List.mem_cons.mp h with h1 | h1
      · exact absurd h1.symm hx
      · exact List.mem_cons_of_mem _ (ih h1)

/-- A node that occurs once does not occur after its first occurrence is replaced. -/
theorem not_mem_replaceFirst (old new : Node) (hne : new ≠ old) : ∀ (s : List Node),
    s.count old = 1 → old ∉ replaceFirst old new s := by
  intro s
  induction s with
  | nil => intro h; simp at h
  | cons x s ih =>
    intro h
    unfold replaceFirst
    by_cases hx : x = old
    · rw [if_pos hx]
      rw [hx, List.count_cons_self] at h
      have h0 : s.count old = 0 := by omega
      intro hm
      rcases List.mem_cons.mp hm with h1 | h1
      · exact hne h1.symm
      · exact (List.count_eq_zero.mp h0) h1
    · rw [if_neg hx]
      rw [List.count_cons_of_ne (fun e => hx e.symm)] at h
      intro hm
      rcases List.mem_cons.mp hm with h1 | h1
      · exact hx h1.symm
      · exact ih h h1

theorem mem_of_count_eq_one (x : Node) (s : List Node) (h : s.count x = 1) : x ∈ s := by
  apply List.count_pos_iff.mp
  omega

/-- C32 (amended): the rewrite primitives keep the predecessor side of the graph symmetric,
provided the node installed is not among the nodes the call reads. If before the call every
predecessor `p` of the node being replaced lists that node exactly once among its
successors, then after a successful call: for `mergePlanNodes`, called with the new node
with empty edge lists that `MergeToLogicalNode` and `MergeToPhysicalNode` make, the merged
node passes `symmetryCheck`, and each `p` lists the merged node and no longer lists `bottom`;
for `SwapPlanNodes`, when `bottom` is not its own predecessor, the copy of `top` and the
returned `bottom` pass `symmetryCheck`, and the predecessor of `bottom` lists the copy and no
longer lists `bottom`; for `ReplaceNode`, when `newNode` is neither `oldNode` nor one of its
predecessors, `newNode` passes `symmetryCheck`, and each `p` lists `newNode` and no longer
lists `oldNode`. The nodes are allocated nodes of a well-formed store. -/
theorem rewrites_keep_predecessor_symmetry :
    (∀ (h : Heap) (top bottom : Node) (o : NodeObj),
        o.edges = { predecessors := [], successors := [] } →
        h.WellFormed → top < h.next → bottom < h.next →
        (∀ p ∈ h.Predecessors bottom, (h.Successors p).count bottom = 1) →
        (mergePlanNodes (h.alloc o).2 top bottom (h.alloc o).1).succeeded = true →
        ∃ merged g, mergePlanNodes (h.alloc o).2 top bottom (h.alloc o).1
            = .ret (.ok merged) g
          ∧ merged = h.next
          ∧ symmetryCheck g merged = none
          ∧ ∀ p ∈ h.Predecessors bottom, merged ∈ g.Successors p ∧ bottom ∉ g.Successors p)
      ∧ (∀ (h : Heap) (top bottom : Node),
        h.WellFormed → bottom < h.next → bottom ∉ h.Predecessors bottom →
        (∀ p ∈ h.Predecessors bottom, (h.Successors p).count bottom = 1) →
        (SwapPlanNodes h top bottom).succeeded = true →
        ∃ g, SwapPlanNodes h top bottom = .ret (.ok bottom) g
          ∧ g.ProcedureSpec h.next = h.ProcedureSpec top
          ∧ symmetryCheck g h.next = none
          ∧ (∀ p ∈ h.Predecessors bottom, h.next ∈ g.Successors p ∧ bottom ∉ g.Successors p)
          ∧ symmetryCheck g bottom = none)
      ∧ (∀ (h : Heap) (oldNode newNode : Node),
        oldNode ≠ newNode → newNode ∉ h.Predecessors oldNode →
        (∀ p ∈ h.Predecessors oldNode, (h.Successors p).count oldNode = 1) →
        ∃ g, ReplaceNode h oldNode newNode = .ret () g
          ∧ symmetryCheck g newNode = none
          ∧ ∀ p ∈ h.Predecessors oldNode,
              newNode ∈ g.Successors p ∧ oldNode ∉ g.Successors p) := by
  refine ⟨?_, ?_, ?_⟩
  · intro h top bottom o ho hwf htop hbottom honce hs
    rcases mergePlanNodes_alloc h top bottom o ho (Nat.ne_of_lt htop) (Nat.ne_of_lt hbottom)
      with ⟨_, hrun⟩ | ⟨_, g, hrun, hsucc, hsn, hpn, _, _⟩
    · rw [hrun, succeeded_ret_error] at hs
      cases hs
    · have hp : ∀ p ∈ h.Predecessors bottom,
          h.next ∈ g.Successors p ∧ bottom ∉ g.Successors p := by
        intro p hp
        have hne : p ≠ h.next := Nat.ne_of_lt ((hwf bottom hbottom).1 p hp)
        have heq : g.Successors p = replaceAll bottom h.next (h.Successors p) := by
          rw [hsucc p hne]
          simp [hp]
        rw [heq]
        exact ⟨mem_replaceAll _ _ _ (mem_of_count_eq_one _ _ (honce p hp)),
          not_mem_replaceAll bottom h.next _ (Ne.symm (Nat.ne_of_lt hbottom))⟩
      refine ⟨h.next, g, hrun, rfl, ?_, hp⟩
      rw [symmetryCheck_eq_none, hsn, hpn]
      exact ⟨fun p hpm => (hp p hpm).1, fun s hsm => by simp at hsm⟩
  · intro h top bottom hwf hbottom hloop honce hs
    obtain ⟨g1, g2, g3⟩ := SwapPlanNodes_guard_of_succeeded h top bottom hs
    obtain ⟨w, hw⟩ := eq_singleton_of_length_one _ g3
    have hwn : w ≠ h.next :=
      Nat.ne_of_lt ((hwf bottom hbottom).1 w (by rw [hw]; exact List.mem_singleton_self w))
    have hbn : bottom ≠ h.next := Nat.ne_of_lt hbottom
    have hwb : w ≠ bottom := by
      intro hwb
      apply hloop
      rw [hw, hwb]
      exact List.mem_singleton_self bottom
    obtain ⟨g, hrun, hp, hsu, hsp, _⟩ := SwapPlanNodes_of_guard h top bottom w g1 g2 hw hbn hwn
    have hsw : g.Successors w = replaceFirst bottom h.next (h.Successors w) := by
      rw [hsu]; simp [hwb, hwn]
    have hcount : (h.Successors w).count bottom = 1 :=
      honce w (by rw [hw]; exact List.mem_singleton_self w)
    have hin : h.next ∈ g.Successors w := by
      rw [hsw]
      exact mem_replaceFirst _ _ _ (mem_of_count_eq_one _ _ hcount)
    have hout : bottom ∉ g.Successors w := by
      rw [hsw]
      exact not_mem_replaceFirst bottom h.next (Ne.symm hbn) _ hcount
    have hpn : g.Predecessors h.next = [w] := by rw [hp]; simp [Ne.symm hbn]
    have hsn : g.Successors h.next = [bottom] := by rw [hsu]; simp [Ne.symm hbn]
    have hpb : g.Predecessors bottom = [h.next] := by rw [hp]; simp
    have hsb : g.Successors bottom = [] := by rw [hsu]; simp
    refine ⟨g, hrun, by rw [hsp]; simp, ?_, ?_, ?_⟩
    · rw [symmetryCheck_eq_none, hpn, hsn]
      constructor
      · intro p hpm
        rw [List.mem_singleton.mp hpm]
        exact hin
      · intro s hsm
        rw [List.mem_singleton.mp hsm, hpb]
        exact List.mem_singleton_self _
    · intro p hpm
      rw [hw] at hpm
      rw [List.mem_singleton.mp hpm]
      exact ⟨hin, hout⟩
    · rw [symmetryCheck_eq_none, hpb, hsb]
      constructor
      · intro p hpm
        rw [List.mem_singleton.mp hpm, hsn]
        exact List.mem_singleton_self _
      · intro s hsm
        simp at hsm
  · intro h oldNode newNode hne hnew honce
    obtain ⟨g, hrun, hp, hs⟩ := ReplaceNode_spec h oldNode newNode hne
    have hpreds : ∀ p ∈ h.Predecessors oldNode,
        newNode ∈ g.Successors p ∧ oldNode ∉ g.Successors p := by
      intro p hpm
      have hpn : p ≠ newNode := fun e => hnew (e ▸ hpm)
      have heq : g.Successors p = replaceAll oldNode newNode (h.Successors p) := by
        rw [hs]; simp [hpn, hpm]
      rw [heq]
      exact ⟨mem_replaceAll _ _ _ (mem_of_count_eq_one _ _ (honce p hpm)),
        not_mem_replaceAll oldNode newNode _ (Ne.symm hne)⟩
    refine ⟨g, hrun, ?_, hpreds⟩
    have hpn : g.Predecessors newNode = h.Predecessors oldNode := by
      rw [hp]; simp [Ne.symm hne]
    have hsn : g.Successors newNode = [] := by rw [hs]; simp
    rw [symmetryCheck_eq_none, hpn, hsn]
    exact ⟨fun p hpm => (hpreds p hpm).1, fun s hsm => by simp at hsm⟩

/-- An instance of C32 (amended) in the chain `from0 -> filter1 -> filter2 -> yield3`: merging
`filter2` into `filter1`, swapping `filter2` and `filter1`, and replacing `filter2` by the
detached node `new4`. -/
theorem rewrites_keep_predecessor_symmetry_witness :
    (∃ merged g, MergeToLogicalNode chainHeap 2 1 { kind := "merged", params := [] }
          = .ret (.ok merged) g
        ∧ symmetryCheck g merged = none
        ∧ ∀ p ∈ chainHeap.Predecessors 1, merged ∈ g.Successors p ∧ 1 ∉ g.Successors p)
      ∧ (∃ g, SwapPlanNodes chainHeap 2 1 = .ret (.ok 1) g
        ∧ symmetryCheck g chainHeap.next = none
        ∧ (∀ p ∈ chainHeap.Predecessors 1,
            chainHeap.next ∈ g.Successors p ∧ 1 ∉ g.Successors p)
        ∧ symmetryCheck g 1 = none)
      ∧ (∃ g, ReplaceNode detachedHeap 2 4 = .ret () g
        ∧ symmetryCheck g 4 = none
        ∧ ∀ p ∈ detachedHeap.Predecessors 2, 4 ∈ g.Successors p ∧ 2 ∉ g.Successors p) := by
  refine ⟨?_, ?_, ?_⟩
  · obtain ⟨merged, g, h1, _, h3, h4⟩ := rewrites_keep_predecessor_symmetry.1 chainHeap 2 1
      (.logical { edges := { predecessors := [], successors := [] },
                  id := mergeIDs (chainHeap.ID 2) (chainHeap.ID 1),
                  Spec := { kind := "merged", params := [] } })
      rfl chainHeap_wellFormed (by decide) (by decide) (by decide) (by decide)
    exact ⟨merged, g, h1, h3, h4⟩
  · obtain ⟨g, h1, _, h3, h4, h5⟩ := rewrites_keep_predecessor_symmetry.2.1 chainHeap 2 1
      chainHeap_wellFormed (by decide) (by decide) (by decide) (by decide)
    exact ⟨g, h1, h3, h4, h5⟩
  · exact rewrites_keep_predecessor_symmetry.2.2 detachedHeap 2 4 (by decide) (by decide)
      (by decide)

/-- C32 as stated fails when the node installed is among the nodes the call reads. With
`bottom` its own predecessor, which lists `bottom` once, `SwapPlanNodes` succeeds and the copy
of `top` (at address 2) fails `symmetryCheck`: its predecessor `bottom` has had its successor
list cleared. With `newNode` the predecessor of `oldNode`, which lists `oldNode` once,
`ReplaceNode` leaves `newNode` as its own predecessor with no successors, and `newNode` fails
`symmetryCheck`. -/
theorem rewrites_aliasing_counterexample :
    ((∀ p ∈ selfLoopHeap.Predecessors 1, (selfLoopHeap.Successors p).count 1 = 1)
        ∧ (SwapPlanNodes selfLoopHeap 0 1).succeeded = true
        ∧ (SwapPlanNodes selfLoopHeap 0 1).heap?.map (fun g => (symmetryCheck g 2).isSome)
          = some true
        ∧ (SwapPlanNodes selfLoopHeap 0 1).Successors 1 = some [])
      ∧ ((∀ p ∈ chainHeap.Predecessors 2, (chainHeap.Successors p).count 2 = 1)
        ∧ (ReplaceNode chainHeap 2 1).heap?.map (fun g => (symmetryCheck g 1).isSome)
          = some true
        ∧ (ReplaceNode chainHeap 2 1).Predecessors 1 = some [1]
        ∧ (ReplaceNode chainHeap 2 1).Successors 1 = some []) := by
  decide

end plan
